import Mathlib

/-!
# reflectx: field-tree builder and value coercion

A shallow embedding of `mapper.go`, `util.go` and `reflector.go` of the
`reflectx` package.  Go pointers to `FieldInfo` are positions in an allocation
list (the heap), Go maps are association lists with unique keys, and loops that
Go runs until a queue is empty take an explicit fuel argument.
-/

set_option autoImplicit false

namespace Reflectx

/-! ## Types as seen through `reflect` -/

/-- The kinds of `reflect.Kind` that the package distinguishes. -/
inductive Kind
  | Bool | Int | Int8 | Int16 | Int32 | Int64
  | Uint | Uint8 | Uint16 | Uint32 | Uint64
  | Float32 | Float64 | String
  | Complex128 | Chan | Func
  | Ptr | Struct | Slice | Map | Interface
  deriving DecidableEq, Repr

/-- The signed integer kinds. -/
inductive IntKind
  | Int | Int8 | Int16 | Int32 | Int64
  deriving DecidableEq, Repr

/-- The unsigned integer kinds. -/
inductive UintKind
  | Uint | Uint8 | Uint16 | Uint32 | Uint64
  deriving DecidableEq, Repr

/-- The floating-point kinds. -/
inductive FloatKind
  | Float32 | Float64
  deriving DecidableEq, Repr

/-- Kinds for which the package has no conversion. -/
inductive OtherKind
  | Complex128 | Chan | Func
  deriving DecidableEq, Repr

/-- A Go type.  Struct types are named and their field lists live in a type
environment, which is how a struct can mention itself.  Two types are identical
(`==` on `reflect.Type`) when the terms are equal. -/
inductive GoType
  | bool
  | int (k : IntKind)
  | uint (k : UintKind)
  | float (k : FloatKind)
  | string
  | other (k : OtherKind)
  | ptr (elem : GoType)
  | slice (elem : GoType)
  | map (key : GoType) (elem : GoType)
  | named (name : String)
  | iface
  deriving DecidableEq, Repr

def IntKind.Kind : IntKind → Kind
  | .Int => .Int | .Int8 => .Int8 | .Int16 => .Int16 | .Int32 => .Int32 | .Int64 => .Int64

def UintKind.Kind : UintKind → Kind
  | .Uint => .Uint | .Uint8 => .Uint8 | .Uint16 => .Uint16 | .Uint32 => .Uint32
  | .Uint64 => .Uint64

def FloatKind.Kind : FloatKind → Kind
  | .Float32 => .Float32 | .Float64 => .Float64

def OtherKind.Kind : OtherKind → Kind
  | .Complex128 => .Complex128 | .Chan => .Chan | .Func => .Func

/-- The method `Type.Kind()`. -/
def GoType.Kind : GoType → Kind
  | .bool => .Bool
  | .int k => k.Kind
  | .uint k => k.Kind
  | .float k => k.Kind
  | .string => .String
  | .other k => k.Kind
  | .ptr _ => .Ptr
  | .slice _ => .Slice
  | .map _ _ => .Map
  | .named _ => .Struct
  | .iface => .Interface

/-- The method `Type.String()`. -/
def GoType.String : GoType → String
  | .bool => "bool"
  | .int .Int => "int"
  | .int .Int8 => "int8"
  | .int .Int16 => "int16"
  | .int .Int32 => "int32"
  | .int .Int64 => "int64"
  | .uint .Uint => "uint"
  | .uint .Uint8 => "uint8"
  | .uint .Uint16 => "uint16"
  | .uint .Uint32 => "uint32"
  | .uint .Uint64 => "uint64"
  | .float .Float32 => "float32"
  | .float .Float64 => "float64"
  | .string => "string"
  | .other .Complex128 => "complex128"
  | .other .Chan => "chan int"
  | .other .Func => "func()"
  | .ptr e => "*" ++ e.String
  | .slice e => "[]" ++ e.String
  | .map k e => "map[" ++ k.String ++ "]" ++ e.String
  | .named n => n
  | .iface => "interface {}"

/-- `Deref` of util.go: one pointer level is removed. -/
def Deref (t : GoType) : GoType :=
  match t with
  | .ptr e => e
  | _ => t

/-- A struct tag in the conventional format, as its `key:"value"` pairs. -/
abbrev StructTag := List (String × String)

/-- The text of a conventional struct tag. -/
def StructTag.raw : StructTag → String
  | [] => ""
  | [(k, v)] => k ++ ":\"" ++ v ++ "\""
  | (k, v) :: rest => k ++ ":\"" ++ v ++ "\" " ++ StructTag.raw rest

/-- The method `StructTag.Get`: the value of the first pair with that key, or
the empty string. -/
def StructTag.Get (tag : StructTag) (key : String) : String :=
  (tag.lookup key).getD ""

/-- A declared struct field, `reflect.StructField`. -/
structure StructField where
  Name : String
  PkgPath : String
  Typ : GoType
  Tag : StructTag
  Anonymous : Bool
  deriving DecidableEq, Repr

/-- The declarations of the named struct types: `NumField` and `Field(i)` of a
struct type read this list. -/
abbrev TypeEnv := String → List StructField

/-- The fields that `t.NumField()` and `t.Field(i)` enumerate; a type that is
not a struct has no children (`nChildren` stays 0). -/
def fieldsOf (env : TypeEnv) (t : GoType) : List StructField :=
  match t with
  | .named n => env n
  | _ => []

/-! ## Strings -/

/-- Whether `sub` occurs in `s` (lists of characters). -/
def hasInfix : List Char → List Char → Bool
  | [], sub => sub.isEmpty
  | c :: cs, sub => sub.isPrefixOf (c :: cs) || hasInfix cs sub

/-- Function `strings.Contains`. -/
def strContains (s sub : String) : Bool := hasInfix s.data sub.data

/-- Splitting a character list at every separator, the current piece kept
reversed in `cur`. -/
def splitAux (sep : Char) : List Char → List Char → List (List Char)
  | [], cur => [cur.reverse]
  | c :: cs, cur =>
    if c = sep then cur.reverse :: splitAux sep cs [] else splitAux sep cs (c :: cur)

/-- Function `strings.Split` with a one-character separator. -/
def strSplit (s : String) (sep : Char) : List String :=
  (splitAux sep s.data []).map String.mk

/-- The text before and after the first `sep`, when there is one:
`strings.SplitN(s, sep, 2)`. -/
def cutFirst (sep : Char) : List Char → List Char → Option (List Char × List Char)
  | [], _ => none
  | c :: cs, cur => if c = sep then some (cur.reverse, cs) else cutFirst sep cs (c :: cur)

/-! ## Go maps -/

/-- A Go map as an association list whose keys are pairwise distinct. -/
abbrev GoMap (α β : Type) := List (α × β)

/-- The assignment `m[k] = v`. -/
def mapPut {α β : Type} [DecidableEq α] (m : GoMap α β) (k : α) (v : β) : GoMap α β :=
  match m with
  | [] => [(k, v)]
  | (k1, v1) :: rest => if k1 = k then (k, v) :: rest else (k1, v1) :: mapPut rest k v

/-- The lookup `v, ok := m[k]`. -/
def mapGet {α β : Type} [DecidableEq α] (m : GoMap α β) (k : α) : Option β :=
  match m with
  | [] => none
  | (k1, v1) :: rest => if k1 = k then some v1 else mapGet rest k

/-! ## mapper.go -/

def IgnoreThisField : String := "-"
def OmitEmpty : String := "omitempty"
def OmitNested : String := "omitnested"
def Flatten : String := "flatten"

/-- The type `TagFunc`. -/
abbrev TagFunc := String → String → String × List String

/-- Function `StdTagFunc`. -/
def StdTagFunc : TagFunc := fun fieldName tag =>
  if tag = "" then (fieldName, [])
  else
    let parts := strSplit tag ','
    let fieldName := if parts.headD "" ≠ "" then parts.headD "" else fieldName
    (fieldName, parts.tail)

/-- Function `parseOptions`; a nil map and an empty map are both `[]`. -/
def parseOptions (parts : List String) : GoMap String String :=
  parts.foldl
    (fun options opt =>
      if strContains opt "=" then
        match cutFirst '=' opt.data [] with
        | some (k, v) => mapPut options (String.mk k) (String.mk v)
        | none => mapPut options opt ""
      else mapPut options opt "")
    []

/-- A `FieldInfo`.  `Children` and `Parent` hold pointers, here positions in the
heap.  The field `Zero` is `reflect.Zero(Deref(Type))`, a function of `Type`,
and is not stored; `Typ` is the field `Type`. -/
structure FieldInfo where
  Index : List Nat
  Path : String
  IsPtr : Bool
  Typ : GoType
  Name : String
  Parts : List String
  Options : GoMap String String
  Embedded : Bool
  Children : List Nat
  Parent : Option Nat
  deriving DecidableEq, Repr

instance : Inhabited FieldInfo :=
  ⟨⟨[], "", false, .iface, "", [], [], false, [], none⟩⟩

/-- The allocated `FieldInfo` objects, in allocation order. -/
abbrev Heap := List FieldInfo

/-- Reading through a pointer. -/
def deref (heap : Heap) (p : Nat) : FieldInfo := heap.getD p default

/-- Function `apnd`: a copying append. -/
def apnd (is : List Nat) (i : Nat) : List Nat := is ++ [i]

/-- Function `indexEqual`. -/
def indexEqual : List Nat → List Nat → Bool
  | [], [] => true
  | a :: as, b :: bs => a == b && indexEqual as bs
  | _, _ => false

/-- An entry of the work queue, `typeQueue`. -/
structure typeQueue where
  t : GoType
  fi : Nat
  pIndex : List Nat
  deriving DecidableEq, Repr

/-- The tag text handed to the naming function: `f.Tag.Get(tagName)`, emptied
when `tagName + ":"` does not occur in the tag. -/
def fieldTag (f : StructField) (tagName : String) : String :=
  let tag := f.Tag.Get tagName
  if !strContains f.Tag.raw (tagName ++ ":") then "" else tag

/-- The statement `tq.fi.Children = append(tq.fi.Children, fi)`. -/
def addChild (heap : Heap) (p c : Nat) : Heap :=
  match heap, p with
  | [], _ => []
  | x :: rest, 0 => { x with Children := x.Children ++ [c] } :: rest
  | x :: rest, p + 1 => x :: addChild rest p c

/-- The loop `for p := tq.fi.Parent; p != nil; p = p.Parent` that looks for an
ancestor of the same type.  Parents are allocated before their children, so the
chain is no longer than the heap, which bounds the walk. -/
def recursiveHit (heap : Heap) (ty : GoType) : Nat → Option Nat → Bool
  | 0, _ => false
  | _ + 1, none => false
  | fuel + 1, some p =>
    if ty = (deref heap p).Typ then true
    else recursiveHit heap ty fuel (deref heap p).Parent

/-- The variables of `getMapping` that its loops update. -/
structure BuildState where
  heap : Heap
  m : List Nat
  queue : List typeQueue
  deriving DecidableEq, Repr

/-- Whether the loop body reaches `continue` before building a `FieldInfo`:
the field is unexported and not embedded, or its name is "-" or empty. -/
def skipField (tagName : String) (tagFunc : TagFunc) (f : StructField) : Bool :=
  (f.PkgPath.length != 0 && !f.Anonymous) ||
    ((tagFunc f.Name (fieldTag f tagName)).1 == IgnoreThisField ||
      (tagFunc f.Name (fieldTag f tagName)).1 == "")

/-- The `FieldInfo` built for field `fieldPos` of the struct of queue entry
`tq`, before it is linked into its parent. -/
def newFieldInfo (tagName : String) (tagFunc : TagFunc) (heap : Heap) (tq : typeQueue)
    (fieldPos : Nat) (f : StructField) : FieldInfo :=
  let np := tagFunc f.Name (fieldTag f tagName)
  { Index := apnd tq.pIndex fieldPos
    IsPtr := f.Typ.Kind == Kind.Ptr
    Typ := f.Typ
    Name := np.1
    Parts := np.2
    Options := parseOptions np.2
    Embedded := f.Anonymous
    Children := []
    Parent := some tq.fi
    Path := if (deref heap tq.fi).Path = "" then np.1
            else (deref heap tq.fi).Path ++ "." ++ np.1 }

/-- The owner of the children of a struct-typed field: the parent `tq.fi` when
the field is flattened or is an embedded field under its default name, the
field itself (`self`) otherwise. -/
def ownerOf (tagFunc : TagFunc) (tq : typeQueue) (f : StructField) (fi : FieldInfo)
    (self : Nat) : Nat :=
  if (Deref fi.Typ).Kind = Kind.Struct then
    let owner := if (mapGet fi.Options Flatten).isSome then tq.fi else self
    if fi.Embedded then
      if (tagFunc f.Name "").1 = fi.Name then tq.fi else owner
    else owner
  else self

/-- One pass of the loop over the fields of the struct of `tq`. -/
def visitField (tagName : String) (tagFunc : TagFunc) (tq : typeQueue)
    (st : BuildState) (fieldPos : Nat) (f : StructField) : BuildState :=
  if skipField tagName tagFunc f then st
  else
    let self := st.heap.length
    let fi := newFieldInfo tagName tagFunc st.heap tq fieldPos f
    let owner := ownerOf tagFunc tq f fi self
    let queue :=
      if (Deref fi.Typ).Kind = Kind.Struct ∧ (mapGet fi.Options OmitNested).isNone then
        st.queue ++ [⟨Deref fi.Typ, owner, fi.Index⟩]
      else st.queue
    let heap := st.heap ++ [fi]
    let heap := if owner = self then addChild heap tq.fi self else heap
    { heap := heap, m := st.m ++ [self], queue := queue }

/-- The loop `for fieldPos := 0; fieldPos < nChildren; fieldPos++`. -/
def visitFields (tagName : String) (tagFunc : TagFunc) (tq : typeQueue) :
    BuildState → Nat → List StructField → BuildState
  | st, _, [] => st
  | st, fieldPos, f :: fs =>
    visitFields tagName tagFunc tq (visitField tagName tagFunc tq st fieldPos f) (fieldPos + 1) fs

/-- The loop `QueueLoop`, one queue entry per unit of fuel; `none` when the
queue is not empty after `fuel` entries. -/
def queueLoop (env : TypeEnv) (tagName : String) (tagFunc : TagFunc) :
    Nat → BuildState → Option BuildState
  | 0, st => if st.queue = [] then some st else none
  | fuel + 1, st =>
    match st.queue with
    | [] => some st
    | tq :: rest =>
      if recursiveHit st.heap (deref st.heap tq.fi).Typ st.heap.length
          (deref st.heap tq.fi).Parent then
        queueLoop env tagName tagFunc fuel { st with queue := rest }
      else
        queueLoop env tagName tagFunc fuel
          (visitFields tagName tagFunc tq { st with queue := rest } 0 (fieldsOf env tq.t))

/-- The root `FieldInfo` and the first queue entry. -/
def initState (t : GoType) : BuildState :=
  { heap := [{ Index := [], Path := "", IsPtr := t.Kind == Kind.Ptr, Typ := t,
               Name := t.String, Parts := [], Options := [], Embedded := false,
               Children := [], Parent := none }]
    m := []
    queue := [⟨Deref t, 0, []⟩] }

/-- A `StructMap`; its pointers refer to `heap`. -/
structure StructMap where
  heap : Heap
  Tree : Nat
  Fields : List Nat
  Paths : GoMap String Nat
  Leaves : GoMap String Nat
  deriving DecidableEq, Repr

/-- The panic of `getMapping`: the text after "duplicated path: " and the two
index paths. -/
structure DuplicatedPath where
  path : String
  first : List Nat
  second : List Nat
  deriving DecidableEq, Repr

/-- The loop `for _, fi := range flds.Fields` that fills `Paths` and `Leaves`. -/
def indexFields (heap : Heap) (tname : String) :
    List Nat → GoMap String Nat → GoMap String Nat →
      Except DuplicatedPath (GoMap String Nat × GoMap String Nat)
  | [], paths, leaves => .ok (paths, leaves)
  | p :: rest, paths, leaves =>
    match mapGet paths (deref heap p).Path with
    | some v =>
      .error ⟨tname ++ "." ++ (deref heap p).Name, (deref heap v).Index, (deref heap p).Index⟩
    | none =>
      indexFields heap tname rest (mapPut paths (deref heap p).Path p)
        (if (Deref (deref heap p).Typ).Kind ≠ Kind.Struct then
          mapPut leaves (deref heap p).Path p else leaves)

/-- The part of `getMapping` after the traversal. -/
def finish (t : GoType) (st : BuildState) : Except DuplicatedPath StructMap :=
  match indexFields st.heap t.String st.m [] [] with
  | .error e => .error e
  | .ok (paths, leaves) =>
    .ok { heap := st.heap, Tree := 0, Fields := st.m, Paths := paths, Leaves := leaves }

/-- The traversal of `getMapping`, bounded by `fuel` queue entries. -/
def traverse (env : TypeEnv) (t : GoType) (tagName : String) (tagFunc : TagFunc)
    (fuel : Nat) : Option BuildState :=
  queueLoop env tagName tagFunc fuel (initState t)

/-- Function `getMapping`: `none` when the traversal has not finished within
`fuel` queue entries, otherwise the panic or the `StructMap`. -/
def getMapping (env : TypeEnv) (t : GoType) (tagName : String) (tagFunc : TagFunc)
    (fuel : Nat) : Option (Except DuplicatedPath StructMap) :=
  (traverse env t tagName tagFunc fuel).map (finish t)

/-- The entry that `Paths` and `Leaves` hold for the field behind pointer `p`. -/
def pathEntry (heap : Heap) (p : Nat) : String × Nat := ((deref heap p).Path, p)

/-- Whether the field behind `p` is a leaf: its dereferenced type is not a struct. -/
def isLeaf (heap : Heap) (p : Nat) : Bool :=
  decide ((Deref (deref heap p).Typ).Kind ≠ Kind.Struct)

/-- The ancestors of the field behind `p`, nearest first: the chain of `Parent`
pointers, walked for at most `fuel` links. -/
def ancestors (heap : Heap) : Nat → Nat → List Nat
  | 0, _ => []
  | fuel + 1, p =>
    match (deref heap p).Parent with
    | none => []
    | some q => q :: ancestors heap fuel q

/-! ## Example types

The struct types of the package tests, and small recursive type graphs. -/

/-- An exported field declaration. -/
def mkField (name : String) (t : GoType) (tag : StructTag) (anonymous : Bool) : StructField :=
  { Name := name, PkgPath := "", Typ := t, Tag := tag, Anonymous := anonymous }

/-- The declarations of form_test.go and reflector_test.go that the tests of
the field tree use:
`DuplicatedName`, `InlineT`, `DuplicatedInline`, `Foo`, `Bar`, `FooBar`. -/
def testEnv : TypeEnv := fun n =>
  if n = "reflectx.DuplicatedName" then
    [mkField "A" (.int .Int) [] false, mkField "B" (.int .Int) [("form", "A")] false]
  else if n = "reflectx.InlineT" then
    [mkField "A" (.int .Int) [("form", ",omitempty")] false]
  else if n = "reflectx.DuplicatedInline" then
    [mkField "A" (.int .Int) [] false,
     mkField "InlineT" (.named "reflectx.InlineT") [] true]
  else if n = "reflectx.Foo" then
    [mkField "F" (.int .Int) [("reflector", "f")] false,
     mkField "O" (.map (.string) .iface) [] false]
  else if n = "reflectx.Bar" then
    [mkField "B" (.ptr (.int .Int)) [] false,
     mkField "Ar" (.ptr (.string)) [] false]
  else if n = "reflectx.FooBar" then
    [mkField "Foo" (.named "reflectx.Foo") [("reflector", "F")] true,
     mkField "Bar" (.named "reflectx.Bar") [("reflector", ",flatten")] true,
     mkField "PBar" (.ptr (.named "reflectx.Bar")) [] false,
     mkField "SFoo" (.slice (.named "reflectx.Foo")) [] false,
     mkField "PSFoo" (.ptr (.slice (.named "reflectx.Foo"))) [] false,
     mkField "PSPFoo" (.ptr (.slice (.ptr (.named "reflectx.Foo")))) [] false]
  else []

/-- Recursive type graphs:
`type Node struct { Next *Node }`,
`type Loop struct { *Loop }`,
`type Chain struct { Next *Chain "reflector:\",flatten\"" }`,
`type R struct { Z *T }`, `type T struct { X *U }` and
`type U struct { Y *T "reflector:\",flatten\"" }`. -/
def recEnv : TypeEnv := fun n =>
  if n = "Node" then [mkField "Next" (.ptr (.named "Node")) [] false]
  else if n = "Loop" then [mkField "Loop" (.ptr (.named "Loop")) [] true]
  else if n = "Chain" then
    [mkField "Next" (.ptr (.named "Chain")) [("reflector", ",flatten")] false]
  else if n = "R" then [mkField "Z" (.ptr (.named "T")) [] false]
  else if n = "T" then [mkField "X" (.ptr (.named "U")) [] false]
  else if n = "U" then [mkField "Y" (.ptr (.named "T")) [("reflector", ",flatten")] false]
  else []

/-! ## The field tree and the declarations it is built from -/

/-- A `FieldInfo` without its `Children`: what is fixed when the field is
built. -/
def FieldInfo.static (x : FieldInfo) : FieldInfo := { x with Children := [] }

/-- The declared field that an index path reaches from type `t`, with a `Deref`
before every step (`Type.FieldByIndex`). -/
def fieldAt (env : TypeEnv) : GoType → List Nat → Option StructField
  | _, [] => none
  | t, [i] => (fieldsOf env (Deref t))[i]?
  | t, i :: j :: rest =>
    match (fieldsOf env (Deref t))[i]? with
    | none => none
    | some f => fieldAt env f.Typ (j :: rest)

/-- The type that an index path reaches from type `t`: `t` itself for the empty
path, the declared type of the field otherwise. -/
def typeAt (env : TypeEnv) (t : GoType) (idx : List Nat) : Option GoType :=
  match idx with
  | [] => some t
  | _ => (fieldAt env t idx).map (fun f => f.Typ)

/-- The owner that `getMapping` computes for the field behind `n`, from the
declaration the field was built from. -/
def ownerPtr (env : TypeEnv) (t : GoType) (tagFunc : TagFunc) (heap : Heap) (n : Nat) : Nat :=
  match fieldAt env t (deref heap n).Index, (deref heap n).Parent with
  | some f, some p => ownerOf tagFunc ⟨.iface, p, []⟩ f (deref heap n) n
  | _, _ => n

/-- Whether `getMapping` enqueues the struct of the field behind `n`. -/
def wantsEntry (heap : Heap) (n : Nat) : Prop :=
  (Deref (deref heap n).Typ).Kind = Kind.Struct ∧
    (mapGet (deref heap n).Options OmitNested).isNone

/-- The queue entry of the field behind `n`. -/
def entryOf (env : TypeEnv) (t : GoType) (tagFunc : TagFunc) (heap : Heap) (n : Nat) :
    typeQueue :=
  ⟨Deref (deref heap n).Typ, ownerPtr env t tagFunc heap n, (deref heap n).Index⟩

/-- The test of `QueueLoop` on the owner `p` of a queue entry. -/
def guardHit (heap : Heap) (p : Nat) : Bool :=
  recursiveHit heap (deref heap p).Typ heap.length (deref heap p).Parent

/-- The canonical path of a field named `name` under the owner behind `p`. -/
def joinPath (heap : Heap) (p : Nat) (name : String) : String :=
  if (deref heap p).Path = "" then name else (deref heap p).Path ++ "." ++ name

/-- Two heaps agree on what is fixed in the fields below `bound`. -/
def AgreeBelow (h1 h2 : Heap) (bound : Nat) : Prop :=
  ∀ n, n < bound → (deref h2 n).static = (deref h1 n).static


/-- The queue entries that the traversal can hold while the heap has `bound`
fields: the first entry, for the root, and the entry of every field that is
enqueued. -/
def IsEntry (env : TypeEnv) (t : GoType) (tagFunc : TagFunc) (heap : Heap) (bound : Nat)
    (e : typeQueue) : Prop :=
  e = ⟨Deref t, 0, []⟩ ∨
    ∃ F, 1 ≤ F ∧ F < bound ∧ wantsEntry heap F ∧ e = entryOf env t tagFunc heap F

/-- The field behind `n` was built from a declared field of the struct of one
of the entries that were there before it, under an owner that had passed the
test for recursion. -/
def BuiltFrom (env : TypeEnv) (t : GoType) (tagName : String) (tagFunc : TagFunc)
    (heap : Heap) (n : Nat) : Prop :=
  ∃ e pos f, IsEntry env t tagFunc heap n e ∧ (fieldsOf env e.t)[pos]? = some f ∧
    skipField tagName tagFunc f = false ∧ fieldAt env t (e.pIndex ++ [pos]) = some f ∧
    (deref heap n).static = newFieldInfo tagName tagFunc heap e pos f ∧ e.fi < n ∧
    guardHit heap e.fi = false

/-- Every position below `j` of the struct of entry `e` that is not skipped has
its field in the heap. -/
def Covered (env : TypeEnv) (tagName : String) (tagFunc : TagFunc) (heap : Heap)
    (e : typeQueue) (j : Nat) : Prop :=
  ∀ pos f, pos < j → (fieldsOf env e.t)[pos]? = some f → skipField tagName tagFunc f = false →
    ∃ n, 1 ≤ n ∧ n < heap.length ∧ (deref heap n).Index = e.pIndex ++ [pos]

/-- The work that is left: the entry in progress with the position reached, and
the queue. -/
def workList (cur : Option (typeQueue × Nat)) (queue : List typeQueue) :
    List (typeQueue × Nat) :=
  cur.toList ++ queue.map (fun e => (e, 0))

/-- The invariant of the traversal of `getMapping`. -/
structure TInv (env : TypeEnv) (t : GoType) (tagName : String) (tagFunc : TagFunc)
    (heap : Heap) (m : List Nat) (work : List (typeQueue × Nat)) : Prop where
  heap_pos : 0 < heap.length
  root_static : (deref heap 0).static =
    { Index := [], Path := "", IsPtr := t.Kind == Kind.Ptr, Typ := t, Name := t.String,
      Parts := [], Options := [], Embedded := false, Children := [], Parent := none }
  m_eq : m = List.range' 1 (heap.length - 1)
  built : ∀ n, 1 ≤ n → n < heap.length → BuiltFrom env t tagName tagFunc heap n
  work_entry : ∀ w ∈ work, IsEntry env t tagFunc heap heap.length w.1
  idx_inj : ∀ a b, 1 ≤ a → a < heap.length → 1 ≤ b → b < heap.length →
    (deref heap a).Index = (deref heap b).Index → a = b
  work_fresh : ∀ w ∈ work, ∀ n, 1 ≤ n → n < heap.length → ∀ pos, w.2 ≤ pos →
    (deref heap n).Index ≠ w.1.pIndex ++ [pos]
  work_nodup : (work.map (fun w => w.1.pIndex)).Nodup
  cover : ∀ e, IsEntry env t tagFunc heap heap.length e →
    (∃ j, (e, j) ∈ work ∧ Covered env tagName tagFunc heap e j) ∨
      guardHit heap e.fi = true ∨ ∀ j, Covered env tagName tagFunc heap e j
  children_sound : ∀ p c, p < heap.length → c ∈ (deref heap p).Children →
    1 ≤ c ∧ c < heap.length ∧ (deref heap c).Parent = some p ∧
      ownerPtr env t tagFunc heap c = c
  children_complete : ∀ c p, 1 ≤ c → c < heap.length → ownerPtr env t tagFunc heap c = c →
    (deref heap c).Parent = some p → c ∈ (deref heap p).Children

/-- Types with flattened fields:
`type FlatOuter struct { In FlatInner "reflector:\",flatten\"" }`,
`type FlatInner struct { X int; Skip int "reflector:\"-\""; Deep FlatDeep "reflector:\",flatten\"" }`,
`type FlatDeep struct { Y int }`,
`type OmitOuter struct { A int; In OmitInner "reflector:\",flatten,omitnested\"" }` and
`type OmitInner struct { A int }`. -/
def flatEnv : TypeEnv := fun n =>
  if n = "FlatOuter" then
    [mkField "In" (.named "FlatInner") [("reflector", ",flatten")] false]
  else if n = "FlatInner" then
    [mkField "X" (.int .Int) [] false,
     mkField "Skip" (.int .Int) [("reflector", "-")] false,
     mkField "Deep" (.named "FlatDeep") [("reflector", ",flatten")] false]
  else if n = "FlatDeep" then [mkField "Y" (.int .Int) [] false]
  else if n = "OmitOuter" then
    [mkField "A" (.int .Int) [] false,
     mkField "In" (.named "OmitInner") [("reflector", ",flatten,omitnested")] false]
  else if n = "OmitInner" then [mkField "A" (.int .Int) [] false]
  else []

/-- The state in which the traversal of `FooBar` of reflector_test.go ends. -/
def fooBarState : BuildState :=
  (traverse testEnv (.named "reflectx.FooBar") "reflector" StdTagFunc 4).getD ⟨[], [], []⟩

/-- The state in which the traversal of `DuplicatedInline` of form_test.go
ends. -/
def duplicatedInlineState : BuildState :=
  (traverse testEnv (.named "reflectx.DuplicatedInline") "form" StdTagFunc 2).getD ⟨[], [], []⟩

/-- The state in which the traversal of `DuplicatedName` of form_test.go ends. -/
def duplicatedNameState : BuildState :=
  (traverse testEnv (.named "reflectx.DuplicatedName") "form" StdTagFunc 1).getD ⟨[], [], []⟩

/-- The `StructMap` of `FooBar` of reflector_test.go. -/
def fooBarMap : StructMap :=
  match getMapping testEnv (.named "reflectx.FooBar") "reflector" StdTagFunc 4 with
  | some (.ok sm) => sm
  | _ => ⟨[], 0, [], [], []⟩

/-! ## strconv: integers

The functions of Go's `strconv` that util.go calls, for the arguments it passes
(base 0 when parsing, base 10 when formatting).  `int` and `uint` are 64 bits
wide. -/

/-- The two errors a `*strconv.NumError` wraps. -/
inductive NumError
  | ErrSyntax
  | ErrRange
  deriving DecidableEq, Repr

/-- The constant `strconv.IntSize`. -/
def IntSize : Nat := 64

/-- The decimal digit `d` as a character. -/
def digitChar (d : Nat) : Char := Char.ofNat (48 + d)

/-- The digit loop of `formatBits` in base 10: the digits of `u` are put in
front of `acc`, least significant first; the buffer of `formatBits` bounds the
number of passes. -/
def formatBitsLoop : Nat → Nat → List Char → List Char
  | 0, _, acc => acc
  | fuel + 1, u, acc =>
    if 10 ≤ u then formatBitsLoop fuel (u / 10) (digitChar (u % 10) :: acc)
    else digitChar u :: acc

/-- `strconv.FormatUint(u, 10)`. -/
def FormatUint (u : Nat) : String := String.mk (formatBitsLoop 65 u [])

/-- `strconv.FormatInt(i, 10)`. -/
def FormatInt (i : Int) : String :=
  if i < 0 then String.mk ('-' :: formatBitsLoop 65 (-i).toNat [])
  else String.mk (formatBitsLoop 65 i.toNat [])

/-- The helper `lower` of strconv: `c | ('x' - 'X')`. -/
def lower (c : Char) : Nat := c.toNat ||| 32

/-- The value of a digit character in `ParseUint`: decimal digits and letters. -/
def digitVal (c : Char) : Option Nat :=
  if 48 ≤ c.toNat ∧ c.toNat ≤ 57 then some (c.toNat - 48)
  else if 97 ≤ lower c ∧ lower c ≤ 122 then some (lower c - 97 + 10)
  else none

/-- The digit loop of `ParseUint`: `maxVal` is the largest number of the bit
size, `n` is the number read so far; the flag tells whether an underscore was
seen.  The loop stops at the first digit that takes the number out of range. -/
def parseUintLoop (base maxVal : Nat) :
    List Char → Nat → Bool → Except NumError (Nat × Bool)
  | [], n, us => .ok (n, us)
  | c :: cs, n, us =>
    if c = '_' then parseUintLoop base maxVal cs n true
    else
      match digitVal c with
      | none => .error .ErrSyntax
      | some d =>
        if base ≤ d then .error .ErrSyntax
        else if (2 ^ 64 - 1) / base + 1 ≤ n then .error .ErrRange
        else if 2 ^ 64 - 1 < n * base + d ∨ maxVal < n * base + d then .error .ErrRange
        else parseUintLoop base maxVal cs (n * base + d) us

/-- The scan of `underscoreOK` over the number proper; `last` is the class of
the previous character: 0 for a digit or base prefix, 1 for an underscore, 2 for
anything else, 3 at the beginning. -/
def underscoreScan (hex : Bool) : List Char → Nat → Bool
  | [], last => last != 1
  | c :: cs, last =>
    if (48 ≤ c.toNat ∧ c.toNat ≤ 57) ∨ (hex ∧ 97 ≤ lower c ∧ lower c ≤ 102) then
      underscoreScan hex cs 0
    else if c = '_' then
      if last != 0 then false else underscoreScan hex cs 1
    else if last == 1 then false
    else underscoreScan hex cs 2

/-- The function `underscoreOK` of strconv. -/
def underscoreOK (s : List Char) : Bool :=
  let s := match s with
    | c :: cs => if c = '-' ∨ c = '+' then cs else c :: cs
    | [] => []
  match s with
  | c0 :: c1 :: cs =>
    if c0 = '0' ∧ (lower c1 = 98 ∨ lower c1 = 111 ∨ lower c1 = 120) then
      underscoreScan (lower c1 = 120) cs 0
    else underscoreScan false (c0 :: c1 :: cs) 3
  | s => underscoreScan false s 3

/-- `strconv.ParseUint(s, 0, bitSize)` for a bit size of at most 64: the base
is read from the prefix, and the bit size 0 stands for `IntSize`. -/
def ParseUint (s : List Char) (bitSize : Nat) : Except NumError Nat :=
  match s with
  | [] => .error .ErrSyntax
  | c0 :: rest =>
    let bs : Nat × List Char :=
      if c0 = '0' then
        match rest with
        | c1 :: c2 :: cs =>
          if lower c1 = 98 then (2, c2 :: cs)
          else if lower c1 = 111 then (8, c2 :: cs)
          else if lower c1 = 120 then (16, c2 :: cs)
          else (8, rest)
        | _ => (8, rest)
      else (10, s)
    match parseUintLoop bs.1 (2 ^ (if bitSize = 0 then IntSize else bitSize) - 1)
        bs.2 0 false with
    | .error e => .error e
    | .ok (n, us) => if us && !underscoreOK s then .error .ErrSyntax else .ok n

/-- `strconv.ParseInt(s, 0, bitSize)`: the number and the error. -/
def ParseInt (s : String) (bitSize : Nat) : Int × Option NumError :=
  match s.data with
  | [] => (0, some .ErrSyntax)
  | c :: rest =>
    let neg : Bool := c = '-'
    let body := if c = '+' ∨ c = '-' then rest else c :: rest
    match ParseUint body bitSize with
    | .error .ErrSyntax => (0, some .ErrSyntax)
    | r =>
      let bitSize := if bitSize = 0 then IntSize else bitSize
      let un : Nat := match r with
        | .ok n => n
        | .error _ => 2 ^ bitSize - 1
      let cutoff : Nat := 2 ^ (bitSize - 1)
      if !neg && cutoff ≤ un then ((cutoff : Int) - 1, some .ErrRange)
      else if neg && cutoff < un then (-(cutoff : Int), some .ErrRange)
      else (if neg then -(un : Int) else (un : Int), none)

/-! ## Floating point

A `float64` or `float32` value other than an infinity, a NaN or the negative
zero is the exact rational `num / 2 ^ k`, kept in lowest terms (`k = 0` or `num`
odd), so an integral float is `fin n 0`. -/

/-- A floating-point value. -/
inductive F64
  | fin (num : Int) (k : Nat)
  | negZero
  | inf (neg : Bool)
  | nan
  deriving DecidableEq, Repr

/-- The parameters of a binary format: bits of precision, and the least and
greatest exponent of the unit in the last place. -/
structure FloatFmt where
  prec : Nat
  emin : Int
  emax : Int
  deriving DecidableEq, Repr

def fmt64 : FloatFmt := ⟨53, -1074, 971⟩
def fmt32 : FloatFmt := ⟨24, -149, 104⟩

/-- The format that a `bitSize` argument of strconv selects. -/
def fmtOf (bitSize : Nat) : FloatFmt := if bitSize = 32 then fmt32 else fmt64

/-- The quotient `a / b` rounded to the nearest integer, ties to even. -/
def divRoundEven (a b : Nat) : Nat :=
  if 2 * (a % b) < b then a / b
  else if b < 2 * (a % b) then a / b + 1
  else if (a / b) % 2 = 0 then a / b else a / b + 1

/-- The fraction `a / (b * 2 ^ s)` as numerator and denominator. -/
def scaleFrac (a b : Nat) (s : Int) : Nat × Nat :=
  if 0 ≤ s then (a, b * 2 ^ s.toNat) else (a * 2 ^ (-s).toNat, b)

/-- The number of binary digits of `n`; the first argument bounds the loop. -/
def bitLen : Nat → Nat → Nat
  | 0, _ => 0
  | fuel + 1, n => if n = 0 then 0 else 1 + bitLen fuel (n / 2)

/-- The value of the format nearest to `a / b` (both positive), as a mantissa
`m` and an exponent `s` with value `m * 2 ^ s`; `none` when it overflows. -/
def roundRatio (ft : FloatFmt) (a b : Nat) : Option (Nat × Int) :=
  let s0 : Int := (bitLen a a : Int) - (bitLen b b : Int) - (ft.prec : Int)
  let s1 : Int := if 2 ^ ft.prec * (scaleFrac a b s0).2 ≤ (scaleFrac a b s0).1 then s0 + 1 else s0
  let s2 : Int := max s1 ft.emin
  let m := divRoundEven (scaleFrac a b s2).1 (scaleFrac a b s2).2
  let ms : Nat × Int := if m = 2 ^ ft.prec then (2 ^ (ft.prec - 1), s2 + 1) else (m, s2)
  if ft.emax < ms.2 then none else some ms

/-- Halving `m` while it is even and the exponent `k` is positive. -/
def stripTwos : Nat → Nat → Nat → Nat × Nat
  | 0, m, k => (m, k)
  | fuel + 1, m, k =>
    if k = 0 ∨ m % 2 = 1 then (m, k) else stripTwos fuel (m / 2) (k - 1)

/-- The float with sign `neg` and magnitude `m * 2 ^ s`. -/
def mkFloat (neg : Bool) (m : Nat) (s : Int) : F64 :=
  if m = 0 then (if neg then .negZero else .fin 0 0)
  else if 0 ≤ s then .fin ((if neg then -1 else 1) * ((m * 2 ^ s.toNat : Nat) : Int)) 0
  else
    .fin ((if neg then -1 else 1) * (((stripTwos (-s).toNat m (-s).toNat).1 : Nat) : Int))
      (stripTwos (-s).toNat m (-s).toNat).2

/-- The float of the format nearest to `± a / b`, with the range error of an
overflow.  An integer that fits the precision is exact, as in the exact path of
strconv. -/
def roundToFloat (ft : FloatFmt) (neg : Bool) (a b : Nat) : F64 × Option NumError :=
  if a = 0 then (mkFloat neg 0 0, none)
  else if b = 1 ∧ a < 2 ^ ft.prec then (mkFloat neg a 0, none)
  else
    match roundRatio ft a b with
    | none => (.inf neg, some .ErrRange)
    | some (m, s) => (mkFloat neg m s, none)

/-- The conversion `float64(n)` of an integer: exact below `2 ^ 53`, the nearest
float otherwise. -/
def F64.ofInt (n : Int) : F64 :=
  if n.natAbs < 2 ^ 53 then .fin n 0
  else (roundToFloat fmt64 (decide (n < 0)) n.natAbs 1).1

/-- The conversion `int64(f)`: truncation towards zero; for a value that does
not fit the result is implementation-specific, here the one of amd64. -/
def F64.toInt64 (f : F64) : Int :=
  match f with
  | .fin num k =>
    if -(2 : Int) ^ 63 ≤ Int.tdiv num (2 ^ k) ∧ Int.tdiv num (2 ^ k) < 2 ^ 63 then
      Int.tdiv num (2 ^ k)
    else -(2 : Int) ^ 63
  | .negZero => 0
  | _ => -(2 : Int) ^ 63

/-- The conversion `uint64(f)`: truncation towards zero; for a value that does
not fit the result is implementation-specific, here the one of amd64. -/
def F64.toUint64 (f : F64) : Nat :=
  match f with
  | .fin num k =>
    if Int.tdiv num (2 ^ k) < -(2 : Int) ^ 63 then 2 ^ 63
    else if Int.tdiv num (2 ^ k) < 0 then (Int.tdiv num (2 ^ k) + 2 ^ 64).toNat
    else if Int.tdiv num (2 ^ k) < 2 ^ 64 then (Int.tdiv num (2 ^ k)).toNat
    else 0
  | .negZero => 0
  | .inf true => 2 ^ 63
  | _ => 0

/-- The comparison `==` of two floats. -/
def F64.eq (a b : F64) : Bool :=
  match a, b with
  | .nan, _ => false
  | _, .nan => false
  | .negZero, .fin 0 _ => true
  | .fin 0 _, .negZero => true
  | a, b => decide (a = b)

/-- Reading decimal digits: the number read, how many digits, and the rest. -/
def readDigits : List Char → Nat → Nat → Nat × Nat × List Char
  | [], acc, cnt => (acc, cnt, [])
  | c :: cs, acc, cnt =>
    if 48 ≤ c.toNat ∧ c.toNat ≤ 57 then readDigits cs (acc * 10 + (c.toNat - 48)) (cnt + 1)
    else (acc, cnt, c :: cs)

/-- Reading the digits of an exponent; like strconv, the number stops growing
at 10000. -/
def readExp : List Char → Nat → Nat → Nat × Nat × List Char
  | [], acc, cnt => (acc, cnt, [])
  | c :: cs, acc, cnt =>
    if 48 ≤ c.toNat ∧ c.toNat ≤ 57 then
      readExp cs (if acc < 10000 then acc * 10 + (c.toNat - 48) else acc) (cnt + 1)
    else (acc, cnt, c :: cs)

/-- A decimal floating-point text without its sign and without underscores:
the digits as a number and the power of ten that scales it. -/
def readDecimal (s : List Char) : Option (Nat × Int) :=
  match readDigits s 0 0 with
  | (ip, ni, rest) =>
    let fr : Nat × Nat × List Char :=
      match rest with
      | '.' :: rest1 => readDigits rest1 ip 0
      | _ => (ip, 0, rest)
    if ni + fr.2.1 = 0 then none
    else
      match fr.2.2 with
      | [] => some (fr.1, -(fr.2.1 : Int))
      | c :: rest2 =>
        if lower c = 101 then
          match rest2 with
          | '+' :: rest3 =>
            (match readExp rest3 0 0 with
             | (e, ne, []) => if ne = 0 then none else some (fr.1, (e : Int) - (fr.2.1 : Int))
             | _ => none)
          | '-' :: rest3 =>
            (match readExp rest3 0 0 with
             | (e, ne, []) => if ne = 0 then none else some (fr.1, -(e : Int) - (fr.2.1 : Int))
             | _ => none)
          | rest3 =>
            (match readExp rest3 0 0 with
             | (e, ne, []) => if ne = 0 then none else some (fr.1, (e : Int) - (fr.2.1 : Int))
             | _ => none)
        else none

/-- The texts that `special` of strconv accepts, in lower case and without
sign: an infinity or a NaN. -/
def readSpecial (s : List Char) : Option Bool :=
  let l := s.map (fun c => Char.ofNat (lower c))
  if l = "inf".data ∨ l = "infinity".data then some true
  else if l = "nan".data then some false
  else none

/-- Reading hexadecimal digits: the number read, how many digits, and the
rest. -/
def readHexDigits : List Char → Nat → Nat → Nat × Nat × List Char
  | [], acc, cnt => (acc, cnt, [])
  | c :: cs, acc, cnt =>
    if 48 ≤ c.toNat ∧ c.toNat ≤ 57 then readHexDigits cs (acc * 16 + (c.toNat - 48)) (cnt + 1)
    else if 97 ≤ lower c ∧ lower c ≤ 102 then
      readHexDigits cs (acc * 16 + (lower c - 97 + 10)) (cnt + 1)
    else (acc, cnt, c :: cs)

/-- A hexadecimal floating-point text without its sign, its prefix `0x` and its
underscores: the digits as a number and the power of two that scales it.  The
exponent, after `p`, is decimal and must be there. -/
def readHex (s : List Char) : Option (Nat × Int) :=
  match readHexDigits s 0 0 with
  | (ip, ni, rest) =>
    let fr : Nat × Nat × List Char :=
      match rest with
      | '.' :: rest1 => readHexDigits rest1 ip 0
      | _ => (ip, 0, rest)
    if ni + fr.2.1 = 0 then none
    else
      match fr.2.2 with
      | [] => none
      | c :: rest2 =>
        if lower c = 112 then
          match rest2 with
          | '+' :: rest3 =>
            (match readExp rest3 0 0 with
             | (e, ne, []) =>
               if ne = 0 then none else some (fr.1, (e : Int) - 4 * (fr.2.1 : Int))
             | _ => none)
          | '-' :: rest3 =>
            (match readExp rest3 0 0 with
             | (e, ne, []) =>
               if ne = 0 then none else some (fr.1, -(e : Int) - 4 * (fr.2.1 : Int))
             | _ => none)
          | rest3 =>
            (match readExp rest3 0 0 with
             | (e, ne, []) =>
               if ne = 0 then none else some (fr.1, (e : Int) - 4 * (fr.2.1 : Int))
             | _ => none)
        else none

/-- The number that `readFloat` of strconv reads when it accepts the whole
text `s`, whose part after the sign is `body`: the digits as a number, the base
of the exponent (10, or 2 after the prefix `0x`) and the exponent.  Underscores
are passed over by the loops of `readFloat` and must satisfy `underscoreOK`. -/
def readFloat (s body : List Char) : Option (Nat × Nat × Int) :=
  if body.any (fun c => c = '_') && !underscoreOK s then none
  else
    match body with
    | c0 :: c1 :: c2 :: rest =>
      if c0 = '0' ∧ lower c1 = 120 then
        (readHex ((c2 :: rest).filter (fun c => c ≠ '_'))).map (fun p => (p.1, 2, p.2))
      else (readDecimal (body.filter (fun c => c ≠ '_'))).map (fun p => (p.1, 10, p.2))
    | _ => (readDecimal (body.filter (fun c => c ≠ '_'))).map (fun p => (p.1, 10, p.2))

/-- `strconv.ParseFloat(s, bitSize)`. -/
def ParseFloat (s : String) (bitSize : Nat) : F64 × Option NumError :=
  let neg : Bool := match s.data with
    | c :: _ => c = '-'
    | [] => false
  let signed : Bool := match s.data with
    | c :: _ => c = '-' ∨ c = '+'
    | [] => false
  let body := if signed then s.data.tail else s.data
  match readSpecial body with
  | some true => (.inf neg, none)
  | some false => if signed then (.fin 0 0, some .ErrSyntax) else (.nan, none)
  | none =>
    match readFloat s.data body with
    | none => (.fin 0 0, some .ErrSyntax)
    | some (m, b, e) =>
      if 0 ≤ e then roundToFloat (fmtOf bitSize) neg (m * b ^ e.toNat) 1
      else roundToFloat (fmtOf bitSize) neg m (b ^ (-e).toNat)

/-- The number of decimal digits of `n`; the first argument bounds the loop. -/
def decLen : Nat → Nat → Nat
  | 0, _ => 0
  | fuel + 1, n => if n = 0 then 0 else 1 + decLen fuel (n / 10)

/-- The fraction `a / b * 10 ^ e` as numerator and denominator. -/
def scaleDec (a b : Nat) (e : Int) : Nat × Nat :=
  if 0 ≤ e then (a * 10 ^ e.toNat, b) else (a, b * 10 ^ (-e).toNat)

/-- The position `dp` of the decimal point of `a / b` (both positive):
`10 ^ (dp - 1) ≤ a / b < 10 ^ dp`. -/
def decPoint (a b : Nat) : Int :=
  let d0 : Int := (decLen a a : Int) - (decLen b b : Int)
  if (scaleDec a b (-d0)).2 ≤ (scaleDec a b (-d0)).1 then d0 + 1 else d0

/-- The digits of `n`, most significant first, without trailing zeros. -/
def sigDigits (n : Nat) : List Char :=
  ((formatBitsLoop (n + 1) n []).reverse.dropWhile (fun c => c = '0')).reverse

/-- The search for the shortest decimal that the format reads back as
`a / b`: with `n` digits the candidates are the two decimals around `a / b`;
when both read back, the nearer wins, ties to even.  The result is the digit
string and the position of the decimal point. -/
def shortestLoop (ft : FloatFmt) (a b : Nat) (dp : Int) : Nat → Nat → List Char × Int
  | 0, n => (sigDigits ((scaleDec a b ((n : Int) - dp)).1 / (scaleDec a b ((n : Int) - dp)).2), dp)
  | fuel + 1, n =>
    let e : Int := (n : Int) - dp
    let num := (scaleDec a b e).1
    let den := (scaleDec a b e).2
    let lo := num / den
    let target := (roundToFloat ft false a b).1
    let okLo : Bool := (roundToFloat ft false (scaleDec lo 1 (-e)).1 (scaleDec lo 1 (-e)).2).1 = target
    let okHi : Bool :=
      (roundToFloat ft false (scaleDec (lo + 1) 1 (-e)).1 (scaleDec (lo + 1) 1 (-e)).2).1 = target
    let useHi : Bool :=
      if num % den = 0 then false
      else if okLo && okHi then
        (den < 2 * (num % den)) || (2 * (num % den) = den && lo % 2 = 1)
      else okHi
    if okLo || okHi then
      if useHi then
        (sigDigits (lo + 1), if lo + 1 = 10 ^ n then dp + 1 else dp)
      else (sigDigits lo, dp)
    else shortestLoop ft a b dp fuel (n + 1)

/-- The exponent of the `e` format: sign and at least two digits. -/
def fmtExp (exp : Int) : List Char :=
  (if exp < 0 then '-' else '+') ::
    (if exp.natAbs < 10 then ['0', digitChar exp.natAbs]
     else formatBitsLoop 65 exp.natAbs [])

/-- The format `%e` of strconv for the digits `ds` with decimal point `dp`. -/
def fmtE (ds : List Char) (dp : Int) : List Char :=
  match ds with
  | [] => '0' :: 'e' :: fmtExp 0
  | [d] => d :: 'e' :: fmtExp (dp - 1)
  | d :: rest => d :: '.' :: (rest ++ 'e' :: fmtExp (dp - 1))

/-- The format `%f` of strconv for the digits `ds` with decimal point `dp`, with
as many fractional digits as the shortest form needs. -/
def fmtF (ds : List Char) (dp : Int) : List Char :=
  let intPart : List Char :=
    if 0 < dp then ds.take dp.toNat ++ List.replicate (dp.toNat - ds.length) '0' else ['0']
  let frac : List Char :=
    if dp < (ds.length : Int) then
      '.' :: (List.replicate (-dp).toNat '0' ++ ds.drop dp.toNat)
    else []
  intPart ++ frac

/-- `strconv.FormatFloat(f, 'g', -1, bitSize)`. -/
def FormatFloat (f : F64) (bitSize : Nat) : String :=
  match f with
  | .nan => "NaN"
  | .inf false => "+Inf"
  | .inf true => "-Inf"
  | .negZero => "-0"
  | .fin num k =>
    if num = 0 then "0"
    else
      let r := shortestLoop (fmtOf bitSize) num.natAbs (2 ^ k) (decPoint num.natAbs (2 ^ k)) 17 1
      let body := if r.2 - 1 < -4 ∨ 6 ≤ r.2 - 1 then fmtE r.1 r.2 else fmtF r.1 r.2
      String.mk (if num < 0 then '-' :: body else body)

/-- `strconv.ParseBool`. -/
def ParseBool (s : String) : Bool × Option NumError :=
  if s = "1" ∨ s = "t" ∨ s = "T" ∨ s = "TRUE" ∨ s = "true" ∨ s = "True" then (true, none)
  else if s = "0" ∨ s = "f" ∨ s = "F" ∨ s = "FALSE" ∨ s = "false" ∨ s = "False" then
    (false, none)
  else (false, some .ErrSyntax)

/-- `strconv.FormatBool`. -/
def FormatBool (b : Bool) : String := if b then "true" else "false"

/-! ## Values

A value as `reflect` sees it, together with its static type: a pointer is nil or
owns its target, a slice or a map is nil or holds its elements, an interface is
nil or holds a dynamic value. -/

mutual
/-- A Go value. -/
inductive Value
  | bool (b : Bool)
  | int (k : IntKind) (n : Int)
  | uint (k : UintKind) (n : Nat)
  | float (k : FloatKind) (f : F64)
  | str (s : String)
  | other (k : OtherKind)
  | nilPtr (elem : GoType)
  | ptr (target : Value)
  | struct (name : String) (fields : ValueList)
  | nilSlice (elem : GoType)
  | slice (elem : GoType) (elems : ValueList)
  | nilMap (key : GoType) (elem : GoType)
  | map (key : GoType) (elem : GoType) (entries : EntryList)
  | nilIface
  | iface (dyn : Value)
  deriving DecidableEq, Repr
/-- A sequence of values. -/
inductive ValueList
  | nil
  | cons (head : Value) (tail : ValueList)
  deriving DecidableEq, Repr
/-- The entries of a map. -/
inductive EntryList
  | nil
  | cons (key : Value) (val : Value) (tail : EntryList)
  deriving DecidableEq, Repr
end

/-- The values of a list, as a `ValueList`. -/
def ValueList.ofList : List Value → ValueList
  | [] => .nil
  | v :: vs => .cons v (ValueList.ofList vs)

/-- The values of a `ValueList`, as a list. -/
def ValueList.toList : ValueList → List Value
  | .nil => []
  | .cons v vs => v :: vs.toList

/-- The static type of a value: `Value.Type()`. -/
def Value.Typ : Value → GoType
  | .bool _ => .bool
  | .int k _ => .int k
  | .uint k _ => .uint k
  | .float k _ => .float k
  | .str _ => .string
  | .other k => .other k
  | .nilPtr e => .ptr e
  | .ptr v => .ptr v.Typ
  | .struct n _ => .named n
  | .nilSlice e => .slice e
  | .slice e _ => .slice e
  | .nilMap k e => .map k e
  | .map k e _ => .map k e
  | .nilIface => .iface
  | .iface _ => .iface

mutual
/-- The comparison `==` of two values of one type, as the runtime applies it to
the keys of a map: floats are compared with `==`, so that `0` and `-0` are one
key and a NaN equals no key, itself included; structs are compared field by
field and interfaces by their dynamic values.  A pointer has no address here:
two pointers are taken for one pointer when their targets are the same value.
Slices and maps are not comparable. -/
def Value.keyEq : Value → Value → Bool
  | .bool a, .bool b => a == b
  | .int k a, .int l b => decide (k = l) && decide (a = b)
  | .uint k a, .uint l b => decide (k = l) && decide (a = b)
  | .float k a, .float l b => decide (k = l) && a.eq b
  | .str a, .str b => decide (a = b)
  | .other k, .other l => decide (k = l)
  | .nilPtr e, .nilPtr f => decide (e = f)
  | .ptr a, .ptr b => decide (a = b)
  | .struct n fs, .struct m gs => decide (n = m) && ValueList.keyEq fs gs
  | .nilIface, .nilIface => true
  | .iface a, .iface b => Value.keyEq a b
  | _, _ => false
/-- The fields of two structs are equal, one by one. -/
def ValueList.keyEq : ValueList → ValueList → Bool
  | .nil, .nil => true
  | .cons a as, .cons b bs => Value.keyEq a b && ValueList.keyEq as bs
  | _, _ => false
end

/-- The lookup `m[k]` in a map whose keys are values (`MapIndex`): the first
entry whose key equals `k`. -/
def keyGet (m : GoMap Value Value) (k : Value) : Option Value :=
  match m with
  | [] => none
  | (k1, v1) :: rest => if k1.keyEq k then some v1 else keyGet rest k

/-- The assignment `m[k] = v` in a map whose keys are values (`SetMapIndex`):
an entry whose key equals `k` is replaced, and the runtime stores the new key
over the old one; a key that equals no key of the map adds an entry. -/
def keyPut (m : GoMap Value Value) (k v : Value) : GoMap Value Value :=
  match m with
  | [] => [(k, v)]
  | (k1, v1) :: rest => if k1.keyEq k then (k, v) :: rest else (k1, v1) :: keyPut rest k v

/-- The statement `delete(m, k)` in a map whose keys are values. -/
def keyDelete (m : GoMap Value Value) (k : Value) : GoMap Value Value :=
  m.filter (fun p => !p.1.keyEq k)

/-- `reflect.Zero(t)`: the zero value of a type.  A struct is expanded through
the type environment, `depth` levels deep. -/
def zeroValue (env : TypeEnv) : Nat → GoType → Value
  | _, .bool => .bool false
  | _, .int k => .int k 0
  | _, .uint k => .uint k 0
  | _, .float k => .float k (.fin 0 0)
  | _, .string => .str ""
  | _, .other k => .other k
  | _, .ptr e => .nilPtr e
  | _, .slice e => .nilSlice e
  | _, .map k e => .nilMap k e
  | _, .iface => .nilIface
  | 0, .named n => .struct n .nil
  | depth + 1, .named n =>
    .struct n (ValueList.ofList ((env n).map (fun f => zeroValue env depth f.Typ)))

/-- The width in bits of a signed kind. -/
def IntKind.bits : IntKind → Nat
  | .Int => 64 | .Int8 => 8 | .Int16 => 16 | .Int32 => 32 | .Int64 => 64

/-- The width in bits of an unsigned kind. -/
def UintKind.bits : UintKind → Nat
  | .Uint => 64 | .Uint8 => 8 | .Uint16 => 16 | .Uint32 => 32 | .Uint64 => 64

/-- The `bitSize` argument that `StrToValue` passes for a signed kind. -/
def IntKind.bitSize : IntKind → Nat
  | .Int => 0 | .Int8 => 8 | .Int16 => 16 | .Int32 => 32 | .Int64 => 64

/-- The `bitSize` argument that `StrToValue` passes for an unsigned kind. -/
def UintKind.bitSize : UintKind → Nat
  | .Uint => 0 | .Uint8 => 8 | .Uint16 => 16 | .Uint32 => 32 | .Uint64 => 64

/-- The `bitSize` argument for a floating-point kind. -/
def FloatKind.bitSize : FloatKind → Nat
  | .Float32 => 32 | .Float64 => 64

/-- The conversion of an `int64` to a signed type of `bits` bits. -/
def wrapInt (bits : Nat) (n : Int) : Int :=
  (n + 2 ^ (bits - 1)) % 2 ^ bits - 2 ^ (bits - 1)

/-- The conversion of a `uint64` to an unsigned type of `bits` bits. -/
def wrapUint (bits : Nat) (n : Nat) : Nat := n % 2 ^ bits

/-! ## util.go -/

/-- The errors that the conversions return. -/
inductive ConvError
  /-- A `*strconv.NumError`, prefixed with "reflectx: " by `StrToValue`. -/
  | parse (e : NumError)
  /-- The error "cann't convert f to int" of `floatToInt`. -/
  | floatToInt (f : F64)
  /-- The error "cann't convert f to uint" of `floatToUint`. -/
  | floatToUint (f : F64)
  /-- The error "reflectx: unexpected type for StrToValue". -/
  | unexpectedStrToValue (t : GoType)
  /-- The error "reflectx: unexpected type for ValueToStr". -/
  | unexpectedValueToStr (t : GoType)
  /-- The error "reflectx: type mismatch, expected ..., got ...". -/
  | typeMismatch (expected : GoType) (actual : GoType)
  deriving DecidableEq, Repr

def minUint53 : Nat := 0
def maxUint53 : Nat := 4503599627370495
def minInt53 : Int := -2251799813685248
def maxInt53 : Int := 2251799813685247

/-- Function `floatToUint`. -/
def floatToUint (f : F64) : Nat × Option ConvError :=
  let n := f.toUint64
  if (F64.ofInt n).eq f ∧ minUint53 ≤ n ∧ n ≤ maxUint53 then (n, none)
  else (0, some (.floatToUint f))

/-- Function `floatToInt`. -/
def floatToInt (f : F64) : Int × Option ConvError :=
  let n := f.toInt64
  if (F64.ofInt n).eq f ∧ minInt53 ≤ n ∧ n ≤ maxInt53 then (n, none)
  else (0, some (.floatToInt f))

/-- Function `parseInt`. -/
def parseInt (s : String) (bitSize : Nat) : Int × Option ConvError :=
  match ParseInt s bitSize with
  | (i, none) => (i, none)
  | (i, some err) =>
    match ParseFloat s 64 with
    | (f, none) => floatToInt f
    | _ => (i, some (.parse err))

/-- Function `parseUint`; the last line converts the `int64` with `uint64(n)`. -/
def parseUint (s : String) (bitSize : Nat) : Nat × Option ConvError :=
  match ParseInt s bitSize with
  | (n, none) => ((n % 2 ^ 64).toNat, none)
  | (n, some err) =>
    match ParseFloat s 64 with
    | (f, none) => floatToUint f
    | _ => ((n % 2 ^ 64).toNat, some (.parse err))

/-- Function `ValueToStr`. -/
def ValueToStr (field : Value) : String × Option ConvError :=
  match field with
  | .nilPtr _ => ("", none)
  | _ =>
    let v := match field with
      | .ptr t => t
      | x => x
    match v with
    | .int _ n => (FormatInt n, none)
    | .uint _ n => (FormatUint n, none)
    | .bool b => (FormatBool b, none)
    | .float .Float32 f => (FormatFloat f 32, none)
    | .float .Float64 f => (FormatFloat f 64, none)
    | .str s => (s, none)
    | _ => ("", some (.unexpectedValueToStr field.Typ))

/-- The switch of `StrToValue` on the kind of `v`, with the `set...Field`
functions: the new content of `v` and the error; `ft` is the type of the field
that `StrToValue` was called with. -/
def setByKind (str : String) (ft : GoType) (v : Value) : Value × Option ConvError :=
  match v with
  | .int k n =>
    (match parseInt str k.bitSize with
     | (i, none) => (.int k (wrapInt k.bits i), none)
     | (_, some err) => (.int k n, some err))
  | .uint k n =>
    (match parseUint str k.bitSize with
     | (u, none) => (.uint k (wrapUint k.bits u), none)
     | (_, some err) => (.uint k n, some err))
  | .bool b =>
    (match ParseBool str with
     | (b1, none) => (.bool b1, none)
     | (_, some err) => (.bool b, some (.parse err)))
  | .float k f =>
    (match ParseFloat str k.bitSize with
     | (f1, none) => (.float k f1, none)
     | (_, some err) => (.float k f, some (.parse err)))
  | .str _ => (.str str, none)
  | v => (v, some (.unexpectedStrToValue ft))

/-- Function `StrToValue`: the new content of the field and the error.  A nil
pointer is given a zero target by `AllocIndirect` before the kind is looked at. -/
def StrToValue (env : TypeEnv) (depth : Nat) (str : String) (field : Value) :
    Value × Option ConvError :=
  match field with
  | .nilPtr e =>
    if str = "" then (.nilPtr e, none)
    else ((Value.ptr (setByKind str (.ptr e) (zeroValue env depth e)).1),
      (setByKind str (.ptr e) (zeroValue env depth e)).2)
  | .ptr t =>
    if str = "" then (.nilPtr t.Typ, none)
    else (Value.ptr (setByKind str (.ptr t.Typ) t).1, (setByKind str (.ptr t.Typ) t).2)
  | v => setByKind str v.Typ v

/-! ## Values through `reflect` -/

/-- The outcome of a call in the model: a result, a panic, or the bound on the
depth of recursion reached. -/
inductive Outcome (α : Type)
  | ok (a : α)
  | panic
  | outOfFuel
  deriving DecidableEq, Repr

/-- The entries of an `EntryList`, as a list of pairs. -/
def EntryList.toList : EntryList → List (Value × Value)
  | .nil => []
  | .cons k v rest => (k, v) :: rest.toList

/-- The pairs of a list, as an `EntryList`. -/
def EntryList.ofList : List (Value × Value) → EntryList
  | [] => .nil
  | (k, v) :: rest => .cons k v (EntryList.ofList rest)

/-- `reflect.Indirect` on a value that may be invalid (`none`): the target of
a pointer, invalid for a nil pointer, the value itself otherwise. -/
def indirect : Option Value → Option Value
  | some (.ptr t) => some t
  | some (.nilPtr _) => none
  | v => v

/-- `reflect.ValueOf(v.Interface())` for a value of kind Interface: the dynamic
value, invalid when the interface is nil; other values are left as they are. -/
def ifaceElem : Option Value → Option Value
  | some (.iface d) => some d
  | some .nilIface => none
  | v => v

/-- Whether a value is a nil pointer. -/
def Value.isNilPtr : Value → Bool
  | .nilPtr _ => true
  | _ => false

/-- The read-only flags of a `reflect.Value`: `flagStickyRO`, set on a value
obtained through an unexported field that is not embedded and on everything
read out of such a value, and `flagEmbedRO`, set on an unexported embedded
field itself.  `Set` and `Interface` panic on a value with one of the two. -/
structure ROFlag where
  sticky : Bool
  embed : Bool
  deriving DecidableEq, Repr

/-- The flags of a value made by `reflect.ValueOf` or `reflect.New`. -/
def ROFlag.clear : ROFlag := ⟨false, false⟩

/-- Whether one of the two flags is set (`flag & flagRO != 0`). -/
def ROFlag.ro (fl : ROFlag) : Bool := fl.sticky || fl.embed

/-- The method `flag.ro()`: the flags of an element read out of a slice or a
map with `Index`, `MapKeys` or `MapIndex`. -/
def ROFlag.elem (fl : ROFlag) : ROFlag := ⟨fl.ro, false⟩

/-- The flags of `v.Field(i)` for a struct `n` with flags `fl`: the sticky flag
of the struct is inherited, the embed flag is not, and an unexported field
(`PkgPath` not empty) sets the embed flag when it is embedded and the sticky
flag otherwise.  `Elem` on a pointer keeps both flags. -/
def fieldFlag (env : TypeEnv) (fl : ROFlag) (n : String) (i : Nat) : ROFlag :=
  match (env n)[i]? with
  | some f =>
    if f.PkgPath = "" then ⟨fl.sticky, false⟩
    else if f.Anonymous then ⟨fl.sticky, true⟩
    else ⟨true, false⟩
  | none => ⟨fl.sticky, false⟩

/-- Function `Alloc`. -/
def Alloc (env : TypeEnv) (depth : Nat) (t : GoType) : Value :=
  match t with
  | .ptr e => .ptr (zeroValue env depth e)
  | t => zeroValue env depth t

/-- The content of a variable of the type of `field` after `field.Set(v)`: a
variable of interface type holds `v` as its dynamic value. -/
def assign (field v : Value) : Value :=
  if field.Typ.Kind = Kind.Interface then .iface v else v

/-- Function `FieldByIndexesReadOnly`: the field, invalid (`none`) past a nil
pointer; `Field` panics on a value that is not a struct or has no such field. -/
def FieldByIndexesReadOnly : Option Value → List Nat → Outcome (Option Value)
  | v, [] => .ok v
  | v, i :: rest =>
    match indirect v with
    | none => .ok none
    | some (.struct _ fs) =>
      (match fs.toList[i]? with
       | some fv => FieldByIndexesReadOnly (some fv) rest
       | none => .panic)
    | some _ => .panic

/-- The read-only flags of the value that `FieldByIndexesReadOnly` returns for
a value with flags `fl`. -/
def flagAt (env : TypeEnv) : ROFlag → Option Value → List Nat → ROFlag
  | fl, _, [] => fl
  | fl, v, i :: rest =>
    match indirect v with
    | some (.struct n fs) =>
      (match fs.toList[i]? with
       | some fv => flagAt env (fieldFlag env fl n i) (some fv) rest
       | none => fl)
    | _ => fl

/-- The statement `if v.Kind() == reflect.Ptr && v.IsNil() { v.Set(reflect.New(...)) }`
of `FieldByIndexes`: a nil pointer is replaced by a pointer to a fresh zero value. -/
def allocNil (env : TypeEnv) (depth : Nat) : Value → Value
  | .nilPtr e => .ptr (zeroValue env depth e)
  | x => x

/-- The loop of `FieldByIndexes` on a value with read-only flags `fl`, which is
taken to be addressable: the record after the loop, in which every nil pointer
met on the way has been set to a fresh zero value, and the content of the field
that the returned `reflect.Value` denotes.  `Field` panics on a value that is
not a struct or has no such field, and `v.Set` panics on a nil pointer in a
read-only field. -/
def FieldByIndexesFrom (env : TypeEnv) (depth : Nat) :
    ROFlag → Value → List Nat → Outcome (Value × Value)
  | _, v, [] => .ok (v, v)
  | fl, v, i :: rest =>
    match indirect (some v) with
    | some (.struct n fs) =>
      (match fs.toList[i]? with
       | none => .panic
       | some fv =>
         if fv.isNilPtr && (fieldFlag env fl n i).ro then .panic
         else
           match FieldByIndexesFrom env depth (fieldFlag env fl n i)
               (allocNil env depth fv) rest with
           | .ok (nv, h) =>
             .ok (match v with
               | .ptr _ => (Value.ptr (.struct n (ValueList.ofList (fs.toList.set i nv))), h)
               | _ => (Value.struct n (ValueList.ofList (fs.toList.set i nv)), h))
           | .panic => .panic
           | .outOfFuel => .outOfFuel)
    | _ => .panic

/-- Whether the loop of `FieldByIndexes` ends in the panic of `v.Set`: the walk
reaches, through fields that exist, a nil pointer held in a read-only field. -/
def setsReadOnly (env : TypeEnv) (depth : Nat) : ROFlag → Value → List Nat → Bool
  | _, _, [] => false
  | fl, v, i :: rest =>
    match indirect (some v) with
    | some (.struct n fs) =>
      (match fs.toList[i]? with
       | none => false
       | some fv =>
         if fv.isNilPtr && (fieldFlag env fl n i).ro then true
         else setsReadOnly env depth (fieldFlag env fl n i) (allocNil env depth fv) rest)
    | _ => false

/-- Function `FieldByIndexes` on a value without read-only flags, such as one
made by `reflect.ValueOf`, `Alloc` or `reflect.New`. -/
def FieldByIndexes (env : TypeEnv) (depth : Nat) (v : Value) (indexes : List Nat) :
    Outcome (Value × Value) :=
  FieldByIndexesFrom env depth ROFlag.clear v indexes

/-- The loop of `FieldByIndexes` followed by a change `g` of the field it
returns: the value `v` with every nil pointer on the way replaced by a fresh
zero target and the field replaced by its new content, and the error of `g`.
`g` is told whether the field is read-only. -/
def updateAtFrom (env : TypeEnv) (depth : Nat)
    (g : Bool → Value → Outcome (Value × Option ConvError)) :
    ROFlag → Value → List Nat → Outcome (Value × Option ConvError)
  | fl, v, [] => g fl.ro v
  | fl, v, i :: rest =>
    match indirect (some v) with
    | some (.struct n fs) =>
      (match fs.toList[i]? with
       | none => .panic
       | some fv =>
         if fv.isNilPtr && (fieldFlag env fl n i).ro then .panic
         else
           match updateAtFrom env depth g (fieldFlag env fl n i) (allocNil env depth fv) rest with
           | .ok (nv, e) =>
             let s := Value.struct n (ValueList.ofList (fs.toList.set i nv))
             .ok (match v with
               | .ptr _ => (Value.ptr s, e)
               | _ => (s, e))
           | .panic => .panic
           | .outOfFuel => .outOfFuel)
    | _ => .panic

/-- Function `FieldByIndexes`, on a value without read-only flags, followed by
a change `g` of the field it returns. -/
def updateAt (env : TypeEnv) (depth : Nat)
    (g : Bool → Value → Outcome (Value × Option ConvError)) (v : Value) (indexes : List Nat) :
    Outcome (Value × Option ConvError) :=
  updateAtFrom env depth g ROFlag.clear v indexes

/-- The loop of `SetValue` over the elements of a slice: every element of the
source is assigned to a zero element with `set`. -/
def setElems (set : Value → Option Value → Outcome (Value × Option ConvError)) (zero : Value) :
    List Value → Outcome (List Value × Option ConvError)
  | [] => .ok ([], none)
  | e :: es =>
    match set zero (some e) with
    | .ok (nv, none) =>
      (match setElems set zero es with
       | .ok (rest, err) => .ok (nv :: rest, err)
       | .panic => .panic
       | .outOfFuel => .outOfFuel)
    | .ok (_, some err) => .ok ([], some err)
    | .panic => .panic
    | .outOfFuel => .outOfFuel

/-- The loop of `SetValue` over the keys of the map `src`, in the order of
`v.MapKeys()`: the element is looked up with `v.MapIndex(vk)`, which is invalid
for a key that equals no key, key and element are assigned to zero values with
`set`, and `SetMapIndex` puts them into the new map `acc`. -/
def setEntries (set : Value → Option Value → Outcome (Value × Option ConvError))
    (zeroKey zeroElem : Value) (src : GoMap Value Value) :
    List Value → GoMap Value Value → Outcome (GoMap Value Value × Option ConvError)
  | [], acc => .ok (acc, none)
  | vk :: ks, acc =>
    match set zeroKey (some vk) with
    | .ok (key, none) =>
      (match set zeroElem (keyGet src vk) with
       | .ok (elem, none) => setEntries set zeroKey zeroElem src ks (keyPut acc key elem)
       | .ok (_, some err) => .ok (acc, some err)
       | .panic => .panic
       | .outOfFuel => .outOfFuel)
    | .ok (_, some err) => .ok (acc, some err)
    | .panic => .panic
    | .outOfFuel => .outOfFuel

/-- Function `SetValue`: the new content of the field and the error returned.
The first argument bounds the depth of the recursion. -/
def SetValue (env : TypeEnv) (depth : Nat) :
    Nat → Value → Option Value → Outcome (Value × Option ConvError)
  | 0, _, _ => .outOfFuel
  | fuel + 1, field, src =>
    match ifaceElem (indirect src) with
    | none => .ok (field, none)
    | some v =>
      let wrap : Value → Value := match field with
        | .nilPtr _ => Value.ptr
        | .ptr _ => Value.ptr
        | _ => id
      let tgt : Value := match field with
        | .nilPtr e => zeroValue env depth e
        | .ptr t => t
        | x => x
      if tgt.Typ = v.Typ ∨ tgt.Typ.Kind = Kind.Interface then .ok (wrap (assign tgt v), none)
      else
        match tgt.Typ with
        | .named _ => .ok (wrap tgt, some (.typeMismatch tgt.Typ v.Typ))
        | .slice elemT =>
          (match v with
           | .nilSlice _ => .ok (wrap tgt, none)
           | .slice _ elems =>
             (match setElems (SetValue env depth fuel) (zeroValue env depth elemT)
                 elems.toList with
              | .ok (_, some err) => .ok (wrap tgt, some err)
              | .ok (vs, none) => .ok (wrap (.slice elemT (ValueList.ofList vs)), none)
              | .panic => .panic
              | .outOfFuel => .outOfFuel)
           | _ => .ok (wrap tgt, some (.typeMismatch tgt.Typ v.Typ)))
        | .map keyT elemT =>
          (match v with
           | .nilMap _ _ => .ok (wrap tgt, none)
           | .map _ _ entries =>
             (match setEntries (SetValue env depth fuel) (zeroValue env depth (Deref keyT))
                 (zeroValue env depth (Deref elemT)) entries.toList
                 (entries.toList.map Prod.fst) [] with
              | .ok (_, some err) => .ok (wrap tgt, some err)
              | .ok (es, none) =>
                if GoType.map (Deref keyT) (Deref elemT) = GoType.map keyT elemT then
                  .ok (wrap (.map keyT elemT (EntryList.ofList es)), none)
                else .panic
              | .panic => .panic
              | .outOfFuel => .outOfFuel)
           | _ => .ok (wrap tgt, some (.typeMismatch tgt.Typ v.Typ)))
        | _ =>
          (match ValueToStr v with
           | (_, some err) => .ok (wrap tgt, some err)
           | (str, none) =>
             .ok (wrap (StrToValue env depth str tgt).1, (StrToValue env depth str tgt).2))

/-- Function `SetValue` on a field that is read-only: `field.Set` and the
setters of `StrToValue` panic on it, and so does the `v.Set` of
`AllocIndirect` on a nil pointer.  The call returns only where `SetValue`
returns before it writes: for a nil source, for a nil slice or map, and with
an error found before the first write. -/
def SetValueReadOnly (env : TypeEnv) (depth : Nat) :
    Nat → Value → Option Value → Outcome (Value × Option ConvError)
  | 0, _, _ => .outOfFuel
  | fuel + 1, field, src =>
    match ifaceElem (indirect src) with
    | none => .ok (field, none)
    | some v =>
      match field with
      | .nilPtr _ => .panic
      | _ =>
        let tgt : Value := match field with
          | .ptr t => t
          | x => x
        if tgt.Typ = v.Typ ∨ tgt.Typ.Kind = Kind.Interface then .panic
        else
          match tgt.Typ with
          | .named _ => .ok (field, some (.typeMismatch tgt.Typ v.Typ))
          | .slice elemT =>
            (match v with
             | .nilSlice _ => .ok (field, none)
             | .slice _ elems =>
               (match setElems (SetValue env depth fuel) (zeroValue env depth elemT)
                   elems.toList with
                | .ok (_, some err) => .ok (field, some err)
                | .ok (_, none) => .panic
                | .panic => .panic
                | .outOfFuel => .outOfFuel)
             | _ => .ok (field, some (.typeMismatch tgt.Typ v.Typ)))
          | .map keyT elemT =>
            (match v with
             | .nilMap _ _ => .ok (field, none)
             | .map _ _ entries =>
               (match setEntries (SetValue env depth fuel) (zeroValue env depth (Deref keyT))
                   (zeroValue env depth (Deref elemT)) entries.toList
                   (entries.toList.map Prod.fst) [] with
                | .ok (_, some err) => .ok (field, some err)
                | .ok (_, none) => .panic
                | .panic => .panic
                | .outOfFuel => .outOfFuel)
             | _ => .ok (field, some (.typeMismatch tgt.Typ v.Typ)))
          | _ =>
            (match ValueToStr v with
             | (_, some err) => .ok (field, some err)
             | (str, none) =>
               match tgt with
               | .nilPtr _ => .panic
               | .ptr t =>
                 if str = "" then .panic
                 else
                   (match (setByKind str (.ptr t.Typ) t).2 with
                    | some err => .ok (field, some err)
                    | none => .panic)
               | t =>
                 (match (setByKind str t.Typ t).2 with
                  | some err => .ok (field, some err)
                  | none => .panic))

/-! ## reflector.go -/

def StructNameKey : String := "_struct_name"

/-- A `Mapper`: the tag name, the naming function and the cache of the field
trees built so far, keyed by type. -/
structure Mapper where
  tagName : String
  tagFunc : TagFunc
  cache : GoMap GoType StructMap

/-- Method `Mapper.TypeMap`: the cached `StructMap` of the type, or a new one,
which is then stored.  `MustBe` panics when the type is not a struct or a
pointer to one, `getMapping` when two paths collide; `buildFuel` bounds the
traversal of `getMapping`. -/
def Mapper.TypeMap (env : TypeEnv) (buildFuel : Nat) (m : Mapper) (t : GoType) :
    Outcome (StructMap × Mapper) :=
  if (Deref t).Kind ≠ Kind.Struct then .panic
  else
    match mapGet m.cache t with
    | some sm => .ok (sm, m)
    | none =>
      match getMapping env t m.tagName m.tagFunc buildFuel with
      | none => .outOfFuel
      | some (.error _) => .panic
      | some (.ok sm) => .ok (sm, { m with cache := mapPut m.cache t sm })

/-- Method `Mapper.NameMap`: the `StructMap` cached for a type with that name,
the first one in the order of the list when there are several. -/
def Mapper.NameMap (m : Mapper) (name : String) : Option StructMap :=
  (m.cache.find? (fun kv => kv.1.String = name)).map (fun kv => kv.2)

/-- Method `StructMap.GetByPath`. -/
def StructMap.GetByPath (sm : StructMap) (path : String) : Option Nat :=
  if path = "" then some sm.Tree else mapGet sm.Paths path

/-- Method `StructMap.GetByTraversal`. -/
def StructMap.GetByTraversal (sm : StructMap) (index : List Nat) : Option Nat :=
  if index.length = 0 then some sm.Tree
  else sm.Fields.find? (fun p => indexEqual index (deref sm.heap p).Index)

/-- Function `getField` on a value with read-only flags `fl`: the value to
encode, invalid (`none`) for a nil pointer, and its flags.  A nil interface
found in a field makes `fV.Type()` panic, and `fV.Interface()` panics on an
interface that is read-only. -/
def getField (env : TypeEnv) (fl : ROFlag) (index : Option (List Nat)) (val : Option Value) :
    Outcome (Option Value × ROFlag) :=
  match (match index with
    | some idx => FieldByIndexesReadOnly val idx
    | none => Outcome.ok val) with
  | .ok fV =>
    let flV : ROFlag := match index with
      | some idx => flagAt env fl val idx
      | none => fl
    (match indirect fV with
     | none => .ok (none, flV)
     | some (.iface d) =>
       if flV.ro then .panic
       else
         (match indirect (some d) with
          | none => .panic
          | some x => .ok (some x, ROFlag.clear))
     | some .nilIface => .panic
     | some x => .ok (some x, flV))
  | .panic => .panic
  | .outOfFuel => .outOfFuel

/-- The tree that `encode` uses for the elements of a slice or a map: the tree
of the element type when that is a struct, none otherwise. -/
def elemTree (env : TypeEnv) (buildFuel : Nat) (m : Mapper) (elemT : GoType) :
    Outcome (Option (StructMap × Nat) × Mapper) :=
  if elemT.Kind = Kind.Struct then
    match m.TypeMap env buildFuel elemT with
    | .ok (sm, m1) => .ok (some (sm, sm.Tree), m1)
    | .panic => .panic
    | .outOfFuel => .outOfFuel
  else .ok (none, m)

/-- The body of the loop of `encode` over the children of a struct: the child
is encoded with `enc` and stored under its name unless the result is nil. -/
def encodeChild (enc : Mapper → Option (StructMap × Nat) → ROFlag → Option Value →
      Outcome (Option Value × Mapper))
    (c : StructMap × Nat) (fl : ROFlag) (val : Option Value)
    (acc : Outcome (GoMap Value Value × Mapper)) (child : Nat) :
    Outcome (GoMap Value Value × Mapper) :=
  match acc with
  | .ok (mp, mc) =>
    (match enc mc (some (c.1, child)) fl val with
     | .ok (some elem, mc1) =>
       .ok (mapPut mp (.str (deref c.1.heap child).Name) (.iface elem), mc1)
     | .ok (none, mc1) => .ok (mp, mc1)
     | .panic => .panic
     | .outOfFuel => .outOfFuel)
  | other => other

/-- The body of the loop of `encode` over the elements of a slice: the encoded
element is appended, nil included.  `fl` are the flags of `fV.Index(i)`. -/
def encodeElem (enc : Mapper → Option (StructMap × Nat) → ROFlag → Option Value →
      Outcome (Option Value × Mapper))
    (elemFi : Option (StructMap × Nat)) (fl : ROFlag)
    (acc : Outcome (List Value × Mapper)) (e : Value) : Outcome (List Value × Mapper) :=
  match acc with
  | .ok (out, mc) =>
    (match enc mc elemFi fl (some e) with
     | .ok (some elem, mc1) => .ok (out ++ [.iface elem], mc1)
     | .ok (none, mc1) => .ok (out ++ [.nilIface], mc1)
     | .panic => .panic
     | .outOfFuel => .outOfFuel)
  | other => other

/-- The body of the loop of `encode` over the keys of the map `src`: the
element is looked up with `fV.MapIndex(k)`, which is invalid for a key that
equals no key; `SetMapIndex` stores the encoded element, and deletes the key
when the element is nil.  `fl` are the flags of the key and of the element;
`SetMapIndex` panics on a key that is read-only. -/
def encodeEntry (enc : Mapper → Option (StructMap × Nat) → ROFlag → Option Value →
      Outcome (Option Value × Mapper))
    (elemFi : Option (StructMap × Nat)) (fl : ROFlag) (src : GoMap Value Value)
    (acc : Outcome (GoMap Value Value × Mapper)) (k : Value) :
    Outcome (GoMap Value Value × Mapper) :=
  match acc with
  | .ok (mp, mc) =>
    (match enc mc elemFi fl (keyGet src k) with
     | .ok (some elem, mc1) => if fl.ro then .panic else .ok (keyPut mp k (.iface elem), mc1)
     | .ok (none, mc1) => if fl.ro then .panic else .ok (keyDelete mp k, mc1)
     | .panic => .panic
     | .outOfFuel => .outOfFuel)
  | other => other

/-- The statement `if val.Kind() == reflect.Interface { val =
reflect.ValueOf(val.Interface()) }` of `encode` on a value with read-only
flags `fl`: the dynamic value of an interface, without flags, and any other
value as it is; `none` when `Interface` panics, on an interface that is
read-only. -/
def dynamicOf (fl : ROFlag) (val : Option Value) : Option (Option Value × ROFlag) :=
  match val with
  | some (.iface d) => if fl.ro then none else some (some d, ROFlag.clear)
  | some .nilIface => if fl.ro then none else some (none, ROFlag.clear)
  | v => some (v, fl)

/-- Method `reflector.encode` on a value with read-only flags `fl0`: the
encoded value (`none` for nil) and the mapper, whose cache `TypeMap` may have
grown.  `fi` is a pointer into the heap of a `StructMap`, or nil; the first
argument bounds the depth of recursion.  `Interface` panics on a value that is
read-only. -/
def encode (env : TypeEnv) (buildFuel : Nat) :
    Nat → Mapper → Option (StructMap × Nat) → ROFlag → Option Value →
      Outcome (Option Value × Mapper)
  | 0, _, _, _, _ => .outOfFuel
  | fuel + 1, m, fi, fl0, val0 =>
    match dynamicOf fl0 val0 with
    | none => .panic
    | some (val, fl) =>
      match getField env fl (fi.map (fun c => (deref c.1.heap c.2).Index)) val with
      | .panic => .panic
      | .outOfFuel => .outOfFuel
      | .ok (none, _) => .ok (none, m)
      | .ok (some fV, flV) =>
        match fV with
        | .struct name _ =>
          (match (match fi with
              | some c => Outcome.ok (c, m)
              | none =>
                match m.TypeMap env buildFuel (.named name) with
                | .ok (sm, m1) => .ok ((sm, sm.Tree), m1)
                | .panic => .panic
                | .outOfFuel => .outOfFuel) with
           | .panic => .panic
           | .outOfFuel => .outOfFuel
           | .ok (c, m1) =>
             match (deref c.1.heap c.2).Children.foldl
                 (encodeChild (encode env buildFuel fuel) c fl val)
                 (.ok ([(Value.str StructNameKey,
                   Value.iface (.str (GoType.named name).String))], m1)) with
             | .ok (mp, m2) => .ok (some (.map .string .iface (EntryList.ofList mp)), m2)
             | .panic => .panic
             | .outOfFuel => .outOfFuel)
        | .nilSlice _ => .ok (none, m)
        | .slice elemT elems =>
          if elems.toList.length = 0 then .ok (none, m)
          else
            (match elemTree env buildFuel m (Deref elemT) with
             | .panic => .panic
             | .outOfFuel => .outOfFuel
             | .ok (elemFi, m1) =>
               match elems.toList.foldl
                   (encodeElem (encode env buildFuel fuel) elemFi flV.elem) (.ok ([], m1)) with
               | .ok (out, m2) => .ok (some (.slice .iface (ValueList.ofList out)), m2)
               | .panic => .panic
               | .outOfFuel => .outOfFuel)
        | .nilMap _ _ => .ok (none, m)
        | .map keyT elemT entries =>
          if entries.toList.length = 0 then .ok (none, m)
          else
            (match elemTree env buildFuel m (Deref elemT) with
             | .panic => .panic
             | .outOfFuel => .outOfFuel
             | .ok (elemFi, m1) =>
               match (entries.toList.map Prod.fst).foldl
                   (encodeEntry (encode env buildFuel fuel) elemFi flV.elem entries.toList)
                   (.ok ([], m1)) with
               | .ok (mp, m2) => .ok (some (.map keyT .iface (EntryList.ofList mp)), m2)
               | .panic => .panic
               | .outOfFuel => .outOfFuel)
        | v => if flV.ro then .panic else .ok (some v, m)

/-- The errors of `decode`. -/
inductive DecodeError
  /-- The error "reflectx: unknown struct name: ...". -/
  | unknownStruct (name : String)
  /-- The error "reflectx: ... is not a path in struct ...". -/
  | notAPath (key : String) (structName : String)
  /-- An error of `SetValue`. -/
  | conv (e : ConvError)
  deriving DecidableEq, Repr

/-- Function `getStructName`. -/
def getStructName (mp : List (Value × Value)) : String :=
  match mapGet mp (.str StructNameKey) with
  | some (.iface (.str name)) => name
  | _ => ""

/-- The body of the loop of `decode` over a map without the marker. -/
def decodeEntry (dec : Option Value → Outcome (Except DecodeError (Option Value)))
    (acc : Outcome (Except DecodeError (GoMap Value Value))) (kv : Value × Value) :
    Outcome (Except DecodeError (GoMap Value Value)) :=
  match acc with
  | .ok (.ok mp) =>
    (match dec (ifaceElem (some kv.2)) with
     | .ok (.ok (some d)) => .ok (.ok (mapPut mp kv.1 (.iface d)))
     | .ok (.ok none) => .ok (.ok (mapPut mp kv.1 .nilIface))
     | .ok (.error e) => .ok (.error e)
     | .panic => .panic
     | .outOfFuel => .outOfFuel)
  | other => other

/-- The body of the loop of `decode` over a slice. -/
def decodeElem (dec : Option Value → Outcome (Except DecodeError (Option Value)))
    (acc : Outcome (Except DecodeError (List Value))) (e : Value) :
    Outcome (Except DecodeError (List Value)) :=
  match acc with
  | .ok (.ok out) =>
    (match dec (ifaceElem (some e)) with
     | .ok (.ok (some d)) => .ok (.ok (out ++ [.iface d]))
     | .ok (.ok none) => .ok (.ok (out ++ [.nilIface]))
     | .ok (.error err) => .ok (.error err)
     | .panic => .panic
     | .outOfFuel => .outOfFuel)
  | other => other

/-- The body of the loop of `mapToStruct` (called with an empty prefix): the
marker and nil values are passed over; the key is looked up as a path,
`FieldByIndexes` walks to the field, the value is decoded with `dec` and
assigned to the field with `set`, which is told whether the field is
read-only. -/
def mapToStructEntry (env : TypeEnv) (depth : Nat)
    (dec : Option Value → Outcome (Except DecodeError (Option Value)))
    (set : Bool → Value → Option Value → Outcome (Value × Option ConvError)) (sm : StructMap)
    (acc : Outcome (Except DecodeError Value)) (kv : Value × Value) :
    Outcome (Except DecodeError Value) :=
  match acc with
  | .ok (.ok structV) =>
    (match kv.1, kv.2 with
     | .str k, .iface v =>
       if k = StructNameKey then acc
       else
         (match sm.GetByPath k with
          | none =>
            .ok (.error (.notAPath k
              (Deref (Alloc env depth (deref sm.heap sm.Tree).Typ).Typ).String))
          | some fi =>
            match FieldByIndexes env depth structV (deref sm.heap fi).Index with
            | .panic => .panic
            | .outOfFuel => .outOfFuel
            | .ok _ =>
              match dec (some v) with
              | .ok (.ok field) =>
                (match updateAt env depth (fun ro fieldV => set ro fieldV field) structV
                    (deref sm.heap fi).Index with
                 | .ok (nv, none) => .ok (.ok nv)
                 | .ok (_, some e) => .ok (.error (.conv e))
                 | .panic => .panic
                 | .outOfFuel => .outOfFuel)
              | .ok (.error e) => .ok (.error e)
              | .panic => .panic
              | .outOfFuel => .outOfFuel)
     | _, _ => acc)
  | other => other

/-- Methods `reflector.decode` and `reflector.mapToStruct`: the decoded value
(`none` for nil) or the error.  The entries of a map are visited in the order
of the list.  The first argument bounds the depth of recursion. -/
def decode (env : TypeEnv) (depth : Nat) (m : Mapper) :
    Nat → Option Value → Outcome (Except DecodeError (Option Value))
  | 0, _ => .outOfFuel
  | fuel + 1, val =>
    match val with
    | some (.map .string .iface entries) =>
      if entries.toList.length = 0 then .ok (.ok val)
      else if getStructName entries.toList = "" then
        match entries.toList.foldl (decodeEntry (decode env depth m fuel)) (.ok (.ok [])) with
        | .ok (.ok mp) => .ok (.ok (some (.map .string .iface (EntryList.ofList mp))))
        | .ok (.error e) => .ok (.error e)
        | .panic => .panic
        | .outOfFuel => .outOfFuel
      else
        match m.NameMap (getStructName entries.toList) with
        | none => .ok (.error (.unknownStruct (getStructName entries.toList)))
        | some sm =>
          match entries.toList.foldl
              (mapToStructEntry env depth (decode env depth m fuel)
                (fun ro => if ro then SetValueReadOnly env depth (fuel + 1)
                  else SetValue env depth (fuel + 1)) sm)
              (.ok (.ok (Alloc env depth (deref sm.heap sm.Tree).Typ))) with
          | .ok (.ok structV) => .ok (.ok (some structV))
          | .ok (.error e) => .ok (.error e)
          | .panic => .panic
          | .outOfFuel => .outOfFuel
    | some (.slice .iface elems) =>
      if elems.toList.length = 0 then .ok (.ok val)
      else
        match elems.toList.foldl (decodeElem (decode env depth m fuel)) (.ok (.ok [])) with
        | .ok (.ok out) => .ok (.ok (some (.slice .iface (ValueList.ofList out))))
        | .ok (.error e) => .ok (.error e)
        | .panic => .panic
        | .outOfFuel => .outOfFuel
    | v => .ok (.ok v)

/-! ## Records of scalars -/

/-- A scalar type: a boolean, an integer, a float or a string. -/
def scalarType : GoType → Bool
  | .bool => true
  | .int _ => true
  | .uint _ => true
  | .float _ => true
  | .string => true
  | _ => false

/-- A scalar type or a pointer to one. -/
def flatType : GoType → Bool
  | .ptr e => scalarType e
  | t => scalarType t

/-- A value of a scalar type, or of a pointer to one: nil or pointing to a scalar. -/
def flatValue (t : GoType) (v : Value) : Bool :=
  match v with
  | .ptr w => decide (t = .ptr w.Typ) && scalarType w.Typ
  | .nilPtr e => decide (t = .ptr e) && scalarType e
  | w => decide (t = w.Typ) && scalarType t

/-- The name under which a field is mapped: the first result of the naming
function on the field name and the tag text. -/
def canonicalName (tagName : String) (tagFunc : TagFunc) (f : StructField) : String :=
  (tagFunc f.Name (fieldTag f tagName)).1

/-- The `FieldInfo` of field `i` of a struct whose fields are the children of
the root. -/
def flatInfo (tagName : String) (tagFunc : TagFunc) (i : Nat) (f : StructField) : FieldInfo :=
  { Index := [i]
    IsPtr := f.Typ.Kind == Kind.Ptr
    Typ := f.Typ
    Name := (tagFunc f.Name (fieldTag f tagName)).1
    Parts := (tagFunc f.Name (fieldTag f tagName)).2
    Options := parseOptions (tagFunc f.Name (fieldTag f tagName)).2
    Embedded := f.Anonymous
    Children := []
    Parent := some 0
    Path := (tagFunc f.Name (fieldTag f tagName)).1 }

/-- The `FieldInfo`s of the fields from position `pos` on. -/
def flatInfos (tagName : String) (tagFunc : TagFunc) : Nat → List StructField → List FieldInfo
  | _, [] => []
  | pos, f :: fs => flatInfo tagName tagFunc pos f :: flatInfos tagName tagFunc (pos + 1) fs

/-- What `encode` stores for a field of a record of scalars: nothing for a nil
pointer, the target of a pointer, the value otherwise. -/
def encField : Value → Option Value
  | .ptr w => some w
  | .nilPtr _ => none
  | v => some v

/-- The heap that `getMapping` builds for a struct named `n` whose fields `fs`
are all children of the root: the root and one `FieldInfo` per field. -/
def flatHeap (tagName : String) (tagFunc : TagFunc) (n : String) (fs : List StructField) : Heap :=
  { Index := [], Path := "", IsPtr := false, Typ := .named n, Name := n, Parts := [],
    Options := [], Embedded := false, Children := List.range' 1 fs.length, Parent := none } ::
  flatInfos tagName tagFunc 0 fs

/-- The entries that `encode` stores for the fields of a record of scalars, in
the order of the fields. -/
def flatEntries (tagName : String) (tagFunc : TagFunc) :
    List StructField → List Value → List (Value × Value)
  | f :: fs, v :: vs =>
    match encField v with
    | some e => (.str (canonicalName tagName tagFunc f), .iface e) ::
        flatEntries tagName tagFunc fs vs
    | none => flatEntries tagName tagFunc fs vs
  | _, _ => []

/-- Method `reflector.Register`: the mapper after `TypeMap(Deref(t))`. -/
def Register (env : TypeEnv) (buildFuel : Nat) (m : Mapper) (t : GoType) : Outcome Mapper :=
  match m.TypeMap env buildFuel (Deref t) with
  | .ok (_, m1) => .ok m1
  | .panic => .panic
  | .outOfFuel => .outOfFuel

/-- The mapper of `testDecode` in reflector_test.go, after `Bar`, `Foo`, `FooBar`
and `struct{}` have been registered with a reflector made by
`NewReflector(format, "", nil)`. -/
def testMapper : Mapper :=
  [GoType.named "reflectx.Bar", .named "reflectx.Foo", .named "reflectx.FooBar",
    .named "struct {}"].foldl
    (fun m t => match Register testEnv 10 m t with
      | .ok m1 => m1
      | _ => m)
    ⟨"reflector", StdTagFunc, []⟩

/-- The `StructMap` that `testMapper` holds for the type of that name. -/
def testMap (name : String) : StructMap :=
  (testMapper.NameMap name).getD ⟨[], 0, [], [], []⟩

/-- The value `bar := Bar{&i, &s}` of `testDecode`, with `i := 1` and
`s := "string"`. -/
def barValue : Value :=
  .struct "reflectx.Bar" (ValueList.ofList [.ptr (.int .Int 1), .ptr (.str "string")])

/-- The map `mp` of `testDecode`. -/
def mpValue : Value :=
  .map .string .iface (EntryList.ofList
    [(.str "float64", .iface (.float .Float64 (.fin 1 0))),
     (.str "struct", .iface (.struct "struct {}" .nil)),
     (.str "bar", .iface barValue)])

/-- The value `f := Foo{F: 1, O: mp}` of `testDecode`. -/
def fooValue : Value :=
  .struct "reflectx.Foo" (ValueList.ofList [.int .Int 1, mpValue])

/-- The value `fb` of `testDecode`. -/
def fooBarValue : Value :=
  .struct "reflectx.FooBar" (ValueList.ofList
    [fooValue, barValue, .ptr barValue,
     .slice (.named "reflectx.Foo") (ValueList.ofList [fooValue, fooValue]),
     .ptr (.slice (.named "reflectx.Foo") (ValueList.ofList [fooValue, fooValue])),
     .ptr (.slice (.ptr (.named "reflectx.Foo"))
       (ValueList.ofList [.ptr fooValue, .nilPtr (.named "reflectx.Foo"), .ptr fooValue]))])

/-- A `Foo` whose map `O` has one entry, under the key that `encode` reserves
for the name of a struct: `Foo{F: 1, O: map[string]interface{}{"_struct_name": "zzz"}}`. -/
def fooReserved : Value :=
  .struct "reflectx.Foo" (ValueList.ofList
    [.int .Int 1,
     .map .string .iface (EntryList.ofList [(.str "_struct_name", .iface (.str "zzz"))])])

/-- `decode` after `encode` on a record, as `Decode` after `Encode` run them
but without the serialiser between the two: the field tree comes from
`TypeMap`, as in the struct branch of `Encode`, and `decode` sees the cache
that `encode` leaves. -/
def roundTrip (env : TypeEnv) (buildFuel depth fuel : Nat) (m : Mapper) (obj : Value) :
    Outcome (Except DecodeError (Option Value)) :=
  match m.TypeMap env buildFuel (Deref obj.Typ) with
  | .ok (sm, m1) =>
    (match encode env buildFuel fuel m1 (some (sm, sm.Tree)) ROFlag.clear
        (indirect (some obj)) with
     | .ok (e, m2) => decode env depth m2 fuel e
     | .panic => .panic
     | .outOfFuel => .outOfFuel)
  | .panic => .panic
  | .outOfFuel => .outOfFuel

/-! ## Walking a record along an index path -/

/-- Whether a value agrees with the declarations of `env`, looked at `d` levels
deep: a pointer counts for one level, and a struct for one level, on which it
must have the fields that its type declares, each holding a value of the
declared type. -/
def conforms (env : TypeEnv) : Nat → Value → Bool
  | 0, _ => true
  | d + 1, .ptr x => conforms env d x
  | d + 1, .struct n fs =>
    decide (fs.toList.length = (env n).length) &&
      (fs.toList.zip (env n)).all (fun p => decide (p.1.Typ = p.2.Typ) && conforms env d p.1)
  | _ + 1, _ => true

/-! ## Tags read by their words -/

/-- The tokens of a tag joined by commas. -/
def joinTokens : List String → List Char
  | [] => []
  | [t] => t.data
  | t :: rest => t.data ++ ',' :: joinTokens rest

/-- An annotation part read by the words of the specification: the text before
the first "=" as key and the text after it as value, or the part itself as key
with the empty value when it holds no "=". -/
def optionOf (opt : String) : String × String :=
  if '=' ∈ opt.data then
    (String.mk (opt.data.takeWhile (fun c => c ≠ '=')),
      String.mk ((opt.data.dropWhile (fun c => c ≠ '=')).tail))
  else (opt, "")

/-- The `StructMap` of `FlatInner`, whose field `Skip` is tagged "-". -/
def flatInnerMap : StructMap :=
  match getMapping flatEnv (.named "FlatInner") "reflector" StdTagFunc 3 with
  | some (.ok sm) => sm
  | _ => ⟨[], 0, [], [], []⟩

/-! ## A record with a dynamic field -/

/-- The declaration `type Holder struct { X interface{}; N int }`. -/
def holderEnv : TypeEnv := fun n =>
  if n = "Holder" then [mkField "X" .iface [] false, mkField "N" (.int .Int) [] false]
  else []

/-- The value `Holder{X: x, N: 0}`. -/
def holderValue (x : Value) : Value :=
  .struct "Holder" (ValueList.ofList [x, .int .Int 0])

/-- The struct branch of `Encode`, up to the serialiser: the field tree comes
from `TypeMap` and `encode` starts at its root. -/
def encodeRecord (env : TypeEnv) (buildFuel fuel : Nat) (m : Mapper) (obj : Value) :
    Outcome (Option Value) :=
  match m.TypeMap env buildFuel (Deref obj.Typ) with
  | .ok (sm, m1) =>
    (match encode env buildFuel fuel m1 (some (sm, sm.Tree)) ROFlag.clear
        (indirect (some obj)) with
     | .ok (e, _) => .ok e
     | .panic => .panic
     | .outOfFuel => .outOfFuel)
  | .panic => .panic
  | .outOfFuel => .outOfFuel

/-- A map that names `Bar` and carries a second `Bar` under the empty key:
`{"_struct_name": "reflectx.Bar", "": {"_struct_name": "reflectx.Bar", "B": 1}}`. -/
def emptyKeyMap : Value :=
  .map .string .iface (EntryList.ofList
    [(.str "_struct_name", .iface (.str "reflectx.Bar")),
     (.str "", .iface (.map .string .iface (EntryList.ofList
        [(.str "_struct_name", .iface (.str "reflectx.Bar")),
         (.str "B", .iface (.float .Float64 (.fin 1 0)))])))])

/-- An entry that the loop of `mapToStruct` passes over: the marker, or a nil
value. -/
def passedOver (kv : Value × Value) : Prop :=
  kv.1 = .str StructNameKey ∨ kv.2 = .nilIface

instance (kv : Value × Value) : Decidable (passedOver kv) := by
  unfold passedOver
  infer_instance

/-! ## reflect.DeepEqual -/

mutual
/-- Function `reflect.DeepEqual` on two values: values of different types are
never deeply equal; a nil pointer, slice, map or interface equals only a nil
one of its type; floats are compared with `==`. -/
def deepEqual : Value → Value → Bool
  | .bool a, .bool b => a == b
  | .int k a, .int l b => decide (k = l) && decide (a = b)
  | .uint k a, .uint l b => decide (k = l) && decide (a = b)
  | .float k a, .float l b => decide (k = l) && a.eq b
  | .str a, .str b => decide (a = b)
  | .other k, .other l => decide (k = l)
  | .nilPtr e, .nilPtr f => decide (e = f)
  | .ptr a, .ptr b => deepEqual a b
  | .struct n fs, .struct m gs => decide (n = m) && deepEqualList fs gs
  | .nilSlice e, .nilSlice f => decide (e = f)
  | .slice e xs, .slice f ys => decide (e = f) && deepEqualList xs ys
  | .nilMap k e, .nilMap l f => decide (k = l) && decide (e = f)
  | .map k e xs, .map l f ys =>
    decide (k = l) && decide (e = f) && decide (xs.toList.length = ys.toList.length) &&
      deepEqualEntries xs ys.toList
  | .nilIface, .nilIface => true
  | .iface a, .iface b => deepEqual a b
  | _, _ => false
/-- The elements of two sequences of the same length are deeply equal, one by one. -/
def deepEqualList : ValueList → ValueList → Bool
  | .nil, .nil => true
  | .cons a as, .cons b bs => deepEqual a b && deepEqualList as bs
  | _, _ => false
/-- Every key of the first map is a key of the second, found with `MapIndex`,
with a deeply equal value. -/
def deepEqualEntries : EntryList → List (Value × Value) → Bool
  | .nil, _ => true
  | .cons k v rest, ys =>
    (match keyGet ys k with
     | some w => deepEqual v w
     | none => false) && deepEqualEntries rest ys
end

/-! ## default.go -/

/-- Function `DefaultTagFunc`. -/
def DefaultTagFunc : TagFunc := fun fieldName tag =>
  if tag = IgnoreThisField then (IgnoreThisField, [])
  else if tag = "" then (fieldName, [])
  else (fieldName, strSplit tag ',')

/-- The type `defaultField`: the index path of a field, the zero value of its
dereferenced type and its default value. -/
structure defaultField where
  index : List Nat
  zero : Value
  defaultVal : Value
  deriving DecidableEq, Repr

/-- The type `defaultStruct`: the fields of a struct that have a default, the
zero value of the struct and its default value. -/
structure defaultStruct where
  fields : List defaultField
  zero : Value
  defaultVal : Value
  deriving DecidableEq, Repr

/-- A `DefaultMapper`: the tag name and the naming function of its `Mapper`.
The cache of the mapper and the cache of `defaultStruct` values only memoise,
they are left out: every call computes its result from the type. -/
structure DefaultMapper where
  tagName : String
  tagFunc : TagFunc

/-- Function `NewDefaultMapper`; a nil `tagFunc` is `none`. -/
def NewDefaultMapper (tagName : String) (tagFunc : Option TagFunc) : DefaultMapper :=
  ⟨if tagName = "" then "default" else tagName, tagFunc.getD DefaultTagFunc⟩

/-- The variable `defaultMapper`. -/
def defaultMapper : DefaultMapper := NewDefaultMapper "" (some DefaultTagFunc)

/-- The calls `kv := Alloc(t); StrToValue(s, kv)` of the map case, with the
panic on an error.  For a pointer type `Alloc` returns a pointer that cannot be
set, and `StrToValue` sets the field to nil for the empty text: that panics. -/
def parseAlloc (env : TypeEnv) (depth : Nat) (t : GoType) (s : String) : Outcome Value :=
  if t.Kind = Kind.Ptr ∧ s = "" then .panic
  else
    match StrToValue env depth s (Alloc env depth t) with
    | (v, none) => .ok v
    | (_, some _) => .panic

/-- The loop of the map case over `fi.Options`, in the order of the list. -/
def defaultEntries (env : TypeEnv) (depth : Nat) (keyT elemT : GoType) :
    List (String × String) → GoMap Value Value → Outcome (GoMap Value Value)
  | [], mp => .ok mp
  | (k, v) :: rest, mp =>
    match parseAlloc env depth keyT k with
    | .ok kv =>
      (match parseAlloc env depth elemT v with
       | .ok vv => defaultEntries env depth keyT elemT rest (keyPut mp kv vv)
       | .panic => .panic
       | .outOfFuel => .outOfFuel)
    | .panic => .panic
    | .outOfFuel => .outOfFuel

/-- The loop of the slice case over `fi.Parts`: part `i` is parsed into element
`i` of the new slice, a zero value of the element type; an error panics. -/
def defaultElems (env : TypeEnv) (depth : Nat) (elemT : GoType) :
    List String → Outcome (List Value)
  | [] => .ok []
  | s :: rest =>
    match StrToValue env depth s (zeroValue env depth elemT) with
    | (v, none) =>
      (match defaultElems env depth elemT rest with
       | .ok vs => .ok (v :: vs)
       | .panic => .panic
       | .outOfFuel => .outOfFuel)
    | (_, some _) => .panic

/-- The value `df.defaultVal` that `getDefaultStruct` builds for a child of the
tree, `none` when the loop reaches `continue` in the struct case.  `gds` is the
recursive call. -/
def fieldDefault (env : TypeEnv) (depth : Nat) (gds : GoType → Outcome defaultStruct)
    (fi : FieldInfo) : Outcome (Option Value) :=
  match (match Deref fi.Typ with
    | .named n =>
      (match gds (.named n) with
       | .ok child => if child.fields.length = 0 then Outcome.ok none
                      else .ok (some child.defaultVal)
       | .panic => .panic
       | .outOfFuel => .outOfFuel)
    | .map keyT elemT =>
      (match defaultEntries env depth keyT elemT fi.Options [] with
       | .ok mp => .ok (some (.map keyT elemT (EntryList.ofList mp)))
       | .panic => .panic
       | .outOfFuel => .outOfFuel)
    | .slice elemT =>
      (match defaultElems env depth elemT fi.Parts with
       | .ok vs => .ok (some (.slice elemT (ValueList.ofList vs)))
       | .panic => .panic
       | .outOfFuel => .outOfFuel)
    | fT =>
      (match fi.Parts with
       | [] => .panic
       | p :: _ =>
         match StrToValue env depth p (zeroValue env depth fT) with
         | (v, none) => .ok (some v)
         | (_, some _) => .panic)) with
  | .ok (some dv) =>
    .ok (some (match fi.Typ with
      | .ptr _ => Value.ptr dv
      | _ => dv))
  | other => other

/-- Whether `FieldByIndexes(v, index).Set(x)` is allowed on an addressable
value `v` of type `t`: the field at the end of the path is exported, and so is
every pointer on the way, which `FieldByIndexes` sets when it is nil.  A value
read through an unexported field cannot be set. -/
def settablePath (env : TypeEnv) : GoType → List Nat → Bool
  | _, [] => true
  | t, i :: rest =>
    match (fieldsOf env (Deref t))[i]? with
    | none => false
    | some f =>
      (decide (f.PkgPath = "") || (!rest.isEmpty && decide (f.Typ.Kind ≠ Kind.Ptr))) &&
        settablePath env f.Typ rest

/-- The body of the loop of `getDefaultStruct` over the children of the tree. -/
def defaultStep (env : TypeEnv) (depth : Nat) (typ : GoType)
    (gds : GoType → Outcome defaultStruct) (heap : Heap)
    (acc : Outcome defaultStruct) (c : Nat) : Outcome defaultStruct :=
  match acc with
  | .ok ds =>
    if (Deref (deref heap c).Typ).Kind ≠ Kind.Struct ∧ (deref heap c).Parts.length = 0 then acc
    else
      match fieldDefault env depth gds (deref heap c) with
      | .ok none => acc
      | .ok (some dval) =>
        if settablePath env typ (deref heap c).Index then
          match updateAt env depth
              (fun ro old => if ro then .panic
                else if old.Typ = dval.Typ then .ok (dval, none) else .panic)
              ds.defaultVal (deref heap c).Index with
          | .ok (nv, _) =>
            .ok { ds with
              fields := ds.fields ++
                [⟨(deref heap c).Index, zeroValue env depth (Deref (deref heap c).Typ), dval⟩]
              defaultVal := nv }
          | .panic => .panic
          | .outOfFuel => .outOfFuel
        else .panic
      | .panic => .panic
      | .outOfFuel => .outOfFuel
  | other => other

/-- Method `DefaultMapper.getDefaultStruct`.  `buildFuel` bounds the traversal
of `getMapping`, `depth` the expansion of zero values, the first argument the
depth of recursion. -/
def getDefaultStruct (env : TypeEnv) (dm : DefaultMapper) (buildFuel depth : Nat) :
    Nat → GoType → Outcome defaultStruct
  | 0, _ => .outOfFuel
  | fuel + 1, typ =>
    if typ.Kind ≠ Kind.Struct then .panic
    else
      match getMapping env typ dm.tagName dm.tagFunc buildFuel with
      | none => .outOfFuel
      | some (.error _) => .panic
      | some (.ok sm) =>
        (deref sm.heap sm.Tree).Children.foldl
          (defaultStep env depth typ (getDefaultStruct env dm buildFuel depth fuel) sm.heap)
          (.ok ⟨[], zeroValue env depth typ, zeroValue env depth typ⟩)

/-- Whether field `i` of struct type `t` is exported. -/
def exportedField (env : TypeEnv) (t : GoType) (i : Nat) : Bool :=
  match (fieldsOf env t)[i]? with
  | some f => decide (f.PkgPath = "")
  | none => false

/-- The body of the loop of `SetDefault` over `ds.fields`, on the struct `val`
points to.  `sd` is the recursive call.  `v.Set`, `v.Interface()` and
`v.Addr().Interface()` panic on a field that is not exported. -/
def setDefaultField (env : TypeEnv) (sd : Value → Outcome Value)
    (acc : Outcome Value) (df : defaultField) : Outcome Value :=
  match acc with
  | .ok (.struct n fs) =>
    (match df.index with
     | [] => .panic
     | i :: _ =>
       match fs.toList[i]? with
       | none => .panic
       | some v =>
         match v with
         | .nilPtr e =>
           if exportedField env (.named n) i ∧ df.defaultVal.Typ = .ptr e then
             .ok (.struct n (ValueList.ofList (fs.toList.set i df.defaultVal)))
           else .panic
         | .ptr (.struct n2 fs2) =>
           if exportedField env (.named n) i then
             match sd (.struct n2 fs2) with
             | .ok r => .ok (.struct n (ValueList.ofList (fs.toList.set i (.ptr r))))
             | .panic => .panic
             | .outOfFuel => .outOfFuel
           else .panic
         | .ptr _ => acc
         | .struct n2 fs2 =>
           if exportedField env (.named n) i then
             match sd (.struct n2 fs2) with
             | .ok r => .ok (.struct n (ValueList.ofList (fs.toList.set i r)))
             | .panic => .panic
             | .outOfFuel => .outOfFuel
           else .panic
         | v =>
           if exportedField env (.named n) i then
             if deepEqual df.zero v then
               if df.defaultVal.Typ = v.Typ ∨ v.Typ = .iface then
                 .ok (.struct n (ValueList.ofList (fs.toList.set i (assign v df.defaultVal))))
               else .panic
             else acc
           else .panic)
  | .ok _ => .panic
  | other => other

/-- Method `DefaultMapper.SetDefault` on `ptr`, a pointer to the struct `val`:
the struct after the call.  The first argument bounds the depth of recursion,
`dsFuel` the one of `getDefaultStruct`. -/
def SetDefault (env : TypeEnv) (dm : DefaultMapper) (buildFuel depth dsFuel : Nat) :
    Nat → Value → Outcome Value
  | 0, _ => .outOfFuel
  | fuel + 1, val =>
    match getDefaultStruct env dm buildFuel depth dsFuel val.Typ with
    | .ok ds =>
      if deepEqual ds.zero val then .ok ds.defaultVal
      else ds.fields.foldl (setDefaultField env (SetDefault env dm buildFuel depth dsFuel fuel))
        (.ok val)
    | .panic => .panic
    | .outOfFuel => .outOfFuel

/-- Method `DefaultMapper.AllocDefault`. -/
def AllocDefault (env : TypeEnv) (dm : DefaultMapper) (buildFuel depth dsFuel : Nat)
    (typ : GoType) : Outcome Value :=
  match getDefaultStruct env dm buildFuel depth dsFuel (Deref typ) with
  | .ok ds =>
    .ok (match typ with
      | .ptr _ => .ptr ds.defaultVal
      | _ => ds.defaultVal)
  | .panic => .panic
  | .outOfFuel => .outOfFuel

/-! ## The types of default_test.go -/

/-- The declarations `third`, `FooStruct`, `NoTagStruct` and `FooBarStruct` of
default_test.go. -/
def defaultEnv : TypeEnv := fun n =>
  if n = "reflectx.third" then
    [mkField "Third" .string [("default", "Third")] false]
  else if n = "reflectx.FooStruct" then
    [mkField "Foo" .string [("default", "foo")] false,
     mkField "PFoo" (.ptr .string) [("default", "pfoo")] false,
     mkField "Third" (.named "reflectx.third") [("form", ",inline")] false,
     mkField "Pthird" (.ptr (.named "reflectx.third")) [] false]
  else if n = "reflectx.NoTagStruct" then
    [mkField "A" (.int .Int) [("form", ",omitempty")] false,
     mkField "B" (.int .Int) [("form", ",omitempty")] false]
  else if n = "reflectx.FooBarStruct" then
    [{ Name := "private", PkgPath := "reflectx", Typ := .float .Float32,
       Tag := [("default", "1.23")], Anonymous := false },
     mkField "NoTag" .string [("form", ",")] false,
     mkField "Ignore" .bool [("default", "-"), ("form", "-")] false,
     mkField "Int" (.int .Int) [("default", "9"), ("form", ",omitempty")] false,
     mkField "PInt" (.ptr (.int .Int)) [("default", "10")] false,
     mkField "FooStruct" (.named "reflectx.FooStruct") [("form", "FS")] true,
     mkField "PFS" (.ptr (.named "reflectx.FooStruct")) [("form", ",inline")] false,
     mkField "Bar" (.slice (.int .Int16)) [("default", "1,2,3,4,5")] false,
     mkField "PBar" (.ptr (.slice (.int .Int16))) [("default", "2,3,4,5,6")] false,
     mkField "BarP" (.slice (.ptr (.int .Int64))) [("default", "3,4,5,6,7")] false,
     mkField "PBarP" (.ptr (.slice (.ptr (.int .Int64)))) [("default", "4,5,6,7,8")] false,
     mkField "N" (.named "reflectx.NoTagStruct") [] false,
     mkField "PN" (.ptr (.named "reflectx.NoTagStruct")) [] false]
  else []

/-- The value `thir`. -/
def thirValue : Value := .struct "reflectx.third" (ValueList.ofList [.str "Third"])

/-- The value `fs`. -/
def fsValue : Value :=
  .struct "reflectx.FooStruct"
    (ValueList.ofList [.str "foo", .ptr (.str "pfoo"), thirValue, .ptr thirValue])

/-- A slice of `int16` values. -/
def int16s (ns : List Int) : Value :=
  .slice (.int .Int16) (ValueList.ofList (ns.map (fun n => Value.int .Int16 n)))

/-- A slice of pointers to `int64` values. -/
def int64ptrs (ns : List Int) : Value :=
  .slice (.ptr (.int .Int64)) (ValueList.ofList (ns.map (fun n => Value.ptr (.int .Int64 n))))

/-- The value `fbs`. -/
def fbsValue : Value :=
  .struct "reflectx.FooBarStruct" (ValueList.ofList
    [.float .Float32 (.fin 0 0), .str "", .bool false, .int .Int 9, .ptr (.int .Int 10),
     fsValue, .ptr fsValue, int16s [1, 2, 3, 4, 5], .ptr (int16s [2, 3, 4, 5, 6]),
     int64ptrs [3, 4, 5, 6, 7], .ptr (int64ptrs [4, 5, 6, 7, 8]),
     zeroValue defaultEnv 3 (.named "reflectx.NoTagStruct"),
     .nilPtr (.named "reflectx.NoTagStruct")])

/-- A record with an embedded pointer:
`type Inner struct { A int "default:\"1\"" }` and
`type Outer struct { *Inner; B int }`. -/
def embedEnv : TypeEnv := fun n =>
  if n = "Inner" then [mkField "A" (.int .Int) [("default", "1")] false]
  else if n = "Outer" then
    [mkField "Inner" (.ptr (.named "Inner")) [] true, mkField "B" (.int .Int) [] false]
  else []

/-- The value `Outer{Inner: inner, B: b}`. -/
def outerValue (inner : Value) (b : Int) : Value :=
  .struct "Outer" (ValueList.ofList [inner, .int .Int b])

/-- The value `fbs` with other contents in `Int`, `PInt` and `PFS`. -/
def fbsWith (int : Int) (pint pfs : Value) : Value :=
  .struct "reflectx.FooBarStruct" (ValueList.ofList
    [.float .Float32 (.fin 0 0), .str "", .bool false, .int .Int int, pint,
     fsValue, pfs, int16s [1, 2, 3, 4, 5], .ptr (int16s [2, 3, 4, 5, 6]),
     int64ptrs [3, 4, 5, 6, 7], .ptr (int64ptrs [4, 5, 6, 7, 8]),
     zeroValue defaultEnv 3 (.named "reflectx.NoTagStruct"),
     .nilPtr (.named "reflectx.NoTagStruct")])

/-- A field value that holds something: a scalar other than the zero of its
type, a non-nil slice, map or interface, or a non-nil pointer to a value that
is not a struct. -/
def nonZeroLeaf : Value → Bool
  | .bool b => b
  | .int _ n => decide (n ≠ 0)
  | .uint _ n => decide (n ≠ 0)
  | .float _ f => !(F64.eq (.fin 0 0) f)
  | .str s => decide (s ≠ "")
  | .slice _ _ => true
  | .map _ _ _ => true
  | .iface _ => true
  | .ptr (.struct _ _) => false
  | .ptr _ => true
  | _ => false

/-- The struct `tmp.Struc` of `TestSetDefault` before the call: all zero, but
`Bar` is `[]int16{}` and `BarP` is `[]*int64{nil}`. -/
def tmpStruc : Value :=
  .struct "reflectx.FooBarStruct" (ValueList.ofList
    [.float .Float32 (.fin 0 0), .str "", .bool false, .int .Int 0, .nilPtr (.int .Int),
     zeroValue defaultEnv 3 (.named "reflectx.FooStruct"), .nilPtr (.named "reflectx.FooStruct"),
     int16s [], .nilPtr (.slice (.int .Int16)),
     .slice (.ptr (.int .Int64)) (ValueList.ofList [.nilPtr (.int .Int64)]),
     .nilPtr (.slice (.ptr (.int .Int64))),
     zeroValue defaultEnv 3 (.named "reflectx.NoTagStruct"),
     .nilPtr (.named "reflectx.NoTagStruct")])

/-- The struct `expect.Struc` of `TestSetDefault`. -/
def expectStruc : Value :=
  .struct "reflectx.FooBarStruct" (ValueList.ofList
    [.float .Float32 (.fin 0 0), .str "", .bool false, .int .Int 9, .ptr (.int .Int 10),
     fsValue, .ptr fsValue, int16s [], .ptr (int16s [2, 3, 4, 5, 6]),
     .slice (.ptr (.int .Int64)) (ValueList.ofList [.nilPtr (.int .Int64)]),
     .ptr (int64ptrs [4, 5, 6, 7, 8]),
     zeroValue defaultEnv 3 (.named "reflectx.NoTagStruct"),
     .nilPtr (.named "reflectx.NoTagStruct")])

/-- A record with a comma in the default of a string:
`type Greeting struct { Text string "default:\"a,b\"" }`. -/
def commaEnv : TypeEnv := fun n =>
  if n = "Greeting" then [mkField "Text" .string [("default", "a,b")] false]
  else []

/-! ## value.go

A `Value` of value.go holds an `interface{}`: the dynamic value, or nil
(`none`). -/

/-- The errors of the conversions of value.go. -/
inductive ValueError
  /-- The error `ErrNil`. -/
  | ErrNil
  /-- An error of `floatToInt` or `parseInt`. -/
  | conv (e : ConvError)
  /-- The error "can't get int from ...". -/
  | notInt
  deriving DecidableEq, Repr

/-- Method `Value.ToInt64`: the number and the error. -/
def ToInt64 (v : Option Value) : Int × Option ValueError :=
  match v with
  | none => (0, some .ErrNil)
  | some (.int _ n) => (n, none)
  | some (.uint _ n) => (wrapInt 64 n, none)
  | some (.float _ f) =>
    (match floatToInt f with
     | (n, none) => (n, none)
     | (n, some e) => (n, some (.conv e)))
  | some (.str s) =>
    (match parseInt s 64 with
     | (n, none) => (n, none)
     | (n, some e) => (n, some (.conv e)))
  | some _ => (0, some .notInt)

/-- Method `Value.Int64`. -/
def Int64 (v : Option Value) : Int := (ToInt64 v).1

/-- Method `Value.MustInt64`. -/
def MustInt64 (v : Option Value) : Outcome Int :=
  match ToInt64 v with
  | (i, none) => .ok i
  | (_, some _) => .panic

/-- The conversion `float32(n)` of an `int64`. -/
def F64.ofInt32 (n : Int) : F64 := (roundToFloat fmt32 (decide (n < 0)) n.natAbs 1).1

/-- Method `Value.Plus`.  The sums are those of `int64`, which wrap. -/
def Plus (v step : Option Value) : Outcome (Option Value) :=
  match MustInt64 step with
  | .ok i =>
    .ok (match v with
      | none => step
      | some (.int k val) => some (.int k (wrapInt k.bits (wrapInt 64 (val + i))))
      | some (.uint k val) =>
        some (.uint k (wrapUint k.bits ((wrapInt 64 (wrapInt 64 val + i)) % 2 ^ 64).toNat))
      | some (.float .Float32 f) =>
        (match floatToInt f with
         | (orig, none) => some (.float .Float32 (F64.ofInt32 (wrapInt 64 (orig + i))))
         | (_, some _) => step)
      | some (.float .Float64 f) =>
        (match floatToInt f with
         | (orig, none) => some (.float .Float64 (F64.ofInt (wrapInt 64 (orig + i))))
         | (_, some _) => step)
      | some (.str s) =>
        (match parseInt s 64 with
         | (orig, none) => some (.str (FormatInt (wrapInt 64 (orig + i))))
         | (_, some _) => step)
      | some _ => step)
  | .panic => .panic
  | .outOfFuel => .outOfFuel

/-! ## The package values

The maps of form.go, jsonmap.go and safemap.go: a Go map is nil (`none`) or an
association list; an `interface{}` is nil (`none`) or a dynamic value.  The
function handed to `Update` is a function of the old value. -/

/-- The type `Form`. -/
abbrev Form := Option (GoMap String (List String))

/-- The type `JsonMap`. -/
abbrev JsonMap := Option (GoMap String (Option Value))

/-- The field `data` of a `SafeMap`. -/
abbrev SafeMap := Option (GoMap String (Option Value))

/-- A `[]string` as a dynamic value. -/
def stringsValue (ss : List String) : Value :=
  .slice .string (ValueList.ofList (ss.map Value.str))

/-- Method `Form.Get`. -/
def Form.Get (m : Form) (key : String) : Option Value :=
  match m with
  | none => none
  | some mp =>
    match mapGet mp key with
    | none => none
    | some [] => none
    | some [s] => some (.str s)
    | some ss => some (stringsValue ss)

/-- The strings of a `[]string` value, when it is one. -/
def asStrings (v : Value) : Option (List String) :=
  match v with
  | .nilSlice .string => some []
  | .slice .string vs =>
    vs.toList.foldr (fun x acc =>
      match x, acc with
      | .str s, some ss => some (s :: ss)
      | _, _ => none) (some [])
  | _ => none

/-- The loop of `Form.SetValues`: every value is turned into text with
`ValueToStr`, an error panics.  A nil element is an invalid `reflect.Value`,
on which `Kind` is `Invalid` and `Type` panics. -/
def formTexts : List Value → Outcome (List String)
  | [] => .ok []
  | v :: vs =>
    match v with
    | .nilIface => .panic
    | _ =>
      match ValueToStr (match v with
          | .iface d => d
          | x => x) with
      | (s, none) =>
        (match formTexts vs with
         | .ok ss => .ok (s :: ss)
         | .panic => .panic
         | .outOfFuel => .outOfFuel)
      | (_, some _) => .panic

/-- Method `Form.Set` with a value that is not nil; an assignment to an entry
of a nil map panics. -/
def Form.Set (m : Form) (key : String) (value : Value) : Outcome Form :=
  match value with
  | .str s =>
    (match m with
     | none => .panic
     | some mp => .ok (some (mapPut mp key [s])))
  | .slice .iface vs =>
    if vs.toList.length = 0 then .ok m
    else
      (match m with
       | none => .panic
       | some mp =>
         match formTexts vs.toList with
         | .ok ss => .ok (some (mapPut mp key ss))
         | .panic => .panic
         | .outOfFuel => .outOfFuel)
  | .nilSlice .iface => .ok m
  | v =>
    match asStrings v with
    | some ss =>
      (match m with
       | none => .panic
       | some mp => .ok (some (mapPut mp key ss)))
    | none =>
      match ValueToStr v with
      | (s, none) =>
        (match m with
         | none => .panic
         | some mp => .ok (some (mapPut mp key [s])))
      | (_, some _) => .panic

/-- Method `Form.Update`: the value returned and the map after the call. -/
def Form.Update (m : Form) (key : String) (fn : Option Value → Option Value) :
    Outcome (Option Value × Form) :=
  match fn (m.Get key) with
  | some rv =>
    (match m.Set key rv with
     | .ok m1 => .ok (some rv, m1)
     | .panic => .panic
     | .outOfFuel => .outOfFuel)
  | none => .ok (m.Get key, m)

/-- Method `JsonMap.Get`. -/
def JsonMap.Get (m : JsonMap) (key : String) : Option Value :=
  match m with
  | none => none
  | some mp => (mapGet mp key).join

/-- Method `JsonMap.Set`. -/
def JsonMap.Set (m : JsonMap) (key : String) (value : Option Value) : Outcome JsonMap :=
  match m with
  | none => .panic
  | some mp => .ok (some (mapPut mp key value))

/-- Method `JsonMap.Update`. -/
def JsonMap.Update (m : JsonMap) (key : String) (fn : Option Value → Option Value) :
    Outcome (Option Value × JsonMap) :=
  match fn (m.Get key) with
  | some rv =>
    (match m.Set key (some rv) with
     | .ok m1 => .ok (some rv, m1)
     | .panic => .panic
     | .outOfFuel => .outOfFuel)
  | none => .ok (m.Get key, m)

/-- Method `SafeMap.Get`. -/
def SafeMap.Get (m : SafeMap) (key : String) : Option Value :=
  match m with
  | none => none
  | some mp => (mapGet mp key).join

/-- Method `SafeMap.Update`: a nil map is made before the assignment. -/
def SafeMap.Update (m : SafeMap) (key : String) (fn : Option Value → Option Value) :
    Option Value × SafeMap :=
  match fn (m.Get key) with
  | none => (m.Get key, m)
  | some newV => (some newV, some (mapPut (m.getD []) key (some newV)))

/-- A record that reaches its own type through a slice and through a map:
`type Tree struct { Name string; Kids []Tree; Index map[string]*Tree }`. -/
def sliceEnv : TypeEnv := fun n =>
  if n = "Tree" then
    [mkField "Name" .string [] false,
     mkField "Kids" (.slice (.named "Tree")) [] false,
     mkField "Index" (.map .string (.ptr (.named "Tree"))) [] false]
  else []

/-- The entry that the loop of the map case of `SetValue` makes of the key
`vk` of the source map `src`: the key, and the element that the lookup
returns, assigned to zero values with `set`; `none` when one of the two
assignments does not return without an error. -/
def convertEntry (set : Value → Option Value → Outcome (Value × Option ConvError))
    (zeroKey zeroElem : Value) (src : GoMap Value Value) (vk : Value) :
    Option (Value × Value) :=
  match set zeroKey (some vk), set zeroElem (keyGet src vk) with
  | .ok (k, none), .ok (v, none) => some (k, v)
  | _, _ => none

/-- The map `{"1": "a", "01": "b"}` of type `map[string]interface{}`, its
entries in the order given by the flag. -/
def octalKeys (swap : Bool) : Value :=
  .map .string .iface (EntryList.ofList
    (if swap then [(.str "01", .iface (.str "b")), (.str "1", .iface (.str "a"))]
     else [(.str "1", .iface (.str "a")), (.str "01", .iface (.str "b"))]))

/-- The converted entries of a source map, in the order of its entries. -/
def convertAll (set : Value → Option Value → Outcome (Value × Option ConvError))
    (zeroKey zeroElem : Value) (src : GoMap Value Value) : List (Value × Value) :=
  (src.map Prod.fst).map
    (fun vk => (convertEntry set zeroKey zeroElem src vk).getD (zeroKey, zeroElem))

/-- The map that holds the entries of a list, put in one after the other. -/
def putAll (conv : List (Value × Value)) : GoMap Value Value :=
  conv.foldl (fun m c => keyPut m c.1 c.2) []

/-- No two keys of a list of entries are equal: what holds of the entries of a
Go map, and of its keys in any order. -/
def distinctKeys (es : List (Value × Value)) : Prop :=
  es.Pairwise (fun a b => a.1.keyEq b.1 = false ∧ b.1.keyEq a.1 = false)

/-! ## Default values and the memory behind their slices

`getDefaultStruct` keeps the `defaultStruct` of a type in `dm.cache`, and
`AllocDefault` copies `ds.defaultVal` into the new struct with `Set`.  A slice
field is copied as its header: the address of the backing array, which
`reflect.MakeSlice` allocates when the `defaultStruct` is built, and the
length.  Here the fields of a record are cells: a slice header, or a value
that is held by the cell itself. -/

/-- A field of a record in memory. -/
inductive Cell
  | val (v : Value)
  | sliceAt (elem : GoType) (addr : Nat) (len : Nat)
  deriving DecidableEq, Repr

/-- The backing arrays, by address. -/
abbrev Store := List (List Value)

/-- The cache `dm.cache`, from a type to the cells of `ds.defaultVal`, and the
backing arrays. -/
structure DefaultState where
  cache : GoMap GoType (List Cell)
  store : Store
  deriving DecidableEq, Repr

/-- The cell of a field of a default value: the elements of a slice go to a new
backing array. -/
def internField (store : Store) (v : Value) : Cell × Store :=
  match v with
  | .slice elemT vs => (.sliceAt elemT store.length vs.toList.length, store ++ [vs.toList])
  | v => (.val v, store)

/-- The cells of the fields of a default value. -/
def internFields : List Value → Store → List Cell × Store
  | [], store => ([], store)
  | v :: vs, store =>
    ((internField store v).1 :: (internFields vs (internField store v).2).1,
      (internFields vs (internField store v).2).2)

/-- Method `DefaultMapper.AllocDefault` with the cache: the cells of the new
struct and the state after the call.  A cached `defaultStruct` is used as it
is; otherwise it is built, its slices are allocated, and it is stored. -/
def AllocDefaultCached (env : TypeEnv) (dm : DefaultMapper) (buildFuel depth fuel : Nat)
    (st : DefaultState) (typ : GoType) : Outcome (List Cell × DefaultState) :=
  match mapGet st.cache (Deref typ) with
  | some cells => .ok (cells, st)
  | none =>
    match getDefaultStruct env dm buildFuel depth fuel (Deref typ) with
    | .ok ds =>
      (match ds.defaultVal with
       | .struct _ fs =>
         .ok ((internFields fs.toList st.store).1,
           ⟨mapPut st.cache (Deref typ) (internFields fs.toList st.store).1,
             (internFields fs.toList st.store).2⟩)
       | _ => .panic)
    | .panic => .panic
    | .outOfFuel => .outOfFuel

/-- The assignment `s[j] = x` through the slice header of a cell. -/
def writeElem (store : Store) (c : Cell) (j : Nat) (x : Value) : Store :=
  match c with
  | .sliceAt _ addr _ => store.set addr ((store.getD addr []).set j x)
  | .val _ => store

/-- The element `s[j]` read through the slice header of a cell. -/
def readElem (store : Store) (c : Cell) (j : Nat) : Option Value :=
  match c with
  | .sliceAt _ addr len => if j < len then (store.getD addr [])[j]? else none
  | .val _ => none

/-- A value of kind Bool, Int, Uint, Float or String. -/
def Value.isScalar : Value → Prop
  | .bool _ | .int _ _ | .uint _ _ | .float _ _ | .str _ => True
  | _ => False

/-- The number that a list of decimal digits writes. -/
def digitsValue (ds : List Nat) : Nat := ds.foldl (fun a d => a * 10 + d) 0

/-- A decimal text whose fractional digits are all zero: an optional minus
sign, the digits `ds`, a point and `z` zeros. -/
def decimalText (neg : Bool) (ds : List Nat) (z : Nat) : String :=
  String.mk ((if neg then ['-'] else []) ++ (ds.map digitChar ++ '.' :: List.replicate z '0'))

/-- A record with an embedded struct of an unexported type:
`type limits struct { Max int "default:\"5\"" }` and
`type Settings struct { limits }`. -/
def hiddenEnv : TypeEnv := fun n =>
  if n = "Settings" then
    [{ Name := "limits", PkgPath := "main", Typ := .named "limits", Tag := [], Anonymous := true }]
  else if n = "limits" then [mkField "Max" (.int .Int) [("default", "5")] false]
  else []

/-- The value `Settings{limits{Max: 5}}`. -/
def settingsDefault : Value :=
  .struct "Settings" (ValueList.ofList [.struct "limits" (ValueList.ofList [.int .Int 5])])

/-- A record with an embedded pointer to a struct of an unexported type:
`type inner struct { A int }` and `type Outer struct { *inner }`. -/
def hiddenPtrEnv : TypeEnv := fun n =>
  if n = "Outer" then
    [{ Name := "inner", PkgPath := "main", Typ := .ptr (.named "inner"), Tag := [],
       Anonymous := true }]
  else if n = "inner" then [mkField "A" (.int .Int) [] false]
  else []

/-- A record with an embedded field of an unexported type that is no struct:
`type S struct { int; B string }`. -/
def embeddedIntEnv : TypeEnv := fun n =>
  if n = "S" then
    [{ Name := "int", PkgPath := "main", Typ := .int .Int, Tag := [], Anonymous := true },
     mkField "B" .string [] false]
  else []

/-- Two records that contain each other, one of them through a slice only:
`type Album struct { Title string; First Track; Extra *Track }` and
`type Track struct { Name string; Albums []Album; ByName map[string]*Album }`. -/
def albumEnv : TypeEnv := fun n =>
  if n = "Album" then
    [mkField "Title" .string [] false,
     mkField "First" (.named "Track") [] false,
     mkField "Extra" (.ptr (.named "Track")) [] false]
  else if n = "Track" then
    [mkField "Name" .string [] false,
     mkField "Albums" (.slice (.named "Album")) [] false,
     mkField "ByName" (.map .string (.ptr (.named "Album"))) [] false]
  else []

/-! # Theorems -/

/-! ## Association lists -/

theorem mapGet_eq_none_iff {α β : Type} [DecidableEq α] (m : GoMap α β) (k : α) :
    mapGet m k = none ↔ k ∉ m.map Prod.fst := by
  induction m with
  | nil => simp [mapGet]
  | cons e rest ih =>
    obtain ⟨k1, v1⟩ := e
    by_cases h : k1 = k
    · simp [mapGet, h]
    · simp only [mapGet, h, if_false, ih, List.map_cons, List.mem_cons, not_or]
      constructor
      · intro h2; exact ⟨fun h3 => h h3.symm, h2⟩
      · intro h2; exact h2.2

theorem mapPut_of_not_mem {α β : Type} [DecidableEq α] (m : GoMap α β) (k : α) (v : β)
    (h : k ∉ m.map Prod.fst) : mapPut m k v = m ++ [(k, v)] := by
  induction m with
  | nil => simp [mapPut]
  | cons e rest ih =>
    obtain ⟨k1, v1⟩ := e
    simp only [List.map_cons, List.mem_cons, not_or] at h
    have h1 : ¬ k1 = k := fun h3 => h.1 h3.symm
    simp [mapPut, h1, ih h.2]

theorem mapGet_map_some {β : Type} (key : β → String) (l : List β) (k : String) (v : β)
    (h : mapGet (l.map (fun p => (key p, p))) k = some v) : v ∈ l ∧ key v = k := by
  induction l with
  | nil => simp [mapGet] at h
  | cons a rest ih =>
    by_cases hk : key a = k
    · simp [mapGet, hk] at h
      subst h
      exact ⟨List.mem_cons_self _ _, hk⟩
    · simp only [List.map_cons, mapGet, hk, if_false] at h
      exact ⟨List.mem_cons_of_mem _ (ih h).1, (ih h).2⟩

theorem mapGet_map_of_nodup {β : Type} (key : β → String) (l : List β) (v : β)
    (hn : (l.map key).Nodup) (hv : v ∈ l) :
    mapGet (l.map (fun p => (key p, p))) (key v) = some v := by
  induction l with
  | nil => simp at hv
  | cons a rest ih =>
    simp only [List.map_cons, List.nodup_cons] at hn
    by_cases hk : key a = key v
    · rcases List.mem_cons.1 hv with h | h
      · simp [mapGet, h]
      · exact absurd (hk ▸ List.mem_map_of_mem key h) hn.1
    · rcases List.mem_cons.1 hv with h | h
      · exact absurd (by rw [h]) hk
      · simp only [List.map_cons, mapGet, hk, if_false]
        exact ih hn.2 h

theorem indexFields_spec (heap : Heap) (tname : String) :
    ∀ (rest done : List Nat), (done.map (fun p => (deref heap p).Path)).Nodup →
      (∃ paths leaves,
          indexFields heap tname rest (done.map (pathEntry heap))
            ((done.filter (isLeaf heap)).map (pathEntry heap)) = .ok (paths, leaves) ∧
          paths = (done ++ rest).map (pathEntry heap) ∧
          leaves = ((done ++ rest).filter (isLeaf heap)).map (pathEntry heap) ∧
          ((done ++ rest).map (fun p => (deref heap p).Path)).Nodup) ∨
      (∃ l1 a l2 b l3,
          indexFields heap tname rest (done.map (pathEntry heap))
            ((done.filter (isLeaf heap)).map (pathEntry heap)) =
              .error ⟨tname ++ "." ++ (deref heap b).Name, (deref heap a).Index,
                (deref heap b).Index⟩ ∧
          done ++ rest = l1 ++ a :: (l2 ++ b :: l3) ∧
          (deref heap a).Path = (deref heap b).Path ∧
          ((l1 ++ a :: l2).map (fun p => (deref heap p).Path)).Nodup) := by
  intro rest
  induction rest with
  | nil =>
    intro done hn
    left
    exact ⟨_, _, rfl, by simp, by simp, by simpa using hn⟩
  | cons p rest ih =>
    intro done hn
    cases hg : mapGet (done.map (pathEntry heap)) (deref heap p).Path with
    | some v =>
      right
      have hv := mapGet_map_some (fun q => (deref heap q).Path) done _ v hg
      obtain ⟨l1, l2, hl⟩ := List.append_of_mem hv.1
      refine ⟨l1, v, l2, p, rest, ?_, ?_, hv.2, ?_⟩
      · simp only [indexFields]
        rw [hg]
      · rw [hl]; simp
      · rw [hl] at hn; exact hn
    | none =>
      have hnot : (deref heap p).Path ∉ (done.map (pathEntry heap)).map Prod.fst :=
        (mapGet_eq_none_iff _ _).1 hg
      have hnot2 : (deref heap p).Path ∉ done.map (fun q => (deref heap q).Path) := by
        simpa [pathEntry, Function.comp] using hnot
      have hn2 : ((done ++ [p]).map (fun q => (deref heap q).Path)).Nodup := by
        rw [List.map_append, List.nodup_append]
        refine ⟨hn, by simp, ?_⟩
        intro x hx hx2
        simp at hx2
        exact hnot2 (hx2 ▸ hx)
      have hpaths : mapPut (done.map (pathEntry heap)) (deref heap p).Path p =
          (done ++ [p]).map (pathEntry heap) := by
        rw [mapPut_of_not_mem _ _ _ hnot]; simp [pathEntry]
      have hleaves : (if (Deref (deref heap p).Typ).Kind ≠ Kind.Struct then
            mapPut ((done.filter (isLeaf heap)).map (pathEntry heap)) (deref heap p).Path p
          else (done.filter (isLeaf heap)).map (pathEntry heap)) =
          ((done ++ [p]).filter (isLeaf heap)).map (pathEntry heap) := by
        by_cases hk : (Deref (deref heap p).Typ).Kind ≠ Kind.Struct
        · have hnot3 : (deref heap p).Path ∉
              ((done.filter (isLeaf heap)).map (pathEntry heap)).map Prod.fst := by
            intro hm
            apply hnot2
            simp only [List.map_map, List.mem_map, List.mem_filter] at hm
            obtain ⟨a, ⟨ha, _⟩, he⟩ := hm
            exact List.mem_map.2 ⟨a, ha, he⟩
          rw [if_pos hk, mapPut_of_not_mem _ _ _ hnot3]
          simp [List.filter_append, isLeaf, hk, pathEntry]
        · rw [if_neg hk]
          simp [List.filter_append, isLeaf, hk]
      have hstep : indexFields heap tname (p :: rest) (done.map (pathEntry heap))
            ((done.filter (isLeaf heap)).map (pathEntry heap)) =
          indexFields heap tname rest ((done ++ [p]).map (pathEntry heap))
            (((done ++ [p]).filter (isLeaf heap)).map (pathEntry heap)) := by
        conv_lhs => simp only [indexFields]
        rw [hg]
        simp only
        rw [hpaths, hleaves]
      rw [hstep]
      have := ih (done ++ [p]) hn2
      simpa [List.append_assoc] using this

theorem finish_cases (t : GoType) (st : BuildState) :
    (∃ sm, finish t st = .ok sm ∧ sm.heap = st.heap ∧ sm.Tree = 0 ∧ sm.Fields = st.m ∧
        sm.Paths = st.m.map (pathEntry st.heap) ∧
        sm.Leaves = (st.m.filter (isLeaf st.heap)).map (pathEntry st.heap) ∧
        (st.m.map (fun p => (deref st.heap p).Path)).Nodup) ∨
    (∃ l1 a l2 b l3,
        finish t st = .error ⟨t.String ++ "." ++ (deref st.heap b).Name,
          (deref st.heap a).Index, (deref st.heap b).Index⟩ ∧
        st.m = l1 ++ a :: (l2 ++ b :: l3) ∧
        (deref st.heap a).Path = (deref st.heap b).Path ∧
        ((l1 ++ a :: l2).map (fun p => (deref st.heap p).Path)).Nodup) := by
  have h := indexFields_spec st.heap t.String st.m [] (by simp)
  simp only [List.map_nil, List.filter_nil, List.nil_append] at h
  rcases h with ⟨paths, leaves, h1, h2, h3, h4⟩ | ⟨l1, a, l2, b, l3, h1, h2, h3, h4⟩
  · left
    refine ⟨⟨st.heap, 0, st.m, paths, leaves⟩, ?_, rfl, rfl, rfl, h2, h3, h4⟩
    simp [finish, h1]
  · right
    refine ⟨l1, a, l2, b, l3, ?_, h2, h3, h4⟩
    simp [finish, h1]

theorem not_nodup_of_split (heap : Heap) (m l1 l2 l3 : List Nat) (a b : Nat)
    (hm : m = l1 ++ a :: (l2 ++ b :: l3))
    (hp : (deref heap a).Path = (deref heap b).Path) :
    ¬ (m.map (fun p => (deref heap p).Path)).Nodup := by
  intro hn
  rw [hm, List.map_append, List.map_cons, List.map_append, List.map_cons] at hn
  have h2 := (List.nodup_append.1 hn).2.1
  have h3 := (List.nodup_cons.1 h2).1
  apply h3
  rw [hp]
  simp

/-- When the traversal of `getMapping` has produced the flat field list,
the build either panics with the duplicated-path error, which happens exactly
when two entries of the list have the same canonical path and then reports the
index paths of two such entries, or returns a `StructMap` whose fields have
pairwise distinct paths and whose `Paths` holds exactly one entry per field. -/
theorem getMapping_duplicate_or_unique (env : TypeEnv) (t : GoType) (tagName : String)
    (tagFunc : TagFunc) (fuel : Nat) (st : BuildState)
    (h : traverse env t tagName tagFunc fuel = some st) :
    ((∃ e, getMapping env t tagName tagFunc fuel = some (.error e)) ↔
        ¬ (st.m.map (fun p => (deref st.heap p).Path)).Nodup) ∧
    ((∃ sm, getMapping env t tagName tagFunc fuel = some (.ok sm) ∧
        sm.heap = st.heap ∧ sm.Fields = st.m ∧
        (sm.Fields.map (fun p => (deref sm.heap p).Path)).Nodup ∧
        (sm.Paths.map Prod.fst).Nodup ∧
        sm.Paths.length = sm.Fields.length ∧
        (∀ p ∈ sm.Fields, mapGet sm.Paths (deref sm.heap p).Path = some p) ∧
        (∀ k p, mapGet sm.Paths k = some p → p ∈ sm.Fields ∧ (deref sm.heap p).Path = k)) ∨
     (∃ l1 a l2 b l3,
        getMapping env t tagName tagFunc fuel =
          some (.error ⟨t.String ++ "." ++ (deref st.heap b).Name,
            (deref st.heap a).Index, (deref st.heap b).Index⟩) ∧
        st.m = l1 ++ a :: (l2 ++ b :: l3) ∧
        (deref st.heap a).Path = (deref st.heap b).Path)) := by
  have hg : getMapping env t tagName tagFunc fuel = some (finish t st) := by
    simp [getMapping, h]
  rcases finish_cases t st with ⟨sm, h1, h2, _, h4, h5, _, h7⟩ |
      ⟨l1, a, l2, b, l3, h1, h2, h3, _⟩
  · constructor
    · constructor
      · rintro ⟨e, he⟩
        rw [hg, h1] at he
        simp at he
      · intro hn; exact absurd h7 hn
    · left
      refine ⟨sm, by rw [hg, h1], h2, h4, ?_, ?_, ?_, ?_, ?_⟩
      · rw [h2, h4]; exact h7
      · rw [h5]; simpa [pathEntry, Function.comp] using h7
      · rw [h5, h4]; simp
      · intro p hp
        rw [h5, h2]
        rw [h4] at hp
        exact mapGet_map_of_nodup (fun q => (deref st.heap q).Path) st.m p h7 hp
      · intro k p hk
        rw [h5] at hk
        rw [h2, h4]
        exact mapGet_map_some (fun q => (deref st.heap q).Path) st.m k p hk
  · constructor
    · constructor
      · intro _
        exact not_nodup_of_split st.heap st.m l1 l2 l3 a b h2 h3
      · intro _
        exact ⟨_, by rw [hg, h1]⟩
    · right
      exact ⟨l1, a, l2, b, l3, by rw [hg, h1], h2, h3⟩

theorem getMapping_duplicate_or_unique_witness :
    traverse testEnv (.named "reflectx.DuplicatedName") "form" StdTagFunc 1 =
        some duplicatedNameState ∧
      ((∃ e, getMapping testEnv (.named "reflectx.DuplicatedName") "form" StdTagFunc 1 =
          some (.error e)) ↔
        ¬ (duplicatedNameState.m.map (fun p => (deref duplicatedNameState.heap p).Path)).Nodup) :=
  ⟨rfl, (getMapping_duplicate_or_unique testEnv (.named "reflectx.DuplicatedName") "form"
    StdTagFunc 1 duplicatedNameState rfl).1⟩

theorem mem_filter_of_mapGet (heap : Heap) (l : List Nat) (k : String) (p : Nat)
    (h : mapGet ((l.filter (isLeaf heap)).map (pathEntry heap)) k = some p) :
    p ∈ l ∧ (deref heap p).Path = k ∧ (Deref (deref heap p).Typ).Kind ≠ Kind.Struct := by
  have h1 := mapGet_map_some (fun q => (deref heap q).Path) (l.filter (isLeaf heap)) k p h
  have h2 := List.mem_filter.1 h1.1
  refine ⟨h2.1, h1.2, ?_⟩
  simpa [isLeaf] using h2.2

/-- C8: in a `StructMap` that `getMapping` returns, `Leaves` holds exactly the
fields of `Fields` whose dereferenced type is not a struct, `Paths` holds every
field of `Fields`, and a `Leaves` entry is the pointer that `Paths` holds for
the same path. -/
theorem structMap_leaves_and_paths (env : TypeEnv) (t : GoType) (tagName : String)
    (tagFunc : TagFunc) (fuel : Nat) (sm : StructMap)
    (h : getMapping env t tagName tagFunc fuel = some (.ok sm)) :
    (∀ k p, mapGet sm.Leaves k = some p ↔
        (p ∈ sm.Fields ∧ (deref sm.heap p).Path = k ∧
          (Deref (deref sm.heap p).Typ).Kind ≠ Kind.Struct)) ∧
    (∀ p ∈ sm.Fields, mapGet sm.Paths (deref sm.heap p).Path = some p) ∧
    (∀ k p, mapGet sm.Leaves k = some p → mapGet sm.Paths k = some p) := by
  simp only [getMapping, Option.map_eq_some'] at h
  obtain ⟨st, _, hf⟩ := h
  rcases finish_cases t st with ⟨sm2, h1, h2, _, h4, h5, h6, h7⟩ |
      ⟨l1, a, l2, b, l3, h1, _, _, _⟩
  · rw [h1] at hf
    have hsm : sm2 = sm := by simpa using hf
    rw [hsm] at h2 h4 h5 h6
    clear hf hsm h1
    have hleaf : ∀ k p, mapGet sm.Leaves k = some p ↔
        (p ∈ sm.Fields ∧ (deref sm.heap p).Path = k ∧
          (Deref (deref sm.heap p).Typ).Kind ≠ Kind.Struct) := by
      intro k p
      rw [h6, h2, h4]
      constructor
      · exact mem_filter_of_mapGet st.heap st.m k p
      · rintro ⟨hp, hk, hs⟩
        rw [← hk]
        apply mapGet_map_of_nodup (fun q => (deref st.heap q).Path)
        · exact List.Nodup.sublist (List.Sublist.map _ (List.filter_sublist _)) h7
        · exact List.mem_filter.2 ⟨hp, by simpa [isLeaf] using hs⟩
    have hpath : ∀ p ∈ sm.Fields, mapGet sm.Paths (deref sm.heap p).Path = some p := by
      intro p hp
      rw [h5, h2]
      rw [h4] at hp
      exact mapGet_map_of_nodup (fun q => (deref st.heap q).Path) st.m p h7 hp
    refine ⟨hleaf, hpath, ?_⟩
    intro k p hk
    have h8 := (hleaf k p).1 hk
    rw [← h8.2.1]
    exact hpath p h8.1
  · rw [h1] at hf
    cases hf


theorem structMap_leaves_and_paths_witness :
    getMapping testEnv (.named "reflectx.FooBar") "reflector" StdTagFunc 4 =
        some (.ok fooBarMap) ∧
      (∀ k p, mapGet fooBarMap.Leaves k = some p →
        mapGet fooBarMap.Paths k = some p) :=
  ⟨rfl, (structMap_leaves_and_paths testEnv (.named "reflectx.FooBar") "reflector" StdTagFunc 4
    fooBarMap rfl).2.2⟩

/-! ## Recursive type graphs -/

theorem deref_append_of_lt (heap : Heap) (x : FieldInfo) (p : Nat) (h : p < heap.length) :
    deref (heap ++ [x]) p = deref heap p := by
  simp [deref, List.getD, List.getElem?_append_left h]

/-- The loop never empties its queue once the only entry is the struct `Loop`
owned by the root: the embedded `*Loop` field re-enqueues the same struct under
the same owner. -/
theorem queueLoop_Loop_none (fuel : Nat) :
    ∀ (st : BuildState) (idx : List Nat), st.heap ≠ [] →
      (deref st.heap 0).Parent = none →
      st.queue = [⟨.named "Loop", 0, idx⟩] →
      queueLoop recEnv "reflector" StdTagFunc fuel st = none := by
  induction fuel with
  | zero =>
    intro st idx _ _ hq
    simp [queueLoop, hq]
  | succ n ih =>
    intro st idx hne hpar hq
    have hlen : 0 < st.heap.length := List.length_pos.2 hne
    have hguard : recursiveHit st.heap (deref st.heap 0).Typ st.heap.length
        (deref st.heap 0).Parent = false := by
      rw [hpar]
      cases st.heap.length <;> rfl
    have hself : st.heap.length ≠ 0 := Nat.pos_iff_ne_zero.1 hlen
    have hself2 : ¬ (0 = st.heap.length) := fun h => hself h.symm
    have hsk : skipField "reflector" StdTagFunc
        (mkField "Loop" (.ptr (.named "Loop")) [] true) = false := by rfl
    have hown : ownerOf StdTagFunc ⟨.named "Loop", 0, idx⟩
        (mkField "Loop" (.ptr (.named "Loop")) [] true)
        (newFieldInfo "reflector" StdTagFunc st.heap ⟨.named "Loop", 0, idx⟩ 0
          (mkField "Loop" (.ptr (.named "Loop")) [] true)) st.heap.length = 0 := by rfl
    have hstep : visitFields "reflector" StdTagFunc ⟨.named "Loop", 0, idx⟩
        { st with queue := [] } 0 (fieldsOf recEnv (.named "Loop")) =
        { heap := st.heap ++ [newFieldInfo "reflector" StdTagFunc st.heap
            ⟨.named "Loop", 0, idx⟩ 0 (mkField "Loop" (.ptr (.named "Loop")) [] true)]
          m := st.m ++ [st.heap.length]
          queue := [⟨.named "Loop", 0, apnd idx 0⟩] } := by
      have hf : fieldsOf recEnv (.named "Loop") =
          [mkField "Loop" (.ptr (.named "Loop")) [] true] := by rfl
      rw [hf]
      simp only [visitFields, visitField, hsk, hown, hself2]
      rfl
    rw [queueLoop, hq]
    simp only [hguard]
    rw [hstep]
    apply ih _ (apnd idx 0)
    · simp
    · simp only
      rw [deref_append_of_lt _ _ _ hlen]
      exact hpar
    · rfl

/-- C10: for `type Loop struct { *Loop }` the traversal of `getMapping` never
finishes: whatever the number of queue entries it may process, the queue is not
empty at the end. -/
theorem getMapping_Loop_never_returns (fuel : Nat) :
    getMapping recEnv (.named "Loop") "reflector" StdTagFunc fuel = none := by
  have h := queueLoop_Loop_none fuel (initState (.named "Loop")) [] (by simp [initState])
    (by rfl) (by rfl)
  simp [getMapping, traverse, h]

/-- C1, as stated, fails for `type Loop struct { *Loop }`: whatever the number
of queue entries the traversal may process, `getMapping` has neither failed
with the duplicated-path error nor returned a `StructMap`: the build does not
end.  For `DuplicatedName` of form_test.go the build does fail, with the error
that names the path and both index paths. -/
theorem getMapping_Loop_no_outcome :
    (∀ fuel : Nat,
      (∀ e, getMapping recEnv (.named "Loop") "reflector" StdTagFunc fuel ≠ some (.error e)) ∧
      (∀ sm, getMapping recEnv (.named "Loop") "reflector" StdTagFunc fuel ≠ some (.ok sm))) ∧
    getMapping testEnv (.named "reflectx.DuplicatedName") "form" StdTagFunc 1 =
      some (.error ⟨"reflectx.DuplicatedName.A", [0], [1]⟩) := by
  refine ⟨?_, rfl⟩
  intro fuel
  have h := queueLoop_Loop_none fuel (initState (.named "Loop")) [] (by simp [initState])
    (by rfl) (by rfl)
  have hg : getMapping recEnv (.named "Loop") "reflector" StdTagFunc fuel = none := by
    simp [getMapping, traverse, h]
  rw [hg]
  exact ⟨fun e he => (by cases he), fun sm he => (by cases he)⟩

/-- A struct that reaches its own type through a named pointer field is handled:
for `type Node struct { Next *Node }` the build returns after three queue
entries, with the fields `Next` and `Next.Next`. -/
theorem getMapping_Node_returns :
    ∃ sm, getMapping recEnv (.named "Node") "reflector" StdTagFunc 3 = some (.ok sm) ∧
      sm.Fields = [1, 2] ∧ (deref sm.heap 1).Path = "Next" ∧
      (deref sm.heap 2).Path = "Next.Next" :=
  ⟨_, rfl, rfl, rfl, rfl⟩

/-- C9: for `type R struct { Z *T }`, `type T struct { X *U }` and
`type U struct { Y *T "flatten" }` the build of `R` returns; the field `Y`
(index path [0 0 0]) has the type `*T` of its ancestor `Z`, and yet the tree
holds a field with index path [0 0 0 0], below `Y`. -/
theorem getMapping_R_recurses_below_flattened :
    ∃ sm, getMapping recEnv (.named "R") "reflector" StdTagFunc 5 = some (.ok sm) ∧
      sm.Fields = [1, 2, 3, 4] ∧
      ancestors sm.heap sm.heap.length 3 = [2, 1, 0] ∧
      (deref sm.heap 3).Typ = (deref sm.heap 1).Typ ∧
      (deref sm.heap 3).Index = [0, 0, 0] ∧
      (deref sm.heap 4).Index = (deref sm.heap 3).Index ++ [0] :=
  ⟨_, rfl, rfl, rfl, rfl, rfl, rfl⟩

/-! ## Integers through text -/

theorem digitChar_toNat (d : Nat) (h : d < 10) : (digitChar d).toNat = 48 + d := by
  interval_cases d <;> rfl

theorem digitVal_digitChar (d : Nat) (h : d < 10) : digitVal (digitChar d) = some d := by
  interval_cases d <;> rfl

theorem digitChar_ne_underscore (d : Nat) (h : d < 10) : digitChar d ≠ '_' := by
  interval_cases d <;> decide

theorem digitChar_ne_minus (d : Nat) (h : d < 10) : digitChar d ≠ '-' := by
  interval_cases d <;> decide

theorem digitChar_ne_plus (d : Nat) (h : d < 10) : digitChar d ≠ '+' := by
  interval_cases d <;> decide

theorem digitChar_ne_zero (d : Nat) (h0 : 0 < d) (h : d < 10) : digitChar d ≠ '0' := by
  interval_cases d <;> decide

theorem parseUintLoop_digit (maxVal d n : Nat) (cs : List Char) (us : Bool) (hd : d < 10)
    (hm : maxVal < 2 ^ 64) (hn : n * 10 + d ≤ maxVal) :
    parseUintLoop 10 maxVal (digitChar d :: cs) n us =
      parseUintLoop 10 maxVal cs (n * 10 + d) us := by
  have h1 : ¬ (10 ≤ d) := by omega
  have h2 : ¬ ((2 ^ 64 - 1) / 10 + 1 ≤ n) := by norm_num; omega
  have h3 : ¬ (2 ^ 64 - 1 < n * 10 + d ∨ maxVal < n * 10 + d) := by omega
  simp only [parseUintLoop, digitChar_ne_underscore d hd, if_false, digitVal_digitChar d hd,
    h1, h2, h3]

/-- A digit that takes the number above `maxVal` ends the loop with the range
error. -/
theorem parseUintLoop_digit_range (maxVal d n : Nat) (cs : List Char) (us : Bool)
    (hd : d < 10) (hn : maxVal < n * 10 + d) :
    parseUintLoop 10 maxVal (digitChar d :: cs) n us = .error .ErrRange := by
  have h1 : ¬ (10 ≤ d) := by omega
  have h3 : (2 ^ 64 - 1 < n * 10 + d ∨ maxVal < n * 10 + d) := Or.inr hn
  simp only [parseUintLoop, digitChar_ne_underscore d hd, if_false, digitVal_digitChar d hd,
    h1, h3, if_true, ite_self]

theorem parseUintLoop_formatBitsLoop (maxVal fuel : Nat) (hm : maxVal < 2 ^ 64) :
    ∀ (u : Nat) (acc : List Char) (us : Bool), u < 10 ^ fuel → u ≤ maxVal →
      parseUintLoop 10 maxVal (formatBitsLoop fuel u acc) 0 us =
        parseUintLoop 10 maxVal acc u us := by
  induction fuel with
  | zero =>
    intro u acc us h _
    have : u = 0 := by simpa using h
    subst this
    rfl
  | succ n ih =>
    intro u acc us h h64
    by_cases hu : 10 ≤ u
    · have h1 : u / 10 < 10 ^ n := by
        rw [Nat.div_lt_iff_lt_mul (by norm_num)]
        rw [pow_succ] at h
        exact h
      have h2 : u / 10 ≤ maxVal := le_trans (Nat.div_le_self _ _) h64
      simp only [formatBitsLoop, hu, if_true]
      rw [ih (u / 10) _ us h1 h2]
      have h3 : u / 10 * 10 + u % 10 = u := by omega
      rw [parseUintLoop_digit maxVal (u % 10) (u / 10) acc us (Nat.mod_lt _ (by norm_num)) hm
        (by rw [h3]; exact h64), h3]
    · simp only [formatBitsLoop, hu, if_false]
      rw [parseUintLoop_digit maxVal u 0 acc us (by omega) hm (by omega)]
      simp

/-- The decimal text of a number above `maxVal` ends the loop with the range
error. -/
theorem parseUintLoop_formatBitsLoop_range (maxVal fuel : Nat) (hm : maxVal < 2 ^ 64) :
    ∀ (u : Nat) (acc : List Char) (us : Bool), u < 10 ^ fuel → maxVal < u →
      parseUintLoop 10 maxVal (formatBitsLoop fuel u acc) 0 us = .error .ErrRange := by
  induction fuel with
  | zero =>
    intro u acc us h hlt
    have : u = 0 := by simpa using h
    omega
  | succ n ih =>
    intro u acc us h hlt
    by_cases hu : 10 ≤ u
    · have h1 : u / 10 < 10 ^ n := by
        rw [Nat.div_lt_iff_lt_mul (by norm_num)]
        rw [pow_succ] at h
        exact h
      have h3 : u / 10 * 10 + u % 10 = u := by omega
      simp only [formatBitsLoop, hu, if_true]
      by_cases h2 : maxVal < u / 10
      · exact ih (u / 10) _ us h1 h2
      · rw [parseUintLoop_formatBitsLoop maxVal n hm (u / 10) _ us h1 (by omega)]
        exact parseUintLoop_digit_range maxVal (u % 10) (u / 10) acc us
          (Nat.mod_lt _ (by norm_num)) (by rw [h3]; exact hlt)
    · simp only [formatBitsLoop, hu, if_false]
      exact parseUintLoop_digit_range maxVal u 0 acc us (by omega) (by omega)

theorem formatBitsLoop_head (fuel : Nat) :
    ∀ (u : Nat) (acc : List Char), u < 10 ^ (fuel + 1) →
      ∃ d rest, d < 10 ∧ (0 < u → 0 < d) ∧ formatBitsLoop (fuel + 1) u acc = digitChar d :: rest := by
  induction fuel with
  | zero =>
    intro u acc h
    have hu : ¬ (10 ≤ u) := by simpa using h
    exact ⟨u, acc, by omega, fun h0 => h0, by simp [formatBitsLoop, hu]⟩
  | succ n ih =>
    intro u acc h
    by_cases hu : 10 ≤ u
    · have h1 : u / 10 < 10 ^ (n + 1) := by
        rw [Nat.div_lt_iff_lt_mul (by norm_num)]
        rw [pow_succ] at h
        exact h
      obtain ⟨d, rest, hd, hpos, heq⟩ := ih (u / 10) (digitChar (u % 10) :: acc) h1
      refine ⟨d, rest, hd, fun _ => hpos (by omega), ?_⟩
      rw [formatBitsLoop]
      simp only [hu, if_true]
      exact heq
    · exact ⟨u, acc, by omega, fun h0 => h0, by simp [formatBitsLoop, hu]⟩

theorem maxVal_lt (bs : Nat) (hbs : bs ≤ 64) : 2 ^ bs - 1 < 2 ^ 64 := by
  have h1 : (2 : Nat) ^ bs ≤ 2 ^ 64 := Nat.pow_le_pow_right (by norm_num) hbs
  have h2 : 0 < (2 : Nat) ^ bs := by positivity
  omega

theorem ParseUint_formatBits (u bitSize : Nat)
    (hbs : (if bitSize = 0 then IntSize else bitSize) ≤ 64)
    (h : u < 2 ^ (if bitSize = 0 then IntSize else bitSize)) :
    ParseUint (formatBitsLoop 65 u []) bitSize = .ok u := by
  have h64 : u < 2 ^ 64 := lt_of_lt_of_le h (Nat.pow_le_pow_right (by norm_num) hbs)
  have h10 : u < 10 ^ 65 := lt_of_lt_of_le h64 (by norm_num)
  obtain ⟨d, rest, hd, hpos, heq⟩ := formatBitsLoop_head 64 u [] h10
  have hloop := parseUintLoop_formatBitsLoop _ 65 (maxVal_lt _ hbs) u [] false h10 (by omega)
  rw [heq] at hloop
  rw [heq]
  by_cases h0 : u = 0
  · subst h0
    have hd0 : digitChar d :: rest = ['0'] := by rw [← heq]; rfl
    rw [hd0]
    simp [ParseUint, parseUintLoop]
  · have hne : digitChar d ≠ '0' := digitChar_ne_zero d (hpos (Nat.pos_of_ne_zero h0)) hd
    simp only [ParseUint, hne, if_false, hloop, parseUintLoop]
    simp

/-- The decimal text of a number that does not fit the bit size gives the range
error. -/
theorem ParseUint_formatBits_range (u bitSize : Nat)
    (hbs : (if bitSize = 0 then IntSize else bitSize) ≤ 64)
    (hlo : 2 ^ (if bitSize = 0 then IntSize else bitSize) ≤ u) (h : u < 2 ^ 64) :
    ParseUint (formatBitsLoop 65 u []) bitSize = .error .ErrRange := by
  have h10 : u < 10 ^ 65 := lt_of_lt_of_le h (by norm_num)
  have hpos0 : 0 < u := lt_of_lt_of_le (by positivity) hlo
  obtain ⟨d, rest, hd, hpos, heq⟩ := formatBitsLoop_head 64 u [] h10
  have hne : digitChar d ≠ '0' := digitChar_ne_zero d (hpos hpos0) hd
  have hloop := parseUintLoop_formatBitsLoop_range _ 65 (maxVal_lt _ hbs) u [] false h10
    (by
      have h2 : 0 < (2 : Nat) ^ (if bitSize = 0 then IntSize else bitSize) := by positivity
      omega)
  rw [heq] at hloop
  rw [heq]
  simp only [ParseUint, hne, if_false, hloop]

theorem ParseInt_FormatInt (x : Int) (bitSize : Nat)
    (hb : bitSize = 0 ∨ (1 ≤ bitSize ∧ bitSize ≤ 64))
    (hlo : -(2 : Int) ^ ((if bitSize = 0 then IntSize else bitSize) - 1) ≤ x)
    (hhi : x < (2 : Int) ^ ((if bitSize = 0 then IntSize else bitSize) - 1)) :
    ParseInt (FormatInt x) bitSize = (x, none) := by
  set bs := (if bitSize = 0 then IntSize else bitSize) with hbs
  have hbs64 : bs - 1 ≤ 63 := by
    rcases hb with h | h
    · simp [hbs, h, IntSize]
    · have : ¬ bitSize = 0 := by omega
      simp only [hbs, this, if_false]; omega
  have hbs1 : 1 ≤ bs := by
    rcases hb with h | h
    · simp [hbs, h, IntSize]
    · have : ¬ bitSize = 0 := by omega
      simp only [hbs, this, if_false]; omega
  have hpow : (2 : Int) ^ (bs - 1) ≤ 2 ^ 63 := pow_le_pow_right₀ (by norm_num) hbs64
  have hpowN : (2 : Nat) ^ (bs - 1) ≤ 2 ^ 63 := Nat.pow_le_pow_right (by norm_num) hbs64
  by_cases hneg : x < 0
  · have hu : (-x).toNat < 2 ^ 64 := by
      have : ((-x).toNat : Int) = -x := Int.toNat_of_nonneg (by omega)
      have h2 : ((-x).toNat : Int) < 2 ^ 64 := by rw [this]; omega
      exact_mod_cast h2
    have hdata : (FormatInt x).data = '-' :: formatBitsLoop 65 (-x).toNat [] := by
      simp [FormatInt, hneg]
    have hcut : ¬ ((2 : Nat) ^ (bs - 1) < (-x).toNat) := by
      have : ((-x).toNat : Int) = -x := Int.toNat_of_nonneg (by omega)
      intro hc
      have hc2 : ((2 ^ (bs - 1) : Nat) : Int) < ((-x).toNat : Int) := by exact_mod_cast hc
      rw [this] at hc2
      push_cast at hc2
      omega
    have hval : -(((-x).toNat : Nat) : Int) = x := by
      rw [Int.toNat_of_nonneg (by omega)]; omega
    have hfit : (-x).toNat < 2 ^ bs := by
      have h1 : (2 : Nat) ^ (bs - 1) < 2 ^ bs := Nat.pow_lt_pow_right (by norm_num) (by omega)
      omega
    have hpu := ParseUint_formatBits (-x).toNat bitSize (by rw [← hbs]; omega)
      (by rw [← hbs]; exact hfit)
    simp only [ParseInt, hdata]
    simp [hpu, ← hbs, hcut]
    rw [max_eq_left (by omega : (0 : Int) ≤ -x)]
    omega
  · have hx0 : 0 ≤ x := by omega
    have hu : x.toNat < 2 ^ 64 := by
      have : (x.toNat : Int) = x := Int.toNat_of_nonneg hx0
      have h2 : (x.toNat : Int) < 2 ^ 64 := by rw [this]; omega
      exact_mod_cast h2
    obtain ⟨d, rest, hd, _, heq⟩ :=
      formatBitsLoop_head 64 x.toNat [] (lt_of_lt_of_le hu (by norm_num))
    have hdata : (FormatInt x).data = digitChar d :: rest := by
      simp [FormatInt, hneg, heq]
    have hcut : ¬ ((2 : Nat) ^ (bs - 1) ≤ x.toNat) := by
      have : (x.toNat : Int) = x := Int.toNat_of_nonneg hx0
      intro hc
      have hc2 : ((2 ^ (bs - 1) : Nat) : Int) ≤ (x.toNat : Int) := by exact_mod_cast hc
      rw [this] at hc2
      push_cast at hc2
      omega
    have hfit : x.toNat < 2 ^ bs := by
      have h1 : (2 : Nat) ^ (bs - 1) < 2 ^ bs := Nat.pow_lt_pow_right (by norm_num) (by omega)
      omega
    have hpu : ParseUint (digitChar d :: rest) bitSize = .ok x.toNat := by
      rw [← heq]
      exact ParseUint_formatBits x.toNat bitSize (by rw [← hbs]; omega)
        (by rw [← hbs]; exact hfit)
    simp only [ParseInt, hdata, digitChar_ne_minus d hd, digitChar_ne_plus d hd]
    simp [hpu, ← hbs, hcut, Int.toNat_of_nonneg hx0]

theorem FormatInt_ofNat (x : Nat) : FormatInt (x : Int) = FormatUint x := by
  have h : ¬ ((x : Int) < 0) := by omega
  simp [FormatInt, FormatUint, h]

/-- C3: for every signed integer kind and every value `x` of that kind,
`ValueToStr` succeeds and `StrToValue` of its text into the zero field of the
kind succeeds and stores `x`. -/
theorem StrToValue_ValueToStr_int (env : TypeEnv) (depth : Nat) (k : IntKind) (x : Int)
    (hlo : -(2 : Int) ^ (k.bits - 1) ≤ x) (hhi : x < (2 : Int) ^ (k.bits - 1)) :
    (ValueToStr (.int k x)).2 = none ∧
      StrToValue env depth (ValueToStr (.int k x)).1 (.int k 0) = (.int k x, none) := by
  refine ⟨rfl, ?_⟩
  have hp : ParseInt (FormatInt x) k.bitSize = (x, none) := by
    apply ParseInt_FormatInt
    · cases k <;> simp [IntKind.bitSize]
    · cases k <;> simpa [IntKind.bitSize, IntKind.bits, IntSize] using hlo
    · cases k <;> simpa [IntKind.bitSize, IntKind.bits, IntSize] using hhi
  have hw : wrapInt k.bits x = x := by
    cases k <;> simp only [IntKind.bits] at hlo hhi ⊢ <;> simp only [wrapInt] <;> omega
  simp [StrToValue, ValueToStr, setByKind, parseInt, hp, hw]

theorem readDigits_digit (d n c : Nat) (cs : List Char) (hd : d < 10) :
    readDigits (digitChar d :: cs) n c = readDigits cs (n * 10 + d) (c + 1) := by
  have ht := digitChar_toNat d hd
  have h : 48 ≤ 48 + d ∧ 48 + d ≤ 57 := by omega
  rw [readDigits, ht, if_pos h]
  congr 2
  omega

theorem readDigits_formatBitsLoop (fuel : Nat) :
    ∀ (u : Nat) (acc : List Char), u < 10 ^ (fuel + 1) →
      ∃ c, 0 < c ∧ readDigits (formatBitsLoop (fuel + 1) u acc) 0 0 = readDigits acc u c := by
  induction fuel with
  | zero =>
    intro u acc h
    have hu : ¬ (10 ≤ u) := by simpa using h
    refine ⟨1, by norm_num, ?_⟩
    simp only [formatBitsLoop, hu, if_false]
    rw [readDigits_digit u 0 0 acc (by omega)]
    simp
  | succ n ih =>
    intro u acc h
    by_cases hu : 10 ≤ u
    · have h1 : u / 10 < 10 ^ (n + 1) := by
        rw [Nat.div_lt_iff_lt_mul (by norm_num)]
        rw [pow_succ] at h
        exact h
      obtain ⟨c, _, heq⟩ := ih (u / 10) (digitChar (u % 10) :: acc) h1
      refine ⟨c + 1, by omega, ?_⟩
      rw [formatBitsLoop]
      simp only [hu, if_true]
      rw [heq, readDigits_digit (u % 10) (u / 10) c acc (Nat.mod_lt _ (by norm_num))]
      congr 1
      omega
    · refine ⟨1, by norm_num, ?_⟩
      simp only [formatBitsLoop, hu, if_false]
      rw [readDigits_digit u 0 0 acc (by omega)]
      simp

theorem lower_digitChar_ne (d : Nat) (h : d < 10) :
    Char.ofNat (lower (digitChar d)) ≠ 'i' ∧ Char.ofNat (lower (digitChar d)) ≠ 'n' := by
  interval_cases d <;> decide

theorem digitChar_plain (d : Nat) (h : d < 10) :
    digitChar d ≠ '_' ∧ lower (digitChar d) ≠ 120 := by
  interval_cases d <;> decide

/-- On a text without underscores and without the letter `x`, `readFloat` is
`readDecimal`. -/
theorem readFloat_plain (s body : List Char) (h : ∀ c ∈ body, c ≠ '_' ∧ lower c ≠ 120) :
    readFloat s body = (readDecimal body).map (fun p => (p.1, 10, p.2)) := by
  have hany : body.any (fun c => c = '_') = false := by
    rw [List.any_eq_false]
    intro c hc
    simpa using (h c hc).1
  have hfil : body.filter (fun c => c ≠ '_') = body := by
    rw [List.filter_eq_self]
    intro c hc
    simpa using (h c hc).1
  simp only [readFloat, hany, Bool.false_and, Bool.false_eq_true, if_false, hfil]
  split
  · rename_i c0 c1 c2 rest
    have h1 : lower c1 ≠ 120 := (h c1 (by simp)).2
    simp [h1]
  · rfl

theorem formatBitsLoop_plain (fuel : Nat) :
    ∀ (u : Nat) (acc : List Char), (∀ c ∈ acc, c ≠ '_' ∧ lower c ≠ 120) →
      ∀ c ∈ formatBitsLoop fuel u acc, c ≠ '_' ∧ lower c ≠ 120 := by
  induction fuel with
  | zero => intro u acc h; simpa [formatBitsLoop] using h
  | succ n ih =>
    intro u acc h
    by_cases hu : 10 ≤ u
    · simp only [formatBitsLoop, hu, if_true]
      apply ih
      intro c hc
      rcases List.mem_cons.1 hc with rfl | hc
      · exact digitChar_plain _ (Nat.mod_lt _ (by norm_num))
      · exact h c hc
    · simp only [formatBitsLoop, hu, if_false]
      intro c hc
      rcases List.mem_cons.1 hc with rfl | hc
      · exact digitChar_plain _ (by omega)
      · exact h c hc

theorem ParseFloat_FormatUint (x : Nat) (h0 : 0 < x) (h : x < 2 ^ 53) :
    ParseFloat (FormatUint x) 64 = (.fin x 0, none) := by
  have h10 : x < 10 ^ 65 := lt_of_lt_of_le h (by norm_num)
  obtain ⟨d, rest, hd, _, heq⟩ := formatBitsLoop_head 64 x [] h10
  obtain ⟨c, hc, hrd⟩ := readDigits_formatBitsLoop 64 x [] h10
  have hdata : (FormatUint x).data = digitChar d :: rest := by simp [FormatUint, heq]
  have hspec : readSpecial (digitChar d :: rest) = none := by
    have hl := lower_digitChar_ne d hd
    simp [readSpecial, hl.1, hl.2]
  have hdec : readDecimal (digitChar d :: rest) = some (x, 0) := by
    rw [← heq]
    have hc0 : ¬ (c = 0) := by omega
    simp [readDecimal, hrd, readDigits, hc0]
  have hrf : readFloat (digitChar d :: rest) (digitChar d :: rest) = some (x, 10, 0) := by
    rw [readFloat_plain _ _ (by
      rw [← heq]
      exact formatBitsLoop_plain 65 x [] (by simp)), hdec]
    rfl
  have hx0 : ¬ (x = 0) := by omega
  have h' : x < 9007199254740992 := by simpa using h
  simp only [ParseFloat, hdata, digitChar_ne_minus d hd, digitChar_ne_plus d hd]
  simp [hspec, hrf, roundToFloat, hx0, fmtOf, fmt64, h', mkFloat]

theorem floatToUint_ofNat (x : Nat) (h0 : 0 < x) (h : x ≤ maxUint53) :
    floatToUint (.fin x 0) = (x, none) := by
  have hx : x < 2 ^ 52 := by simp only [maxUint53] at h; omega
  have h1 : (F64.fin (x : Int) 0).toUint64 = x := by
    have ht : Int.tdiv (x : Int) (2 ^ 0) = x := by simp
    have ha : ¬ ((x : Int) < -(2 : Int) ^ 63) := by omega
    have hb : ¬ ((x : Int) < 0) := by omega
    have hc : (x : Int) < 2 ^ 64 := by omega
    simp only [F64.toUint64, ht, if_neg ha, if_neg hb, if_pos hc, Int.toNat_ofNat]
  have h2 : F64.ofInt ((x : Nat) : Int) = .fin x 0 := by
    have : ((x : Int)).natAbs < 2 ^ 53 := by simp only [Int.natAbs_ofNat]; omega
    simp only [F64.ofInt, if_pos this]
  have h3 : (F64.fin (x : Int) 0).eq (.fin x 0) = true := by
    have hx0 : ¬ ((x : Int) = 0) := by omega
    unfold F64.eq
    split <;> simp_all
  simp only [floatToUint, h1, h2, h3, minUint53]
  simp [h]

theorem ParseInt_FormatUint_range (x : Nat) (bitSize : Nat)
    (hbs : 1 ≤ (if bitSize = 0 then IntSize else bitSize) ∧
      (if bitSize = 0 then IntSize else bitSize) ≤ 64)
    (hlo : 2 ^ ((if bitSize = 0 then IntSize else bitSize) - 1) ≤ x) (hhi : x < 2 ^ 64) :
    (ParseInt (FormatUint x) bitSize).2 = some .ErrRange := by
  obtain ⟨d, rest, hd, _, heq⟩ :=
    formatBitsLoop_head 64 x [] (lt_of_lt_of_le hhi (by norm_num))
  have hdata : (FormatUint x).data = digitChar d :: rest := by simp [FormatUint, heq]
  by_cases hfit : x < 2 ^ (if bitSize = 0 then IntSize else bitSize)
  · have hpu : ParseUint (digitChar d :: rest) bitSize = .ok x := by
      rw [← heq]; exact ParseUint_formatBits x bitSize hbs.2 hfit
    simp only [ParseInt, hdata, digitChar_ne_minus d hd, digitChar_ne_plus d hd]
    simp [hpu, hlo]
  · have hpu : ParseUint (digitChar d :: rest) bitSize = .error .ErrRange := by
      rw [← heq]; exact ParseUint_formatBits_range x bitSize hbs.2 (by omega) hhi
    set bs := (if bitSize = 0 then IntSize else bitSize) with hbsdef
    have hcut : 2 ^ (bs - 1) ≤ 2 ^ bs - 1 := by
      have h1 : (2 : Nat) ^ (bs - 1) < 2 ^ bs := Nat.pow_lt_pow_right (by norm_num) (by omega)
      omega
    simp only [ParseInt, hdata, digitChar_ne_minus d hd, digitChar_ne_plus d hd,
      ← hbsdef, or_self, if_false]
    rw [hpu]
    simp [hcut]

theorem parseUint_FormatUint (k : UintKind) (x : Nat) (h : x < 2 ^ k.bits) (h63 : x < 2 ^ 63) :
    parseUint (FormatUint x) k.bitSize = (x, none) := by
  have hbs : (if k.bitSize = 0 then IntSize else k.bitSize) = k.bits := by
    cases k <;> rfl
  by_cases hx : x < 2 ^ (k.bits - 1)
  · have hp : ParseInt (FormatUint x) k.bitSize = ((x : Int), none) := by
      rw [← FormatInt_ofNat]
      apply ParseInt_FormatInt
      · cases k <;> simp [UintKind.bitSize]
      · rw [hbs]
        have : (0 : Int) ≤ 2 ^ (k.bits - 1) := by positivity
        omega
      · rw [hbs]; exact_mod_cast hx
    have hm : ((x : Int) % 2 ^ 64).toNat = x := by
      have : (x : Int) % 2 ^ 64 = x := Int.emod_eq_of_lt (by omega) (by omega)
      rw [this]; simp
    simp only [parseUint, hp, hm]
  · have hx' : 2 ^ (k.bits - 1) ≤ x := by omega
    have hr : (ParseInt (FormatUint x) k.bitSize).2 = some .ErrRange :=
      ParseInt_FormatUint_range x k.bitSize (by rw [hbs]; cases k <;> decide)
        (by rw [hbs]; exact hx') (by omega)
    have hsmall : x < 2 ^ 32 := by
      cases k <;> simp only [UintKind.bits] at h hx' <;> omega
    have hpos : 0 < x := lt_of_lt_of_le (by positivity) hx'
    have hf : ParseFloat (FormatUint x) 64 = (.fin x 0, none) :=
      ParseFloat_FormatUint x hpos (by omega)
    have hfu : floatToUint (.fin x 0) = (x, none) :=
      floatToUint_ofNat x hpos (by simp only [maxUint53]; omega)
    cases hpi : ParseInt (FormatUint x) k.bitSize with
    | mk i e =>
      rw [hpi] at hr
      simp only at hr
      subst hr
      simp only [parseUint, hpi, hf, hfu]

/-- C4, amended: for every unsigned integer kind and every value `x` of that
kind below `2 ^ 63` (every value of uint8, uint16 and uint32), `ValueToStr`
succeeds and `StrToValue` of its text into the zero field of the kind succeeds
and stores `x`. -/
theorem StrToValue_ValueToStr_uint (env : TypeEnv) (depth : Nat) (k : UintKind) (x : Nat)
    (h : x < 2 ^ k.bits) (h63 : x < 2 ^ 63) :
    (ValueToStr (.uint k x)).2 = none ∧
      StrToValue env depth (ValueToStr (.uint k x)).1 (.uint k 0) = (.uint k x, none) := by
  refine ⟨rfl, ?_⟩
  have hw : wrapUint k.bits x = x := Nat.mod_eq_of_lt h
  simp [StrToValue, ValueToStr, setByKind, parseUint_FormatUint k x h h63, hw]

/-- C4, as stated, fails at the greatest `uint64`: the text of `2 ^ 64 - 1` is
refused with a conversion error and the zero field keeps 0. -/
theorem StrToValue_ValueToStr_uint64_max :
    StrToValue testEnv 0 (ValueToStr (.uint .Uint64 (2 ^ 64 - 1))).1 (.uint .Uint64 0) =
      (.uint .Uint64 0, some (.floatToUint (.fin 18446744073709551616 0))) := by
  decide

theorem StrToValue_ValueToStr_int_witness :
    (ValueToStr (.int .Int8 (-128))).2 = none ∧
      StrToValue testEnv 0 (ValueToStr (.int .Int8 (-128))).1 (.int .Int8 0) =
        (.int .Int8 (-128), none) :=
  StrToValue_ValueToStr_int testEnv 0 .Int8 (-128) (by decide) (by decide)

theorem StrToValue_ValueToStr_uint_witness :
    (ValueToStr (.uint .Uint8 255)).2 = none ∧
      StrToValue testEnv 0 (ValueToStr (.uint .Uint8 255)).1 (.uint .Uint8 0) =
        (.uint .Uint8 255, none) :=
  StrToValue_ValueToStr_uint testEnv 0 .Uint8 255 (by decide) (by decide)

/-! ## The heap during the traversal -/

theorem deref_append_left (heap ext : Heap) (n : Nat) (h : n < heap.length) :
    deref (heap ++ ext) n = deref heap n := by
  simp [deref, List.getD, List.getElem?_append_left h]

theorem deref_append_length (heap : Heap) (x : FieldInfo) :
    deref (heap ++ [x]) heap.length = x := by
  simp [deref, List.getD]

theorem addChild_length (heap : Heap) (p c : Nat) : (addChild heap p c).length = heap.length := by
  induction heap generalizing p with
  | nil => cases p <;> rfl
  | cons x rest ih =>
    cases p with
    | zero => rfl
    | succ p => simp [addChild, ih]

theorem deref_addChild_static (heap : Heap) (p c n : Nat) :
    (deref (addChild heap p c) n).static = (deref heap n).static := by
  induction heap generalizing p n with
  | nil => cases p <;> rfl
  | cons x rest ih =>
    cases p with
    | zero =>
      cases n with
      | zero => rfl
      | succ n => rfl
    | succ p =>
      cases n with
      | zero => rfl
      | succ n =>
        have := ih p n
        simpa [addChild, deref] using this

theorem deref_addChild_children (heap : Heap) (p c n : Nat) :
    (deref (addChild heap p c) n).Children =
      if n = p ∧ p < heap.length then (deref heap n).Children ++ [c]
      else (deref heap n).Children := by
  induction heap generalizing p n with
  | nil => cases p <;> simp [addChild, deref]
  | cons x rest ih =>
    cases p with
    | zero =>
      cases n with
      | zero => simp [addChild, deref]
      | succ n => simp [addChild, deref]
    | succ p =>
      cases n with
      | zero => simp [addChild, deref]
      | succ n =>
        have := ih p n
        simpa [addChild, deref] using this

theorem static_Index (x : FieldInfo) : x.static.Index = x.Index := rfl
theorem static_Path (x : FieldInfo) : x.static.Path = x.Path := rfl
theorem static_Typ (x : FieldInfo) : x.static.Typ = x.Typ := rfl
theorem static_Name (x : FieldInfo) : x.static.Name = x.Name := rfl
theorem static_Options (x : FieldInfo) : x.static.Options = x.Options := rfl
theorem static_Embedded (x : FieldInfo) : x.static.Embedded = x.Embedded := rfl
theorem static_Parent (x : FieldInfo) : x.static.Parent = x.Parent := rfl
theorem static_Parts (x : FieldInfo) : x.static.Parts = x.Parts := rfl

theorem AgreeBelow.attrs {h1 h2 : Heap} {bound : Nat} (ha : AgreeBelow h1 h2 bound) {n : Nat}
    (hn : n < bound) :
    (deref h2 n).Index = (deref h1 n).Index ∧ (deref h2 n).Path = (deref h1 n).Path ∧
    (deref h2 n).Typ = (deref h1 n).Typ ∧ (deref h2 n).Name = (deref h1 n).Name ∧
    (deref h2 n).Options = (deref h1 n).Options ∧
    (deref h2 n).Embedded = (deref h1 n).Embedded ∧
    (deref h2 n).Parent = (deref h1 n).Parent := by
  have h := ha n hn
  refine ⟨?_, ?_, ?_, ?_, ?_, ?_, ?_⟩
  · have h2 := congrArg FieldInfo.Index h
    exact h2
  · have h2 := congrArg FieldInfo.Path h
    exact h2
  · have h2 := congrArg FieldInfo.Typ h
    exact h2
  · have h2 := congrArg FieldInfo.Name h
    exact h2
  · have h2 := congrArg FieldInfo.Options h
    exact h2
  · have h2 := congrArg FieldInfo.Embedded h
    exact h2
  · have h2 := congrArg FieldInfo.Parent h
    exact h2

theorem visitField_skip (tagName : String) (tagFunc : TagFunc) (tq : typeQueue)
    (st : BuildState) (pos : Nat) (f : StructField) (h : skipField tagName tagFunc f = true) :
    visitField tagName tagFunc tq st pos f = st := by
  simp [visitField, h]

theorem visitField_m (tagName : String) (tagFunc : TagFunc) (tq : typeQueue)
    (st : BuildState) (pos : Nat) (f : StructField) (h : skipField tagName tagFunc f = false) :
    (visitField tagName tagFunc tq st pos f).m = st.m ++ [st.heap.length] := by
  simp [visitField, h]

theorem visitField_queue (tagName : String) (tagFunc : TagFunc) (tq : typeQueue)
    (st : BuildState) (pos : Nat) (f : StructField) (h : skipField tagName tagFunc f = false) :
    (visitField tagName tagFunc tq st pos f).queue =
      if (Deref f.Typ).Kind = Kind.Struct ∧
          (mapGet (newFieldInfo tagName tagFunc st.heap tq pos f).Options OmitNested).isNone then
        st.queue ++ [⟨Deref f.Typ,
          ownerOf tagFunc tq f (newFieldInfo tagName tagFunc st.heap tq pos f) st.heap.length,
          apnd tq.pIndex pos⟩]
      else st.queue := by
  simp [visitField, h, newFieldInfo]

theorem visitField_length (tagName : String) (tagFunc : TagFunc) (tq : typeQueue)
    (st : BuildState) (pos : Nat) (f : StructField) (h : skipField tagName tagFunc f = false) :
    (visitField tagName tagFunc tq st pos f).heap.length = st.heap.length + 1 := by
  simp only [visitField, h]
  simp only [Bool.false_eq_true, if_false]
  split <;> simp [addChild_length]

theorem visitField_agree (tagName : String) (tagFunc : TagFunc) (tq : typeQueue)
    (st : BuildState) (pos : Nat) (f : StructField) (h : skipField tagName tagFunc f = false) :
    AgreeBelow st.heap (visitField tagName tagFunc tq st pos f).heap st.heap.length := by
  intro n hn
  simp only [visitField, h]
  simp only [Bool.false_eq_true, if_false]
  split
  · rw [deref_addChild_static, deref_append_left _ _ _ hn]
  · rw [deref_append_left _ _ _ hn]

theorem visitField_new (tagName : String) (tagFunc : TagFunc) (tq : typeQueue)
    (st : BuildState) (pos : Nat) (f : StructField) (h : skipField tagName tagFunc f = false) :
    (deref (visitField tagName tagFunc tq st pos f).heap st.heap.length).static =
      newFieldInfo tagName tagFunc st.heap tq pos f := by
  simp only [visitField, h]
  simp only [Bool.false_eq_true, if_false]
  split
  · rw [deref_addChild_static, deref_append_length]; rfl
  · rw [deref_append_length]; rfl

theorem visitField_children (tagName : String) (tagFunc : TagFunc) (tq : typeQueue)
    (st : BuildState) (pos : Nat) (f : StructField) (h : skipField tagName tagFunc f = false)
    (n : Nat) :
    (deref (visitField tagName tagFunc tq st pos f).heap n).Children =
      if ownerOf tagFunc tq f (newFieldInfo tagName tagFunc st.heap tq pos f) st.heap.length =
          st.heap.length ∧ n = tq.fi ∧ tq.fi < st.heap.length + 1 then
        (deref (st.heap ++ [newFieldInfo tagName tagFunc st.heap tq pos f]) n).Children ++
          [st.heap.length]
      else (deref (st.heap ++ [newFieldInfo tagName tagFunc st.heap tq pos f]) n).Children := by
  simp only [visitField, h]
  simp only [Bool.false_eq_true, if_false]
  by_cases ho : ownerOf tagFunc tq f (newFieldInfo tagName tagFunc st.heap tq pos f)
      st.heap.length = st.heap.length
  · simp only [ho, if_true, true_and]
    rw [deref_addChild_children]
    simp
  · simp only [ho, if_false, false_and]

theorem recursiveHit_agree (h1 h2 : Heap) (ty : GoType) (bound : Nat)
    (ha : AgreeBelow h1 h2 bound)
    (hdec : ∀ n, n < bound → ∀ q, (deref h1 n).Parent = some q → q < n) :
    ∀ p, p < bound → ∀ f1 f2, p < f1 → p < f2 →
      recursiveHit h1 ty f1 (some p) = recursiveHit h2 ty f2 (some p) := by
  intro p
  induction p using Nat.strong_induction_on with
  | _ p ih =>
    intro hp f1 f2 hf1 hf2
    obtain ⟨g1, rfl⟩ : ∃ g, f1 = g + 1 := ⟨f1 - 1, by omega⟩
    obtain ⟨g2, rfl⟩ : ∃ g, f2 = g + 1 := ⟨f2 - 1, by omega⟩
    have hat := (ha.attrs hp)
    simp only [recursiveHit, hat.2.2.1, hat.2.2.2.2.2.2]
    by_cases hty : ty = (deref h1 p).Typ
    · simp [hty]
    · simp only [hty, if_false]
      cases hpar : (deref h1 p).Parent with
      | none => cases g1 <;> cases g2 <;> rfl
      | some q =>
        have hq := hdec p hp q hpar
        exact ih q hq (by omega) g1 g2 (by omega) (by omega)

theorem guardHit_agree (h1 h2 : Heap) (bound : Nat) (ha : AgreeBelow h1 h2 bound)
    (hdec : ∀ n, n < bound → ∀ q, (deref h1 n).Parent = some q → q < n)
    (hb1 : bound ≤ h1.length) (hb2 : bound ≤ h2.length) (p : Nat) (hp : p < bound) :
    guardHit h2 p = guardHit h1 p := by
  have hat := (ha.attrs hp)
  simp only [guardHit, hat.2.2.1, hat.2.2.2.2.2.2]
  cases hpar : (deref h1 p).Parent with
  | none =>
    cases h1.length <;> cases h2.length <;> rfl
  | some q =>
    have hq := hdec p hp q hpar
    exact (recursiveHit_agree h1 h2 _ bound ha hdec q (by omega) _ _ (by omega) (by omega)).symm

theorem ownerOf_static (tagFunc : TagFunc) (tq1 tq2 : typeQueue) (f : StructField)
    (x y : FieldInfo) (self : Nat) (hq : tq1.fi = tq2.fi) (hxy : x.static = y.static) :
    ownerOf tagFunc tq1 f x self = ownerOf tagFunc tq2 f y self := by
  have h1 : x.Typ = y.Typ := by
    have h := congrArg FieldInfo.Typ hxy
    exact h
  have h2 : x.Options = y.Options := by
    have h := congrArg FieldInfo.Options hxy
    exact h
  have h3 : x.Embedded = y.Embedded := by
    have h := congrArg FieldInfo.Embedded hxy
    exact h
  have h4 : x.Name = y.Name := by
    have h := congrArg FieldInfo.Name hxy
    exact h
  simp only [ownerOf, h1, h2, h3, h4, hq]

theorem ownerPtr_agree (env : TypeEnv) (t : GoType) (tagFunc : TagFunc) (h1 h2 : Heap)
    (bound : Nat) (ha : AgreeBelow h1 h2 bound) (n : Nat) (hn : n < bound) :
    ownerPtr env t tagFunc h2 n = ownerPtr env t tagFunc h1 n := by
  have hat := ha.attrs hn
  simp only [ownerPtr, hat.1, hat.2.2.2.2.2.2]
  cases fieldAt env t (deref h1 n).Index with
  | none => rfl
  | some f =>
    cases (deref h1 n).Parent with
    | none => rfl
    | some p => exact ownerOf_static tagFunc _ _ f _ _ n rfl (ha n hn)

theorem wantsEntry_agree (h1 h2 : Heap) (bound : Nat) (ha : AgreeBelow h1 h2 bound) (n : Nat)
    (hn : n < bound) : wantsEntry h2 n ↔ wantsEntry h1 n := by
  have hat := ha.attrs hn
  simp only [wantsEntry, hat.2.2.1, hat.2.2.2.2.1]

theorem entryOf_agree (env : TypeEnv) (t : GoType) (tagFunc : TagFunc) (h1 h2 : Heap)
    (bound : Nat) (ha : AgreeBelow h1 h2 bound) (n : Nat) (hn : n < bound) :
    entryOf env t tagFunc h2 n = entryOf env t tagFunc h1 n := by
  have hat := ha.attrs hn
  simp only [entryOf, hat.1, hat.2.2.1, ownerPtr_agree env t tagFunc h1 h2 bound ha n hn]

theorem isEntry_agree (env : TypeEnv) (t : GoType) (tagFunc : TagFunc) (h1 h2 : Heap)
    (bound : Nat) (ha : AgreeBelow h1 h2 bound) (b b2 : Nat) (hb : b ≤ bound) (hb2 : b ≤ b2)
    (e : typeQueue) (he : IsEntry env t tagFunc h1 b e) : IsEntry env t tagFunc h2 b2 e := by
  rcases he with he | ⟨F, hF1, hF2, hw, hFe⟩
  · exact Or.inl he
  · refine Or.inr ⟨F, hF1, by omega, ?_, ?_⟩
    · exact (wantsEntry_agree h1 h2 bound ha F (by omega)).2 hw
    · rw [entryOf_agree env t tagFunc h1 h2 bound ha F (by omega)]; exact hFe

theorem newFieldInfo_agree (tagName : String) (tagFunc : TagFunc) (h1 h2 : Heap) (bound : Nat)
    (ha : AgreeBelow h1 h2 bound) (e : typeQueue) (pos : Nat) (f : StructField)
    (he : e.fi < bound) :
    newFieldInfo tagName tagFunc h2 e pos f = newFieldInfo tagName tagFunc h1 e pos f := by
  have hat := ha.attrs he
  simp only [newFieldInfo, hat.2.1]

theorem builtFrom_agree (env : TypeEnv) (t : GoType) (tagName : String) (tagFunc : TagFunc)
    (h1 h2 : Heap) (bound : Nat) (ha : AgreeBelow h1 h2 bound)
    (hdec : ∀ n, n < bound → ∀ q, (deref h1 n).Parent = some q → q < n)
    (hb1 : bound ≤ h1.length) (hb2 : bound ≤ h2.length) (n : Nat) (hn : n < bound)
    (h : BuiltFrom env t tagName tagFunc h1 n) : BuiltFrom env t tagName tagFunc h2 n := by
  obtain ⟨e, pos, f, he, hf, hs, hfa, hst, hlt, hg⟩ := h
  refine ⟨e, pos, f, ?_, hf, hs, hfa, ?_, hlt, ?_⟩
  · exact isEntry_agree env t tagFunc h1 h2 bound ha n n (by omega) (le_refl _) e he
  · rw [ha n hn, hst, newFieldInfo_agree tagName tagFunc h1 h2 bound ha e pos f (by omega)]
  · rw [guardHit_agree h1 h2 bound ha hdec hb1 hb2 e.fi (by omega)]; exact hg

theorem covered_agree (env : TypeEnv) (tagName : String) (tagFunc : TagFunc) (h1 h2 : Heap)
    (ha : AgreeBelow h1 h2 h1.length) (hlen : h1.length ≤ h2.length) (e : typeQueue) (j : Nat)
    (h : Covered env tagName tagFunc h1 e j) : Covered env tagName tagFunc h2 e j := by
  intro pos f hpos hf hs
  obtain ⟨n, hn1, hn2, hn3⟩ := h pos f hpos hf hs
  exact ⟨n, hn1, by omega, by rw [(ha.attrs hn2).1]; exact hn3⟩

theorem TInv.parent_lt {env : TypeEnv} {t : GoType} {tagName : String} {tagFunc : TagFunc}
    {heap : Heap} {m : List Nat} {work : List (typeQueue × Nat)}
    (inv : TInv env t tagName tagFunc heap m work) :
    ∀ n, n < heap.length → ∀ q, (deref heap n).Parent = some q → q < n := by
  intro n hn q hq
  cases n with
  | zero =>
    have h := congrArg FieldInfo.Parent inv.root_static
    rw [static_Parent, hq] at h
    cases h
  | succ n =>
    obtain ⟨e, pos, f, _, _, _, _, hst, hlt, _⟩ := inv.built (n + 1) (by omega) hn
    have h := congrArg FieldInfo.Parent hst
    rw [static_Parent, hq] at h
    simp only [newFieldInfo] at h
    cases h
    exact hlt

theorem fieldAt_cons_cons (env : TypeEnv) (t : GoType) (i j : Nat) (rest : List Nat) :
    fieldAt env t (i :: j :: rest) =
      match (fieldsOf env (Deref t))[i]? with
      | none => none
      | some f => fieldAt env f.Typ (j :: rest) := rfl

theorem fieldAt_snoc (env : TypeEnv) (t : GoType) (idx : List Nat) (pos : Nat) :
    fieldAt env t (idx ++ [pos]) =
      match typeAt env t idx with
      | none => none
      | some ty => (fieldsOf env (Deref ty))[pos]? := by
  induction idx generalizing t with
  | nil => simp [typeAt, fieldAt]
  | cons i rest ih =>
    cases rest with
    | nil =>
      show fieldAt env t (i :: [pos]) = _
      rw [fieldAt_cons_cons]
      simp only [typeAt, fieldAt]
      cases (fieldsOf env (Deref t))[i]? with
      | none => rfl
      | some f => simp [fieldAt]
    | cons j rest2 =>
      show fieldAt env t (i :: j :: (rest2 ++ [pos])) = _
      rw [fieldAt_cons_cons]
      have h2 : typeAt env t (i :: j :: rest2) =
          (fieldAt env t (i :: j :: rest2)).map (fun f => f.Typ) := rfl
      rw [h2, fieldAt_cons_cons]
      cases (fieldsOf env (Deref t))[i]? with
      | none => rfl
      | some f =>
        have h3 := ih f.Typ
        simp only [List.cons_append] at h3
        simp only [h3]
        rfl

theorem newFieldInfo_Index (tagName : String) (tagFunc : TagFunc) (heap : Heap) (e : typeQueue)
    (pos : Nat) (f : StructField) :
    (newFieldInfo tagName tagFunc heap e pos f).Index = e.pIndex ++ [pos] := rfl

theorem newFieldInfo_Parent (tagName : String) (tagFunc : TagFunc) (heap : Heap) (e : typeQueue)
    (pos : Nat) (f : StructField) :
    (newFieldInfo tagName tagFunc heap e pos f).Parent = some e.fi := rfl

theorem newFieldInfo_Typ (tagName : String) (tagFunc : TagFunc) (heap : Heap) (e : typeQueue)
    (pos : Nat) (f : StructField) :
    (newFieldInfo tagName tagFunc heap e pos f).Typ = f.Typ := rfl

theorem typeAt_snoc (env : TypeEnv) (t : GoType) (idx : List Nat) (pos : Nat) :
    typeAt env t (idx ++ [pos]) = (fieldAt env t (idx ++ [pos])).map (fun f => f.Typ) := by
  cases idx <;> rfl

theorem ownerOf_cases (tagFunc : TagFunc) (tq : typeQueue) (f : StructField) (x : FieldInfo)
    (self : Nat) : ownerOf tagFunc tq f x self = self ∨ ownerOf tagFunc tq f x self = tq.fi := by
  simp only [ownerOf]
  split
  · split
    · split
      · exact Or.inr rfl
      · split
        · exact Or.inr rfl
        · exact Or.inl rfl
    · split
      · exact Or.inr rfl
      · exact Or.inl rfl
  · exact Or.inl rfl

theorem ownerPtr_cases (env : TypeEnv) (t : GoType) (tagFunc : TagFunc) (heap : Heap) (n : Nat) :
    ownerPtr env t tagFunc heap n = n ∨
      ∃ p, (deref heap n).Parent = some p ∧ ownerPtr env t tagFunc heap n = p := by
  simp only [ownerPtr]
  cases fieldAt env t (deref heap n).Index with
  | none => exact Or.inl rfl
  | some f =>
    cases hp : (deref heap n).Parent with
    | none => exact Or.inl rfl
    | some p =>
      rcases ownerOf_cases tagFunc ⟨.iface, p, []⟩ f (deref heap n) n with h | h
      · exact Or.inl h
      · exact Or.inr ⟨p, rfl, h⟩

section Invariant

variable {env : TypeEnv} {t : GoType} {tagName : String} {tagFunc : TagFunc}

theorem TInv.built_attrs {heap : Heap} {m : List Nat} {work : List (typeQueue × Nat)}
    (_ : TInv env t tagName tagFunc heap m work) {n : Nat} {e : typeQueue} {pos : Nat}
    {f : StructField}
    (hst : (deref heap n).static = newFieldInfo tagName tagFunc heap e pos f) :
    (deref heap n).Index = e.pIndex ++ [pos] ∧ (deref heap n).Parent = some e.fi ∧
      (deref heap n).Typ = f.Typ := by
  refine ⟨?_, ?_, ?_⟩
  · have h := congrArg FieldInfo.Index hst; exact h
  · have h := congrArg FieldInfo.Parent hst; exact h
  · have h := congrArg FieldInfo.Typ hst; exact h

theorem TInv.entry_fi_lt {heap : Heap} {m : List Nat} {work : List (typeQueue × Nat)}
    (inv : TInv env t tagName tagFunc heap m work) {bound : Nat} (hb : bound ≤ heap.length)
    {e : typeQueue} (he : IsEntry env t tagFunc heap bound e) : e.fi < heap.length := by
  rcases he with he | ⟨F, _, hF2, _, hFe⟩
  · rw [he]; exact inv.heap_pos
  · rw [hFe]
    simp only [entryOf]
    rcases ownerPtr_cases env t tagFunc heap F with h | ⟨p, hp, h⟩
    · rw [h]; omega
    · rw [h]
      have := inv.parent_lt F (by omega) p hp
      omega

theorem TInv.entry_fieldAt {heap : Heap} {m : List Nat} {work : List (typeQueue × Nat)}
    (inv : TInv env t tagName tagFunc heap m work) {bound : Nat} (hb : bound ≤ heap.length)
    {e : typeQueue} (he : IsEntry env t tagFunc heap bound e) (pos : Nat) :
    fieldAt env t (e.pIndex ++ [pos]) = (fieldsOf env e.t)[pos]? := by
  rcases he with he | ⟨F, hF1, hF2, _, hFe⟩
  · rw [he]; rfl
  · obtain ⟨e1, pos1, f1, _, _, _, hfa, hst, _, _⟩ := inv.built F hF1 (by omega)
    have hat := inv.built_attrs hst
    rw [hFe, fieldAt_snoc]
    simp only [entryOf, hat.1, typeAt_snoc, hfa, Option.map_some', hat.2.2]

theorem TInv.entry_pIndex {heap : Heap} {m : List Nat} {work : List (typeQueue × Nat)}
    (_ : TInv env t tagName tagFunc heap m work) {bound : Nat} (_ : bound ≤ heap.length)
    {e : typeQueue} (he : IsEntry env t tagFunc heap bound e) :
    e.pIndex = [] ∨ ∃ F, 1 ≤ F ∧ F < bound ∧ e.pIndex = (deref heap F).Index := by
  rcases he with he | ⟨F, hF1, hF2, _, hFe⟩
  · rw [he]; exact Or.inl rfl
  · exact Or.inr ⟨F, hF1, hF2, by rw [hFe]; rfl⟩

theorem TInv.index_ne_nil {heap : Heap} {m : List Nat} {work : List (typeQueue × Nat)}
    (inv : TInv env t tagName tagFunc heap m work) {n : Nat} (h1 : 1 ≤ n) (h2 : n < heap.length) :
    (deref heap n).Index ≠ [] := by
  obtain ⟨e1, pos1, f1, _, _, _, _, hst, _, _⟩ := inv.built n h1 h2
  rw [(inv.built_attrs hst).1]
  simp

theorem TInv.pop_hit {heap : Heap} {m : List Nat} {work : List (typeQueue × Nat)}
    {tq : typeQueue} (inv : TInv env t tagName tagFunc heap m ((tq, 0) :: work))
    (hg : guardHit heap tq.fi = true) : TInv env t tagName tagFunc heap m work where
  heap_pos := inv.heap_pos
  root_static := inv.root_static
  m_eq := inv.m_eq
  built := inv.built
  work_entry := fun w hw => inv.work_entry w (List.mem_cons_of_mem _ hw)
  idx_inj := inv.idx_inj
  work_fresh := fun w hw => inv.work_fresh w (List.mem_cons_of_mem _ hw)
  work_nodup := by
    have h := inv.work_nodup
    simp only [List.map_cons, List.nodup_cons] at h
    exact h.2
  cover := by
    intro e he
    rcases inv.cover e he with ⟨j, hj, hc⟩ | h | h
    · rcases List.mem_cons.1 hj with h1 | h1
      · have : e = tq := congrArg Prod.fst h1
        rw [this]
        exact Or.inr (Or.inl hg)
      · exact Or.inl ⟨j, h1, hc⟩
    · exact Or.inr (Or.inl h)
    · exact Or.inr (Or.inr h)
  children_sound := inv.children_sound
  children_complete := inv.children_complete

theorem TInv.finish {heap : Heap} {m : List Nat} {work : List (typeQueue × Nat)}
    {tq : typeQueue} {j : Nat} (inv : TInv env t tagName tagFunc heap m ((tq, j) :: work))
    (hj : (fieldsOf env tq.t).length ≤ j) : TInv env t tagName tagFunc heap m work where
  heap_pos := inv.heap_pos
  root_static := inv.root_static
  m_eq := inv.m_eq
  built := inv.built
  work_entry := fun w hw => inv.work_entry w (List.mem_cons_of_mem _ hw)
  idx_inj := inv.idx_inj
  work_fresh := fun w hw => inv.work_fresh w (List.mem_cons_of_mem _ hw)
  work_nodup := by
    have h := inv.work_nodup
    simp only [List.map_cons, List.nodup_cons] at h
    exact h.2
  cover := by
    intro e he
    rcases inv.cover e he with ⟨j1, hj1, hc⟩ | h | h
    · rcases List.mem_cons.1 hj1 with h1 | h1
      · have h2 : e = tq := congrArg Prod.fst h1
        have h3 : j1 = j := congrArg Prod.snd h1
        subst h2 h3
        refine Or.inr (Or.inr ?_)
        intro j2 pos f _ hf hs
        have hlt : pos < (fieldsOf env e.t).length := by
          by_contra hge
          rw [List.getElem?_eq_none (by omega)] at hf
          cases hf
        exact hc pos f (by omega) hf hs
      · exact Or.inl ⟨j1, h1, hc⟩
    · exact Or.inr (Or.inl h)
    · exact Or.inr (Or.inr h)
  children_sound := inv.children_sound
  children_complete := inv.children_complete

theorem TInv.step_skip {heap : Heap} {m : List Nat} {work : List (typeQueue × Nat)}
    {tq : typeQueue} {j : Nat} {f : StructField}
    (inv : TInv env t tagName tagFunc heap m ((tq, j) :: work))
    (hf : (fieldsOf env tq.t)[j]? = some f) (hs : skipField tagName tagFunc f = true) :
    TInv env t tagName tagFunc heap m ((tq, j + 1) :: work) where
  heap_pos := inv.heap_pos
  root_static := inv.root_static
  m_eq := inv.m_eq
  built := inv.built
  work_entry := by
    intro w hw
    rcases List.mem_cons.1 hw with h | h
    · rw [h]; exact inv.work_entry (tq, j) (List.mem_cons_self _ _)
    · exact inv.work_entry w (List.mem_cons_of_mem _ h)
  idx_inj := inv.idx_inj
  work_fresh := by
    intro w hw n hn1 hn2 pos hpos
    rcases List.mem_cons.1 hw with h | h
    · rw [h] at hpos ⊢
      exact inv.work_fresh (tq, j) (List.mem_cons_self _ _) n hn1 hn2 pos (by simp at hpos ⊢; omega)
    · exact inv.work_fresh w (List.mem_cons_of_mem _ h) n hn1 hn2 pos hpos
  work_nodup := inv.work_nodup
  cover := by
    intro e he
    rcases inv.cover e he with ⟨j1, hj1, hc⟩ | h | h
    · rcases List.mem_cons.1 hj1 with h1 | h1
      · have h2 : e = tq := congrArg Prod.fst h1
        have h3 : j1 = j := congrArg Prod.snd h1
        subst h2 h3
        refine Or.inl ⟨j1 + 1, List.mem_cons_self _ _, ?_⟩
        intro pos f1 hpos hf1 hs1
        by_cases hp : pos < j1
        · exact hc pos f1 hp hf1 hs1
        · have : pos = j1 := by omega
          subst this
          rw [hf] at hf1
          cases hf1
          rw [hs] at hs1
          cases hs1
      · exact Or.inl ⟨j1, List.mem_cons_of_mem _ h1, hc⟩
    · exact Or.inr (Or.inl h)
    · exact Or.inr (Or.inr h)
  children_sound := inv.children_sound
  children_complete := inv.children_complete

end Invariant

section Invariant

variable {env : TypeEnv} {t : GoType} {tagName : String} {tagFunc : TagFunc}

theorem range'_one_concat (L : Nat) (h : 0 < L) :
    List.range' 1 (L - 1) ++ [L] = List.range' 1 (L + 1 - 1) := by
  obtain ⟨k, rfl⟩ : ∃ k, L = k + 1 := ⟨L - 1, by omega⟩
  simp only [Nat.add_sub_cancel]
  rw [List.range'_concat]
  simp [Nat.add_comm]

theorem TInv.step_new {h1 h2 : Heap} {m : List Nat} {work work2 : List (typeQueue × Nat)}
    {tq : typeQueue} {j : Nat} {f : StructField}
    (inv : TInv env t tagName tagFunc h1 m ((tq, j) :: work))
    (hf : (fieldsOf env tq.t)[j]? = some f) (hs : skipField tagName tagFunc f = false)
    (hg : guardHit h1 tq.fi = false)
    (hlen : h2.length = h1.length + 1)
    (hag : AgreeBelow h1 h2 h1.length)
    (hnew : (deref h2 h1.length).static = newFieldInfo tagName tagFunc h1 tq j f)
    (hch : ∀ n, (deref h2 n).Children =
      if ownerOf tagFunc tq f (newFieldInfo tagName tagFunc h1 tq j f) h1.length = h1.length ∧
          n = tq.fi ∧ tq.fi < h1.length + 1 then
        (deref (h1 ++ [newFieldInfo tagName tagFunc h1 tq j f]) n).Children ++ [h1.length]
      else (deref (h1 ++ [newFieldInfo tagName tagFunc h1 tq j f]) n).Children)
    (hw2 : work2 =
      if (Deref f.Typ).Kind = Kind.Struct ∧
          (mapGet (newFieldInfo tagName tagFunc h1 tq j f).Options OmitNested).isNone then
        work ++ [(⟨Deref f.Typ,
          ownerOf tagFunc tq f (newFieldInfo tagName tagFunc h1 tq j f) h1.length,
          apnd tq.pIndex j⟩, 0)]
      else work) :
    TInv env t tagName tagFunc h2 (m ++ [h1.length]) ((tq, j + 1) :: work2) := by
  have hdec := inv.parent_lt
  have htq : IsEntry env t tagFunc h1 h1.length tq :=
    inv.work_entry (tq, j) (List.mem_cons_self _ _)
  have htqfi : tq.fi < h1.length := inv.entry_fi_lt (le_refl _) htq
  have hfa : fieldAt env t (tq.pIndex ++ [j]) = some f := by
    rw [inv.entry_fieldAt (le_refl _) htq j]; exact hf
  have hLpos := inv.heap_pos
  have hxI : (deref h2 h1.length).Index = tq.pIndex ++ [j] := by
    have h := congrArg FieldInfo.Index hnew; exact h
  have hxP : (deref h2 h1.length).Parent = some tq.fi := by
    have h := congrArg FieldInfo.Parent hnew; exact h
  have hxT : (deref h2 h1.length).Typ = f.Typ := by
    have h := congrArg FieldInfo.Typ hnew; exact h
  have hxO : (deref h2 h1.length).Options =
      (newFieldInfo tagName tagFunc h1 tq j f).Options := by
    have h := congrArg FieldInfo.Options hnew; exact h
  have hown : ownerPtr env t tagFunc h2 h1.length =
      ownerOf tagFunc tq f (newFieldInfo tagName tagFunc h1 tq j f) h1.length := by
    simp only [ownerPtr, hxI, hfa, hxP]
    exact ownerOf_static tagFunc _ _ f _ _ _ rfl (by rw [hnew]; rfl)
  have hentry : entryOf env t tagFunc h2 h1.length =
      ⟨Deref f.Typ, ownerOf tagFunc tq f (newFieldInfo tagName tagFunc h1 tq j f) h1.length,
        apnd tq.pIndex j⟩ := by
    simp only [entryOf, hxT, hown, hxI, apnd]
  have hwants : wantsEntry h2 h1.length ↔ ((Deref f.Typ).Kind = Kind.Struct ∧
      (mapGet (newFieldInfo tagName tagFunc h1 tq j f).Options OmitNested).isNone) := by
    simp only [wantsEntry, hxT, hxO]
  have hfreshL : ∀ n, 1 ≤ n → n < h1.length → (deref h1 n).Index ≠ tq.pIndex ++ [j] :=
    fun n hn1 hn2 => inv.work_fresh (tq, j) (List.mem_cons_self _ _) n hn1 hn2 j (le_refl _)
  have hIdx : ∀ n, n < h1.length → (deref h2 n).Index = (deref h1 n).Index :=
    fun n hn => (hag.attrs hn).1
  have hentryOld : ∀ e, IsEntry env t tagFunc h1 h1.length e →
      IsEntry env t tagFunc h2 h2.length e :=
    fun e he => isEntry_agree env t tagFunc h1 h2 h1.length hag h1.length h2.length
      (le_refl _) (by omega) e he
  have hmemOld : ∀ w, w ∈ work → w ∈ work2 := by
    intro w hw
    rw [hw2]
    split
    · exact List.mem_append_left _ hw
    · exact hw
  have hwork2 : ∀ w, w ∈ work2 → w ∈ work ∨
      (wantsEntry h2 h1.length ∧ w = (entryOf env t tagFunc h2 h1.length, 0)) := by
    intro w hw
    rw [hw2] at hw
    split at hw
    · next hc =>
      rcases List.mem_append.1 hw with h | h
      · exact Or.inl h
      · right
        refine ⟨hwants.2 hc, ?_⟩
        rw [hentry]
        simpa using h
    · exact Or.inl hw
  have hnodupOld := inv.work_nodup
  simp only [List.map_cons, List.nodup_cons] at hnodupOld
  have hpne : ∀ w, w ∈ work → w.1.pIndex ≠ tq.pIndex := by
    intro w hw heq
    exact hnodupOld.1 (heq ▸ List.mem_map_of_mem (fun w => w.1.pIndex) hw)
  have hnewIdxNotOld : ∀ w, w ∈ (tq, j) :: work → w.1.pIndex ≠ tq.pIndex ++ [j] := by
    intro w hw heq
    rcases inv.entry_pIndex (le_refl _) (inv.work_entry w hw) with h | ⟨F, hF1, hF2, hF⟩
    · rw [h] at heq; simp at heq
    · exact hfreshL F hF1 hF2 (by rw [← hF, heq])
  refine
    { heap_pos := by omega
      root_static := by rw [hag 0 hLpos]; exact inv.root_static
      m_eq := by rw [inv.m_eq, hlen]; exact range'_one_concat _ hLpos
      built := ?_
      work_entry := ?_
      idx_inj := ?_
      work_fresh := ?_
      work_nodup := ?_
      cover := ?_
      children_sound := ?_
      children_complete := ?_ }
  · -- built
    intro n hn1 hn2
    by_cases hn : n < h1.length
    · exact builtFrom_agree env t tagName tagFunc h1 h2 h1.length hag hdec (le_refl _)
        (by omega) n hn (inv.built n hn1 hn)
    · have hnL : n = h1.length := by omega
      subst hnL
      refine ⟨tq, j, f, ?_, hf, hs, hfa, ?_, htqfi, ?_⟩
      · exact isEntry_agree env t tagFunc h1 h2 h1.length hag h1.length h1.length
          (le_refl _) (le_refl _) tq htq
      · rw [hnew, newFieldInfo_agree tagName tagFunc h1 h2 h1.length hag tq j f htqfi]
      · rw [guardHit_agree h1 h2 h1.length hag hdec (le_refl _) (by omega) tq.fi htqfi]
        exact hg
  · -- work_entry
    intro w hw
    rcases List.mem_cons.1 hw with h | h
    · rw [h]; exact hentryOld tq htq
    · rcases hwork2 w h with h3 | ⟨hwant, h3⟩
      · exact hentryOld w.1 (inv.work_entry w (List.mem_cons_of_mem _ h3))
      · rw [h3]
        exact Or.inr ⟨h1.length, hLpos, by omega, hwant, rfl⟩
  · -- idx_inj
    intro a b ha1 ha2 hb1 hb2 hab
    by_cases ha : a < h1.length
    · by_cases hb : b < h1.length
      · rw [hIdx a ha, hIdx b hb] at hab
        exact inv.idx_inj a b ha1 ha hb1 hb hab
      · have hbL : b = h1.length := by omega
        subst hbL
        rw [hIdx a ha, hxI] at hab
        exact absurd hab (hfreshL a ha1 ha)
    · have haL : a = h1.length := by omega
      subst haL
      by_cases hb : b < h1.length
      · rw [hIdx b hb, hxI] at hab
        exact absurd hab.symm (hfreshL b hb1 hb)
      · omega
  · -- work_fresh
    intro w hw n hn1 hn2 pos hpos
    by_cases hn : n < h1.length
    · rw [hIdx n hn]
      rcases List.mem_cons.1 hw with h | h
      · rw [h] at hpos ⊢
        exact inv.work_fresh (tq, j) (List.mem_cons_self _ _) n hn1 hn pos
          (by simp at hpos ⊢; omega)
      · rcases hwork2 w h with h3 | ⟨_, h3⟩
        · exact inv.work_fresh w (List.mem_cons_of_mem _ h3) n hn1 hn pos hpos
        · rw [h3, hentry]
          simp only [apnd]
          intro heq
          obtain ⟨e1, pos1, f1, he1, _, _, _, hst1, _, _⟩ := inv.built n hn1 hn
          rw [(inv.built_attrs hst1).1] at heq
          have hp := (List.append_inj' heq (by simp)).1
          rcases inv.entry_pIndex (by omega : n ≤ h1.length) he1 with h4 | ⟨F, hF1, hF2, hF⟩
          · rw [h4] at hp; simp at hp
          · exact hfreshL F hF1 (by omega) (by rw [← hF, hp])
    · have hnL : n = h1.length := by omega
      subst hnL
      rw [hxI]
      rcases List.mem_cons.1 hw with h | h
      · rw [h]
        simp only
        intro heq
        have := (List.append_inj' heq (by simp)).2
        simp at this
        rw [h] at hpos
        simp at hpos
        omega
      · rcases hwork2 w h with h3 | ⟨_, h3⟩
        · intro heq
          exact hpne w h3 (List.append_inj' heq (by simp)).1.symm
        · rw [h3, hentry]
          simp only [apnd]
          intro heq
          have := congrArg List.length heq
          simp at this
  · -- work_nodup
    simp only [List.map_cons, List.nodup_cons]
    constructor
    · intro hmem
      obtain ⟨w, hw, hweq⟩ := List.mem_map.1 hmem
      rcases hwork2 w hw with h3 | ⟨_, h3⟩
      · exact hpne w h3 hweq
      · rw [h3, hentry] at hweq
        simp only [apnd] at hweq
        have := congrArg List.length hweq
        simp at this
    · rw [hw2]
      split
      · rw [List.map_append, List.nodup_append]
        refine ⟨hnodupOld.2, by simp, ?_⟩
        intro a ha1 ha2
        simp only [List.map_cons, List.map_nil, List.mem_singleton, apnd] at ha2
        obtain ⟨w, hw, hweq⟩ := List.mem_map.1 ha1
        exact hnewIdxNotOld w (List.mem_cons_of_mem _ hw) (by rw [hweq, ha2])
      · exact hnodupOld.2
  · -- cover
    intro e he
    have hcase : IsEntry env t tagFunc h1 h1.length e ∨
        (wantsEntry h2 h1.length ∧ e = entryOf env t tagFunc h2 h1.length) := by
      rcases he with he | ⟨F, hF1, hF2, hwF, hFe⟩
      · exact Or.inl (Or.inl he)
      · by_cases hFL : F < h1.length
        · left
          refine Or.inr ⟨F, hF1, hFL, ?_, ?_⟩
          · exact (wantsEntry_agree h1 h2 h1.length hag F hFL).1 hwF
          · rw [hFe, entryOf_agree env t tagFunc h1 h2 h1.length hag F hFL]
        · have : F = h1.length := by omega
          subst this
          exact Or.inr ⟨hwF, hFe⟩
    rcases hcase with hold | ⟨hwant, hnewE⟩
    · rcases inv.cover e hold with ⟨j1, hj1, hc⟩ | h | h
      · rcases List.mem_cons.1 hj1 with h1' | h1'
        · have h2' : e = tq := congrArg Prod.fst h1'
          have h3' : j1 = j := congrArg Prod.snd h1'
          subst h2' h3'
          refine Or.inl ⟨j1 + 1, List.mem_cons_self _ _, ?_⟩
          intro pos f1 hpos hf1 hs1
          by_cases hp : pos < j1
          · obtain ⟨n, hn1, hn2, hn3⟩ := hc pos f1 hp hf1 hs1
            exact ⟨n, hn1, by omega, by rw [hIdx n hn2]; exact hn3⟩
          · have : pos = j1 := by omega
            subst this
            exact ⟨h1.length, hLpos, by omega, hxI⟩
        · exact Or.inl ⟨j1, List.mem_cons_of_mem _ (hmemOld _ h1'),
            covered_agree env tagName tagFunc h1 h2 hag (by omega) e j1 hc⟩
      · refine Or.inr (Or.inl ?_)
        rw [guardHit_agree h1 h2 h1.length hag hdec (le_refl _) (by omega) e.fi
          (inv.entry_fi_lt (le_refl _) hold)]
        exact h
      · exact Or.inr (Or.inr fun j2 =>
          covered_agree env tagName tagFunc h1 h2 hag (by omega) e j2 (h j2))
    · refine Or.inl ⟨0, ?_, ?_⟩
      · apply List.mem_cons_of_mem
        rw [hw2, if_pos (hwants.1 hwant), hnewE, hentry]
        simp
      · intro pos f1 hpos
        omega
  · -- children_sound
    intro p c hp hc
    rw [hch p] at hc
    have hold : c ∈ (deref (h1 ++ [newFieldInfo tagName tagFunc h1 tq j f]) p).Children →
        1 ≤ c ∧ c < h2.length ∧ (deref h2 c).Parent = some p ∧
          ownerPtr env t tagFunc h2 c = c := by
      intro hc2
      by_cases hpL : p < h1.length
      · rw [deref_append_left _ _ _ hpL] at hc2
        obtain ⟨c1, c2, c3, c4⟩ := inv.children_sound p c hpL hc2
        refine ⟨c1, by omega, ?_, ?_⟩
        · rw [(hag.attrs c2).2.2.2.2.2.2]; exact c3
        · rw [ownerPtr_agree env t tagFunc h1 h2 h1.length hag c c2]; exact c4
      · have : p = h1.length := by omega
        subst this
        rw [deref_append_length] at hc2
        simp [newFieldInfo] at hc2
    split at hc
    · next hcond =>
      rcases List.mem_append.1 hc with h | h
      · exact hold h
      · have hcL : c = h1.length := by simpa using h
        subst hcL
        refine ⟨hLpos, by omega, ?_, ?_⟩
        · rw [hxP, hcond.2.1]
        · rw [hown]; exact hcond.1
    · exact hold hc
  · -- children_complete
    intro c p hc1 hc2 hco hcp
    rw [hch p]
    by_cases hcL : c < h1.length
    · have hp' : (deref h1 c).Parent = some p := by
        rw [← (hag.attrs hcL).2.2.2.2.2.2]; exact hcp
      have hplt := hdec c hcL p hp'
      have hmem := inv.children_complete c p hc1 hcL
        (by rw [← ownerPtr_agree env t tagFunc h1 h2 h1.length hag c hcL]; exact hco) hp'
      have hmem2 : c ∈ (deref (h1 ++ [newFieldInfo tagName tagFunc h1 tq j f]) p).Children := by
        rw [deref_append_left _ _ _ (by omega)]; exact hmem
      split
      · exact List.mem_append_left _ hmem2
      · exact hmem2
    · have : c = h1.length := by omega
      subst this
      rw [hxP] at hcp
      cases hcp
      rw [hown] at hco
      rw [if_pos ⟨hco, rfl, by omega⟩]
      simp

end Invariant

theorem drop_eq_cons_iff {α : Type} (l : List α) (j : Nat) (a : α) (rest : List α)
    (h : l.drop j = a :: rest) : l[j]? = some a ∧ l.drop (j + 1) = rest := by
  induction l generalizing j with
  | nil => simp at h
  | cons x xs ih =>
    cases j with
    | zero =>
      simp only [List.drop_zero, List.cons.injEq] at h
      simp [h.1, h.2]
    | succ j =>
      simp only [List.drop_succ_cons] at h
      simpa using ih j h

theorem drop_eq_nil_length {α : Type} (l : List α) (j : Nat) (h : l.drop j = []) :
    l.length ≤ j := by
  simpa using h

section Invariant

variable {env : TypeEnv} {t : GoType} {tagName : String} {tagFunc : TagFunc}

theorem visitFields_inv (tq : typeQueue) :
    ∀ (fs : List StructField) (j : Nat) (st : BuildState),
      TInv env t tagName tagFunc st.heap st.m ((tq, j) :: st.queue.map (fun e => (e, 0))) →
      guardHit st.heap tq.fi = false →
      (fieldsOf env tq.t).drop j = fs →
      TInv env t tagName tagFunc (visitFields tagName tagFunc tq st j fs).heap
        (visitFields tagName tagFunc tq st j fs).m
        ((visitFields tagName tagFunc tq st j fs).queue.map (fun e => (e, 0))) := by
  intro fs
  induction fs with
  | nil =>
    intro j st inv _ hdrop
    exact inv.finish (drop_eq_nil_length _ _ hdrop)
  | cons f fs ih =>
    intro j st inv hg hdrop
    obtain ⟨hf, hrest⟩ := drop_eq_cons_iff _ _ _ _ hdrop
    simp only [visitFields]
    by_cases hs : skipField tagName tagFunc f = true
    · rw [visitField_skip tagName tagFunc tq st j f hs]
      exact ih (j + 1) st (inv.step_skip hf hs) hg hrest
    · have hs2 : skipField tagName tagFunc f = false := by simpa using hs
      have htq := inv.work_entry (tq, j) (List.mem_cons_self _ _)
      have htqfi : tq.fi < st.heap.length := inv.entry_fi_lt (le_refl _) htq
      have hlen := visitField_length tagName tagFunc tq st j f hs2
      have hag := visitField_agree tagName tagFunc tq st j f hs2
      apply ih (j + 1) (visitField tagName tagFunc tq st j f)
      · rw [visitField_m tagName tagFunc tq st j f hs2]
        refine inv.step_new hf hs2 hg hlen hag (visitField_new tagName tagFunc tq st j f hs2)
          (visitField_children tagName tagFunc tq st j f hs2) ?_
        rw [visitField_queue tagName tagFunc tq st j f hs2]
        split <;> simp
      · rw [guardHit_agree st.heap _ st.heap.length hag inv.parent_lt (le_refl _) (by omega)
          tq.fi htqfi]
        exact hg
      · exact hrest

theorem queueLoop_inv (fuel : Nat) :
    ∀ (st st2 : BuildState),
      TInv env t tagName tagFunc st.heap st.m (st.queue.map (fun e => (e, 0))) →
      queueLoop env tagName tagFunc fuel st = some st2 →
      TInv env t tagName tagFunc st2.heap st2.m [] ∧ st2.queue = [] := by
  induction fuel with
  | zero =>
    intro st st2 inv h
    simp only [queueLoop] at h
    split at h
    · next hq =>
      cases h
      rw [hq] at inv
      exact ⟨inv, hq⟩
    · cases h
  | succ n ih =>
    intro st st2 inv h
    rw [queueLoop] at h
    cases hq : st.queue with
    | nil =>
      rw [hq] at h
      simp only at h
      cases h
      rw [hq] at inv
      exact ⟨inv, hq⟩
    | cons tq rest =>
      rw [hq] at h inv
      simp only at h
      have hguard : recursiveHit st.heap (deref st.heap tq.fi).Typ st.heap.length
          (deref st.heap tq.fi).Parent = guardHit st.heap tq.fi := rfl
      rw [hguard] at h
      by_cases hg : guardHit st.heap tq.fi = true
      · rw [if_pos hg] at h
        exact ih { st with queue := rest } st2 (inv.pop_hit hg) h
      · rw [if_neg hg] at h
        have hg2 : guardHit st.heap tq.fi = false := by simpa using hg
        refine ih (visitFields tagName tagFunc tq { st with queue := rest } 0
          (fieldsOf env tq.t)) st2 ?_ h
        exact visitFields_inv tq _ 0 { st with queue := rest } inv hg2 rfl

theorem initState_inv :
    TInv env t tagName tagFunc (initState t).heap (initState t).m
      ((initState t).queue.map (fun e => (e, 0))) where
  heap_pos := by simp [initState]
  root_static := rfl
  m_eq := rfl
  built := by
    intro n h1 h2
    simp [initState] at h2
    omega
  work_entry := by
    intro w hw
    simp [initState] at hw
    rw [hw]
    exact Or.inl rfl
  idx_inj := by
    intro a b h1 h2
    simp [initState] at h2
    omega
  work_fresh := by
    intro w _ n h1 h2
    simp [initState] at h2
    omega
  work_nodup := by simp [initState]
  cover := by
    intro e he
    rcases he with he | ⟨F, hF1, hF2, _, _⟩
    · refine Or.inl ⟨0, ?_, ?_⟩
      · simp [initState, he]
      · intro pos f hpos
        omega
    · simp [initState] at hF2
      omega
  children_sound := by
    intro p c hp hc
    simp [initState] at hp
    subst hp
    simp [initState, deref] at hc
  children_complete := by
    intro c p h1 h2
    simp [initState] at h2
    omega

/-- The invariant holds when the traversal of `getMapping` has finished. -/
theorem traverse_inv {fuel : Nat} {st : BuildState}
    (h : traverse env t tagName tagFunc fuel = some st) :
    TInv env t tagName tagFunc st.heap st.m [] ∧ st.queue = [] :=
  queueLoop_inv fuel (initState t) st initState_inv h

end Invariant

section Consequences

variable {env : TypeEnv} {t : GoType} {tagName : String} {tagFunc : TagFunc}

theorem TInv.mem_m {heap : Heap} {m : List Nat} {work : List (typeQueue × Nat)}
    (inv : TInv env t tagName tagFunc heap m work) (c : Nat) :
    c ∈ m ↔ 1 ≤ c ∧ c < heap.length := by
  have := inv.heap_pos
  rw [inv.m_eq, List.mem_range'_1]
  omega

theorem guardHit_root {heap : Heap} {m : List Nat} {work : List (typeQueue × Nat)}
    (inv : TInv env t tagName tagFunc heap m work) : guardHit heap 0 = false := by
  have h := congrArg FieldInfo.Parent inv.root_static
  have h2 : (deref heap 0).Parent = none := h
  simp only [guardHit, h2]
  cases heap.length <;> rfl

/-- A field whose index path extends the one of field `F` by one position was
built from the entry of `F`. -/
theorem TInv.child_of {heap : Heap} {m : List Nat} {work : List (typeQueue × Nat)}
    (inv : TInv env t tagName tagFunc heap m work) {F c pos : Nat}
    (hF1 : 1 ≤ F) (hF2 : F < heap.length) (hc1 : 1 ≤ c) (hc2 : c < heap.length)
    (hidx : (deref heap c).Index = (deref heap F).Index ++ [pos]) :
    wantsEntry heap F ∧ ∃ f, (fieldsOf env (Deref (deref heap F).Typ))[pos]? = some f ∧
      skipField tagName tagFunc f = false ∧
      (deref heap c).static =
        newFieldInfo tagName tagFunc heap (entryOf env t tagFunc heap F) pos f ∧
      guardHit heap (ownerPtr env t tagFunc heap F) = false := by
  obtain ⟨e, pos1, f, he, hf, hs, _, hst, _, hg⟩ := inv.built c hc1 hc2
  have hI := (inv.built_attrs hst).1
  rw [hidx] at hI
  have hp := List.append_inj' hI (by simp)
  have hpos : pos = pos1 := by simpa using hp.2
  subst hpos
  rcases he with he | ⟨F2, hF21, hF22, hw, hFe⟩
  · rw [he] at hp
    exact absurd hp.1 (inv.index_ne_nil hF1 hF2)
  · have hF : F2 = F := by
      apply inv.idx_inj F2 F hF21 (by omega) hF1 hF2
      rw [hp.1, hFe]
      rfl
    subst hF
    rw [hFe] at hf hst hg
    exact ⟨hw, f, hf, hs, hst, hg⟩

/-- When the traversal has finished, every declared field of an enqueued struct
that is not skipped has its field in the heap, unless the owner of the entry
failed the test for recursion. -/
theorem TInv.child_exists {heap : Heap} {m : List Nat}
    (inv : TInv env t tagName tagFunc heap m []) {F pos : Nat} {f : StructField}
    (hF1 : 1 ≤ F) (hF2 : F < heap.length) (hw : wantsEntry heap F)
    (hg : guardHit heap (ownerPtr env t tagFunc heap F) = false)
    (hf : (fieldsOf env (Deref (deref heap F).Typ))[pos]? = some f)
    (hs : skipField tagName tagFunc f = false) :
    ∃ c, 1 ≤ c ∧ c < heap.length ∧ (deref heap c).Index = (deref heap F).Index ++ [pos] := by
  have he : IsEntry env t tagFunc heap heap.length (entryOf env t tagFunc heap F) :=
    Or.inr ⟨F, hF1, hF2, hw, rfl⟩
  rcases inv.cover _ he with ⟨j, hj, _⟩ | h | h
  · simp at hj
  · rw [show (entryOf env t tagFunc heap F).fi = ownerPtr env t tagFunc heap F from rfl, hg] at h
    cases h
  · exact h (pos + 1) pos f (by omega) hf hs

theorem TInv.root_child_exists {heap : Heap} {m : List Nat}
    (inv : TInv env t tagName tagFunc heap m []) {pos : Nat} {f : StructField}
    (hf : (fieldsOf env (Deref t))[pos]? = some f)
    (hs : skipField tagName tagFunc f = false) :
    ∃ c, 1 ≤ c ∧ c < heap.length ∧ (deref heap c).Index = [pos] := by
  have he : IsEntry env t tagFunc heap heap.length ⟨Deref t, 0, []⟩ := Or.inl rfl
  rcases inv.cover _ he with ⟨j, hj, _⟩ | h | h
  · simp at hj
  · rw [guardHit_root inv] at h
    cases h
  · exact h (pos + 1) pos f (by omega) hf hs

/-- A field with a one-position index path was built from the first entry. -/
theorem TInv.root_child_of {heap : Heap} {m : List Nat} {work : List (typeQueue × Nat)}
    (inv : TInv env t tagName tagFunc heap m work) {c pos : Nat}
    (hc1 : 1 ≤ c) (hc2 : c < heap.length) (hidx : (deref heap c).Index = [pos]) :
    ∃ f, (fieldsOf env (Deref t))[pos]? = some f ∧ skipField tagName tagFunc f = false ∧
      (deref heap c).static = newFieldInfo tagName tagFunc heap ⟨Deref t, 0, []⟩ pos f := by
  obtain ⟨e, pos1, f, he, hf, hs, _, hst, _, _⟩ := inv.built c hc1 hc2
  have hI := (inv.built_attrs hst).1
  rw [hidx] at hI
  rcases he with he | ⟨F2, hF21, hF22, _, hFe⟩
  · rw [he] at hI hf hst
    have hpos : pos = pos1 := by simpa using hI
    subst hpos
    exact ⟨f, hf, hs, hst⟩
  · have hne := inv.index_ne_nil hF21 (by omega : F2 < heap.length)
    rw [hFe] at hI
    simp only [entryOf] at hI
    have hlen := congrArg List.length hI
    simp only [List.length_singleton, List.length_append] at hlen
    have : (deref heap F2).Index.length = 0 := by omega
    exact absurd (List.length_eq_zero.1 this) hne

theorem skipField_name_ne (f : StructField) (h : skipField tagName tagFunc f = false) :
    (tagFunc f.Name (fieldTag f tagName)).1 ≠ "" := by
  intro hn
  simp [skipField, hn] at h

theorem string_append_ne_empty (a b : String) (h : b ≠ "") : a ++ b ≠ "" := by
  intro hab
  have h1 := congrArg String.length hab
  rw [String.length_append] at h1
  have h2 : b.length = 0 := by
    have : ("" : String).length = 0 := rfl
    omega
  apply h
  have h3 : b.data = [] := List.length_eq_zero.1 h2
  exact String.ext h3

theorem TInv.path_ne_empty {heap : Heap} {m : List Nat} {work : List (typeQueue × Nat)}
    (inv : TInv env t tagName tagFunc heap m work) {n : Nat} (h1 : 1 ≤ n) (h2 : n < heap.length) :
    (deref heap n).Path ≠ "" := by
  obtain ⟨e, pos, f, _, _, hs, _, hst, _, _⟩ := inv.built n h1 h2
  have hp : (deref heap n).Path = (newFieldInfo tagName tagFunc heap e pos f).Path := by
    have h := congrArg FieldInfo.Path hst; exact h
  rw [hp]
  simp only [newFieldInfo]
  have hne := skipField_name_ne f hs
  split
  · exact hne
  · exact string_append_ne_empty _ _ hne

end Consequences

/-! ## Flattened and embedded struct fields -/

theorem ownerOf_flatten (tagFunc : TagFunc) (tq : typeQueue) (f : StructField) (x : FieldInfo)
    (self : Nat) (hs : (Deref x.Typ).Kind = Kind.Struct)
    (hf : (mapGet x.Options Flatten).isSome) : ownerOf tagFunc tq f x self = tq.fi := by
  simp only [ownerOf, hs, hf, if_true]
  split
  · split <;> rfl
  · rfl

theorem ownerOf_embedded (tagFunc : TagFunc) (tq : typeQueue) (f : StructField) (x : FieldInfo)
    (self : Nat) (hs : (Deref x.Typ).Kind = Kind.Struct)
    (hf : (mapGet x.Options Flatten).isNone) (he : x.Embedded = true) :
    ownerOf tagFunc tq f x self = if (tagFunc f.Name "").1 = x.Name then tq.fi else self := by
  have hf2 : ¬ ((mapGet x.Options Flatten).isSome = true) := by
    cases h : mapGet x.Options Flatten <;> simp_all
  simp only [ownerOf, hs, hf2, he, if_true, if_false]
  simp

theorem ownerOf_self (tagFunc : TagFunc) (tq : typeQueue) (f : StructField) (x : FieldInfo)
    (self : Nat)
    (h : (Deref x.Typ).Kind ≠ Kind.Struct ∨
      ((mapGet x.Options Flatten).isNone ∧
        (x.Embedded = false ∨ (tagFunc f.Name "").1 ≠ x.Name))) :
    ownerOf tagFunc tq f x self = self := by
  rcases h with h | ⟨h1, h2⟩
  · simp only [ownerOf, h, if_false]
  · have hf2 : ¬ ((mapGet x.Options Flatten).isSome = true) := by
      cases h : mapGet x.Options Flatten <;> simp_all
    simp only [ownerOf, hf2, if_false]
    split
    · rcases h2 with h2 | h2
      · simp [h2]
      · simp [h2]
    · rfl

/-- C5, amended: when the traversal of `getMapping` has finished, take a
struct-typed field `F` with the flatten option and without the omit-nested
option, under the parent `P`.  `F` is not listed in `P.Children`, and every
field declared in the struct of `F` that is not skipped is registered with the
index path of `F` extended by its position, the name the naming function gives
it, the path of `P` joined with that name, and `P` as its parent; it is listed
in `P.Children` unless it is itself a struct-typed field that is flattened or
embedded under its default name. -/
theorem flatten_children_registered (env : TypeEnv) (t : GoType) (tagName : String)
    (tagFunc : TagFunc) (fuel : Nat) (st : BuildState)
    (h : traverse env t tagName tagFunc fuel = some st)
    (F P : Nat) (hF : F ∈ st.m)
    (hstruct : (Deref (deref st.heap F).Typ).Kind = Kind.Struct)
    (hflat : (mapGet (deref st.heap F).Options Flatten).isSome)
    (hnest : (mapGet (deref st.heap F).Options OmitNested).isNone)
    (hP : (deref st.heap F).Parent = some P)
    (pos : Nat) (f : StructField)
    (hf : (fieldsOf env (Deref (deref st.heap F).Typ))[pos]? = some f)
    (hvis : skipField tagName tagFunc f = false) :
    F ∉ (deref st.heap P).Children ∧
    ∃ c, c ∈ st.m ∧ (deref st.heap c).Index = (deref st.heap F).Index ++ [pos] ∧
      (deref st.heap c).Name = (tagFunc f.Name (fieldTag f tagName)).1 ∧
      (deref st.heap c).Typ = f.Typ ∧
      (deref st.heap c).Path = joinPath st.heap P (deref st.heap c).Name ∧
      (deref st.heap c).Parent = some P ∧
      (((Deref f.Typ).Kind ≠ Kind.Struct ∨
          ((mapGet (deref st.heap c).Options Flatten).isNone ∧
            (f.Anonymous = false ∨ (tagFunc f.Name "").1 ≠ (deref st.heap c).Name))) →
        c ∈ (deref st.heap P).Children) := by
  obtain ⟨inv, _⟩ := traverse_inv h
  obtain ⟨hF1, hF2⟩ := (inv.mem_m F).1 hF
  have hPlt := inv.parent_lt F hF2 P hP
  have hown : ownerPtr env t tagFunc st.heap F = P := by
    obtain ⟨e, pos1, f1, _, _, _, hfa, hst, _, _⟩ := inv.built F hF1 hF2
    have hI := (inv.built_attrs hst).1
    simp only [ownerPtr, hI, hfa, hP]
    exact ownerOf_flatten tagFunc _ f1 _ F hstruct hflat
  have hg : guardHit st.heap (ownerPtr env t tagFunc st.heap F) = false := by
    obtain ⟨e, pos1, f1, _, _, _, _, hst, _, hg⟩ := inv.built F hF1 hF2
    have hPe := (inv.built_attrs hst).2.1
    rw [hP] at hPe
    cases hPe
    rw [hown]
    exact hg
  constructor
  · intro hmem
    have := (inv.children_sound P F (by omega) hmem).2.2.2
    rw [hown] at this
    omega
  · obtain ⟨c, hc1, hc2, hcI⟩ := inv.child_exists hF1 hF2 ⟨hstruct, hnest⟩ hg hf hvis
    obtain ⟨_, f2, hf2, _, hst, _⟩ := inv.child_of hF1 hF2 hc1 hc2 hcI
    rw [hf] at hf2
    cases hf2
    have hfi : (entryOf env t tagFunc st.heap F).fi = P := hown
    have hName : (deref st.heap c).Name = (tagFunc f.Name (fieldTag f tagName)).1 := by
      have h := congrArg FieldInfo.Name hst; exact h
    have hTyp : (deref st.heap c).Typ = f.Typ := by
      have h := congrArg FieldInfo.Typ hst; exact h
    have hPar : (deref st.heap c).Parent = some P := by
      have h := congrArg FieldInfo.Parent hst
      rw [← hfi]; exact h
    have hEmb : (deref st.heap c).Embedded = f.Anonymous := by
      have h := congrArg FieldInfo.Embedded hst; exact h
    have hPath : (deref st.heap c).Path = joinPath st.heap P (deref st.heap c).Name := by
      have h := congrArg FieldInfo.Path hst
      rw [hName, ← hfi]; exact h
    refine ⟨c, (inv.mem_m c).2 ⟨hc1, hc2⟩, hcI, hName, hTyp, hPath, hPar, ?_⟩
    intro hself
    apply inv.children_complete c P hc1 hc2 _ hPar
    have hfa : fieldAt env t (deref st.heap c).Index = some f := by
      rw [hcI, fieldAt_snoc]
      obtain ⟨e, pos1, f1, _, _, _, hfa1, hst1, _, _⟩ := inv.built F hF1 hF2
      have hat := inv.built_attrs hst1
      rw [hat.1, typeAt_snoc, hfa1]
      simp only [Option.map_some']
      rw [← hat.2.2]
      exact hf
    simp only [ownerPtr, hfa, hPar]
    apply ownerOf_self
    rw [hTyp, hEmb]
    exact hself

/-- C5, as stated, fails on `FlatOuter`: under the flattened field `In`
(pointer 1, parent 0) the declared field `Skip`, named "-", is not registered at
all, and the declared field `Deep`, itself flattened, is registered with parent
0 but is not listed in the children of 0. -/
theorem flatten_children_not_all_listed :
    ∃ sm, getMapping flatEnv (.named "FlatOuter") "reflector" StdTagFunc 3 = some (.ok sm) ∧
      (Deref (deref sm.heap 1).Typ).Kind = Kind.Struct ∧
      (mapGet (deref sm.heap 1).Options Flatten).isSome = true ∧
      (deref sm.heap 1).Parent = some 0 ∧
      (fieldsOf flatEnv (Deref (deref sm.heap 1).Typ)).map (fun f => f.Name) =
        ["X", "Skip", "Deep"] ∧
      (∀ c ∈ sm.Fields, (deref sm.heap c).Index ≠ [0, 1]) ∧
      (deref sm.heap 3).Index = [0, 2] ∧ (deref sm.heap 3).Parent = some 0 ∧
      3 ∉ (deref sm.heap 0).Children :=
  ⟨_, rfl, rfl, rfl, rfl, rfl, by decide, rfl, rfl, by decide⟩

theorem flatten_children_registered_witness :
    2 ∉ (deref fooBarState.heap 0).Children ∧
    ∃ c, c ∈ fooBarState.m ∧
      (deref fooBarState.heap c).Index = (deref fooBarState.heap 2).Index ++ [0] ∧
      (deref fooBarState.heap c).Name =
        (StdTagFunc "B" (fieldTag (mkField "B" (.ptr (.int .Int)) [] false) "reflector")).1 ∧
      (deref fooBarState.heap c).Typ = .ptr (.int .Int) ∧
      (deref fooBarState.heap c).Path = joinPath fooBarState.heap 0 (deref fooBarState.heap c).Name ∧
      (deref fooBarState.heap c).Parent = some 0 ∧
      (((Deref (.ptr (.int .Int))).Kind ≠ Kind.Struct ∨
          ((mapGet (deref fooBarState.heap c).Options Flatten).isNone ∧
            (false = false ∨ (StdTagFunc "B" "").1 ≠ (deref fooBarState.heap c).Name))) →
        c ∈ (deref fooBarState.heap 0).Children) :=
  flatten_children_registered testEnv (.named "reflectx.FooBar") "reflector" StdTagFunc 4
    fooBarState rfl 2 0 (by decide) rfl rfl rfl rfl 0 (mkField "B" (.ptr (.int .Int)) [] false)
    rfl rfl

theorem ownerOf_embedded_default (tagFunc : TagFunc) (tq : typeQueue) (f : StructField)
    (x : FieldInfo) (self : Nat) (hs : (Deref x.Typ).Kind = Kind.Struct)
    (he : x.Embedded = true) (hd : (tagFunc f.Name "").1 = x.Name) :
    ownerOf tagFunc tq f x self = tq.fi := by
  simp only [ownerOf, hs, he, hd, if_true]

/-- C6, amended: take a record type that declares, at position `i`, a field
that is not skipped, and at position `j` a struct-typed field that is not
skipped, is flatten-tagged or embedded under its default name, and does not
carry the omit-nested option, whose own struct declares at position `k` a field
that is not skipped and has the same canonical name as the first.  When the
traversal of `getMapping` has finished, the build fails with the
duplicated-path error, which reports the index paths of two fields of the flat
list with the same canonical path. -/
theorem duplicate_path_through_flatten (env : TypeEnv) (t : GoType) (tagName : String)
    (tagFunc : TagFunc) (fuel : Nat) (st : BuildState)
    (h : traverse env t tagName tagFunc fuel = some st)
    (i j k : Nat) (fa fF fb : StructField)
    (hfa : (fieldsOf env (Deref t))[i]? = some fa)
    (hsa : skipField tagName tagFunc fa = false)
    (hfF : (fieldsOf env (Deref t))[j]? = some fF)
    (hsF : skipField tagName tagFunc fF = false)
    (hstruct : (Deref fF.Typ).Kind = Kind.Struct)
    (hflat : (mapGet (parseOptions (tagFunc fF.Name (fieldTag fF tagName)).2) Flatten).isSome ∨
      (fF.Anonymous = true ∧
        (tagFunc fF.Name "").1 = (tagFunc fF.Name (fieldTag fF tagName)).1))
    (hnest : (mapGet (parseOptions (tagFunc fF.Name (fieldTag fF tagName)).2)
      OmitNested).isNone)
    (hfb : (fieldsOf env (Deref fF.Typ))[k]? = some fb)
    (hsb : skipField tagName tagFunc fb = false)
    (hname : (tagFunc fa.Name (fieldTag fa tagName)).1 =
      (tagFunc fb.Name (fieldTag fb tagName)).1) :
    ∃ l1 a l2 b l3,
      getMapping env t tagName tagFunc fuel =
        some (.error ⟨t.String ++ "." ++ (deref st.heap b).Name,
          (deref st.heap a).Index, (deref st.heap b).Index⟩) ∧
      st.m = l1 ++ a :: (l2 ++ b :: l3) ∧
      (deref st.heap a).Path = (deref st.heap b).Path := by
  obtain ⟨inv, _⟩ := traverse_inv h
  have hroot : (deref st.heap 0).Path = "" := by
    have h := congrArg FieldInfo.Path inv.root_static; exact h
  -- the direct field
  obtain ⟨a, ha1, ha2, haI⟩ := inv.root_child_exists hfa hsa
  obtain ⟨fa2, hfa2, _, hsta⟩ := inv.root_child_of ha1 ha2 haI
  rw [hfa] at hfa2
  cases hfa2
  have haP : (deref st.heap a).Path = (tagFunc fa.Name (fieldTag fa tagName)).1 := by
    have h := congrArg FieldInfo.Path hsta
    have h2 : (deref st.heap a).Path = _ := h
    rw [h2]
    simp [newFieldInfo, hroot]
  -- the flattened field
  obtain ⟨F, hF1, hF2, hFI⟩ := inv.root_child_exists hfF hsF
  obtain ⟨fF2, hfF2, _, hstF⟩ := inv.root_child_of hF1 hF2 hFI
  rw [hfF] at hfF2
  cases hfF2
  have hFT : (deref st.heap F).Typ = fF.Typ := by
    have h := congrArg FieldInfo.Typ hstF; exact h
  have hFO : (deref st.heap F).Options =
      parseOptions (tagFunc fF.Name (fieldTag fF tagName)).2 := by
    have h := congrArg FieldInfo.Options hstF; exact h
  have hFE : (deref st.heap F).Embedded = fF.Anonymous := by
    have h := congrArg FieldInfo.Embedded hstF; exact h
  have hFN : (deref st.heap F).Name = (tagFunc fF.Name (fieldTag fF tagName)).1 := by
    have h := congrArg FieldInfo.Name hstF; exact h
  have hFP : (deref st.heap F).Parent = some 0 := by
    have h := congrArg FieldInfo.Parent hstF; exact h
  have hown : ownerPtr env t tagFunc st.heap F = 0 := by
    have hfaF : fieldAt env t (deref st.heap F).Index = some fF := by
      rw [hFI]; exact hfF
    simp only [ownerPtr, hfaF, hFP]
    rcases hflat with hfl | ⟨he, hd⟩
    · exact ownerOf_flatten tagFunc _ fF _ F (by rw [hFT]; exact hstruct) (by rw [hFO]; exact hfl)
    · exact ownerOf_embedded_default tagFunc _ fF _ F (by rw [hFT]; exact hstruct)
        (by rw [hFE]; exact he) (by rw [hFN]; exact hd)
  have hw : wantsEntry st.heap F := ⟨by rw [hFT]; exact hstruct, by rw [hFO]; exact hnest⟩
  obtain ⟨b, hb1, hb2, hbI⟩ := inv.child_exists hF1 hF2 hw
    (by rw [hown]; exact guardHit_root inv) (by rw [hFT]; exact hfb) hsb
  obtain ⟨_, fb2, hfb2, _, hstb, _⟩ := inv.child_of hF1 hF2 hb1 hb2 hbI
  rw [hFT, hfb] at hfb2
  cases hfb2
  have hbP : (deref st.heap b).Path = (tagFunc fb.Name (fieldTag fb tagName)).1 := by
    have h := congrArg FieldInfo.Path hstb
    have h2 : (deref st.heap b).Path = _ := h
    rw [h2]
    have hfi : (entryOf env t tagFunc st.heap F).fi = 0 := hown
    simp [newFieldInfo, hfi, hroot]
  have hab : a ≠ b := by
    intro heq
    rw [heq, hbI, hFI] at haI
    have := congrArg List.length haI
    simp at this
  have hpath : (deref st.heap a).Path = (deref st.heap b).Path := by rw [haP, hbP, hname]
  have hnd : ¬ (st.m.map (fun p => (deref st.heap p).Path)).Nodup := by
    intro hn
    exact hab (List.inj_on_of_nodup_map hn ((inv.mem_m a).2 ⟨ha1, ha2⟩)
      ((inv.mem_m b).2 ⟨hb1, hb2⟩) hpath)
  have hg : getMapping env t tagName tagFunc fuel = some (finish t st) := by
    simp [getMapping, h]
  rcases finish_cases t st with ⟨sm, _, _, _, _, _, _, h7⟩ | ⟨l1, a2, l2, b2, l3, h1, h2, h3, _⟩
  · exact absurd h7 hnd
  · exact ⟨l1, a2, l2, b2, l3, by rw [hg, h1], h2, h3⟩

/-- C6, as stated, fails on `OmitOuter`, which declares `A` and a flatten-tagged
field `In` whose struct declares `A` too: `In` also carries the omit-nested
option, its struct is not visited, and the build returns a `StructMap`. -/
theorem duplicate_path_not_with_omitnested :
    (fieldsOf flatEnv (.named "OmitOuter")).map
        (fun f => (StdTagFunc f.Name (fieldTag f "reflector")).1) = ["A", "In"] ∧
      (fieldsOf flatEnv (.named "OmitOuter"))[1]? =
        some (mkField "In" (.named "OmitInner") [("reflector", ",flatten,omitnested")] false) ∧
      (mapGet (parseOptions (StdTagFunc "In" ",flatten,omitnested").2) Flatten).isSome = true ∧
      (fieldsOf flatEnv (.named "OmitInner")).map
        (fun f => (StdTagFunc f.Name (fieldTag f "reflector")).1) = ["A"] ∧
      ∃ sm, getMapping flatEnv (.named "OmitOuter") "reflector" StdTagFunc 3 = some (.ok sm) ∧
        sm.Paths = [("A", 1), ("In", 2)] :=
  ⟨rfl, rfl, rfl, rfl, _, rfl, rfl⟩

theorem duplicate_path_through_flatten_witness :
    (∃ l1 a l2 b l3,
      getMapping testEnv (.named "reflectx.DuplicatedInline") "form" StdTagFunc 2 =
        some (.error ⟨(GoType.named "reflectx.DuplicatedInline").String ++ "." ++
            (deref duplicatedInlineState.heap b).Name,
          (deref duplicatedInlineState.heap a).Index,
          (deref duplicatedInlineState.heap b).Index⟩) ∧
      duplicatedInlineState.m = l1 ++ a :: (l2 ++ b :: l3) ∧
      (deref duplicatedInlineState.heap a).Path = (deref duplicatedInlineState.heap b).Path) ∧
    getMapping testEnv (.named "reflectx.DuplicatedInline") "form" StdTagFunc 2 =
      some (.error ⟨"reflectx.DuplicatedInline.A", [0], [1, 0]⟩) :=
  ⟨duplicate_path_through_flatten testEnv (.named "reflectx.DuplicatedInline") "form" StdTagFunc
    2 duplicatedInlineState rfl 0 1 0 (mkField "A" (.int .Int) [] false)
    (mkField "InlineT" (.named "reflectx.InlineT") [] true)
    (mkField "A" (.int .Int) [("form", ",omitempty")] false)
    rfl rfl rfl rfl rfl (Or.inr ⟨rfl, rfl⟩) rfl rfl rfl rfl, rfl⟩

/-- C7: when the traversal of `getMapping` has finished, take an embedded field
`E` without the flatten option, built from the declared field `fE`, with parent
`P`, and a field `c` of the tree whose index path extends the one of `E` by one
position (a child of the struct of `E`).  The parent of `c` is `P` exactly when
the canonical name of `E` is `tagFunc(declaredName, "")`, and the path of `c`
is then the path of `P` joined with the name of `c`; otherwise the parent of
`c` is `E` and its path is the path of `E`, a dot and the name of `c`. -/
theorem embedded_children_owner (env : TypeEnv) (t : GoType) (tagName : String)
    (tagFunc : TagFunc) (fuel : Nat) (st : BuildState)
    (h : traverse env t tagName tagFunc fuel = some st)
    (E c P pos : Nat) (fE : StructField) (hE : E ∈ st.m) (hc : c ∈ st.m)
    (hidx : (deref st.heap c).Index = (deref st.heap E).Index ++ [pos])
    (hdecl : fieldAt env t (deref st.heap E).Index = some fE)
    (hemb : (deref st.heap E).Embedded = true)
    (hnoflat : (mapGet (deref st.heap E).Options Flatten).isNone)
    (hP : (deref st.heap E).Parent = some P) :
    ((deref st.heap c).Parent = some P ↔ (deref st.heap E).Name = (tagFunc fE.Name "").1) ∧
    ((deref st.heap E).Name = (tagFunc fE.Name "").1 →
      (deref st.heap c).Path = joinPath st.heap P (deref st.heap c).Name) ∧
    ((deref st.heap E).Name ≠ (tagFunc fE.Name "").1 →
      (deref st.heap c).Parent = some E ∧
        (deref st.heap c).Path = (deref st.heap E).Path ++ "." ++ (deref st.heap c).Name) := by
  obtain ⟨inv, _⟩ := traverse_inv h
  obtain ⟨hE1, hE2⟩ := (inv.mem_m E).1 hE
  obtain ⟨hc1, hc2⟩ := (inv.mem_m c).1 hc
  have hPlt := inv.parent_lt E hE2 P hP
  obtain ⟨hw, f, _, _, hst, _⟩ := inv.child_of hE1 hE2 hc1 hc2 hidx
  have hown : ownerPtr env t tagFunc st.heap E =
      if (tagFunc fE.Name "").1 = (deref st.heap E).Name then P else E := by
    simp only [ownerPtr, hdecl, hP]
    exact ownerOf_embedded tagFunc _ fE _ E hw.1 hnoflat hemb
  have hfi : (entryOf env t tagFunc st.heap E).fi = ownerPtr env t tagFunc st.heap E := rfl
  have hPar : (deref st.heap c).Parent = some (ownerPtr env t tagFunc st.heap E) := by
    have h := congrArg FieldInfo.Parent hst; exact h
  have hName : (deref st.heap c).Name = (tagFunc f.Name (fieldTag f tagName)).1 := by
    have h := congrArg FieldInfo.Name hst; exact h
  have hPath : (deref st.heap c).Path =
      joinPath st.heap (ownerPtr env t tagFunc st.heap E) (deref st.heap c).Name := by
    have h := congrArg FieldInfo.Path hst
    rw [hName, ← hfi]; exact h
  by_cases hd : (deref st.heap E).Name = (tagFunc fE.Name "").1
  · rw [if_pos hd.symm] at hown
    rw [hown] at hPar hPath
    exact ⟨⟨fun _ => hd, fun _ => hPar⟩, fun _ => hPath, fun hne => absurd hd hne⟩
  · rw [if_neg (fun h => hd h.symm)] at hown
    rw [hown] at hPar hPath
    refine ⟨⟨fun hp => ?_, fun hd2 => absurd hd2 hd⟩, fun hd2 => absurd hd2 hd, fun _ => ⟨hPar, ?_⟩⟩
    · rw [hPar] at hp
      cases hp
      omega
    · rw [hPath]
      simp only [joinPath, inv.path_ne_empty hE1 hE2, if_false]

theorem embedded_children_owner_witness :
    ((deref fooBarState.heap 7).Parent = some 0 ↔
        (deref fooBarState.heap 1).Name = (StdTagFunc "Foo" "").1) ∧
    ((deref fooBarState.heap 1).Name = (StdTagFunc "Foo" "").1 →
      (deref fooBarState.heap 7).Path = joinPath fooBarState.heap 0 (deref fooBarState.heap 7).Name) ∧
    ((deref fooBarState.heap 1).Name ≠ (StdTagFunc "Foo" "").1 →
      (deref fooBarState.heap 7).Parent = some 1 ∧
        (deref fooBarState.heap 7).Path =
          (deref fooBarState.heap 1).Path ++ "." ++ (deref fooBarState.heap 7).Name) :=
  embedded_children_owner testEnv (.named "reflectx.FooBar") "reflector" StdTagFunc 4
    fooBarState rfl 1 7 0 0 (mkField "Foo" (.named "reflectx.Foo") [("reflector", "F")] true)
    (by decide) (by decide) rfl rfl rfl rfl rfl

/-! ## Records of scalars through the codec -/

theorem flatType_not_struct (t : GoType) (h : flatType t = true) :
    (Deref t).Kind ≠ Kind.Struct := by
  cases t with
  | ptr e =>
    cases e <;> simp_all [flatType, scalarType, Deref, GoType.Kind] <;>
      (rename_i k; cases k <;> simp [IntKind.Kind, UintKind.Kind, FloatKind.Kind])
  | _ =>
    simp_all [flatType, scalarType, Deref, GoType.Kind] <;>
      (rename_i k; cases k <;> simp [IntKind.Kind, UintKind.Kind, FloatKind.Kind])

theorem visitField_flat (tagName : String) (tagFunc : TagFunc) (t : GoType) (f : StructField)
    (pos : Nat) (root : FieldInfo) (hs : List FieldInfo) (mm : List Nat) (q : List typeQueue)
    (hroot : root.Path = "") (hskip : skipField tagName tagFunc f = false)
    (hflat : flatType f.Typ = true) :
    visitField tagName tagFunc ⟨t, 0, []⟩ ⟨root :: hs, mm, q⟩ pos f =
      ⟨{ root with Children := root.Children ++ [hs.length + 1] } ::
          (hs ++ [flatInfo tagName tagFunc pos f]),
        mm ++ [hs.length + 1], q⟩ := by
  have hk := flatType_not_struct f.Typ hflat
  have hfi : newFieldInfo tagName tagFunc (root :: hs) ⟨t, 0, []⟩ pos f =
      flatInfo tagName tagFunc pos f := by
    simp [newFieldInfo, flatInfo, deref, hroot, apnd]
  have hown : ownerOf tagFunc ⟨t, 0, []⟩ f (flatInfo tagName tagFunc pos f) (hs.length + 1) =
      hs.length + 1 := by
    simp [ownerOf, flatInfo, hk]
  simp only [visitField, hskip, hfi, List.length_cons, hown]
  simp [flatInfo, hk, addChild]

theorem visitFields_flat (tagName : String) (tagFunc : TagFunc) (t : GoType) :
    ∀ (fs : List StructField) (pos : Nat) (root : FieldInfo) (hs : List FieldInfo)
      (mm : List Nat) (q : List typeQueue), root.Path = "" →
      (∀ f ∈ fs, skipField tagName tagFunc f = false ∧ flatType f.Typ = true) →
      visitFields tagName tagFunc ⟨t, 0, []⟩ ⟨root :: hs, mm, q⟩ pos fs =
        ⟨{ root with Children := root.Children ++ List.range' (hs.length + 1) fs.length } ::
            (hs ++ flatInfos tagName tagFunc pos fs),
          mm ++ List.range' (hs.length + 1) fs.length, q⟩ := by
  intro fs
  induction fs with
  | nil =>
    intro pos root hs mm q _ _
    simp [visitFields, flatInfos]
  | cons f fs ih =>
    intro pos root hs mm q hroot hall
    have hf := hall f (List.mem_cons_self _ _)
    rw [visitFields, visitField_flat tagName tagFunc t f pos root hs mm q hroot hf.1 hf.2]
    rw [ih (pos + 1) { root with Children := root.Children ++ [hs.length + 1] }
      (hs ++ [flatInfo tagName tagFunc pos f]) _ q hroot
      (fun g hg => hall g (List.mem_cons_of_mem _ hg))]
    simp [flatInfos, List.range'_succ, List.append_assoc]

theorem traverse_flat (env : TypeEnv) (n : String) (tagName : String) (tagFunc : TagFunc)
    (fuel : Nat)
    (hall : ∀ f ∈ env n, skipField tagName tagFunc f = false ∧ flatType f.Typ = true) :
    traverse env (.named n) tagName tagFunc (fuel + 1) =
      some ⟨flatHeap tagName tagFunc n (env n), List.range' 1 (env n).length, []⟩ := by
  have hv := visitFields_flat tagName tagFunc (.named n) (env n) 0
    { Index := [], Path := "", IsPtr := false, Typ := .named n, Name := n, Parts := [],
      Options := [], Embedded := false, Children := [], Parent := none } [] [] [] rfl hall
  simp only [List.length_nil, List.nil_append, Nat.zero_add] at hv
  have hq : queueLoop env tagName tagFunc (fuel + 1) (initState (.named n)) =
      queueLoop env tagName tagFunc fuel
        ⟨flatHeap tagName tagFunc n (env n), List.range' 1 (env n).length, []⟩ := by
    rw [queueLoop]
    simp only [initState, Deref, deref, List.getD_cons_zero, List.length_cons, List.length_nil,
      recursiveHit, fieldsOf, GoType.Kind, GoType.String]
    simp only [Bool.false_eq_true, if_false]
    have h2 : ((Kind.Struct == Kind.Ptr) : Bool) = false := rfl
    rw [h2, hv]
    rfl
  rw [traverse, hq]
  cases fuel <;> simp [queueLoop]

theorem getMapping_flat (env : TypeEnv) (n : String) (tagName : String) (tagFunc : TagFunc)
    (fuel : Nat) (sm : StructMap)
    (hall : ∀ f ∈ env n, skipField tagName tagFunc f = false ∧ flatType f.Typ = true)
    (h : getMapping env (.named n) tagName tagFunc fuel = some (.ok sm)) :
    sm.heap = flatHeap tagName tagFunc n (env n) ∧ sm.Tree = 0 ∧
      sm.Paths = (List.range' 1 (env n).length).map (pathEntry sm.heap) ∧
      ((List.range' 1 (env n).length).map (fun p => (deref sm.heap p).Path)).Nodup := by
  cases fuel with
  | zero => simp [getMapping, traverse, queueLoop, initState] at h
  | succ fuel =>
    rw [getMapping, traverse_flat env n tagName tagFunc fuel hall] at h
    simp only [Option.map_some', Option.some.injEq] at h
    rcases finish_cases (.named n)
        ⟨flatHeap tagName tagFunc n (env n), List.range' 1 (env n).length, []⟩ with
      ⟨sm2, h1, h2, h3, _, h5, _, h7⟩ | ⟨l1, a, l2, b, l3, h1, _⟩
    · rw [h1] at h
      have hsm : sm2 = sm := by simpa using h
      rw [hsm] at h2 h3 h5
      simp only at h2 h5 h7
      rw [h2]
      exact ⟨rfl, h3, h5, h7⟩
    · rw [h1] at h
      simp at h

theorem ValueList.toList_ofList_values (l : List Value) : (ValueList.ofList l).toList = l := by
  induction l with
  | nil => rfl
  | cons a l ih => simp [ValueList.ofList, ValueList.toList, ih]

theorem EntryList.toList_ofList_entries (l : List (Value × Value)) : (EntryList.ofList l).toList = l := by
  induction l with
  | nil => rfl
  | cons a l ih =>
    obtain ⟨k, v⟩ := a
    simp [EntryList.ofList, EntryList.toList, ih]

/-- A record all of whose fields are exported has no read-only field. -/
theorem fieldFlag_exported (env : TypeEnv) (n : String) (h : ∀ f ∈ env n, f.PkgPath = "")
    (j : Nat) : (fieldFlag env ROFlag.clear n j).ro = false := by
  simp only [fieldFlag]
  cases hf : (env n)[j]? with
  | none => rfl
  | some f =>
    have hmem : f ∈ env n := by
      rcases List.getElem?_eq_some_iff.1 hf with ⟨hl, h2⟩
      exact h2 ▸ List.getElem_mem hl
    simp only [h f hmem, if_true]
    rfl

theorem encode_scalar (env : TypeEnv) (bf fuel : Nat) (m : Mapper) (sm : StructMap) (c j : Nat)
    (n : String) (vs : List Value) (w : Value)
    (hidx : (deref sm.heap c).Index = [j]) (hv : vs[j]? = some w)
    (hro : (fieldFlag env ROFlag.clear n j).ro = false)
    (hw : scalarType w.Typ = true) :
    encode env bf (fuel + 1) m (some (sm, c)) ROFlag.clear
        (some (.struct n (ValueList.ofList vs))) =
      .ok (some w, m) := by
  cases w <;>
    simp_all [encode, dynamicOf, getField, FieldByIndexesReadOnly, flagAt, indirect,
      ValueList.toList_ofList_values, scalarType, Value.Typ]

theorem flatValue_cases (t : GoType) (v : Value) (h : flatValue t v = true) :
    (∃ w, v = .ptr w ∧ t = .ptr w.Typ ∧ scalarType w.Typ = true) ∨
    (∃ e, v = .nilPtr e ∧ t = .ptr e ∧ scalarType e = true) ∨
    (t = v.Typ ∧ scalarType v.Typ = true ∧ encField v = some v) := by
  cases v with
  | ptr w => left; exact ⟨w, rfl, by simpa [flatValue] using h⟩
  | nilPtr e => right; left; exact ⟨e, rfl, by simpa [flatValue] using h⟩
  | _ =>
    right; right
    simp only [flatValue, Bool.and_eq_true, decide_eq_true_eq] at h
    obtain ⟨h1, h2⟩ := h
    rw [h1] at h2
    exact ⟨h1, h2, rfl⟩

theorem encode_ptr_scalar (env : TypeEnv) (bf fuel : Nat) (m : Mapper) (sm : StructMap)
    (c j : Nat) (n : String) (vs : List Value) (w : Value)
    (hidx : (deref sm.heap c).Index = [j]) (hv : vs[j]? = some (.ptr w))
    (hro : (fieldFlag env ROFlag.clear n j).ro = false)
    (hw : scalarType w.Typ = true) :
    encode env bf (fuel + 1) m (some (sm, c)) ROFlag.clear
        (some (.struct n (ValueList.ofList vs))) =
      .ok (some w, m) := by
  cases w <;>
    simp_all [encode, dynamicOf, getField, FieldByIndexesReadOnly, flagAt, indirect,
      ValueList.toList_ofList_values, scalarType, Value.Typ]

theorem encode_flat_child (env : TypeEnv) (bf fuel : Nat) (m : Mapper) (sm : StructMap)
    (c j : Nat) (n : String) (vs : List Value) (t : GoType) (v : Value)
    (hidx : (deref sm.heap c).Index = [j]) (hv : vs[j]? = some v)
    (hro : (fieldFlag env ROFlag.clear n j).ro = false)
    (hflat : flatValue t v = true) :
    encode env bf (fuel + 1) m (some (sm, c)) ROFlag.clear
        (some (.struct n (ValueList.ofList vs))) =
      .ok (encField v, m) := by
  rcases flatValue_cases t v hflat with ⟨w, h1, _, h3⟩ | ⟨e, h1, _, _⟩ | ⟨_, h2, h3⟩
  · subst h1
    exact encode_ptr_scalar env bf fuel m sm c j n vs w hidx hv hro h3
  · subst h1
    simp_all [encode, dynamicOf, getField, FieldByIndexesReadOnly, flagAt, indirect,
      ValueList.toList_ofList_values, encField]
  · rw [h3]
    exact encode_scalar env bf fuel m sm c j n vs v hidx hv hro h2

theorem foldl_encodeChild_flat (env : TypeEnv) (bf fuel : Nat) (m : Mapper) (sm : StructMap)
    (c0 : Nat) (n : String) (tagName : String) (tagFunc : TagFunc) (vsAll : List Value)
    (hro : ∀ j, (fieldFlag env ROFlag.clear n j).ro = false) :
    ∀ (fs : List StructField) (vs : List Value), 
      List.Forall₂ (fun f v => flatValue f.Typ v = true) fs vs →
      ∀ (p : Nat) (acc : GoMap Value Value),
      (∀ i f, fs[i]? = some f → (deref sm.heap (p + 1 + i)).Index = [p + i] ∧
        (deref sm.heap (p + 1 + i)).Name = canonicalName tagName tagFunc f) →
      (∀ i v, vs[i]? = some v → vsAll[p + i]? = some v) →
      (fs.map (canonicalName tagName tagFunc)).Nodup →
      (∀ f ∈ fs, Value.str (canonicalName tagName tagFunc f) ∉ acc.map Prod.fst) →
      (List.range' (p + 1) fs.length).foldl
          (encodeChild (encode env bf (fuel + 1)) (sm, c0) ROFlag.clear
            (some (.struct n (ValueList.ofList vsAll)))) (.ok (acc, m)) =
        .ok (acc ++ flatEntries tagName tagFunc fs vs, m) := by
  intro fs vs hall
  induction hall with
  | nil =>
    intro p acc _ _ _ _
    simp [flatEntries]
  | @cons f v fs vs hfv _ ih =>
    intro p acc hheap hvals hnd hacc
    have h0 := hheap 0 f (by simp)
    have hv0 := hvals 0 v (by simp)
    simp only [Nat.add_zero] at h0 hv0
    have henc := encode_flat_child env bf fuel m sm (p + 1) p n vsAll f.Typ v h0.1 hv0
      (hro p) hfv
    simp only [List.length_cons, List.range'_succ, List.foldl_cons]
    simp only [List.map_cons, List.nodup_cons] at hnd
    have hheap2 : ∀ i g, fs[i]? = some g → (deref sm.heap (p + 1 + 1 + i)).Index = [p + 1 + i] ∧
        (deref sm.heap (p + 1 + 1 + i)).Name = canonicalName tagName tagFunc g := by
      intro i g hg
      have := hheap (i + 1) g (by simpa using hg)
      have e1 : p + 1 + (i + 1) = p + 1 + 1 + i := by omega
      have e2 : p + (i + 1) = p + 1 + i := by omega
      rw [e1, e2] at this
      exact this
    have hvals2 : ∀ i w, vs[i]? = some w → vsAll[p + 1 + i]? = some w := by
      intro i w hw
      have := hvals (i + 1) w (by simpa using hw)
      have e2 : p + (i + 1) = p + 1 + i := by omega
      rw [e2] at this
      exact this
    cases he : encField v with
    | none =>
      have hstep : encodeChild (encode env bf (fuel + 1)) (sm, c0) ROFlag.clear
          (some (.struct n (ValueList.ofList vsAll))) (.ok (acc, m)) (p + 1) = .ok (acc, m) := by
        simp [encodeChild, henc, he]
      rw [hstep, ih (p + 1) acc hheap2 hvals2 hnd.2
        (fun g hg => hacc g (List.mem_cons_of_mem _ hg))]
      simp [flatEntries, he]
    | some e =>
      have hput := mapPut_of_not_mem acc (Value.str (canonicalName tagName tagFunc f))
        (Value.iface e) (hacc f (List.mem_cons_self _ _))
      have hstep : encodeChild (encode env bf (fuel + 1)) (sm, c0) ROFlag.clear
          (some (.struct n (ValueList.ofList vsAll))) (.ok (acc, m)) (p + 1) =
          .ok (acc ++ [(Value.str (canonicalName tagName tagFunc f), Value.iface e)], m) := by
        simp [encodeChild, henc, he, h0.2, hput]
      rw [hstep, ih (p + 1) _ hheap2 hvals2 hnd.2]
      · simp [flatEntries, he]
      · intro g hg hmem
        simp only [List.map_append, List.map_cons, List.map_nil, List.mem_append,
          List.mem_singleton] at hmem
        rcases hmem with hmem | hmem
        · exact hacc g (List.mem_cons_of_mem _ hg) hmem
        · have : canonicalName tagName tagFunc g = canonicalName tagName tagFunc f := by
            simpa using hmem
          exact hnd.1 (this ▸ List.mem_map_of_mem _ hg)

theorem flatInfos_getElem (tagName : String) (tagFunc : TagFunc) :
    ∀ (fs : List StructField) (pos j : Nat) (f : StructField), fs[j]? = some f →
      (flatInfos tagName tagFunc pos fs)[j]? = some (flatInfo tagName tagFunc (pos + j) f) := by
  intro fs
  induction fs with
  | nil => intro pos j f h; simp at h
  | cons g fs ih =>
    intro pos j f h
    cases j with
    | zero =>
      simp only [List.getElem?_cons_zero, Option.some.injEq] at h
      simp [flatInfos, h]
    | succ j =>
      simp only [List.getElem?_cons_succ] at h
      have := ih (pos + 1) j f h
      simp only [flatInfos, List.getElem?_cons_succ, this]
      congr 2
      omega

theorem deref_flatHeap_succ (tagName : String) (tagFunc : TagFunc) (n : String)
    (fs : List StructField) (j : Nat) (f : StructField) (h : fs[j]? = some f) :
    deref (flatHeap tagName tagFunc n fs) (j + 1) = flatInfo tagName tagFunc j f := by
  have := flatInfos_getElem tagName tagFunc fs 0 j f h
  simp only [Nat.zero_add] at this
  simp [deref, flatHeap, List.getD_eq_getElem?_getD, this]

theorem encode_flat (env : TypeEnv) (bf fuel : Nat) (m : Mapper) (sm : StructMap) (n : String)
    (tagName : String) (tagFunc : TagFunc) (vs : List Value)
    (hheap : sm.heap = flatHeap tagName tagFunc n (env n))
    (hvals : List.Forall₂ (fun f v => flatValue f.Typ v = true) (env n) vs)
    (hnd : ((env n).map (canonicalName tagName tagFunc)).Nodup)
    (hmarker : ∀ f ∈ env n, canonicalName tagName tagFunc f ≠ StructNameKey)
    (hexp : ∀ f ∈ env n, f.PkgPath = "") :
    encode env bf (fuel + 2) m (some (sm, 0)) ROFlag.clear
        (some (.struct n (ValueList.ofList vs))) =
      .ok (some (.map .string .iface (EntryList.ofList
        ((Value.str StructNameKey, Value.iface (.str n)) ::
          flatEntries tagName tagFunc (env n) vs))), m) := by
  have hfold := foldl_encodeChild_flat env bf fuel m sm 0 n tagName tagFunc vs
    (fieldFlag_exported env n hexp) (env n) vs hvals 0
    [(Value.str StructNameKey, Value.iface (.str n))]
    (by
      intro i f hf
      rw [hheap]
      have e : 0 + 1 + i = i + 1 := by omega
      rw [e, deref_flatHeap_succ tagName tagFunc n (env n) i f hf]
      simp [flatInfo, canonicalName])
    (by intro i v hv; simpa using hv)
    hnd
    (by
      intro f hf hmem
      simp only [List.map_cons, List.map_nil, List.mem_singleton, Value.str.injEq] at hmem
      exact hmarker f hf hmem)
  have hroot : deref sm.heap 0 = 
      { Index := [], Path := "", IsPtr := false, Typ := .named n, Name := n, Parts := [],
        Options := [], Embedded := false, Children := List.range' 1 (env n).length,
        Parent := none } := by
    rw [hheap]; rfl
  rw [encode]
  simp only [dynamicOf, Option.map_some', hroot, getField, FieldByIndexesReadOnly, flagAt,
    indirect]
  simp only [Nat.zero_add] at hfold
  simp only [GoType.String]
  rw [hfold]
  simp

theorem decode_scalar (env : TypeEnv) (depth : Nat) (m : Mapper) (fuel : Nat) (e : Value)
    (he : scalarType e.Typ = true) :
    decode env depth m (fuel + 1) (some e) = .ok (.ok (some e)) := by
  cases e <;> simp_all [decode, scalarType, Value.Typ]

theorem zeroValue_scalar (env : TypeEnv) (depth : Nat) (t : GoType) (h : scalarType t = true) :
    (zeroValue env depth t).Typ = t ∧ scalarType (zeroValue env depth t).Typ = true := by
  cases t <;> simp_all [scalarType, zeroValue, Value.Typ]

theorem scalar_kind_ne_interface (t : GoType) (h : scalarType t = true) :
    t.Kind ≠ Kind.Interface := by
  cases t <;> simp_all [scalarType, GoType.Kind] <;>
    (rename_i k; cases k <;> simp [IntKind.Kind, UintKind.Kind, FloatKind.Kind])

theorem SetValue_scalar (env : TypeEnv) (depth fuel : Nat) (cur v : Value)
    (hv : scalarType v.Typ = true) (hc : cur.Typ = v.Typ) :
    SetValue env depth (fuel + 1) cur (some v) = .ok (v, none) := by
  have hk := scalar_kind_ne_interface v.Typ hv
  have hcs : scalarType cur.Typ = true := hc ▸ hv
  cases v <;> simp_all [scalarType, Value.Typ] <;>
    cases cur <;> simp_all [SetValue, ifaceElem, indirect, Value.Typ, assign]

theorem SetValue_ptr_scalar (env : TypeEnv) (depth fuel : Nat) (x w : Value)
    (hw : scalarType w.Typ = true) (hx : x.Typ = w.Typ) :
    SetValue env depth (fuel + 1) (.ptr x) (some w) = .ok (.ptr w, none) := by
  have hk := scalar_kind_ne_interface w.Typ hw
  cases w <;> simp_all [scalarType, Value.Typ, SetValue, ifaceElem, indirect, assign]

theorem updateAt_struct (env : TypeEnv) (depth : Nat)
    (g : Bool → Value → Outcome (Value × Option ConvError)) (n : String) (cur : List Value)
    (j : Nat) (c nv : Value) (hc : cur[j]? = some c)
    (hro : (fieldFlag env ROFlag.clear n j).ro = false)
    (hg : g false (allocNil env depth c) = .ok (nv, none)) :
    updateAt env depth g (.struct n (ValueList.ofList cur)) [j] =
      .ok (.struct n (ValueList.ofList (cur.set j nv)), none) := by
  simp only [updateAt, updateAtFrom, indirect, ValueList.toList_ofList_values, hc, hro, hg,
    Bool.and_false, Bool.false_eq_true, if_false]

theorem FieldByIndexes_struct (env : TypeEnv) (depth : Nat) (n : String) (cur : List Value)
    (j : Nat) (c : Value) (hc : cur[j]? = some c)
    (hro : (fieldFlag env ROFlag.clear n j).ro = false) :
    FieldByIndexes env depth (.struct n (ValueList.ofList cur)) [j] =
      .ok (.struct n (ValueList.ofList (cur.set j (allocNil env depth c))),
        allocNil env depth c) := by
  simp only [FieldByIndexes, FieldByIndexesFrom, indirect, ValueList.toList_ofList_values, hc,
    hro, Bool.and_false, Bool.false_eq_true, if_false]

theorem allocNil_zero_scalar (env : TypeEnv) (depth d : Nat) (t : GoType)
    (h : scalarType t = true) :
    allocNil env depth (zeroValue env d t) = zeroValue env d t := by
  cases t <;> simp_all [scalarType, zeroValue, allocNil]

theorem set_append_cons {α : Type} (pre post : List α) (z v : α) :
    (pre ++ z :: post).set pre.length v = pre ++ v :: post := by
  induction pre with
  | nil => rfl
  | cons a pre ih => simp [ih]

theorem mapToStructEntry_flat (env : TypeEnv) (depth d fuel : Nat) (m : Mapper) (sm : StructMap)
    (n : String) (tagName : String) (tagFunc : TagFunc) (f : StructField) (v e : Value)
    (pre post : List Value) (c : Nat)
    (hflat : flatValue f.Typ v = true) (he : encField v = some e)
    (hname : canonicalName tagName tagFunc f ≠ StructNameKey)
    (hget : sm.GetByPath (canonicalName tagName tagFunc f) = some c)
    (hidx : (deref sm.heap c).Index = [pre.length])
    (hro : (fieldFlag env ROFlag.clear n pre.length).ro = false) :
    mapToStructEntry env depth (decode env depth m (fuel + 1))
        (fun ro => if ro then SetValueReadOnly env depth (fuel + 2)
          else SetValue env depth (fuel + 2)) sm
        (.ok (.ok (.struct n (ValueList.ofList (pre ++ zeroValue env d f.Typ :: post)))))
        (.str (canonicalName tagName tagFunc f), .iface e) =
      .ok (.ok (.struct n (ValueList.ofList (pre ++ v :: post)))) := by
  have hcur : (pre ++ zeroValue env d f.Typ :: post)[pre.length]? =
      some (zeroValue env d f.Typ) := by
    rw [List.getElem?_append_right (Nat.le_refl _)]
    simp
  have key : ∀ (hs : scalarType e.Typ = true),
      SetValue env depth (fuel + 2) (allocNil env depth (zeroValue env d f.Typ)) (some e) =
        .ok (v, none) →
      mapToStructEntry env depth (decode env depth m (fuel + 1))
          (fun ro => if ro then SetValueReadOnly env depth (fuel + 2)
            else SetValue env depth (fuel + 2))
          sm (.ok (.ok (.struct n (ValueList.ofList (pre ++ zeroValue env d f.Typ :: post)))))
          (.str (canonicalName tagName tagFunc f), .iface e) =
        .ok (.ok (.struct n (ValueList.ofList (pre ++ v :: post)))) := by
    intro hs hset
    have hup := updateAt_struct env depth
      (fun ro fieldV => (if ro then SetValueReadOnly env depth (fuel + 2)
        else SetValue env depth (fuel + 2)) fieldV (some e))
      n (pre ++ zeroValue env d f.Typ :: post) pre.length (zeroValue env d f.Typ) v hcur hro
      (by simpa using hset)
    have hwalk := FieldByIndexes_struct env depth n (pre ++ zeroValue env d f.Typ :: post)
      pre.length (zeroValue env d f.Typ) hcur hro
    simp only [mapToStructEntry, hname, if_false, hget, decode_scalar env depth m fuel e hs, hidx,
      hwalk, hup, set_append_cons]
  rcases flatValue_cases f.Typ v hflat with ⟨w, h1, h2, h3⟩ | ⟨s, h1, _, _⟩ | ⟨h1, h2, h3⟩
  · subst h1
    simp only [encField, Option.some.injEq] at he
    subst he
    apply key h3
    rw [h2]
    simp only [zeroValue, allocNil]
    exact SetValue_ptr_scalar env depth (fuel + 1) _ w h3 (zeroValue_scalar env depth _ h3).1
  · subst h1
    simp [encField] at he
  · rw [h3] at he
    simp only [Option.some.injEq] at he
    subst he
    apply key h2
    rw [h1, allocNil_zero_scalar env depth d _ h2]
    exact SetValue_scalar env depth (fuel + 1) _ v h2 (zeroValue_scalar env d _ h2).1

theorem foldl_mapToStructEntry_flat (env : TypeEnv) (depth d fuel : Nat) (m : Mapper)
    (sm : StructMap) (n : String) (tagName : String) (tagFunc : TagFunc)
    (hro : ∀ j, (fieldFlag env ROFlag.clear n j).ro = false) :
    ∀ (fs : List StructField) (vs : List Value),
      List.Forall₂ (fun f v => flatValue f.Typ v = true) fs vs →
      ∀ (pre : List Value),
      (∀ i f, fs[i]? = some f → canonicalName tagName tagFunc f ≠ StructNameKey ∧
        sm.GetByPath (canonicalName tagName tagFunc f) = some (pre.length + 1 + i) ∧
        (deref sm.heap (pre.length + 1 + i)).Index = [pre.length + i]) →
      (flatEntries tagName tagFunc fs vs).foldl
          (mapToStructEntry env depth (decode env depth m (fuel + 1))
            (fun ro => if ro then SetValueReadOnly env depth (fuel + 2)
              else SetValue env depth (fuel + 2)) sm)
          (.ok (.ok (.struct n (ValueList.ofList
            (pre ++ fs.map (fun f => zeroValue env d f.Typ)))))) =
        .ok (.ok (.struct n (ValueList.ofList (pre ++ vs)))) := by
  intro fs vs hall
  induction hall with
  | nil => intro pre _; simp [flatEntries]
  | @cons f v fs vs hfv _ ih =>
    intro pre hheap
    have h0 := hheap 0 f (by simp)
    simp only [Nat.add_zero] at h0
    have hheap2 : ∀ i g, fs[i]? = some g → canonicalName tagName tagFunc g ≠ StructNameKey ∧
        sm.GetByPath (canonicalName tagName tagFunc g) = some ((pre ++ [v]).length + 1 + i) ∧
        (deref sm.heap ((pre ++ [v]).length + 1 + i)).Index = [(pre ++ [v]).length + i] := by
      intro i g hg
      have := hheap (i + 1) g (by simpa using hg)
      have e1 : pre.length + 1 + (i + 1) = (pre ++ [v]).length + 1 + i := by simp; omega
      have e2 : pre.length + (i + 1) = (pre ++ [v]).length + i := by simp; omega
      rw [e1, e2] at this
      exact this
    have hih := ih (pre ++ [v]) hheap2
    simp only [List.append_assoc, List.singleton_append] at hih
    cases he : encField v with
    | none =>
      have hz : zeroValue env d f.Typ = v := by
        rcases flatValue_cases f.Typ v hfv with ⟨w, h1, _, _⟩ | ⟨s, h1, h2, _⟩ | ⟨_, _, h3⟩
        · subst h1; simp [encField] at he
        · subst h1; rw [h2]; cases d <;> rfl
        · rw [h3] at he; simp at he
      simp only [flatEntries, he, List.map_cons, hz]
      exact hih
    | some e =>
      simp only [flatEntries, he, List.map_cons, List.foldl_cons]
      rw [mapToStructEntry_flat env depth d fuel m sm n tagName tagFunc f v e pre _
        (pre.length + 1) hfv he h0.1 h0.2.1 h0.2.2 (hro pre.length)]
      exact hih

theorem flatHeap_paths (tagName : String) (tagFunc : TagFunc) (n : String)
    (fs : List StructField) :
    (List.range' 1 fs.length).map (fun p => (deref (flatHeap tagName tagFunc n fs) p).Path) =
      fs.map (canonicalName tagName tagFunc) := by
  apply List.ext_getElem?
  intro i
  by_cases hi : i < fs.length
  · have hf : fs[i]? = some fs[i] := List.getElem?_eq_getElem hi
    have hr : (List.range' 1 fs.length)[i]? = some (i + 1) := by
      rw [List.getElem?_range' _ _ hi]
      simp [Nat.add_comm]
    simp only [List.getElem?_map, hr, hf, Option.map_some']
    rw [deref_flatHeap_succ tagName tagFunc n fs i fs[i] hf]
    rfl
  · have h1 : fs.length ≤ i := Nat.le_of_not_lt hi
    simp [List.getElem?_eq_none, h1]

theorem decode_flat (env : TypeEnv) (d fuel : Nat) (m : Mapper) (sm : StructMap) (n : String)
    (tagName : String) (tagFunc : TagFunc) (vs : List Value)
    (hheap : sm.heap = flatHeap tagName tagFunc n (env n)) (htree : sm.Tree = 0)
    (hpaths : sm.Paths = (List.range' 1 (env n).length).map (pathEntry sm.heap))
    (hnd : ((env n).map (canonicalName tagName tagFunc)).Nodup)
    (hvals : List.Forall₂ (fun f v => flatValue f.Typ v = true) (env n) vs)
    (hname : ∀ f ∈ env n, canonicalName tagName tagFunc f ≠ StructNameKey ∧
      canonicalName tagName tagFunc f ≠ "")
    (hexp : ∀ f ∈ env n, f.PkgPath = "")
    (hn : n ≠ "") (hreg : m.NameMap n = some sm) :
    decode env (d + 1) m (fuel + 2) (some (.map .string .iface (EntryList.ofList
        ((Value.str StructNameKey, Value.iface (.str n)) ::
          flatEntries tagName tagFunc (env n) vs)))) =
      .ok (.ok (some (.struct n (ValueList.ofList vs)))) := by
  have hget : ∀ i f, (env n)[i]? = some f →
      canonicalName tagName tagFunc f ≠ StructNameKey ∧
      sm.GetByPath (canonicalName tagName tagFunc f) = some (([] : List Value).length + 1 + i) ∧
      (deref sm.heap (([] : List Value).length + 1 + i)).Index =
        [([] : List Value).length + i] := by
    intro i f hf
    have hlt : i < (env n).length := by
      rcases List.getElem?_eq_some_iff.1 hf with ⟨h, _⟩
      exact h
    have hmem : f ∈ env n := by
      rcases List.getElem?_eq_some_iff.1 hf with ⟨h, h2⟩
      exact h2 ▸ List.getElem_mem h
    have hd : deref sm.heap (i + 1) = flatInfo tagName tagFunc i f := by
      rw [hheap]; exact deref_flatHeap_succ tagName tagFunc n (env n) i f hf
    have e1 : ([] : List Value).length + 1 + i = i + 1 := by simp; omega
    rw [e1]
    refine ⟨(hname f hmem).1, ?_, ?_⟩
    · have hnd2 : ((List.range' 1 (env n).length).map
          (fun p => (deref sm.heap p).Path)).Nodup := by
        rw [hheap, flatHeap_paths]; exact hnd
      have hin : i + 1 ∈ List.range' 1 (env n).length := by
        rw [List.mem_range'_1]
        omega
      have := mapGet_map_of_nodup (fun p => (deref sm.heap p).Path)
        (List.range' 1 (env n).length) (i + 1) hnd2 hin
      simp only [hd] at this
      simp only [StructMap.GetByPath, (hname f hmem).2, if_false, hpaths]
      exact this
    · rw [hd]; simp [flatInfo]
  have hfold := foldl_mapToStructEntry_flat env (d + 1) d fuel m sm n tagName tagFunc
    (fieldFlag_exported env n hexp) (env n) vs hvals [] hget
  simp only [List.nil_append] at hfold
  have hroot : (deref sm.heap sm.Tree).Typ = .named n := by
    rw [htree, hheap]; rfl
  have hsn : getStructName ((Value.str StructNameKey, Value.iface (.str n)) ::
      flatEntries tagName tagFunc (env n) vs) = n := by
    simp [getStructName, mapGet]
  have hmark : mapToStructEntry env (d + 1) (decode env (d + 1) m (fuel + 1))
      (fun ro => if ro then SetValueReadOnly env (d + 1) (fuel + 2)
        else SetValue env (d + 1) (fuel + 2)) sm
      (.ok (.ok (Alloc env (d + 1) (GoType.named n))))
      (Value.str StructNameKey, Value.iface (.str n)) =
      .ok (.ok (.struct n (ValueList.ofList ((env n).map (fun f => zeroValue env d f.Typ))))) := by
    simp [mapToStructEntry, Alloc, zeroValue]
  rw [decode]
  simp only [EntryList.toList_ofList_entries, List.length_cons, hsn, hn, hreg, hroot,
    List.foldl_cons, hmark, hfold]
  simp

/-- The values of `testDecode` in reflector_test.go come back from `decode`
after `encode`, as its tests expect. -/
theorem roundTrip_testDecode :
    roundTrip testEnv 10 3 6 testMapper barValue = .ok (.ok (some barValue)) ∧
    roundTrip testEnv 10 3 6 testMapper fooValue = .ok (.ok (some fooValue)) ∧
    roundTrip testEnv 10 3 6 testMapper fooBarValue = .ok (.ok (some fooBarValue)) :=
  ⟨rfl, rfl, rfl⟩

/-- An empty map that is not nil is left out by `encode`, and the field is nil
after `decode`: `Foo{F: 1, O: map[string]interface{}{}}` comes back as
`Foo{F: 1, O: nil}`. -/
theorem roundTrip_empty_map :
    roundTrip testEnv 10 3 4 testMapper
        (.struct "reflectx.Foo" (ValueList.ofList
          [.int .Int 1, .map .string .iface (EntryList.ofList [])])) =
      .ok (.ok (some (.struct "reflectx.Foo" (ValueList.ofList
          [.int .Int 1, .nilMap .string .iface])))) := by
  rfl

/-- The round trip fails on `Foo` of reflector_test.go, by the design of the
encoding: the type is registered
and its fields are an int and a map of dynamic values, but when the map holds
the key "_struct_name", which `encode` reserves for the name of a struct,
`decode` of the encoded record takes the map for a struct named by its value
and returns the error "unknown struct name: zzz". -/
theorem roundTrip_reserved_key_fails :
    roundTrip testEnv 10 3 4 testMapper fooReserved =
      .ok (.error (.unknownStruct "zzz")) := by
  rfl

/-- For a registered struct type whose fields are all exported and mapped
(none named "-"), are scalars or pointers to scalars, and have names other
than the reserved key "_struct_name", `decode` after `encode` returns, for
enough fuel, the record itself: every scalar and every pointer target is as
before, and a nil pointer is nil again. -/
theorem roundTrip_flat (env : TypeEnv) (n : String) (m : Mapper) (sm : StructMap)
    (buildFuel d fuel : Nat) (vs : List Value)
    (hcache : mapGet m.cache (.named n) = some sm)
    (hbuilt : getMapping env (.named n) m.tagName m.tagFunc buildFuel = some (.ok sm))
    (hreg : m.NameMap n = some sm) (hn : n ≠ "")
    (hfields : ∀ f ∈ env n, skipField m.tagName m.tagFunc f = false ∧ flatType f.Typ = true ∧
      canonicalName m.tagName m.tagFunc f ≠ StructNameKey ∧ f.PkgPath = "")
    (hvals : List.Forall₂ (fun f v => flatValue f.Typ v = true) (env n) vs) :
    roundTrip env buildFuel (d + 1) (fuel + 2) m (.struct n (ValueList.ofList vs)) =
      .ok (.ok (some (.struct n (ValueList.ofList vs)))) := by
  have hall : ∀ f ∈ env n, skipField m.tagName m.tagFunc f = false ∧ flatType f.Typ = true :=
    fun f hf => ⟨(hfields f hf).1, (hfields f hf).2.1⟩
  obtain ⟨hheap, htree, hpaths, hnd⟩ :=
    getMapping_flat env n m.tagName m.tagFunc buildFuel sm hall hbuilt
  have hnd2 : ((env n).map (canonicalName m.tagName m.tagFunc)).Nodup := by
    rw [hheap, flatHeap_paths] at hnd; exact hnd
  have hname : ∀ f ∈ env n, canonicalName m.tagName m.tagFunc f ≠ StructNameKey ∧
      canonicalName m.tagName m.tagFunc f ≠ "" := by
    intro f hf
    refine ⟨(hfields f hf).2.2.1, ?_⟩
    intro h0
    have hs := (hfields f hf).1
    simp only [canonicalName] at h0
    simp [skipField, h0] at hs
  have henc := encode_flat env buildFuel fuel m sm n m.tagName m.tagFunc vs hheap hvals hnd2
    (fun f hf => (hfields f hf).2.2.1) (fun f hf => (hfields f hf).2.2.2)
  have hdec := decode_flat env d fuel m sm n m.tagName m.tagFunc vs hheap htree hpaths hnd2
    hvals hname (fun f hf => (hfields f hf).2.2.2) hn hreg
  simp only [roundTrip, Value.Typ, Deref, Mapper.TypeMap, GoType.Kind, hcache, indirect]
  simp only [ne_eq, not_true_eq_false, if_false, htree, henc]
  exact hdec

theorem roundTrip_flat_witness :
    roundTrip testEnv 10 (0 + 1) (0 + 2) testMapper barValue = .ok (.ok (some barValue)) :=
  roundTrip_flat testEnv "reflectx.Bar" testMapper (testMap "reflectx.Bar") 10 0 0
    [.ptr (.int .Int 1), .ptr (.str "string")] rfl rfl rfl (by decide)
    (by
      intro f hf
      have h : testEnv "reflectx.Bar" =
          [mkField "B" (.ptr (.int .Int)) [] false, mkField "Ar" (.ptr (.string)) [] false] := rfl
      rw [h] at hf
      simp only [List.mem_cons, List.mem_singleton, List.not_mem_nil, or_false] at hf
      rcases hf with rfl | rfl <;> exact ⟨rfl, rfl, by decide, rfl⟩)
    (List.Forall₂.cons rfl (List.Forall₂.cons rfl List.Forall₂.nil))

/-! ## Text and dynamic values into a field -/

theorem setByKind_error (str : String) (ft : GoType) (v : Value)
    (h : (setByKind str ft v).2 ≠ none) : (setByKind str ft v).1 = v := by
  cases v with
  | int k n =>
    simp only [setByKind] at h ⊢
    cases hp : parseInt str k.bitSize with
    | mk i e => cases e <;> simp_all
  | uint k n =>
    simp only [setByKind] at h ⊢
    cases hp : parseUint str k.bitSize with
    | mk i e => cases e <;> simp_all
  | bool b =>
    simp only [setByKind] at h ⊢
    cases hp : ParseBool str with
    | mk i e => cases e <;> simp_all
  | float k f =>
    simp only [setByKind] at h ⊢
    cases hp : ParseFloat str k.bitSize with
    | mk i e => cases e <;> simp_all
  | str s => simp [setByKind] at h
  | _ => simp [setByKind]

/-- C13, amended: when `StrToValue` returns an error, a target that is a plain
value or a pointer that is not nil holds what it held before the call, and a
target that is a nil pointer has been given a fresh zero target by
`AllocIndirect`: it is no longer nil. -/
theorem StrToValue_error_keeps_target (env : TypeEnv) (depth : Nat) (str : String)
    (field : Value) (h : (StrToValue env depth str field).2 ≠ none) :
    ((∀ e, field ≠ .nilPtr e) → (StrToValue env depth str field).1 = field) ∧
    (∀ e, field = .nilPtr e →
      (StrToValue env depth str field).1 = .ptr (zeroValue env depth e)) := by
  constructor
  · intro hn
    cases field with
    | nilPtr e => exact absurd rfl (hn e)
    | ptr t =>
      simp only [StrToValue] at h ⊢
      by_cases hs : str = ""
      · simp [hs] at h
      · simp only [hs, if_false] at h ⊢
        rw [setByKind_error str _ t h]
    | _ => exact setByKind_error str _ _ h
  · intro e he
    subst he
    simp only [StrToValue] at h ⊢
    by_cases hs : str = ""
    · simp [hs] at h
    · simp only [hs, if_false] at h ⊢
      rw [setByKind_error str _ _ h]

/-- C13, as stated, fails on a nil `*int`: `StrToValue("x", field)` returns the
syntax error of `strconv.ParseInt`, and the field, which was nil, now points to
a zero `int`. -/
theorem StrToValue_error_allocates_nil_pointer :
    StrToValue (fun _ => []) 0 "x" (.nilPtr (.int .Int)) =
      (.ptr (.int .Int 0), some (.parse .ErrSyntax)) := by
  rfl

theorem StrToValue_error_keeps_target_witness :
    (StrToValue (fun _ => []) 0 "10.5" (.ptr (.int .Int 7))).2 ≠ none ∧
    (StrToValue (fun _ => []) 0 "10.5" (.ptr (.int .Int 7))).1 = .ptr (.int .Int 7) :=
  ⟨by decide, (StrToValue_error_keeps_target (fun _ => []) 0 "10.5" (.ptr (.int .Int 7))
    (by decide)).1 (fun e h => by cases h)⟩

/-- C14: for every pointer target, nil or not, `StrToValue` with the empty
string returns no error and leaves the target nil; `ValueToStr` of a nil
pointer returns the empty string and no error; so the text of a nil pointer,
given back to `StrToValue`, leaves the target nil. -/
theorem nil_pointer_through_text (env : TypeEnv) (depth : Nat) (field : Value) (e : GoType)
    (h : field.Typ = .ptr e) :
    StrToValue env depth "" field = (.nilPtr e, none) ∧
    ValueToStr (.nilPtr e) = ("", none) ∧
    StrToValue env depth (ValueToStr (.nilPtr e)).1 field = (.nilPtr e, none) := by
  have h1 : StrToValue env depth "" field = (.nilPtr e, none) := by
    cases field <;> simp_all [StrToValue, Value.Typ]
  exact ⟨h1, rfl, h1⟩

theorem nil_pointer_through_text_witness :
    StrToValue testEnv 1 "" (.ptr (.int .Int 5)) = (.nilPtr (.int .Int), none) ∧
    ValueToStr (.nilPtr (.int .Int)) = ("", none) ∧
    StrToValue testEnv 1 (ValueToStr (.nilPtr (.int .Int))).1 (.ptr (.int .Int 5)) =
      (.nilPtr (.int .Int), none) :=
  nil_pointer_through_text testEnv 1 (.ptr (.int .Int 5)) (.int .Int) rfl

/-- C15: `SetValue` with a source that is invalid, a nil pointer or a nil
interface returns no error and leaves the target as it was, whatever the
target is; a nil pointer target is still nil. -/
theorem SetValue_nil_source (env : TypeEnv) (depth fuel : Nat) (field : Value)
    (src : Option Value)
    (h : src = none ∨ (∃ e, src = some (.nilPtr e)) ∨ src = some .nilIface) :
    SetValue env depth (fuel + 1) field src = .ok (field, none) := by
  rcases h with h | ⟨e, h⟩ | h <;> subst h <;> simp [SetValue, indirect, ifaceElem]

theorem SetValue_nil_source_witness :
    SetValue testEnv 1 (0 + 1) (.nilPtr (.named "reflectx.Foo")) (some (.nilPtr .iface)) =
      .ok (.nilPtr (.named "reflectx.Foo"), none) :=
  SetValue_nil_source testEnv 1 0 (.nilPtr (.named "reflectx.Foo")) (some (.nilPtr .iface))
    (Or.inr (Or.inl ⟨.iface, rfl⟩))

/-- C16: let the source of `SetValue`, with pointers followed and interfaces
opened, be the valid value `c`.  When the target is a struct of type `n` and
the type of `c` is another one, or the target is a slice and `c` is not a
slice, `SetValue` returns the type-mismatch error with the type of the target
and the type of `c`, and the target is as before; when the type of `c` is the
struct type `n` of the target, the target becomes `c` and no error is
returned. -/
theorem SetValue_type_mismatch (env : TypeEnv) (depth fuel : Nat) (field c : Value)
    (src : Option Value) (hsrc : ifaceElem (indirect src) = some c) :
    (∀ n, field.Typ = .named n → c.Typ ≠ .named n →
      SetValue env depth (fuel + 1) field src =
        .ok (field, some (.typeMismatch (.named n) c.Typ))) ∧
    (∀ e, field.Typ = .slice e → c.Typ.Kind ≠ Kind.Slice →
      SetValue env depth (fuel + 1) field src =
        .ok (field, some (.typeMismatch (.slice e) c.Typ))) ∧
    (∀ n, field.Typ = .named n → c.Typ = .named n →
      SetValue env depth (fuel + 1) field src = .ok (c, none)) := by
  refine ⟨?_, ?_, ?_⟩
  · intro n hf hc
    cases field <;> simp_all [SetValue, Value.Typ, GoType.Kind]
    intro h; exact absurd h.symm hc
  · intro e hf hc
    cases field <;> simp_all [SetValue, Value.Typ, GoType.Kind] <;>
      (cases c <;> simp_all [Value.Typ, GoType.Kind])
  · intro n hf hc
    cases field <;> simp_all [SetValue, Value.Typ, GoType.Kind, assign]

theorem SetValue_type_mismatch_witness :
    SetValue testEnv 1 (0 + 1) (zeroValue testEnv 1 (.named "reflectx.Foo"))
        (some (.iface barValue)) =
      .ok (zeroValue testEnv 1 (.named "reflectx.Foo"),
        some (.typeMismatch (.named "reflectx.Foo") barValue.Typ)) :=
  (SetValue_type_mismatch testEnv 1 0 (zeroValue testEnv 1 (.named "reflectx.Foo")) barValue
    (some (.iface barValue)) rfl).1 "reflectx.Foo" rfl (by decide)

/-! ## The float fallback -/

theorem F64.eq_fin_zero (n : Int) (f : F64) :
    (F64.fin n 0).eq f = true ↔ f = .fin n 0 ∨ (n = 0 ∧ f = .negZero) := by
  cases f with
  | fin num k =>
    by_cases hn : n = 0
    · subst hn
      simp [F64.eq]
      constructor
      · rintro ⟨h1, h2⟩; exact ⟨h1.symm, h2.symm⟩
      · rintro ⟨h1, h2⟩; exact ⟨h1.symm, h2.symm⟩
    · simp [F64.eq, hn]
      constructor
      · rintro ⟨h1, h2⟩; exact ⟨h1.symm, h2.symm⟩
      · rintro ⟨h1, h2⟩; exact ⟨h1.symm, h2.symm⟩
  | negZero =>
    by_cases hn : n = 0
    · subst hn; simp [F64.eq]
    · simp [F64.eq, hn]
  | inf b => simp [F64.eq]
  | nan => simp [F64.eq]

theorem F64.ofInt_small (n : Int) (h : n.natAbs < 2 ^ 53) : F64.ofInt n = .fin n 0 := by
  simp only [F64.ofInt, if_pos h]

theorem floatToInt_fin (n : Int) (h1 : minInt53 ≤ n) (h2 : n ≤ maxInt53) :
    floatToInt (.fin n 0) = (n, none) := by
  simp only [minInt53, maxInt53] at h1 h2
  have ht : (F64.fin n 0).toInt64 = n := by
    have hr : -(2 : Int) ^ 63 ≤ n ∧ n < 2 ^ 63 := by constructor <;> omega
    simp only [F64.toInt64, pow_zero, Int.tdiv_one, if_pos hr]
  have ho : F64.ofInt n = .fin n 0 := F64.ofInt_small n (by omega)
  have he : (F64.fin n 0).eq (.fin n 0) = true := (F64.eq_fin_zero n _).2 (Or.inl rfl)
  simp only [floatToInt, ht, ho, he, minInt53, maxInt53]
  simp [h1, h2]

theorem floatToInt_negZero : floatToInt .negZero = (0, none) := by decide

theorem floatToInt_error (f : F64) (h : (floatToInt f).2 ≠ none) :
    floatToInt f = (0, some (.floatToInt f)) := by
  simp only [floatToInt] at h ⊢
  split
  · rename_i hc; simp [hc] at h
  · rfl

theorem floatToInt_ok (f : F64) (h : (floatToInt f).2 = none) :
    minInt53 ≤ (floatToInt f).1 ∧ (floatToInt f).1 ≤ maxInt53 ∧
      (f = .fin (floatToInt f).1 0 ∨ ((floatToInt f).1 = 0 ∧ f = .negZero)) := by
  simp only [floatToInt] at h ⊢
  split at h
  · rename_i hc
    simp only [if_pos hc]
    obtain ⟨he, h1, h2⟩ := hc
    have hs : (f.toInt64).natAbs < 2 ^ 53 := by
      simp only [minInt53, maxInt53] at h1 h2
      omega
    rw [F64.ofInt_small _ hs] at he
    exact ⟨h1, h2, (F64.eq_fin_zero _ _).1 he⟩
  · simp at h

theorem floatToUint_zero : floatToUint (.fin 0 0) = (0, none) := by decide

theorem floatToUint_negZero : floatToUint .negZero = (0, none) := by decide

theorem floatToUint_ok (f : F64) (h : (floatToUint f).2 = none) :
    (floatToUint f).1 ≤ maxUint53 ∧
      (f = .fin ((floatToUint f).1 : Int) 0 ∨ ((floatToUint f).1 = 0 ∧ f = .negZero)) := by
  simp only [floatToUint] at h ⊢
  split at h
  · rename_i hc
    simp only [if_pos hc]
    obtain ⟨he, _, h2⟩ := hc
    have hs : ((f.toUint64 : Nat) : Int).natAbs < 2 ^ 53 := by
      simp only [maxUint53] at h2
      simp only [Int.natAbs_ofNat]
      omega
    rw [F64.ofInt_small _ hs] at he
    refine ⟨h2, ?_⟩
    rcases (F64.eq_fin_zero _ _).1 he with h3 | ⟨h3, h4⟩
    · exact Or.inl h3
    · exact Or.inr ⟨by exact_mod_cast h3, h4⟩
  · simp at h

/-- C12, as stated, fails at `2 ^ 51` and at `2 ^ 52`: the constants named
`maxInt53` and `maxUint53` are `2 ^ 51 - 1` and `2 ^ 52 - 1`, and `minInt53` is
`-2 ^ 51`, so `floatToInt` accepts `2 ^ 51 - 1` and `-2 ^ 51` and refuses
`2 ^ 51` and `-2 ^ 51 - 1`, and `floatToUint` accepts `2 ^ 52 - 1` and refuses
`2 ^ 52`, all of them integers inside the 53-bit range. -/
theorem float_fallback_range :
    maxInt53 = 2 ^ 51 - 1 ∧ minInt53 = -2 ^ 51 ∧ maxUint53 = 2 ^ 52 - 1 ∧
    floatToInt (.fin (2 ^ 51 - 1) 0) = (2 ^ 51 - 1, none) ∧
    floatToInt (.fin (2 ^ 51) 0) = (0, some (.floatToInt (.fin (2 ^ 51) 0))) ∧
    floatToInt (.fin (-2 ^ 51) 0) = (-2 ^ 51, none) ∧
    floatToInt (.fin (-2 ^ 51 - 1) 0) = (0, some (.floatToInt (.fin (-2 ^ 51 - 1) 0))) ∧
    floatToUint (.fin (2 ^ 52 - 1) 0) = (2 ^ 52 - 1, none) ∧
    floatToUint (.fin (2 ^ 52) 0) = (0, some (.floatToUint (.fin (2 ^ 52) 0))) := by
  refine ⟨by decide, by decide, by decide, ?_, ?_, ?_, ?_, ?_, ?_⟩ <;> decide

/-! ## Walking a record along an index path -/

/-- C20 (amended): `FieldByIndexesReadOnly` only reads the record (it returns the field
and no record).  With an empty path it returns the record itself.  When the
walk along a path `p` ends on a nil pointer, every longer path returns the
invalid value; and when it ends on a struct, or on a pointer to one, the path
`p ++ [i]` returns field `i` of that struct as it is, a nil pointer
included. -/
theorem FieldByIndexesReadOnly_walk (r : Value) (p : List Nat) :
    FieldByIndexesReadOnly (some r) [] = .ok (some r) ∧
    (∀ e i rest, FieldByIndexesReadOnly (some r) p = .ok (some (.nilPtr e)) →
      FieldByIndexesReadOnly (some r) (p ++ i :: rest) = .ok none) ∧
    (∀ x n fs i fv, FieldByIndexesReadOnly (some r) p = .ok (some x) →
      indirect (some x) = some (.struct n fs) → fs.toList[i]? = some fv →
      FieldByIndexesReadOnly (some r) (p ++ [i]) = .ok (some fv)) := by
  have happ : ∀ (q : List Nat) (v : Option Value) (x : Option Value) (rest : List Nat),
      FieldByIndexesReadOnly v q = .ok x →
      FieldByIndexesReadOnly v (q ++ rest) = FieldByIndexesReadOnly x rest := by
    intro q
    induction q with
    | nil =>
      intro v x rest h
      simp only [FieldByIndexesReadOnly, Outcome.ok.injEq] at h
      simp [h]
    | cons j q ih =>
      intro v x rest h
      simp only [FieldByIndexesReadOnly, List.cons_append] at h ⊢
      cases hi : indirect v with
      | none =>
        rw [hi] at h
        simp only [Outcome.ok.injEq] at h
        subst h
        cases rest <;> simp [FieldByIndexesReadOnly, indirect]
      | some w =>
        rw [hi] at h
        cases w <;> simp_all
        rename_i nm fs
        cases hf : fs.toList[j]? with
        | none => simp [hf] at h
        | some fv =>
          simp only [hf] at h ⊢
          exact ih _ _ _ h
  refine ⟨rfl, ?_, ?_⟩
  · intro e i rest h
    rw [happ p _ _ _ h]
    simp [FieldByIndexesReadOnly, indirect]
  · intro x n fs i fv h hx hf
    rw [happ p _ _ _ h]
    simp [FieldByIndexesReadOnly, hx, hf]

theorem ValueList.ofList_toList_values : ∀ (vs : ValueList), ValueList.ofList vs.toList = vs
  | .nil => rfl
  | .cons v vs => by
    simp [ValueList.toList, ValueList.ofList, ValueList.ofList_toList_values vs]

theorem indirect_struct_cases (v : Value) (n : String) (fs : ValueList)
    (h : indirect (some v) = some (.struct n fs)) :
    v = .struct n fs ∨ v = .ptr (.struct n fs) := by
  cases v <;> simp_all [indirect]

theorem allocNil_not_nil (env : TypeEnv) (depth : Nat) (v : Value) :
    (allocNil env depth v).isNilPtr = false := by
  cases v <;> rfl

theorem allocNil_of_not_nil (env : TypeEnv) (depth : Nat) (v : Value)
    (h : v.isNilPtr = false) : allocNil env depth v = v := by
  cases v <;> simp_all [allocNil, Value.isNilPtr]

/-- What the loop of `FieldByIndexes` returns when it does: the struct under
`v`, the field taken, which is no nil pointer in a read-only field, and the
result of the walk along the rest of the path. -/
theorem FieldByIndexes_cons_ok (env : TypeEnv) (depth : Nat) (fl : ROFlag) (v r1 h : Value)
    (i : Nat) (rest : List Nat)
    (hok : FieldByIndexesFrom env depth fl v (i :: rest) = .ok (r1, h)) :
    ∃ n fs fv nv, indirect (some v) = some (.struct n fs) ∧ fs.toList[i]? = some fv ∧
      FieldByIndexesFrom env depth (fieldFlag env fl n i) (allocNil env depth fv) rest =
        .ok (nv, h) ∧
      indirect (some r1) = some (.struct n (ValueList.ofList (fs.toList.set i nv))) ∧
      r1.isNilPtr = false ∧ (fv.isNilPtr && (fieldFlag env fl n i).ro) = false := by
  simp only [FieldByIndexesFrom] at hok
  cases hi : indirect (some v) with
  | none => simp [hi] at hok
  | some w =>
    rw [hi] at hok
    cases w <;> simp at hok
    rename_i n fs
    cases hf : fs.toList[i]? with
    | none => simp [hf] at hok
    | some fv =>
      simp only [hf] at hok
      split at hok
      · cases hok
      · rename_i hro
        have hro2 : (fv.isNilPtr && (fieldFlag env fl n i).ro) = false := by
          cases hb : (fv.isNilPtr && (fieldFlag env fl n i).ro) with
          | false => rfl
          | true => exact absurd (by simpa using hb) hro
        cases hs : FieldByIndexesFrom env depth (fieldFlag env fl n i)
            (allocNil env depth fv) rest with
        | panic => simp [hs] at hok
        | outOfFuel => simp [hs] at hok
        | ok pr =>
          obtain ⟨nv, h2⟩ := pr
          simp only [hs, Outcome.ok.injEq] at hok
          refine ⟨n, fs, fv, nv, rfl, hf, ?_, ?_, ?_, hro2⟩
          · rcases indirect_struct_cases v n fs hi with hv | hv <;> subst hv <;>
              simp at hok <;> rw [← hok.2] <;> exact hs
          · rcases indirect_struct_cases v n fs hi with hv | hv <;> subst hv <;>
              simp at hok <;> simp [← hok.1, indirect]
          · rcases indirect_struct_cases v n fs hi with hv | hv <;> subst hv <;>
              simp at hok <;> simp [← hok.1, Value.isNilPtr]

theorem FieldByIndexes_handle (env : TypeEnv) (depth : Nat) :
    ∀ (idx : List Nat) (fl : ROFlag) (v r1 h : Value),
      FieldByIndexesFrom env depth fl v idx = .ok (r1, h) →
      FieldByIndexesReadOnly (some r1) idx = .ok (some h) := by
  intro idx
  induction idx with
  | nil =>
    intro fl v r1 h hok
    simp only [FieldByIndexesFrom, Outcome.ok.injEq, Prod.mk.injEq] at hok
    simp [FieldByIndexesReadOnly, ← hok.1, hok.2]
  | cons i rest ih =>
    intro fl v r1 h hok
    obtain ⟨n, fs, fv, nv, _, hf, hsub, hr1, _⟩ :=
      FieldByIndexes_cons_ok env depth fl v r1 h i rest hok
    have hlt : i < fs.toList.length := by
      rcases List.getElem?_eq_some_iff.1 hf with ⟨hl, _⟩
      exact hl
    simp only [FieldByIndexesReadOnly, hr1, ValueList.toList_ofList_values]
    rw [List.getElem?_set_self hlt]
    exact ih _ _ _ _ hsub

theorem FieldByIndexes_not_nil (env : TypeEnv) (depth : Nat) (fl : ROFlag) (w r1 h : Value)
    (idx : List Nat)
    (hok : FieldByIndexesFrom env depth fl w idx = .ok (r1, h)) (hw : w.isNilPtr = false) :
    r1.isNilPtr = false := by
  cases idx with
  | nil =>
    simp only [FieldByIndexesFrom, Outcome.ok.injEq, Prod.mk.injEq] at hok
    rw [← hok.1]; exact hw
  | cons i rest =>
    obtain ⟨_, _, _, _, _, _, _, _, h5, _⟩ := FieldByIndexes_cons_ok env depth fl w r1 h i rest hok
    exact h5

theorem FieldByIndexes_path_not_nil (env : TypeEnv) (depth : Nat) :
    ∀ (idx : List Nat) (fl : ROFlag) (v r1 h : Value),
      FieldByIndexesFrom env depth fl v idx = .ok (r1, h) →
      ∀ p rest, idx = p ++ rest → p ≠ [] →
        ∃ x, FieldByIndexesReadOnly (some r1) p = .ok (some x) ∧ x.isNilPtr = false := by
  intro idx
  induction idx with
  | nil =>
    intro fl v r1 h _ p rest hp hne
    cases p with
    | nil => exact absurd rfl hne
    | cons a p => simp at hp
  | cons i rest0 ih =>
    intro fl v r1 h hok p rest hp hne
    obtain ⟨n, fs, fv, nv, _, hf, hsub, hr1, _⟩ :=
      FieldByIndexes_cons_ok env depth fl v r1 h i rest0 hok
    have hlt : i < fs.toList.length := by
      rcases List.getElem?_eq_some_iff.1 hf with ⟨hl, _⟩
      exact hl
    cases p with
    | nil => exact absurd rfl hne
    | cons a p2 =>
      simp only [List.cons_append, List.cons.injEq] at hp
      obtain ⟨ha, hp2⟩ := hp
      subst ha
      simp only [FieldByIndexesReadOnly, hr1, ValueList.toList_ofList_values]
      rw [List.getElem?_set_self hlt]
      by_cases hp2e : p2 = []
      · subst hp2e
        refine ⟨nv, rfl, ?_⟩
        exact FieldByIndexes_not_nil env depth _ _ nv h rest0 hsub (allocNil_not_nil env depth fv)
      · exact ih _ _ _ _ hsub p2 rest hp2 hp2e

theorem FieldByIndexes_off_path (env : TypeEnv) (depth : Nat) :
    ∀ (idx : List Nat) (fl : ROFlag) (v r1 h : Value),
      FieldByIndexesFrom env depth fl v idx = .ok (r1, h) →
      ∀ q y, ¬ q <+: idx → FieldByIndexesReadOnly (some v) q = .ok (some y) →
        FieldByIndexesReadOnly (some r1) q = .ok (some y) := by
  intro idx
  induction idx with
  | nil =>
    intro fl v r1 h hok q y _ hq
    simp only [FieldByIndexesFrom, Outcome.ok.injEq, Prod.mk.injEq] at hok
    rw [← hok.1]; exact hq
  | cons i rest ih =>
    intro fl v r1 h hok q y hnp hq
    obtain ⟨n, fs, fv, nv, hi, hf, hsub, hr1, _⟩ :=
      FieldByIndexes_cons_ok env depth fl v r1 h i rest hok
    have hlt : i < fs.toList.length := by
      rcases List.getElem?_eq_some_iff.1 hf with ⟨hl, _⟩
      exact hl
    cases q with
    | nil => exact absurd (List.nil_prefix) hnp
    | cons j q2 =>
      simp only [FieldByIndexesReadOnly, hi] at hq
      simp only [FieldByIndexesReadOnly, hr1, ValueList.toList_ofList_values]
      by_cases hji : j = i
      · subst hji
        rw [hf] at hq
        rw [List.getElem?_set_self hlt]
        have hnp2 : ¬ q2 <+: rest := by
          intro hpre
          exact hnp ((List.cons_prefix_cons).2 ⟨rfl, hpre⟩)
        have hfv : fv.isNilPtr = false := by
          cases q2 with
          | nil => exact absurd (List.nil_prefix) hnp2
          | cons k q3 =>
            cases fv <;> simp_all [FieldByIndexesReadOnly, indirect, Value.isNilPtr]
        rw [allocNil_of_not_nil env depth fv hfv] at hsub
        exact ih _ _ _ _ hsub q2 y hnp2 hq
      · rw [List.getElem?_set_ne (fun h => hji h.symm)]
        exact hq

theorem FieldByIndexes_no_nil (env : TypeEnv) (depth : Nat) :
    ∀ (idx : List Nat) (fl : ROFlag) (v y : Value),
      FieldByIndexesReadOnly (some v) idx = .ok (some y) →
      y.isNilPtr = false → FieldByIndexesFrom env depth fl v idx = .ok (v, y) := by
  intro idx
  induction idx with
  | nil =>
    intro fl v y hq _
    simp only [FieldByIndexesReadOnly, Outcome.ok.injEq, Option.some.injEq] at hq
    simp [FieldByIndexesFrom, hq]
  | cons i rest ih =>
    intro fl v y hq hy
    simp only [FieldByIndexesReadOnly] at hq
    cases hi : indirect (some v) with
    | none => simp [hi] at hq
    | some w =>
      rw [hi] at hq
      cases w <;> simp at hq
      rename_i n fs
      cases hf : fs.toList[i]? with
      | none => simp [hf] at hq
      | some fv =>
        simp only [hf] at hq
        have hfv : fv.isNilPtr = false := by
          cases rest with
          | nil =>
            simp only [FieldByIndexesReadOnly, Outcome.ok.injEq, Option.some.injEq] at hq
            rw [hq]; exact hy
          | cons k q3 =>
            cases fv <;> simp_all [FieldByIndexesReadOnly, indirect, Value.isNilPtr]
        have hsub := ih (fieldFlag env fl n i) fv y hq hy
        have hset : fs.toList.set i fv = fs.toList := by
          apply List.ext_getElem?
          intro j
          by_cases hji : j = i
          · subst hji
            rcases List.getElem?_eq_some_iff.1 hf with ⟨hl, _⟩
            rw [List.getElem?_set_self hl, hf]
          · rw [List.getElem?_set_ne (fun h => hji h.symm)]
        simp only [FieldByIndexesFrom, hi, hf, hfv, Bool.false_and, Bool.false_eq_true, if_false,
          allocNil_of_not_nil env depth fv hfv, hsub, hset, ValueList.ofList_toList_values]
        rcases indirect_struct_cases v n fs hi with hv | hv <;> subst hv <;> rfl

theorem readOnly_cons_not_nil (fv y : Value) (k : Nat) (q : List Nat)
    (h : FieldByIndexesReadOnly (some fv) (k :: q) = .ok (some y)) : fv.isNilPtr = false := by
  cases fv <;> simp_all [FieldByIndexesReadOnly, indirect, Value.isNilPtr]

theorem FieldByIndexes_fresh (env : TypeEnv) (depth : Nat) :
    ∀ (p : List Nat) (fl : ROFlag) (v r1 h : Value) (rest : List Nat) (e : GoType), p ≠ [] →
      FieldByIndexesFrom env depth fl v (p ++ rest) = .ok (r1, h) →
      FieldByIndexesReadOnly (some v) p = .ok (some (.nilPtr e)) →
      ∃ w, FieldByIndexesFrom env depth (flagAt env fl (some v) p)
            (.ptr (zeroValue env depth e)) rest = .ok (w, h) ∧
        FieldByIndexesReadOnly (some r1) p = .ok (some w) := by
  intro p
  induction p with
  | nil => intro fl v r1 h rest e hne; exact absurd rfl hne
  | cons i p2 ih =>
    intro fl v r1 h rest e _ hok hq
    simp only [List.cons_append] at hok
    obtain ⟨n, fs, fv, nv, hi, hf, hsub, hr1, _⟩ :=
      FieldByIndexes_cons_ok env depth fl v r1 h i (p2 ++ rest) hok
    have hlt : i < fs.toList.length := by
      rcases List.getElem?_eq_some_iff.1 hf with ⟨hl, _⟩
      exact hl
    simp only [FieldByIndexesReadOnly, hi, hf] at hq
    simp only [FieldByIndexesReadOnly, hr1, ValueList.toList_ofList_values, flagAt, hi, hf]
    rw [List.getElem?_set_self hlt]
    cases p2 with
    | nil =>
      simp only [FieldByIndexesReadOnly, Outcome.ok.injEq, Option.some.injEq] at hq
      subst hq
      simp only [allocNil, List.nil_append] at hsub
      exact ⟨nv, hsub, rfl⟩
    | cons k p3 =>
      have hfv : fv.isNilPtr = false := readOnly_cons_not_nil fv _ k p3 hq
      rw [allocNil_of_not_nil env depth fv hfv] at hsub
      exact ih (fieldFlag env fl n i) fv nv h rest e (by simp) hsub hq

theorem zeroValue_Typ (env : TypeEnv) (d : Nat) (t : GoType) : (zeroValue env d t).Typ = t := by
  cases t <;> cases d <;> simp [zeroValue, Value.Typ]

theorem allocNil_Typ (env : TypeEnv) (depth : Nat) (v : Value) :
    (allocNil env depth v).Typ = v.Typ := by
  cases v <;> simp [allocNil, Value.Typ, zeroValue_Typ]

theorem conforms_mono (env : TypeEnv) :
    ∀ (d : Nat) (v : Value), conforms env (d + 1) v = true → conforms env d v = true := by
  intro d
  induction d with
  | zero => intro v _; rfl
  | succ d ih =>
    intro v h
    cases v with
    | ptr x => simp only [conforms] at h ⊢; exact ih x h
    | struct n fs =>
      simp only [conforms, Bool.and_eq_true, decide_eq_true_eq, List.all_eq_true] at h ⊢
      refine ⟨h.1, fun p hp => ⟨(h.2 p hp).1, ih _ (h.2 p hp).2⟩⟩
    | _ => rfl

theorem mem_zip_self {α : Type} (l : List α) (q : α × α) (h : q ∈ l.zip l) : q.1 = q.2 := by
  induction l with
  | nil => simp at h
  | cons a l ih =>
    simp only [List.zip_cons_cons, List.mem_cons] at h
    rcases h with h | h
    · rw [h]
    · exact ih h

theorem zeroValue_conforms (env : TypeEnv) :
    ∀ (k d : Nat) (t : GoType), k ≤ d → conforms env k (zeroValue env d t) = true := by
  intro k
  induction k with
  | zero => intro d t _; rfl
  | succ k ih =>
    intro d t hkd
    cases d with
    | zero => omega
    | succ d =>
      cases t with
      | named n =>
        simp only [zeroValue, conforms, ValueList.toList_ofList_values, List.length_map,
          decide_True, Bool.true_and, List.all_eq_true, Bool.and_eq_true, decide_eq_true_eq]
        intro p hp
        have hm : p.1 = zeroValue env d p.2.Typ := by
          rw [List.zip_map_left] at hp
          simp only [List.mem_map] at hp
          obtain ⟨q, hq, hqe⟩ := hp
          have hq2 := mem_zip_self _ q hq
          rw [← hqe]
          simp [hq2]
        rw [hm]
        exact ⟨zeroValue_Typ env d _, ih d _ (by omega)⟩
      | _ => simp [zeroValue, conforms]

theorem fieldAt_head (env : TypeEnv) (t : GoType) (i : Nat) (rest : List Nat) (ft : GoType)
    (h : typeAt env t (i :: rest) = some ft) :
    ∃ n f, Deref t = .named n ∧ (env n)[i]? = some f ∧ typeAt env f.Typ rest = some ft := by
  have hf : ∃ f, (fieldsOf env (Deref t))[i]? = some f ∧ typeAt env f.Typ rest = some ft := by
    cases rest with
    | nil =>
      simp only [typeAt, fieldAt, Option.map_eq_some'] at h
      obtain ⟨f, h1, h2⟩ := h
      exact ⟨f, h1, by simp [typeAt, h2]⟩
    | cons j r =>
      simp only [typeAt, fieldAt] at h
      cases hg : (fieldsOf env (Deref t))[i]? with
      | none => simp [hg] at h
      | some f =>
        simp only [hg] at h
        exact ⟨f, rfl, by simpa [typeAt] using h⟩
  obtain ⟨f, h1, h2⟩ := hf
  cases hd : Deref t with
  | named n =>
    rw [hd] at h1
    exact ⟨n, f, rfl, h1, h2⟩
  | _ => rw [hd] at h1; simp [fieldsOf] at h1

theorem conforms_field (env : TypeEnv) (k : Nat) (v : Value) (n : String) (i : Nat)
    (f : StructField) (hd : Deref v.Typ = .named n) (hnil : v.isNilPtr = false)
    (hc : conforms env (k + 2) v = true) (hf : (env n)[i]? = some f) :
    ∃ fs fv, indirect (some v) = some (.struct n fs) ∧ fs.toList[i]? = some fv ∧
      fv.Typ = f.Typ ∧ conforms env k fv = true := by
  have key : ∀ (fs : ValueList) (d : Nat), conforms env (d + 1) (.struct n fs) = true →
      ∃ fv, fs.toList[i]? = some fv ∧ fv.Typ = f.Typ ∧ conforms env d fv = true := by
    intro fs d hcs
    simp only [conforms, Bool.and_eq_true, decide_eq_true_eq, List.all_eq_true] at hcs
    obtain ⟨hlen, hall⟩ := hcs
    have hi : i < (env n).length := by
      rcases List.getElem?_eq_some_iff.1 hf with ⟨hl, _⟩
      exact hl
    have hi2 : i < fs.toList.length := by omega
    have hfe : f = (env n)[i] := by
      rcases List.getElem?_eq_some_iff.1 hf with ⟨_, he⟩
      exact he.symm
    have hm : (fs.toList[i], (env n)[i]) ∈ fs.toList.zip (env n) := by
      rw [List.mem_iff_getElem]
      exact ⟨i, by simp [hi, hi2], by simp⟩
    have := hall _ hm
    exact ⟨fs.toList[i], List.getElem?_eq_getElem hi2, by rw [hfe]; exact this.1, this.2⟩
  cases v with
  | struct n2 fs =>
    simp only [Value.Typ, Deref, GoType.named.injEq] at hd
    subst hd
    obtain ⟨fv, h1, h2, h3⟩ := key fs (k + 1) hc
    exact ⟨fs, fv, rfl, h1, h2, conforms_mono env k fv h3⟩
  | ptr x =>
    simp only [Value.Typ, Deref] at hd
    cases x with
    | struct n2 fs =>
      simp only [Value.Typ, GoType.named.injEq] at hd
      subst hd
      simp only [conforms] at hc
      obtain ⟨fv, h1, h2, h3⟩ := key fs k (by simpa [conforms] using hc)
      exact ⟨fs, fv, rfl, h1, h2, h3⟩
    | _ => simp [Value.Typ] at hd
  | nilPtr e => simp [Value.isNilPtr] at hnil
  | _ => simp [Value.Typ, Deref] at hd

/-- On a value that agrees with its declarations, along a path that is valid
for its type, the loop of `FieldByIndexes` ends in the panic of `v.Set` when
it reaches a nil pointer in a read-only field, and returns a field of the type
at the end of the path otherwise: no step is out of range. -/
theorem FieldByIndexes_ok (env : TypeEnv) (depth : Nat) :
    ∀ (idx : List Nat) (fl : ROFlag) (v : Value) (ft : GoType) (k : Nat),
      typeAt env v.Typ idx = some ft → conforms env k v = true → 2 * idx.length ≤ k →
      k ≤ depth → (idx ≠ [] → v.isNilPtr = false) →
      (setsReadOnly env depth fl v idx = true ∧
        FieldByIndexesFrom env depth fl v idx = .panic) ∨
      (setsReadOnly env depth fl v idx = false ∧
        ∃ r1 h, FieldByIndexesFrom env depth fl v idx = .ok (r1, h) ∧ h.Typ = ft) := by
  intro idx
  induction idx with
  | nil =>
    intro fl v ft k hty _ _ _ _
    simp only [typeAt, Option.some.injEq] at hty
    exact Or.inr ⟨rfl, v, v, rfl, hty⟩
  | cons i rest ih =>
    intro fl v ft k hty hc hk hd hnil
    obtain ⟨n, f, hder, hf, hty2⟩ := fieldAt_head env v.Typ i rest ft hty
    simp only [List.length_cons] at hk
    obtain ⟨k2, hk2⟩ : ∃ k2, k = k2 + 2 := ⟨k - 2, by omega⟩
    subst hk2
    obtain ⟨fs, fv, hi, hfv, hft, hcf⟩ := conforms_field env k2 v n i f hder (hnil (by simp)) hc hf
    cases hro : (fv.isNilPtr && (fieldFlag env fl n i).ro) with
    | true =>
      left
      simp only [setsReadOnly, FieldByIndexesFrom, hi, hfv, hro, if_true, and_self]
    | false =>
      have hca : conforms env k2 (allocNil env depth fv) = true := by
        cases fv with
        | nilPtr e =>
          simp only [allocNil]
          cases k2 with
          | zero => rfl
          | succ k3 =>
            simp only [conforms]
            exact zeroValue_conforms env k3 depth e (by omega)
        | _ => exact hcf
      have hta : typeAt env (allocNil env depth fv).Typ rest = some ft := by
        rw [allocNil_Typ, hft]; exact hty2
      rcases ih (fieldFlag env fl n i) (allocNil env depth fv) ft k2 hta hca (by omega) (by omega)
        (fun _ => allocNil_not_nil env depth fv) with ⟨hs, hp⟩ | ⟨hs, nv, h, hsub, hh⟩
      · left
        simp only [setsReadOnly, FieldByIndexesFrom, hi, hfv, hro, Bool.false_eq_true, if_false,
          hs, hp, and_self]
      · right
        refine ⟨by simp only [setsReadOnly, hi, hfv, hro, Bool.false_eq_true, if_false, hs], ?_⟩
        rcases indirect_struct_cases v n fs hi with hv | hv
        · subst hv
          exact ⟨.struct n (ValueList.ofList (fs.toList.set i nv)), h,
            by simp only [FieldByIndexesFrom, hi, hfv, hro, Bool.false_eq_true, if_false, hsub],
            hh⟩
        · subst hv
          exact ⟨.ptr (.struct n (ValueList.ofList (fs.toList.set i nv))), h,
            by simp only [FieldByIndexesFrom, hi, hfv, hro, Bool.false_eq_true, if_false, hsub],
            hh⟩

/-- C19: take a record that agrees with its declarations and is not a nil
pointer, and an index path that is valid for its type.  After `FieldByIndexes`
has returned, the field it returned is the field at the path, of the type at
the end of the path; every field on the way, the last included, is no nil
pointer; where the walk met a nil pointer, the pointer now leads to a fresh
zero value, walked along the rest of the path; every field that is not on the
way holds what it held; and when the path held no nil pointer, the whole
record is as before.  The walk returns unless it reaches a nil pointer held in
a read-only field, where `v.Set` panics. -/
theorem FieldByIndexes_allocates (env : TypeEnv) (depth : Nat) (r : Value) (idx : List Nat)
    (ft : GoType) (hty : typeAt env r.Typ idx = some ft)
    (hc : conforms env (2 * idx.length) r = true) (hd : 2 * idx.length ≤ depth)
    (hnil : r.isNilPtr = false) :
    (setsReadOnly env depth ROFlag.clear r idx = true →
      FieldByIndexes env depth r idx = .panic) ∧
    (setsReadOnly env depth ROFlag.clear r idx = false →
      ∃ r1 h, FieldByIndexes env depth r idx = .ok (r1, h)) ∧
    ∀ r1 h, FieldByIndexes env depth r idx = .ok (r1, h) →
      h.Typ = ft ∧
      FieldByIndexesReadOnly (some r1) idx = .ok (some h) ∧
      (∀ p rest, idx = p ++ rest → p ≠ [] →
        ∃ x, FieldByIndexesReadOnly (some r1) p = .ok (some x) ∧ x.isNilPtr = false) ∧
      (∀ p rest e, idx = p ++ rest → p ≠ [] →
        FieldByIndexesReadOnly (some r) p = .ok (some (.nilPtr e)) →
        ∃ w, FieldByIndexesFrom env depth (flagAt env ROFlag.clear (some r) p)
              (.ptr (zeroValue env depth e)) rest = .ok (w, h) ∧
          FieldByIndexesReadOnly (some r1) p = .ok (some w)) ∧
      (∀ q y, ¬ q <+: idx → FieldByIndexesReadOnly (some r) q = .ok (some y) →
        FieldByIndexesReadOnly (some r1) q = .ok (some y)) ∧
      (∀ y, FieldByIndexesReadOnly (some r) idx = .ok (some y) → y.isNilPtr = false →
        r1 = r ∧ h = y) := by
  have hdich := FieldByIndexes_ok env depth idx ROFlag.clear r ft (2 * idx.length) hty hc
    (Nat.le_refl _) hd (fun _ => hnil)
  refine ⟨?_, ?_, ?_⟩
  · intro hs
    rcases hdich with ⟨_, hp⟩ | ⟨hs2, _⟩
    · exact hp
    · rw [hs] at hs2; cases hs2
  · intro hs
    rcases hdich with ⟨hs2, _⟩ | ⟨_, r1, h, hok, _⟩
    · rw [hs] at hs2; cases hs2
    · exact ⟨r1, h, hok⟩
  · intro r1 h hok
    have hok2 : FieldByIndexesFrom env depth ROFlag.clear r idx = .ok (r1, h) := hok
    have hh : h.Typ = ft := by
      rcases hdich with ⟨_, hp⟩ | ⟨_, r2, h2, hok3, hh2⟩
      · rw [hok2] at hp; cases hp
      · rw [hok2] at hok3
        simp only [Outcome.ok.injEq, Prod.mk.injEq] at hok3
        rw [hok3.2]; exact hh2
    refine ⟨hh, FieldByIndexes_handle env depth idx _ r r1 h hok2,
      FieldByIndexes_path_not_nil env depth idx _ r r1 h hok2, ?_,
      FieldByIndexes_off_path env depth idx _ r r1 h hok2, ?_⟩
    · intro p rest e hp hne hq
      rw [hp] at hok2
      exact FieldByIndexes_fresh env depth p _ r r1 h rest e hne hok2 hq
    · intro y hq hy
      have := FieldByIndexes_no_nil env depth idx ROFlag.clear r y hq hy
      rw [this] at hok2
      simp only [Outcome.ok.injEq, Prod.mk.injEq] at hok2
      exact ⟨hok2.1.symm, hok2.2.symm⟩

/-- A walk that does not return: for `type Outer struct { *inner }`, whose
embedded pointer is an unexported field, `getMapping` builds the index path
`[0, 0]` of `inner.A`, and on a zero `Outer` the nil `*inner` cannot be set, so
`v.Set` panics.  With the pointer set, the walk returns the field `A`. -/
theorem FieldByIndexes_unexported_pointer_panics :
    (∃ sm, getMapping hiddenPtrEnv (.named "Outer") "reflector" StdTagFunc 3 = some (.ok sm) ∧
      (sm.Fields.map (fun p => (deref sm.heap p).Index)) = [[0], [0, 0]]) ∧
    FieldByIndexes hiddenPtrEnv 4 (zeroValue hiddenPtrEnv 4 (.named "Outer")) [0, 0] = .panic ∧
    FieldByIndexes hiddenPtrEnv 4
        (.struct "Outer" (ValueList.ofList [.ptr (.struct "inner"
          (ValueList.ofList [.int .Int 7]))])) [0, 0] =
      .ok (.struct "Outer" (ValueList.ofList [.ptr (.struct "inner"
          (ValueList.ofList [.int .Int 7]))]), .int .Int 7) :=
  ⟨⟨_, rfl, rfl⟩, rfl, rfl⟩

theorem FieldByIndexes_allocates_witness :
    (∃ r1 h, FieldByIndexes testEnv 4 (zeroValue testEnv 4 (.named "reflectx.FooBar")) [2, 0] =
      .ok (r1, h)) ∧
    (Value.ptr (.int .Int 0)).Typ = .ptr (.int .Int) ∧
    FieldByIndexesReadOnly (some (.struct "reflectx.FooBar" (ValueList.ofList
        [zeroValue testEnv 3 (.named "reflectx.Foo"), zeroValue testEnv 3 (.named "reflectx.Bar"),
         .ptr (.struct "reflectx.Bar" (ValueList.ofList [.ptr (.int .Int 0), .nilPtr .string])),
         .nilSlice (.named "reflectx.Foo"), .nilPtr (.slice (.named "reflectx.Foo")),
         .nilPtr (.slice (.ptr (.named "reflectx.Foo")))]))) [2, 0] =
      .ok (some (.ptr (.int .Int 0))) :=
  ⟨(FieldByIndexes_allocates testEnv 4 (zeroValue testEnv 4 (.named "reflectx.FooBar"))
      [2, 0] (.ptr (.int .Int)) rfl rfl (by decide) rfl).2.1 rfl,
   ((FieldByIndexes_allocates testEnv 4 (zeroValue testEnv 4 (.named "reflectx.FooBar"))
      [2, 0] (.ptr (.int .Int)) rfl rfl (by decide) rfl).2.2 _ _ rfl).1,
   ((FieldByIndexes_allocates testEnv 4 (zeroValue testEnv 4 (.named "reflectx.FooBar"))
      [2, 0] (.ptr (.int .Int)) rfl rfl (by decide) rfl).2.2 _ _ rfl).2.1⟩

/-- On a zero `FooBar` the walk to `PBar.B` allocates the `Bar` behind `PBar`
and the `int` behind `B`, and returns the pointer to that `int`. -/
theorem FieldByIndexes_zero_FooBar :
    (match FieldByIndexes testEnv 4 (zeroValue testEnv 4 (.named "reflectx.FooBar")) [2, 0] with
      | .ok (r1, h) => (FieldByIndexesReadOnly (some r1) [2], h)
      | _ => (.panic, .nilIface)) =
    (.ok (some (.ptr (.struct "reflectx.Bar"
      (ValueList.ofList [.ptr (.int .Int 0), .nilPtr .string])))), .ptr (.int .Int 0)) := by
  rfl

theorem FieldByIndexesReadOnly_walk_witness :
    FieldByIndexesReadOnly (some fooBarValue) ([2] ++ [0]) = .ok (some (.ptr (.int .Int 1))) ∧
    FieldByIndexesReadOnly (some (zeroValue testEnv 4 (.named "reflectx.FooBar")))
      ([2] ++ 0 :: []) = .ok none :=
  ⟨(FieldByIndexesReadOnly_walk fooBarValue [2]).2.2 (.ptr barValue) "reflectx.Bar"
      (ValueList.ofList [.ptr (.int .Int 1), .ptr (.str "string")]) 0 (.ptr (.int .Int 1))
      rfl rfl rfl,
   (FieldByIndexesReadOnly_walk (zeroValue testEnv 4 (.named "reflectx.FooBar")) [2]).2.1
      (.named "reflectx.Bar") 0 [] rfl⟩

/-- C20 (counterexample): on the zero `FooBar`, whose field `PBar` is a nil
`*Bar`, the path `[2]` meets a nil pointer, and `FieldByIndexesReadOnly`
returns that nil pointer, a valid value of type `*Bar`, not the invalid
value; only a step past the nil pointer, as in `[2, 0]`, gives the invalid
value. -/
theorem FieldByIndexesReadOnly_ends_on_nil :
    FieldByIndexesReadOnly (some (zeroValue testEnv 4 (.named "reflectx.FooBar"))) [2] =
      .ok (some (.nilPtr (.named "reflectx.Bar"))) ∧
    FieldByIndexesReadOnly (some (zeroValue testEnv 4 (.named "reflectx.FooBar"))) [2, 0] =
      .ok none := by
  constructor <;> rfl

/-- The record that `updateAt` leaves when the change keeps the field as it is
is the record that `FieldByIndexes` leaves. -/
theorem updateAt_eq_FieldByIndexes (env : TypeEnv) (depth : Nat) :
    ∀ (idx : List Nat) (fl : ROFlag) (v : Value),
      updateAtFrom env depth (fun _ x => .ok (x, none)) fl v idx =
        (match FieldByIndexesFrom env depth fl v idx with
         | .ok (r1, _) => .ok (r1, none)
         | .panic => .panic
         | .outOfFuel => .outOfFuel) := by
  intro idx
  induction idx with
  | nil => intro fl v; rfl
  | cons i rest ih =>
    intro fl v
    simp only [updateAtFrom, FieldByIndexesFrom]
    cases hi : indirect (some v) with
    | none => rfl
    | some w =>
      cases w <;> simp only []
      rename_i n fs
      cases hf : fs.toList[i]? with
      | none => rfl
      | some fv =>
        simp only [ih]
        cases hro : (fv.isNilPtr && (fieldFlag env fl n i).ro) with
        | true => simp
        | false =>
          simp only [Bool.false_eq_true, if_false]
          cases hs : FieldByIndexesFrom env depth (fieldFlag env fl n i)
              (allocNil env depth fv) rest with
          | ok pr =>
            obtain ⟨nv, h⟩ := pr
            rcases indirect_struct_cases v n fs hi with hv | hv <;> subst hv <;> rfl
          | panic => rfl
          | outOfFuel => rfl

/-! ## Sequences into a field -/

theorem setElems_ok (set : Value → Option Value → Outcome (Value × Option ConvError))
    (zero : Value) :
    ∀ (es rs : List Value),
      List.Forall₂ (fun e r => set zero (some e) = .ok (r, none)) es rs →
      setElems set zero es = .ok (rs, none) := by
  intro es rs h
  induction h with
  | nil => rfl
  | @cons e r es rs he _ ih => simp only [setElems, he, ih]

theorem setElems_error (set : Value → Option Value → Outcome (Value × Option ConvError))
    (zero : Value) (e x : Value) (err : ConvError) (post : List Value)
    (he : set zero (some e) = .ok (x, some err)) :
    ∀ (pre rs : List Value),
      List.Forall₂ (fun e r => set zero (some e) = .ok (r, none)) pre rs →
      ∃ l, setElems set zero (pre ++ e :: post) = .ok (l, some err) := by
  intro pre rs h
  induction h with
  | nil => exact ⟨[], by simp only [List.nil_append, setElems, he]⟩
  | @cons a r pre rs ha _ ih =>
    obtain ⟨l, hl⟩ := ih
    refine ⟨r :: l, ?_⟩
    rw [List.cons_append, setElems, ha]
    simp only [hl]

/-- C18, amended: let the target be a slice with elements of type `elemT` and the
source, with pointers followed and interfaces opened, a slice that is not nil.
When the source has another type than the target, `SetValue` assigns every
element of the source, in order, to a zero element of type `elemT`: when all
these assignments succeed the target becomes the slice of their results, as
long as the source, and when one of them returns an error, `SetValue` returns
that error and the target is as before.  When the source has the type of the
target, the target becomes the source itself. -/
theorem SetValue_slice (env : TypeEnv) (depth fuel : Nat) (field : Value) (elemT srcT : GoType)
    (elems : ValueList) (src : Option Value) (hf : field.Typ = .slice elemT)
    (hsrc : ifaceElem (indirect src) = some (.slice srcT elems)) :
    (srcT = elemT →
      SetValue env depth (fuel + 1) field src = .ok (.slice srcT elems, none)) ∧
    (srcT ≠ elemT → ∀ rs,
      List.Forall₂ (fun e r =>
        SetValue env depth fuel (zeroValue env depth elemT) (some e) = .ok (r, none))
        elems.toList rs →
      SetValue env depth (fuel + 1) field src = .ok (.slice elemT (ValueList.ofList rs), none) ∧
        rs.length = elems.toList.length) ∧
    (srcT ≠ elemT → ∀ pre e post rs x err, elems.toList = pre ++ e :: post →
      List.Forall₂ (fun e r =>
        SetValue env depth fuel (zeroValue env depth elemT) (some e) = .ok (r, none)) pre rs →
      SetValue env depth fuel (zeroValue env depth elemT) (some e) = .ok (x, some err) →
      SetValue env depth (fuel + 1) field src = .ok (field, some err)) := by
  refine ⟨?_, ?_, ?_⟩
  · intro heq
    subst heq
    cases field <;> simp_all [SetValue, Value.Typ, GoType.Kind, assign]
  · intro hne rs hall
    have hs := setElems_ok (SetValue env depth fuel) (zeroValue env depth elemT) _ _ hall
    refine ⟨?_, (List.Forall₂.length_eq hall).symm⟩
    have hne2 : ¬ elemT = srcT := fun h => hne h.symm
    cases field <;> simp_all [SetValue, Value.Typ, GoType.Kind]
  · intro hne pre e post rs x err hsplit hall he
    obtain ⟨l, hl⟩ := setElems_error (SetValue env depth fuel) (zeroValue env depth elemT)
      e x err post he pre rs hall
    rw [← hsplit] at hl
    have hne2 : ¬ elemT = srcT := fun h => hne h.symm
    cases field <;> simp_all [SetValue, Value.Typ, GoType.Kind]

/-- C18, as stated, fails when source and target have the same type: the target
becomes the source itself.  For `[]*interface{}{&x}` with `x` a nil interface
the element of the target is then the pointer `&x`, while `SetValue` applied
to that element and a zero element leaves the zero element, a nil pointer. -/
theorem SetValue_slice_same_type :
    SetValue (fun _ => []) 1 2 (.nilSlice (.ptr .iface))
        (some (.slice (.ptr .iface) (ValueList.ofList [.ptr .nilIface]))) =
      .ok (.slice (.ptr .iface) (ValueList.ofList [.ptr .nilIface]), none) ∧
    SetValue (fun _ => []) 1 1 (zeroValue (fun _ => []) 1 (.ptr .iface))
        (some (.ptr .nilIface)) = .ok (.nilPtr .iface, none) := by
  constructor <;> rfl

theorem SetValue_slice_witness :
    SetValue testEnv 1 (1 + 1) (.nilSlice (.int .Int64))
        (some (.slice .iface (ValueList.ofList [.iface (.int .Int 1), .iface (.str "2")]))) =
      .ok (.slice (.int .Int64) (ValueList.ofList [.int .Int64 1, .int .Int64 2]), none) ∧
    [Value.int .Int64 1, .int .Int64 2].length =
      (ValueList.ofList [Value.iface (.int .Int 1), .iface (.str "2")]).toList.length :=
  (SetValue_slice testEnv 1 1 (.nilSlice (.int .Int64)) (.int .Int64) .iface
    (ValueList.ofList [.iface (.int .Int 1), .iface (.str "2")])
    (some (.slice .iface (ValueList.ofList [.iface (.int .Int 1), .iface (.str "2")])))
    rfl rfl).2.1 (by decide) [.int .Int64 1, .int .Int64 2]
    (List.Forall₂.cons rfl (List.Forall₂.cons rfl List.Forall₂.nil))

/-! ## Tags and options -/

theorem splitAux_token (sep : Char) :
    ∀ (t cur rest : List Char), sep ∉ t →
      splitAux sep (t ++ rest) cur = splitAux sep rest (t.reverse ++ cur) := by
  intro t
  induction t with
  | nil => intro cur rest _; rfl
  | cons c t ih =>
    intro cur rest h
    simp only [List.mem_cons, not_or] at h
    have hc : ¬ c = sep := fun e => h.1 e.symm
    simp only [List.cons_append, splitAux, hc, if_false]
    have := ih (c :: cur) rest h.2
    simp only [List.reverse_cons, List.append_assoc, List.singleton_append]
    exact this

theorem map_mk_data (ts : List String) : ts.map (String.mk ∘ String.data) = ts := by
  induction ts with
  | nil => rfl
  | cons t ts ih => simp [ih]

theorem splitAux_joinTokens :
    ∀ (ts : List String) (t0 : String), (∀ t ∈ t0 :: ts, ',' ∉ t.data) →
      splitAux ',' (joinTokens (t0 :: ts)) [] = (t0 :: ts).map String.data := by
  intro ts
  induction ts with
  | nil =>
    intro t0 h
    have := splitAux_token ',' t0.data [] [] (h t0 (List.mem_cons_self _ _))
    simp only [List.append_nil] at this
    simp [joinTokens, this, splitAux]
  | cons t1 ts ih =>
    intro t0 h
    have h0 := splitAux_token ',' t0.data [] (',' :: joinTokens (t1 :: ts))
      (h t0 (List.mem_cons_self _ _))
    simp only [joinTokens, h0, splitAux, if_true, List.append_nil, List.reverse_reverse,
      List.map_cons]
    rw [ih t1 (fun t ht => h t (List.mem_cons_of_mem _ ht))]
    simp

/-- C29: for every field name, `StdTagFunc` returns the field name and no parts
when the tag is empty; and for every tag, written as its tokens joined by
commas, it returns the first token as name, or the field name when that token
is empty, and the other tokens, in order, as parts. -/
theorem StdTagFunc_tokens (fieldName t0 : String) (ts : List String)
    (h : ∀ t ∈ t0 :: ts, ',' ∉ t.data) :
    StdTagFunc fieldName "" = (fieldName, []) ∧
    StdTagFunc fieldName (String.mk (joinTokens (t0 :: ts))) =
      (if t0 = "" then fieldName else t0, ts) := by
  refine ⟨rfl, ?_⟩
  by_cases he : String.mk (joinTokens (t0 :: ts)) = ""
  · have hd : joinTokens (t0 :: ts) = [] := by
      have := congrArg String.data he
      simpa using this
    cases ts with
    | nil =>
      have h0 : t0 = "" := by
        apply String.ext
        simpa [joinTokens] using hd
      subst h0
      rfl
    | cons t1 ts => simp [joinTokens] at hd
  · have hs := splitAux_joinTokens ts t0 h
    simp only [StdTagFunc, he, if_false, strSplit, hs]
    by_cases h0 : t0 = ""
    · simp [h0, map_mk_data]
    · have h1 : ¬ t0.data = [] := fun e => h0 (String.ext e)
      simp [h0, map_mk_data]

theorem StdTagFunc_tokens_witness :
    StdTagFunc "F" "" = ("F", []) ∧
    StdTagFunc "F" (String.mk (joinTokens ["foo", "bar", "size=64"])) =
      (if "foo" = "" then "F" else "foo", ["bar", "size=64"]) :=
  StdTagFunc_tokens "F" "foo" ["bar", "size=64"] (by decide)

theorem hasInfix_singleton (c : Char) : ∀ (l : List Char), hasInfix l [c] = true ↔ c ∈ l := by
  intro l
  induction l with
  | nil => simp [hasInfix]
  | cons a l ih =>
    simp only [hasInfix, Bool.or_eq_true, ih, List.mem_cons]
    constructor
    · rintro (h | h)
      · left
        simp [List.isPrefixOf] at h
        exact h
      · right; exact h
    · rintro (h | h)
      · left; simp [List.isPrefixOf, h]
      · right; exact h

theorem cutFirst_mem (sep : Char) :
    ∀ (l cur : List Char), sep ∈ l →
      cutFirst sep l cur =
        some (cur.reverse ++ l.takeWhile (fun c => c ≠ sep),
          (l.dropWhile (fun c => c ≠ sep)).tail) := by
  intro l
  induction l with
  | nil => intro cur h; simp at h
  | cons a l ih =>
    intro cur h
    by_cases ha : a = sep
    · subst ha
      simp [cutFirst, List.takeWhile, List.dropWhile]
    · have hm : sep ∈ l := by
        rcases List.mem_cons.1 h with h1 | h1
        · exact absurd h1.symm ha
        · exact h1
      simp only [cutFirst, ha, if_false, ih _ hm]
      simp [List.takeWhile, List.dropWhile, ha]

theorem parseOptions_step (options : GoMap String String) (opt : String) :
    (if strContains opt "=" then
        match cutFirst '=' opt.data [] with
        | some (k, v) => mapPut options (String.mk k) (String.mk v)
        | none => mapPut options opt ""
      else mapPut options opt "") =
      mapPut options (optionOf opt).1 (optionOf opt).2 := by
  have hc : strContains opt "=" = true ↔ '=' ∈ opt.data := by
    simp only [strContains]
    exact hasInfix_singleton '=' opt.data
  by_cases hm : '=' ∈ opt.data
  · have h1 := hc.2 hm
    simp only [h1, if_true, cutFirst_mem '=' opt.data [] hm, optionOf, hm]
    simp
  · have h1 : ¬ (strContains opt "=" = true) := fun h => hm (hc.1 h)
    simp only [h1, optionOf, hm, if_false]
    simp

theorem parseOptions_foldl (parts : List String) :
    parseOptions parts =
      parts.foldl (fun m opt => mapPut m (optionOf opt).1 (optionOf opt).2) [] := by
  simp only [parseOptions]
  congr 1
  funext m opt
  exact parseOptions_step m opt

theorem mapGet_mapPut {α β : Type} [DecidableEq α] (m : GoMap α β) (k k1 : α) (v : β) :
    mapGet (mapPut m k v) k1 = if k = k1 then some v else mapGet m k1 := by
  induction m with
  | nil => simp [mapPut, mapGet]
  | cons e rest ih =>
    obtain ⟨a, b⟩ := e
    by_cases hak : a = k
    · subst hak
      by_cases ha1 : a = k1
      · simp [mapPut, mapGet, ha1]
      · simp [mapPut, mapGet, ha1]
    · by_cases hk : k = k1
      · subst hk
        simp [mapPut, mapGet, hak, ih]
      · by_cases ha1 : a = k1
        · subst ha1
          simp [mapPut, mapGet, hak, hk]
        · simp [mapPut, mapGet, hak, hk, ha1, ih]

/-- C30: for every list of parts and every key, `parseOptions` holds a value
under the key exactly when some part has that key, and the value is that of
the last such part; here a part with "=" has the text before its first "=" as
key and the text after it as value, and a part without "=" has itself as key
and the empty value. -/
theorem parseOptions_last_wins (parts : List String) (k v : String) :
    mapGet (parseOptions parts) k = some v ↔
      ∃ pre opt post, parts = pre ++ opt :: post ∧ optionOf opt = (k, v) ∧
        ∀ o ∈ post, (optionOf o).1 ≠ k := by
  rw [parseOptions_foldl]
  induction parts using List.reverseRecOn with
  | nil => simp [mapGet]
  | append_singleton l x ih =>
    rw [List.foldl_append, List.foldl_cons, List.foldl_nil, mapGet_mapPut]
    by_cases hx : (optionOf x).1 = k
    · simp only [hx, if_true, Option.some.injEq]
      constructor
      · intro hv
        exact ⟨l, x, [], by simp, Prod.ext hx hv, by simp⟩
      · rintro ⟨pre, opt, post, hsplit, hopt, hpost⟩
        rcases List.eq_nil_or_concat post with hp | ⟨post2, y, hp⟩
        · subst hp
          have := List.append_inj' hsplit (by simp)
          simp only [List.cons.injEq, and_true] at this
          rw [this.2, hopt]
        · subst hp
          have hy : x = y := by
            have h2 : l ++ [x] = (pre ++ opt :: post2) ++ [y] := by simpa using hsplit
            have := List.append_inj' h2 (by simp)
            simpa using this.2
          exact absurd hx (hy ▸ hpost y (by simp))
    · simp only [hx, if_false]
      rw [ih]
      constructor
      · rintro ⟨pre, opt, post, hsplit, hopt, hpost⟩
        refine ⟨pre, opt, post ++ [x], by simp [hsplit], hopt, ?_⟩
        intro o ho
        rcases List.mem_append.1 ho with h1 | h1
        · exact hpost o h1
        · simp only [List.mem_singleton] at h1
          rw [h1]; exact hx
      · rintro ⟨pre, opt, post, hsplit, hopt, hpost⟩
        rcases List.eq_nil_or_concat post with hp | ⟨post2, y, hp⟩
        · subst hp
          have := List.append_inj' hsplit (by simp)
          simp only [List.cons.injEq, and_true] at this
          rw [this.2, hopt] at hx
          exact absurd rfl hx
        · subst hp
          have h2 : l ++ [x] = (pre ++ opt :: post2) ++ [y] := by simpa using hsplit
          have := List.append_inj' h2 (by simp)
          exact ⟨pre, opt, post2, this.1, hopt, fun o ho => hpost o (by simp [ho])⟩

/-- The examples of C30: "a=b=c" has key "a" and value "b=c", and "omitempty"
has itself as key and the empty value. -/
theorem parseOptions_example :
    parseOptions ["a=b=c", "omitempty"] = [("a", "b=c"), ("omitempty", "")] := by
  decide

/-! ## Fields left out of the tree -/

theorem TInv.prefix_built {env : TypeEnv} {t : GoType} {tagName : String} {tagFunc : TagFunc}
    {heap : Heap} {m : List Nat} {work : List (typeQueue × Nat)}
    (inv : TInv env t tagName tagFunc heap m work) :
    ∀ (n : Nat), 1 ≤ n → n < heap.length → ∀ (Q : List Nat), Q ≠ [] →
      Q <+: (deref heap n).Index →
      ∃ f, fieldAt env t Q = some f ∧ skipField tagName tagFunc f = false := by
  intro n
  induction n using Nat.strong_induction_on with
  | _ n ih =>
    intro h1 h2 Q hQ hpre
    obtain ⟨e, pos, f, hent, _, hskip, hfa, hst, _, _⟩ := inv.built n h1 h2
    have hidx : (deref heap n).Index = e.pIndex ++ [pos] := (inv.built_attrs hst).1
    rw [hidx, List.prefix_concat_iff] at hpre
    rcases hpre with hpre | hpre
    · rw [hpre]
      exact ⟨f, hfa, hskip⟩
    · rcases hent with he | ⟨F, hF1, hF2, _, he⟩
      · rw [he] at hpre
        simp only [List.prefix_nil] at hpre
        exact absurd hpre hQ
      · have hp : e.pIndex = (deref heap F).Index := by rw [he]; rfl
        rw [hp] at hpre
        exact ih F hF2 hF1 (by omega) Q hQ hpre

/-- C28: in a `StructMap` that `getMapping` returns, take a declared field,
reached from the record type by the index path `P`, that the builder passes
over: it is unexported and not embedded, or its canonical name is "-" or
empty.  No field of `Fields`, and so no entry of `Paths` or `Leaves`, has an
index path that starts with `P`. -/
theorem skipped_field_excluded (env : TypeEnv) (t : GoType) (tagName : String)
    (tagFunc : TagFunc) (fuel : Nat) (sm : StructMap)
    (h : getMapping env t tagName tagFunc fuel = some (.ok sm))
    (P : List Nat) (f : StructField) (hf : fieldAt env t P = some f)
    (hskip : skipField tagName tagFunc f = true) :
    (∀ p ∈ sm.Fields, ¬ P <+: (deref sm.heap p).Index) ∧
    (∀ k p, mapGet sm.Paths k = some p → ¬ P <+: (deref sm.heap p).Index) ∧
    (∀ k p, mapGet sm.Leaves k = some p → ¬ P <+: (deref sm.heap p).Index) := by
  simp only [getMapping, Option.map_eq_some'] at h
  obtain ⟨st, htr, hfin⟩ := h
  obtain ⟨inv, _⟩ := traverse_inv htr
  have hP : P ≠ [] := by
    intro hP
    rw [hP] at hf
    simp [fieldAt] at hf
  rcases finish_cases t st with ⟨sm2, h1, hheap, _, hfields, hpaths, hleaves, _⟩ |
      ⟨l1, a, l2, b, l3, h1, _⟩
  · rw [h1] at hfin
    have hsm : sm2 = sm := by simpa using hfin
    rw [hsm] at hheap hfields hpaths hleaves
    have key : ∀ p ∈ sm.Fields, ¬ P <+: (deref sm.heap p).Index := by
      intro p hp hpre
      rw [hfields] at hp
      rw [hheap] at hpre
      obtain ⟨hp1, hp2⟩ := (inv.mem_m p).1 hp
      obtain ⟨f2, hf2, hs2⟩ := inv.prefix_built p hp1 hp2 P hP hpre
      rw [hf] at hf2
      simp only [Option.some.injEq] at hf2
      rw [hf2, hs2] at hskip
      simp at hskip
    refine ⟨key, ?_, ?_⟩
    · intro k p hk
      rw [hpaths] at hk
      have := mapGet_map_some (fun q => (deref st.heap q).Path) st.m k p hk
      exact key p (hfields ▸ this.1)
    · intro k p hk
      rw [hleaves] at hk
      have := mapGet_map_some (fun q => (deref st.heap q).Path)
        (st.m.filter (isLeaf st.heap)) k p hk
      exact key p (hfields ▸ (List.mem_filter.1 this.1).1)
  · rw [h1] at hfin
    simp at hfin

theorem skipped_field_excluded_witness :
    (∀ p ∈ flatInnerMap.Fields, ¬ [1] <+: (deref flatInnerMap.heap p).Index) ∧
    (∀ k p, mapGet flatInnerMap.Paths k = some p →
      ¬ [1] <+: (deref flatInnerMap.heap p).Index) ∧
    (∀ k p, mapGet flatInnerMap.Leaves k = some p →
      ¬ [1] <+: (deref flatInnerMap.heap p).Index) :=
  skipped_field_excluded flatEnv (.named "FlatInner") "reflector" StdTagFunc 3 flatInnerMap rfl
    [1] (mkField "Skip" (.int .Int) [("reflector", "-")] false) rfl (by decide)

/-! ## Encoding a record with a dynamic field -/

theorem getField_nil_interface (env : TypeEnv) (fl : ROFlag) (index : Option (List Nat))
    (val : Option Value)
    (h : (match index with
      | some idx => FieldByIndexesReadOnly val idx
      | none => Outcome.ok val) = .ok (some .nilIface)) :
    getField env fl index val = .panic := by
  cases index with
  | none =>
    simp only [Outcome.ok.injEq] at h
    subst h
    simp [getField, indirect]
  | some idx =>
    simp only at h
    simp [getField, h, indirect]

/-- A child whose field holds a nil interface makes `encode` panic, whatever
the other fields hold. -/
theorem encode_nil_interface_child (env : TypeEnv) (buildFuel fuel : Nat) (m : Mapper)
    (c : StructMap × Nat) (fl : ROFlag) (n : String) (fs : ValueList)
    (h : FieldByIndexesReadOnly (some (.struct n fs)) (deref c.1.heap c.2).Index =
      .ok (some .nilIface)) :
    encode env buildFuel (fuel + 1) m (some c) fl (some (.struct n fs)) = .panic := by
  have hg : getField env fl (some (deref c.1.heap c.2).Index) (some (.struct n fs)) = .panic :=
    getField_nil_interface _ _ _ _ h
  simp only [encode, dynamicOf, Option.map_some', hg]

/-- C26: `Encode` of `Holder{X: nil, N: 0}`, a record whose field of interface
type holds nil, panics: the field is not left out of the map.  With a value in
the field, `Holder{X: 7, N: 0}`, the map has the marker, `X` and the zero
scalar `N`. -/
theorem encode_nil_interface_field_panics :
    encodeRecord holderEnv 3 3 ⟨"reflector", StdTagFunc, []⟩ (holderValue .nilIface) = .panic ∧
    encodeRecord holderEnv 3 3 ⟨"reflector", StdTagFunc, []⟩
        (holderValue (.iface (.int .Int 7))) =
      .ok (some (.map .string .iface (EntryList.ofList
        [(.str "_struct_name", .iface (.str "Holder")),
         (.str "X", .iface (.int .Int 7)),
         (.str "N", .iface (.int .Int 0))]))) := by
  constructor <;> rfl

/-- A field reached through an unexported embedded field cannot be read with
`Interface()`: for `type S struct { int; B string }` the embedded `int` is a
field of the tree, and `Encode` of `S{3, "x"}` panics.  An exported field of an
unexported embedded struct can be read: `Settings{limits{Max: 5}}` is encoded
with the key `Max`. -/
theorem encode_unexported_embedded_panics :
    encodeRecord embeddedIntEnv 3 3 ⟨"reflector", StdTagFunc, []⟩
        (.struct "S" (ValueList.ofList [.int .Int 3, .str "x"])) = .panic ∧
    encodeRecord hiddenEnv 3 3 ⟨"reflector", StdTagFunc, []⟩ settingsDefault =
      .ok (some (.map .string .iface (EntryList.ofList
        [(.str "_struct_name", .iface (.str "Settings")),
         (.str "Max", .iface (.int .Int 5))]))) := by
  constructor <;> rfl

/-- C2, as stated, fails on `Holder{X: nil, N: 0}`: the type is registered by
`Encode` itself and its fields are a dynamic value and an int, but `encode`
panics on the nil dynamic value, whatever the bound on the recursion, so that
`decode` after `encode` does not succeed.  With a value in the field,
`Holder{X: "a", N: 0}`, the record comes back. -/
theorem roundTrip_nil_dynamic_panics :
    (∀ fuel : Nat,
      roundTrip holderEnv 3 3 (fuel + 2) ⟨"reflector", StdTagFunc, []⟩ (holderValue .nilIface) =
        .panic) ∧
    (∀ (fuel : Nat) (r : Except DecodeError (Option Value)),
      roundTrip holderEnv 3 3 fuel ⟨"reflector", StdTagFunc, []⟩ (holderValue .nilIface) ≠
        .ok r) ∧
    roundTrip holderEnv 3 3 4 ⟨"reflector", StdTagFunc, []⟩ (holderValue (.iface (.str "a"))) =
      .ok (.ok (some (holderValue (.iface (.str "a"))))) := by
  have hpanic : ∀ fuel : Nat,
      roundTrip holderEnv 3 3 (fuel + 2) ⟨"reflector", StdTagFunc, []⟩
        (holderValue .nilIface) = .panic := by
    intro fuel
    have hsm : ∃ sm m1, Mapper.TypeMap holderEnv 3 ⟨"reflector", StdTagFunc, []⟩
        (Deref (holderValue .nilIface).Typ) = .ok (sm, m1) ∧ sm.Tree = 0 ∧
        (deref sm.heap 0).Index = [] ∧ (deref sm.heap 0).Children = [1, 2] ∧
        (deref sm.heap 1).Index = [0] := ⟨_, _, rfl, rfl, rfl, rfl, rfl⟩
    obtain ⟨sm, m1, htm, htree, hidx, hch, h1⟩ := hsm
    have hchild : encode holderEnv 3 (fuel + 1) m1 (some (sm, 1)) ROFlag.clear
        (some (holderValue .nilIface)) = .panic :=
      encode_nil_interface_child holderEnv 3 fuel m1 (sm, 1) ROFlag.clear "Holder" _
        (by rw [h1]; rfl)
    simp only [roundTrip, htm]
    unfold encode
    simp only [htree, indirect, holderValue, dynamicOf, Option.map_some', hidx, getField, FieldByIndexesReadOnly, flagAt,
      indirect, hch, List.foldl_cons, List.foldl_nil]
    simp only [holderValue] at hchild
    simp only [encodeChild, hchild]
  refine ⟨hpanic, ?_, rfl⟩
  intro fuel r
  match fuel with
  | 0 => intro h; cases h
  | 1 => intro h; cases h
  | fuel + 2 => rw [hpanic fuel]; intro h; cases h

/-! ## Unknown names and unknown paths in `decode` -/

section MapToStruct

variable (env : TypeEnv) (depth : Nat)
  (dec : Option Value → Outcome (Except DecodeError (Option Value)))
  (set : Bool → Value → Option Value → Outcome (Value × Option ConvError)) (sm : StructMap)

theorem mapToStructEntry_failed (acc : Outcome (Except DecodeError Value))
    (h : ∀ s, acc ≠ .ok (.ok s)) (kv : Value × Value) :
    mapToStructEntry env depth dec set sm acc kv = acc := by
  cases acc with
  | ok r =>
    cases r with
    | ok s => exact absurd rfl (h s)
    | error e => rfl
  | panic => rfl
  | outOfFuel => rfl

theorem foldl_mapToStructEntry_failed (l : List (Value × Value))
    (acc : Outcome (Except DecodeError Value)) (h : ∀ s, acc ≠ .ok (.ok s)) :
    l.foldl (mapToStructEntry env depth dec set sm) acc = acc := by
  induction l with
  | nil => rfl
  | cons kv l ih => rw [List.foldl_cons, mapToStructEntry_failed env depth dec set sm acc h, ih]

theorem mapToStructEntry_passedOver (acc : Outcome (Except DecodeError Value))
    (kv : Value × Value) (h : passedOver kv) :
    mapToStructEntry env depth dec set sm acc kv = acc := by
  by_cases hacc : ∀ s, acc ≠ .ok (.ok s)
  · exact mapToStructEntry_failed env depth dec set sm acc hacc kv
  · simp only [not_forall, not_not] at hacc
    obtain ⟨s, hs⟩ := hacc
    obtain ⟨k, v⟩ := kv
    rcases h with h | h
    · simp only at h
      subst h hs
      cases v <;> simp [mapToStructEntry]
    · simp only at h
      subst h hs
      cases k <;> simp [mapToStructEntry]

theorem foldl_mapToStructEntry_passedOver (l : List (Value × Value))
    (acc : Outcome (Except DecodeError Value)) (h : ∀ kv ∈ l, passedOver kv) :
    l.foldl (mapToStructEntry env depth dec set sm) acc = acc := by
  induction l with
  | nil => rfl
  | cons kv l ih =>
    rw [List.foldl_cons,
      mapToStructEntry_passedOver env depth dec set sm acc kv (h kv (List.mem_cons_self _ _))]
    exact ih (fun e he => h e (List.mem_cons_of_mem _ he))

theorem mapToStructEntry_notAPath (s : Value) (k : String) (v : Value)
    (hk : k ≠ "") (hm : k ≠ StructNameKey) (hp : mapGet sm.Paths k = none) :
    mapToStructEntry env depth dec set sm (.ok (.ok s)) (.str k, .iface v) =
      .ok (.error (.notAPath k
        (Deref (Alloc env depth (deref sm.heap sm.Tree).Typ).Typ).String)) := by
  simp [mapToStructEntry, hm, StructMap.GetByPath, hk, hp]

theorem foldl_mapToStructEntry_notAPath (l : List (Value × Value))
    (acc : Outcome (Except DecodeError Value)) (k : String) (v : Value)
    (hmem : (Value.str k, Value.iface v) ∈ l)
    (hk : k ≠ "") (hm : k ≠ StructNameKey) (hp : mapGet sm.Paths k = none) :
    ∀ s, l.foldl (mapToStructEntry env depth dec set sm) acc ≠ .ok (.ok s) := by
  obtain ⟨pre, post, rfl⟩ := List.append_of_mem hmem
  rw [List.foldl_append, List.foldl_cons]
  generalize pre.foldl (mapToStructEntry env depth dec set sm) acc = acc1
  by_cases hacc : ∀ s, acc1 ≠ .ok (.ok s)
  · rw [mapToStructEntry_failed env depth dec set sm acc1 hacc,
      foldl_mapToStructEntry_failed env depth dec set sm post acc1 hacc]
    exact hacc
  · simp only [not_forall, not_not] at hacc
    obtain ⟨s1, hs1⟩ := hacc
    rw [hs1, mapToStructEntry_notAPath env depth dec set sm s1 k v hk hm hp,
      foldl_mapToStructEntry_failed _ _ _ _ _ _ _ (by intro s; simp)]
    intro s
    simp

end MapToStruct

/-- C27 (amended): `decode` of a map that carries the marker.  When no
registered type has the name of the marker, the result is the error "unknown
struct name".  When the name is known: an entry with a non-nil value whose key
is not empty, not the marker and not a path of the type keeps `decode` from
returning a value; when only the marker and nil values come before it, the
result is the error "... is not a path in struct ..."; and a map of nothing
but the marker and nil values decodes to the fresh record. -/
theorem decode_unknown_name_or_path (env : TypeEnv) (depth fuel : Nat) (m : Mapper)
    (entries : EntryList) (hname : getStructName entries.toList ≠ "") :
    (m.NameMap (getStructName entries.toList) = none →
      decode env depth m (fuel + 1) (some (.map .string .iface entries)) =
        .ok (.error (.unknownStruct (getStructName entries.toList)))) ∧
    (∀ sm, m.NameMap (getStructName entries.toList) = some sm →
      (∀ k v, (Value.str k, Value.iface v) ∈ entries.toList → k ≠ "" → k ≠ StructNameKey →
        mapGet sm.Paths k = none →
        ∀ r, decode env depth m (fuel + 1) (some (.map .string .iface entries)) ≠
          .ok (.ok r)) ∧
      (∀ pre k v post, entries.toList = pre ++ (Value.str k, Value.iface v) :: post →
        (∀ kv ∈ pre, passedOver kv) → k ≠ "" → k ≠ StructNameKey →
        mapGet sm.Paths k = none →
        decode env depth m (fuel + 1) (some (.map .string .iface entries)) =
          .ok (.error (.notAPath k
            (Deref (Alloc env depth (deref sm.heap sm.Tree).Typ).Typ).String))) ∧
      ((∀ kv ∈ entries.toList, passedOver kv) →
        decode env depth m (fuel + 1) (some (.map .string .iface entries)) =
          .ok (.ok (some (Alloc env depth (deref sm.heap sm.Tree).Typ))))) := by
  have hlen : entries.toList.length ≠ 0 := by
    intro h0
    have : entries.toList = [] := List.length_eq_zero.1 h0
    rw [this] at hname
    exact hname rfl
  refine ⟨?_, ?_⟩
  · intro hnone
    simp only [decode, hlen, hname, hnone, if_false]
  · intro sm hsome
    refine ⟨?_, ?_, ?_⟩
    · intro k v hmem hk hm hp r
      have hf := foldl_mapToStructEntry_notAPath env depth (decode env depth m fuel)
        (fun ro => if ro then SetValueReadOnly env depth (fuel + 1)
          else SetValue env depth (fuel + 1)) sm entries.toList
        (.ok (.ok (Alloc env depth (deref sm.heap sm.Tree).Typ))) k v hmem hk hm hp
      simp only [decode, hlen, hname, hsome, if_false]
      generalize entries.toList.foldl _ _ = res at hf ⊢
      cases res with
      | ok x =>
        cases x with
        | ok s => exact absurd rfl (hf s)
        | error e => simp
      | panic => simp
      | outOfFuel => simp
    · intro pre k v post hsplit hpre hk hm hp
      simp only [decode, hlen, hname, hsome, if_false]
      rw [hsplit, List.foldl_append, List.foldl_cons,
        foldl_mapToStructEntry_passedOver _ _ _ _ _ pre _ hpre,
        mapToStructEntry_notAPath _ _ _ _ _ _ k v hk hm hp,
        foldl_mapToStructEntry_failed _ _ _ _ _ _ _ (by intro s; simp)]
    · intro hall
      simp only [decode, hlen, hname, hsome, if_false]
      rw [foldl_mapToStructEntry_passedOver _ _ _ _ _ _ _ hall]

/-- C27 (counterexample): the empty key is no path of `Bar`, yet `decode`
resolves it to the root of the tree: the map
`{"_struct_name": "reflectx.Bar", "": {"_struct_name": "reflectx.Bar", "B": 1}}`
decodes without an error, to `Bar{B: &1}`. -/
theorem decode_empty_key_accepted :
    mapGet (testMap "reflectx.Bar").Paths "" = none ∧
    decode testEnv 5 testMapper 5 (some emptyKeyMap) =
      .ok (.ok (some (.struct "reflectx.Bar"
        (ValueList.ofList [.ptr (.int .Int 1), .nilPtr .string])))) := by
  constructor <;> rfl

theorem decode_unknown_name_or_path_witness :
    decode testEnv 5 testMapper 5 (some (.map .string .iface (EntryList.ofList
      [(.str "_struct_name", .iface (.str "reflectx.Bar")),
       (.str "B", .nilIface),
       (.str "zz", .iface (.float .Float64 (.fin 1 0)))]))) =
      .ok (.error (.notAPath "zz" "reflectx.Bar")) :=
  ((decode_unknown_name_or_path testEnv 5 4 testMapper (EntryList.ofList
      [(.str "_struct_name", .iface (.str "reflectx.Bar")),
       (.str "B", .nilIface),
       (.str "zz", .iface (.float .Float64 (.fin 1 0)))]) (by decide)).2
    (testMap "reflectx.Bar") rfl).2.1
    [(.str "_struct_name", .iface (.str "reflectx.Bar")), (.str "B", .nilIface)]
    "zz" (.float .Float64 (.fin 1 0)) [] rfl
    (by intro kv hkv
        simp only [List.mem_cons, List.mem_singleton, List.not_mem_nil, or_false] at hkv
        rcases hkv with rfl | rfl
        · exact Or.inl rfl
        · exact Or.inr rfl)
    (by decide) (by decide) rfl

/-! ## Defaults behind an embedded pointer -/

/-- C22: `SetDefault` on `&Outer{Inner: nil, B: 5}` panics.  The default of
`Inner.A` is listed under the index path `[0, 0]`, and `SetDefault` looks at
field `df.index[0]` only: it finds the nil `*Inner` and sets it to the default
of `A`, an `int`.  On a direct field the nil reference is filled: in a
`FooBarStruct` with `Int` at -3, the nil `PInt` and `PFS` come to point to
their defaults. -/
theorem SetDefault_embedded_nil_pointer_panics :
    SetDefault embedEnv defaultMapper 10 5 5 5 (outerValue (.nilPtr (.named "Inner")) 5) =
      .panic ∧
    SetDefault defaultEnv defaultMapper 10 5 5 5
        (fbsWith (-3) (.nilPtr (.int .Int)) (.nilPtr (.named "reflectx.FooStruct"))) =
      .ok (fbsWith (-3) (.ptr (.int .Int 10)) (.ptr fsValue)) := by
  constructor <;> rfl

/-! ## Fields that `SetDefault` leaves alone -/

theorem deepEqualList_getElem : ∀ (as bs : ValueList), deepEqualList as bs = true →
    ∀ (i : Nat) (b : Value), bs.toList[i]? = some b →
      ∃ a, as.toList[i]? = some a ∧ deepEqual a b = true
  | .nil, .nil, _, i, b, hb => by simp [ValueList.toList] at hb
  | .nil, .cons _ _, h, _, _, _ => by simp [deepEqualList] at h
  | .cons _ _, .nil, h, _, _, _ => by simp [deepEqualList] at h
  | .cons a as, .cons b0 bs, h, i, b, hb => by
    simp only [deepEqualList, Bool.and_eq_true] at h
    cases i with
    | zero =>
      simp only [ValueList.toList, List.getElem?_cons_zero, Option.some.injEq] at hb ⊢
      subst hb
      exact ⟨a, rfl, h.1⟩
    | succ i =>
      simp only [ValueList.toList, List.getElem?_cons_succ] at hb ⊢
      exact deepEqualList_getElem as bs h.2 i b hb

theorem deepEqual_zero_leaf (env : TypeEnv) (d : Nat) (t : GoType) (v : Value)
    (h : deepEqual (zeroValue env d t) v = true) : nonZeroLeaf v = false := by
  cases t <;> cases d <;> cases v <;>
    simp_all [zeroValue, deepEqual, nonZeroLeaf]

theorem zeroValue_named_cases (env : TypeEnv) (d : Nat) (t : GoType) (n : String)
    (zs : ValueList) (h : zeroValue env d t = .struct n zs) :
    t = .named n ∧ (d = 0 ∧ zs = .nil ∨
      ∃ d1, d = d1 + 1 ∧
        zs = ValueList.ofList ((env n).map (fun f => zeroValue env d1 f.Typ))) := by
  cases t <;> cases d <;> simp_all [zeroValue]
  obtain ⟨rfl, rfl⟩ := h
  rfl

theorem deepEqual_struct_right (a : Value) (n : String) (fs : ValueList)
    (h : deepEqual a (.struct n fs) = true) :
    ∃ zs, a = .struct n zs ∧ deepEqualList zs fs = true := by
  cases a <;> simp_all [deepEqual]

theorem deepEqual_zero_ptr (env : TypeEnv) (d : Nat) (t : GoType) (x : Value) :
    deepEqual (zeroValue env d t) (.ptr x) = false := by
  cases t <;> cases d <;> simp [zeroValue, deepEqual]

/-- A value deeply equal to a zero value holds nothing along any path. -/
theorem deepEqual_zero_path (env : TypeEnv) :
    ∀ (P : List Nat) (d : Nat) (t : GoType) (val v : Value),
      deepEqual (zeroValue env d t) val = true →
      FieldByIndexesReadOnly (some val) P = .ok (some v) → nonZeroLeaf v = false := by
  intro P
  induction P with
  | nil =>
    intro d t val v h hP
    simp only [FieldByIndexesReadOnly, Outcome.ok.injEq, Option.some.injEq] at hP
    subst hP
    exact deepEqual_zero_leaf env d t val h
  | cons i rest ih =>
    intro d t val v h hP
    cases val with
    | ptr x => rw [deepEqual_zero_ptr] at h; cases h
    | struct n fs =>
      obtain ⟨zs, hz, hl⟩ := deepEqual_struct_right _ n fs h
      obtain ⟨_, hd | ⟨d1, _, hzs⟩⟩ := zeroValue_named_cases env d t n zs hz
      · rw [hd.2] at hl
        cases fs with
        | nil => simp [FieldByIndexesReadOnly, indirect, ValueList.toList] at hP
        | cons a as => simp [deepEqualList] at hl
      · simp only [FieldByIndexesReadOnly, indirect] at hP
        cases hfi : fs.toList[i]? with
        | none => simp [hfi] at hP
        | some fv =>
          simp only [hfi] at hP
          obtain ⟨a, ha, hab⟩ := deepEqualList_getElem zs fs hl i fv hfi
          rw [hzs, ValueList.toList_ofList_values, List.getElem?_map] at ha
          cases hf : (env n)[i]? with
          | none => simp [hf] at ha
          | some f =>
            simp only [hf, Option.map_some', Option.some.injEq] at ha
            rw [← ha] at hab
            exact ih d1 f.Typ fv v hab hP
    | _ => simp [FieldByIndexesReadOnly, indirect] at hP

/-- A loop over an accumulator that stays as it is once it has failed: what
every step keeps holds at the end. -/
theorem foldl_ok_inv {α β : Type} (step : Outcome α → β → Outcome α)
    (habs : ∀ a b, (∀ x, a ≠ .ok x) → step a b = a) (Inv : α → Prop) :
    ∀ (L : List β) (a r : α),
      (∀ b ∈ L, ∀ x y, Inv x → step (.ok x) b = .ok y → Inv y) →
      Inv a → L.foldl step (.ok a) = .ok r → Inv r := by
  have hfail : ∀ (L : List β) (a : Outcome α), (∀ x, a ≠ .ok x) → L.foldl step a = a := by
    intro L
    induction L with
    | nil => intro a _; rfl
    | cons b L ih => intro a ha; rw [List.foldl_cons, habs a b ha, ih a ha]
  intro L
  induction L with
  | nil =>
    intro a r _ ha h
    simp only [List.foldl_nil, Outcome.ok.injEq] at h
    exact h ▸ ha
  | cons b L ih =>
    intro a r hstep ha h
    rw [List.foldl_cons] at h
    cases hs : step (.ok a) b with
    | ok y =>
      rw [hs] at h
      exact ih y r (fun b' hb' => hstep b' (List.mem_cons_of_mem _ hb'))
        (hstep b (List.mem_cons_self _ _) a y ha hs) h
    | panic =>
      rw [hs, hfail L _ (by intro x; simp)] at h
      cases h
    | outOfFuel =>
      rw [hs, hfail L _ (by intro x; simp)] at h
      cases h

theorem defaultStep_failed (env : TypeEnv) (depth : Nat) (typ : GoType)
    (gds : GoType → Outcome defaultStruct) (heap : Heap) (a : Outcome defaultStruct) (c : Nat)
    (h : ∀ x, a ≠ .ok x) : defaultStep env depth typ gds heap a c = a := by
  cases a with
  | ok x => exact absurd rfl (h x)
  | panic => rfl
  | outOfFuel => rfl

theorem setDefaultField_failed (env : TypeEnv) (sd : Value → Outcome Value)
    (a : Outcome Value) (df : defaultField) (h : ∀ x, a ≠ .ok x) :
    setDefaultField env sd a df = a := by
  cases a with
  | ok x => exact absurd rfl (h x)
  | panic => rfl
  | outOfFuel => rfl

theorem Typ_named (v : Value) (n : String) (h : v.Typ = .named n) : ∃ fs, v = .struct n fs := by
  cases v <;> simp_all [Value.Typ]

theorem Kind_struct (t : GoType) (h : t.Kind = Kind.Struct) : ∃ n, t = .named n := by
  cases t with
  | named n => exact ⟨n, rfl⟩
  | int k => cases k <;> simp [GoType.Kind, IntKind.Kind] at h
  | uint k => cases k <;> simp [GoType.Kind, UintKind.Kind] at h
  | float k => cases k <;> simp [GoType.Kind, FloatKind.Kind] at h
  | other k => cases k <;> simp [GoType.Kind, OtherKind.Kind] at h
  | _ => simp [GoType.Kind] at h

theorem zeroValue_named (env : TypeEnv) (d : Nat) (n : String) :
    ∃ fs, zeroValue env d (.named n) = .struct n fs := by
  cases d <;> exact ⟨_, rfl⟩

/-- The value that `updateAt` returns for a struct is a struct of the same
type, unless the path is empty. -/
theorem updateAt_struct_shape (env : TypeEnv) (depth : Nat)
    (g : Bool → Value → Outcome (Value × Option ConvError)) (n : String) (fs : ValueList)
    (i : Nat) (rest : List Nat) (nv : Value) (e : Option ConvError)
    (h : updateAt env depth g (.struct n fs) (i :: rest) = .ok (nv, e)) :
    ∃ fv x, fs.toList[i]? = some fv ∧
      updateAtFrom env depth g (fieldFlag env ROFlag.clear n i) (allocNil env depth fv) rest =
        .ok (x, e) ∧
      nv = .struct n (ValueList.ofList (fs.toList.set i x)) := by
  simp only [updateAt, updateAtFrom, indirect] at h
  cases hfi : fs.toList[i]? with
  | none => simp [hfi] at h
  | some fv =>
    simp only [hfi] at h
    split at h
    · cases h
    · cases hu : updateAtFrom env depth g (fieldFlag env ROFlag.clear n i)
          (allocNil env depth fv) rest with
      | ok p =>
        obtain ⟨x, e1⟩ := p
        simp only [hu, Outcome.ok.injEq, Prod.mk.injEq] at h
        exact ⟨fv, x, rfl, by rw [hu, h.2], h.1.symm⟩
      | panic => simp [hu] at h
      | outOfFuel => simp [hu] at h

/-- What holds of every `defaultStruct` built by the loop of `getDefaultStruct`. -/
def DSInv (env : TypeEnv) (depth : Nat) (typ : GoType) (ds : defaultStruct) : Prop :=
  ds.zero = zeroValue env depth typ ∧
    (∃ n fs, typ = .named n ∧ ds.defaultVal = .struct n fs) ∧
    ∀ df ∈ ds.fields, ∃ t, df.zero = zeroValue env depth t

theorem defaultStep_inv (env : TypeEnv) (depth : Nat) (typ : GoType)
    (gds : GoType → Outcome defaultStruct) (heap : Heap) (c : Nat) (ds ds1 : defaultStruct)
    (hinv : DSInv env depth typ ds)
    (h : defaultStep env depth typ gds heap (.ok ds) c = .ok ds1) :
    DSInv env depth typ ds1 := by
  simp only [defaultStep] at h
  split at h
  · simp only [Outcome.ok.injEq] at h
    exact h ▸ hinv
  · cases hfd : fieldDefault env depth gds (deref heap c) with
    | ok o =>
      cases o with
      | none =>
        simp only [hfd, Outcome.ok.injEq] at h
        exact h ▸ hinv
      | some dval =>
        simp only [hfd] at h
        split at h
        · cases hu : updateAt env depth
              (fun ro old => if ro then .panic
                else if old.Typ = dval.Typ then .ok (dval, none) else .panic)
              ds.defaultVal (deref heap c).Index with
          | ok p =>
            obtain ⟨nv, e⟩ := p
            simp only [hu, Outcome.ok.injEq] at h
            subst h
            obtain ⟨hz, ⟨n, fs, htn, hs⟩, hf⟩ := hinv
            refine ⟨hz, ?_, ?_⟩
            · rw [hs] at hu
              cases hidx : (deref heap c).Index with
              | nil =>
                rw [hidx] at hu
                simp only [updateAt, updateAtFrom, ROFlag.clear, ROFlag.ro, Bool.or_self,
                  Bool.false_eq_true, if_false] at hu
                split at hu
                · rename_i ht
                  simp only [Outcome.ok.injEq, Prod.mk.injEq] at hu
                  obtain ⟨fs2, h2⟩ := Typ_named dval n ht.symm
                  exact ⟨n, fs2, htn, by rw [← hu.1, h2]⟩
                · cases hu
              | cons i rest =>
                rw [hidx] at hu
                obtain ⟨_, x, _, _, hnv⟩ := updateAt_struct_shape env depth _ n fs i rest nv e hu
                exact ⟨n, _, htn, hnv⟩
            · intro df hdf
              simp only [List.mem_append, List.mem_singleton] at hdf
              rcases hdf with hdf | hdf
              · exact hf df hdf
              · exact ⟨_, by rw [hdf]⟩
          | panic => simp [hu] at h
          | outOfFuel => simp [hu] at h
        · cases h
    | panic => simp [hfd] at h
    | outOfFuel => simp [hfd] at h

theorem getDefaultStruct_inv (env : TypeEnv) (dm : DefaultMapper) (buildFuel depth fuel : Nat)
    (typ : GoType) (ds : defaultStruct)
    (h : getDefaultStruct env dm buildFuel depth fuel typ = .ok ds) :
    (∃ n, typ = .named n) ∧ DSInv env depth typ ds := by
  cases fuel with
  | zero => simp [getDefaultStruct] at h
  | succ fuel =>
    simp only [getDefaultStruct] at h
    split at h
    · cases h
    · rename_i hk
      simp only [ne_eq, not_not] at hk
      obtain ⟨n, hn⟩ := Kind_struct typ hk
      refine ⟨⟨n, hn⟩, ?_⟩
      cases hm : getMapping env typ dm.tagName dm.tagFunc buildFuel with
      | none => simp [hm] at h
      | some res =>
        cases res with
        | error e => simp [hm] at h
        | ok sm =>
          simp only [hm] at h
          refine foldl_ok_inv _ (defaultStep_failed env depth typ _ sm.heap)
            (DSInv env depth typ) _ _ ds ?_ ?_ h
          · intro c _ x y hx hxy
            exact defaultStep_inv env depth typ _ sm.heap c x y hx hxy
          · refine ⟨rfl, ?_, ?_⟩
            · obtain ⟨fs, hfs⟩ := zeroValue_named env depth n
              exact ⟨n, fs, hn, by rw [hn]; exact hfs⟩
            · intro df hdf
              simp at hdf

/-- Value `b` holds what value `a` holds: `b` is a struct, and what is found in
`a` along a path and holds something is found in `b` along the same path. -/
def Frame (a b : Value) : Prop :=
  (∃ n fs, b = .struct n fs) ∧
    ∀ (P : List Nat) (v : Value), FieldByIndexesReadOnly (some a) P = .ok (some v) →
      nonZeroLeaf v = true → FieldByIndexesReadOnly (some b) P = .ok (some v)

theorem Frame.refl (n : String) (fs : ValueList) : Frame (.struct n fs) (.struct n fs) :=
  ⟨⟨n, fs, rfl⟩, fun _ _ h _ => h⟩

theorem Frame.trans {a b c : Value} (h1 : Frame a b) (h2 : Frame b c) : Frame a c :=
  ⟨h2.1, fun P v hP hv => h2.2 P v (h1.2 P v hP hv) hv⟩

/-- Replacing one field of a struct keeps what the struct holds, when the new
field holds what the old one held. -/
theorem Frame.set (n : String) (fs : ValueList) (i : Nat) (v nv : Value)
    (hfi : fs.toList[i]? = some v)
    (hsub : ∀ (rest : List Nat) (w : Value), FieldByIndexesReadOnly (some v) rest = .ok (some w) →
      nonZeroLeaf w = true → FieldByIndexesReadOnly (some nv) rest = .ok (some w)) :
    Frame (.struct n fs) (.struct n (ValueList.ofList (fs.toList.set i nv))) := by
  refine ⟨⟨n, _, rfl⟩, ?_⟩
  intro P w hP hw
  cases P with
  | nil =>
    simp only [FieldByIndexesReadOnly, Outcome.ok.injEq, Option.some.injEq] at hP
    subst hP
    simp [nonZeroLeaf] at hw
  | cons k rest =>
    simp only [FieldByIndexesReadOnly, indirect, ValueList.toList_ofList_values] at hP ⊢
    have hlt : i < fs.toList.length := (List.getElem?_eq_some_iff.1 hfi).1
    by_cases hk : k = i
    · subst hk
      rw [hfi] at hP
      simp only at hP
      rw [List.getElem?_set_self hlt]
      exact hsub rest w hP hw
    · rw [List.getElem?_set_ne (Ne.symm hk)]
      exact hP

theorem readOnly_ptr_struct (n : String) (fs : ValueList) (k : Nat) (q : List Nat) :
    FieldByIndexesReadOnly (some (.ptr (.struct n fs))) (k :: q) =
      FieldByIndexesReadOnly (some (.struct n fs)) (k :: q) := by
  simp only [FieldByIndexesReadOnly, indirect]

/-- One pass of the loop of `SetDefault` keeps what the struct holds. -/
theorem setDefaultField_frame (env : TypeEnv) (sd : Value → Outcome Value)
    (hsd : ∀ n fs y, sd (.struct n fs) = .ok y → Frame (.struct n fs) y)
    (n : String) (fs : ValueList) (acc1 : Value) (df : defaultField)
    (hz : ∃ d t, df.zero = zeroValue env d t)
    (h : setDefaultField env sd (.ok (.struct n fs)) df = .ok acc1) :
    Frame (.struct n fs) acc1 := by
  obtain ⟨d, t, hz⟩ := hz
  simp only [setDefaultField] at h
  cases hidx : df.index with
  | nil => simp [hidx] at h
  | cons i irest =>
    simp only [hidx] at h
    cases hfi : fs.toList[i]? with
    | none => simp [hfi] at h
    | some v =>
      simp only [hfi] at h
      have leaf : ∀ (v : Value), fs.toList[i]? = some v →
          (∀ k q, FieldByIndexesReadOnly (some v) (k :: q) ≠ .ok (some v) ∧
            ∀ w, FieldByIndexesReadOnly (some v) (k :: q) ≠ .ok (some w)) →
          (if exportedField env (.named n) i = true then
            if deepEqual df.zero v = true then
              if df.defaultVal.Typ = v.Typ ∨ v.Typ = .iface then
                Outcome.ok (Value.struct n (ValueList.ofList
                  (fs.toList.set i (assign v df.defaultVal))))
              else .panic
            else .ok (.struct n fs)
          else .panic) = .ok acc1 → Frame (.struct n fs) acc1 := by
        intro v hfi hno h
        split at h
        · split at h
          · rename_i hde
            split at h
            · simp only [Outcome.ok.injEq] at h
              subst h
              refine Frame.set n fs i v _ hfi ?_
              intro rest w hP hw
              cases rest with
              | nil =>
                simp only [FieldByIndexesReadOnly, Outcome.ok.injEq, Option.some.injEq] at hP
                subst hP
                rw [hz] at hde
                rw [deepEqual_zero_leaf env d t v hde] at hw
                cases hw
              | cons k q => exact absurd hP ((hno k q).2 w)
            · cases h
          · simp only [Outcome.ok.injEq] at h
            subst h
            exact Frame.refl n fs
        · cases h
      cases v with
      | nilPtr e =>
        simp only at h
        split at h
        · simp only [Outcome.ok.injEq] at h
          subst h
          refine Frame.set n fs i _ _ hfi ?_
          intro rest w hP hw
          cases rest with
          | nil =>
            simp only [FieldByIndexesReadOnly, Outcome.ok.injEq, Option.some.injEq] at hP
            subst hP
            simp [nonZeroLeaf] at hw
          | cons k q => simp [FieldByIndexesReadOnly, indirect] at hP
        · cases h
      | ptr x =>
        cases x with
        | struct n2 fs2 =>
          simp only at h
          split at h
          · cases hs : sd (.struct n2 fs2) with
            | ok r =>
              simp only [hs, Outcome.ok.injEq] at h
              subst h
              obtain ⟨⟨n3, fs3, hr⟩, hfr⟩ := hsd n2 fs2 r hs
              refine Frame.set n fs i _ _ hfi ?_
              intro rest w hP hw
              cases rest with
              | nil =>
                simp only [FieldByIndexesReadOnly, Outcome.ok.injEq, Option.some.injEq] at hP
                subst hP
                simp [nonZeroLeaf] at hw
              | cons k q =>
                rw [readOnly_ptr_struct] at hP
                rw [hr, readOnly_ptr_struct, ← hr]
                exact hfr _ w hP hw
            | panic => simp [hs] at h
            | outOfFuel => simp [hs] at h
          · cases h
        | _ =>
          simp only [Outcome.ok.injEq] at h
          subst h
          exact Frame.refl n fs
      | struct n2 fs2 =>
        simp only at h
        split at h
        · cases hs : sd (.struct n2 fs2) with
          | ok r =>
            simp only [hs, Outcome.ok.injEq] at h
            subst h
            obtain ⟨_, hfr⟩ := hsd n2 fs2 r hs
            refine Frame.set n fs i _ _ hfi ?_
            intro rest w hP hw
            exact hfr _ w hP hw
          | panic => simp [hs] at h
          | outOfFuel => simp [hs] at h
        · cases h
      | _ =>
        refine leaf _ hfi ?_ h
        intro k q
        simp [FieldByIndexesReadOnly, indirect]

/-- `SetDefault` returns a struct that holds what the struct held before. -/
theorem SetDefault_frame (env : TypeEnv) (dm : DefaultMapper) (buildFuel depth dsFuel : Nat) :
    ∀ (fuel : Nat) (val r : Value),
      SetDefault env dm buildFuel depth dsFuel fuel val = .ok r → Frame val r := by
  intro fuel
  induction fuel with
  | zero => intro val r h; simp [SetDefault] at h
  | succ fuel ih =>
    intro val r h
    simp only [SetDefault] at h
    cases hds : getDefaultStruct env dm buildFuel depth dsFuel val.Typ with
    | ok ds =>
      simp only [hds] at h
      obtain ⟨⟨n, hn⟩, hzero, hstruct, hfields⟩ :=
        getDefaultStruct_inv env dm buildFuel depth dsFuel val.Typ ds hds
      obtain ⟨fs, hval⟩ := Typ_named val n hn
      split at h
      · rename_i hde
        simp only [Outcome.ok.injEq] at h
        subst h
        refine ⟨by obtain ⟨n2, fs2, _, h2⟩ := hstruct; exact ⟨n2, fs2, h2⟩, ?_⟩
        intro P v hP hv
        rw [hzero] at hde
        rw [deepEqual_zero_path env P depth val.Typ val v hde hP] at hv
        cases hv
      · subst hval
        refine foldl_ok_inv _ (setDefaultField_failed env _) (Frame (.struct n fs)) _ _ r ?_
          (Frame.refl n fs) h
        intro df hdf x y hx hxy
        obtain ⟨n1, fs1, hx1⟩ := hx.1
        subst hx1
        refine Frame.trans hx ?_
        exact setDefaultField_frame env _ (fun n2 fs2 y2 hy => ih _ _ hy) n1 fs1 y df
          (by obtain ⟨t, ht⟩ := hfields df hdf; exact ⟨depth, t, ht⟩) hxy
    | panic => simp [hds] at h
    | outOfFuel => simp [hds] at h

/-- C21: when `SetDefault` returns, every value that the struct held before the
call along an index path, at any depth through nested structs and non-nil
pointers to structs, and that is a scalar other than zero, a non-nil slice, a
non-nil map, a non-nil interface or a non-nil pointer to a value that is not a
struct, is found unchanged along the same path afterwards. -/
theorem SetDefault_keeps_non_zero (env : TypeEnv) (dm : DefaultMapper)
    (buildFuel depth dsFuel fuel : Nat) (val r : Value)
    (h : SetDefault env dm buildFuel depth dsFuel fuel val = .ok r)
    (P : List Nat) (v : Value)
    (hP : FieldByIndexesReadOnly (some val) P = .ok (some v)) (hv : nonZeroLeaf v = true) :
    FieldByIndexesReadOnly (some r) P = .ok (some v) :=
  (SetDefault_frame env dm buildFuel depth dsFuel fuel val r h).2 P v hP hv

theorem SetDefault_keeps_non_zero_witness :
    FieldByIndexesReadOnly (some expectStruc) [9] =
      .ok (some (.slice (.ptr (.int .Int64)) (ValueList.ofList [.nilPtr (.int .Int64)]))) :=
  SetDefault_keeps_non_zero defaultEnv defaultMapper 10 5 5 5 tmpStruc expectStruc rfl [9]
    (.slice (.ptr (.int .Int64)) (ValueList.ofList [.nilPtr (.int .Int64)])) rfl rfl

/-! ## The children of the root and the declared fields -/

/-- A proper prefix of the index path of a field is the index path of a field
whose struct was enqueued. -/
theorem TInv.prefix_entry {env : TypeEnv} {t : GoType} {tagName : String} {tagFunc : TagFunc}
    {heap : Heap} {m : List Nat} {work : List (typeQueue × Nat)}
    (inv : TInv env t tagName tagFunc heap m work) :
    ∀ (n : Nat), 1 ≤ n → n < heap.length → ∀ (Q : List Nat), Q ≠ [] →
      Q <+: (deref heap n).Index → Q ≠ (deref heap n).Index →
      ∃ F, 1 ≤ F ∧ F < heap.length ∧ (deref heap F).Index = Q ∧ wantsEntry heap F := by
  intro n
  induction n using Nat.strong_induction_on with
  | _ n ih =>
    intro h1 h2 Q hQ hpre hne
    obtain ⟨e, pos, f, hent, _, _, _, hst, _, _⟩ := inv.built n h1 h2
    have hidx : (deref heap n).Index = e.pIndex ++ [pos] := (inv.built_attrs hst).1
    rw [hidx] at hpre hne
    rw [List.prefix_concat_iff] at hpre
    rcases hpre with hpre | hpre
    · exact absurd hpre hne
    · rcases hent with he | ⟨F, hF1, hF2, hw, he⟩
      · rw [he] at hpre
        simp only [List.prefix_nil] at hpre
        exact absurd hpre hQ
      · have hp : e.pIndex = (deref heap F).Index := by rw [he]; rfl
        rw [hp] at hpre
        by_cases hQF : Q = (deref heap F).Index
        · exact ⟨F, hF1, by omega, hQF.symm, hw⟩
        · exact ih F hF2 hF1 (by omega) Q hQ hpre hQF

/-- A declared field of the record that is not passed over and whose type is
not a struct has a child of the root, built from its declaration. -/
theorem TInv.root_leaf_child {env : TypeEnv} {t : GoType} {tagName : String}
    {tagFunc : TagFunc} {heap : Heap} {m : List Nat}
    (inv : TInv env t tagName tagFunc heap m []) {pos : Nat} {f : StructField}
    (hf : (fieldsOf env (Deref t))[pos]? = some f)
    (hs : skipField tagName tagFunc f = false)
    (hleaf : (Deref f.Typ).Kind ≠ Kind.Struct) :
    ∃ c, c ∈ (deref heap 0).Children ∧ 1 ≤ c ∧ c < heap.length ∧
      (deref heap c).Index = [pos] ∧ (deref heap c).Typ = f.Typ ∧
      (deref heap c).Parts = (tagFunc f.Name (fieldTag f tagName)).2 ∧
      (deref heap c).Options = parseOptions (tagFunc f.Name (fieldTag f tagName)).2 := by
  obtain ⟨c, hc1, hc2, hidx⟩ := inv.root_child_exists hf hs
  obtain ⟨f2, hf2, _, hst⟩ := inv.root_child_of hc1 hc2 hidx
  rw [hf] at hf2
  simp only [Option.some.injEq] at hf2
  subst hf2
  have hT : (deref heap c).Typ = f.Typ := (inv.built_attrs hst).2.2
  have hP : (deref heap c).Parent = some 0 := (inv.built_attrs hst).2.1
  have hparts : (deref heap c).Parts = (tagFunc f.Name (fieldTag f tagName)).2 :=
    congrArg FieldInfo.Parts hst
  have hopts : (deref heap c).Options = parseOptions (tagFunc f.Name (fieldTag f tagName)).2 :=
    congrArg FieldInfo.Options hst
  have hown : ownerPtr env t tagFunc heap c = c := by
    simp only [ownerPtr]
    split
    · exact ownerOf_self tagFunc _ _ _ c (Or.inl (by rw [hT]; exact hleaf))
    · rfl
  exact ⟨c, inv.children_complete c 0 hc1 hc2 hown hP, hc1, hc2, hidx, hT, hparts, hopts⟩

/-- No other field lies below a field whose type is not a struct. -/
theorem TInv.leaf_no_descendant {env : TypeEnv} {t : GoType} {tagName : String}
    {tagFunc : TagFunc} {heap : Heap} {m : List Nat} {work : List (typeQueue × Nat)}
    (inv : TInv env t tagName tagFunc heap m work) {c n i : Nat} {rest : List Nat}
    (hc1 : 1 ≤ c) (hc2 : c < heap.length) (hidx : (deref heap c).Index = [i])
    (hleaf : (Deref (deref heap c).Typ).Kind ≠ Kind.Struct)
    (hn1 : 1 ≤ n) (hn2 : n < heap.length) (hn : (deref heap n).Index = i :: rest) :
    n = c := by
  by_cases hrest : rest = []
  · subst hrest
    exact inv.idx_inj n c hn1 hn2 hc1 hc2 (by rw [hn, hidx])
  · obtain ⟨F, hF1, hF2, hFi, hw⟩ := inv.prefix_entry n hn1 hn2 [i] (by simp)
      (by rw [hn]; exact List.prefix_iff_eq_append.2 (by simp))
      (by rw [hn]; intro h; simp only [List.cons.injEq, true_and] at h; exact hrest h.symm)
    have : F = c := inv.idx_inj F c hF1 hF2 hc1 hc2 (by rw [hFi, hidx])
    subst this
    exact absurd hw.1 hleaf

/-! ## The default value of a sequence -/

theorem foldl_failed {α β : Type} (step : Outcome α → β → Outcome α)
    (habs : ∀ a b, (∀ x, a ≠ .ok x) → step a b = a) :
    ∀ (L : List β) (a : Outcome α), (∀ x, a ≠ .ok x) → L.foldl step a = a := by
  intro L
  induction L with
  | nil => intro a _; rfl
  | cons b L ih => intro a ha; rw [List.foldl_cons, habs a b ha, ih a ha]

/-- A loop that ends well has gone well through every step. -/
theorem foldl_ok_split {α β : Type} (step : Outcome α → β → Outcome α)
    (habs : ∀ a b, (∀ x, a ≠ .ok x) → step a b = a) (pre : List β) (b : β) (post : List β)
    (a r : α) (h : (pre ++ b :: post).foldl step (.ok a) = .ok r) :
    ∃ x y, pre.foldl step (.ok a) = .ok x ∧ step (.ok x) b = .ok y ∧
      post.foldl step (.ok y) = .ok r := by
  rw [List.foldl_append, List.foldl_cons] at h
  cases hx : pre.foldl step (.ok a) with
  | ok x =>
    rw [hx] at h
    cases hy : step (.ok x) b with
    | ok y =>
      rw [hy] at h
      exact ⟨x, y, rfl, hy, h⟩
    | panic =>
      rw [hy, foldl_failed step habs post _ (by intro x; simp)] at h
      cases h
    | outOfFuel =>
      rw [hy, foldl_failed step habs post _ (by intro x; simp)] at h
      cases h
  | panic =>
    rw [hx, habs _ b (by intro x; simp), foldl_failed step habs post _ (by intro x; simp)] at h
    cases h
  | outOfFuel =>
    rw [hx, habs _ b (by intro x; simp), foldl_failed step habs post _ (by intro x; simp)] at h
    cases h

/-- A step of `getDefaultStruct` for a child with another first position leaves
field `i` of the default value as it is. -/
theorem defaultStep_off_path (env : TypeEnv) (depth : Nat) (typ : GoType)
    (gds : GoType → Outcome defaultStruct) (heap : Heap) (c : Nat) (ds ds1 : defaultStruct)
    (n : String) (fs : ValueList) (i j : Nat) (rest : List Nat) (x : Value)
    (h : defaultStep env depth typ gds heap (.ok ds) c = .ok ds1)
    (hs : ds.defaultVal = .struct n fs) (hidx : (deref heap c).Index = j :: rest)
    (hji : j ≠ i) (hx : fs.toList[i]? = some x) :
    ∃ fs1, ds1.defaultVal = .struct n fs1 ∧ fs1.toList[i]? = some x := by
  simp only [defaultStep] at h
  split at h
  · simp only [Outcome.ok.injEq] at h
    exact ⟨fs, by rw [← h, hs], hx⟩
  · cases hfd : fieldDefault env depth gds (deref heap c) with
    | ok o =>
      cases o with
      | none =>
        simp only [hfd, Outcome.ok.injEq] at h
        exact ⟨fs, by rw [← h, hs], hx⟩
      | some dval =>
        simp only [hfd] at h
        split at h
        · cases hu : updateAt env depth
              (fun ro old => if ro then .panic
                else if old.Typ = dval.Typ then .ok (dval, none) else .panic)
              ds.defaultVal (deref heap c).Index with
          | ok p =>
            obtain ⟨nv, e⟩ := p
            simp only [hu, Outcome.ok.injEq] at h
            subst h
            rw [hs, hidx] at hu
            obtain ⟨_, y, _, _, hnv⟩ := updateAt_struct_shape env depth _ n fs j rest nv e hu
            refine ⟨_, hnv, ?_⟩
            rw [ValueList.toList_ofList_values, List.getElem?_set_ne hji]
            exact hx
          | panic => simp [hu] at h
          | outOfFuel => simp [hu] at h
        · cases h
    | panic => simp [hfd] at h
    | outOfFuel => simp [hfd] at h

/-- A step of `getDefaultStruct` for a child with a one-position index path
stores the default of the child in that field. -/
theorem defaultStep_direct (env : TypeEnv) (depth : Nat) (typ : GoType)
    (gds : GoType → Outcome defaultStruct) (heap : Heap) (c : Nat) (ds ds1 : defaultStruct)
    (n : String) (fs : ValueList) (i : Nat) (dval : Value)
    (h : defaultStep env depth typ gds heap (.ok ds) c = .ok ds1)
    (hs : ds.defaultVal = .struct n fs) (hidx : (deref heap c).Index = [i])
    (hns : ¬ ((Deref (deref heap c).Typ).Kind ≠ Kind.Struct ∧ (deref heap c).Parts.length = 0))
    (hfd : fieldDefault env depth gds (deref heap c) = .ok (some dval)) :
    ds1.defaultVal = .struct n (ValueList.ofList (fs.toList.set i dval)) ∧
      i < fs.toList.length ∧
      ds1.fields = ds.fields ++ [⟨[i], zeroValue env depth (Deref (deref heap c).Typ), dval⟩] := by
  simp only [defaultStep, hns, if_false, hfd] at h
  split at h
  · cases hu : updateAt env depth
        (fun ro old => if ro then .panic
                else if old.Typ = dval.Typ then .ok (dval, none) else .panic)
        ds.defaultVal (deref heap c).Index with
    | ok p =>
      obtain ⟨nv, e⟩ := p
      simp only [hu, Outcome.ok.injEq] at h
      subst h
      rw [hs, hidx] at hu
      obtain ⟨fv, y, hfv, hy, hnv⟩ := updateAt_struct_shape env depth _ n fs i [] nv e hu
      simp only [updateAtFrom] at hy
      split at hy
      · cases hy
      · split at hy
        · simp only [Outcome.ok.injEq, Prod.mk.injEq] at hy
          rw [← hy.1] at hnv
          exact ⟨hnv, (List.getElem?_eq_some_iff.1 hfv).1, by rw [hidx]⟩
        · cases hy
    | panic => simp [hu] at h
    | outOfFuel => simp [hu] at h
  · cases h

theorem defaultElems_ok (env : TypeEnv) (depth : Nat) (elemT : GoType) :
    ∀ (parts : List String) (vs : List Value),
      defaultElems env depth elemT parts = .ok vs →
      vs = parts.map (fun s => (StrToValue env depth s (zeroValue env depth elemT)).1) ∧
        ∀ s ∈ parts, (StrToValue env depth s (zeroValue env depth elemT)).2 = none := by
  intro parts
  induction parts with
  | nil =>
    intro vs h
    simp only [defaultElems, Outcome.ok.injEq] at h
    subst h
    simp
  | cons s rest ih =>
    intro vs h
    simp only [defaultElems] at h
    cases hp : StrToValue env depth s (zeroValue env depth elemT) with
    | mk v e =>
      cases e with
      | some e => simp [hp] at h
      | none =>
        simp only [hp] at h
        cases hr : defaultElems env depth elemT rest with
        | ok ws =>
          simp only [hr, Outcome.ok.injEq] at h
          obtain ⟨h1, h2⟩ := ih ws hr
          subst h
          refine ⟨by simp [hp, h1], ?_⟩
          intro s2 hs2
          simp only [List.mem_cons] at hs2
          rcases hs2 with rfl | hs2
          · rw [hp]
          · exact h2 s2 hs2
        | panic => simp [hr] at h
        | outOfFuel => simp [hr] at h

/-- The default that `getDefaultStruct` builds for a child whose dereferenced
type is a slice: the parts of the tag, parsed one by one. -/
theorem fieldDefault_slice (env : TypeEnv) (depth : Nat) (gds : GoType → Outcome defaultStruct)
    (fi : FieldInfo) (elemT : GoType) (hT : Deref fi.Typ = .slice elemT) (o : Option Value)
    (h : fieldDefault env depth gds fi = .ok o) :
    ∃ vs dval, defaultElems env depth elemT fi.Parts = .ok vs ∧ o = some dval ∧
      indirect (some dval) = some (.slice elemT (ValueList.ofList vs)) := by
  simp only [fieldDefault, hT] at h
  cases hd : defaultElems env depth elemT fi.Parts with
  | ok vs =>
    simp only [hd, Outcome.ok.injEq] at h
    refine ⟨vs, _, rfl, h.symm, ?_⟩
    cases hft : fi.Typ with
    | ptr e => rfl
    | slice e => rfl
    | _ => simp [hft, Deref] at hT
  | panic => simp [hd] at h
  | outOfFuel => simp [hd] at h

theorem deepEqualList_map_zero (g : GoType → Value) (hg : ∀ t, deepEqual (g t) (g t) = true) :
    ∀ (l : List StructField),
      deepEqualList (ValueList.ofList (l.map (fun f => g f.Typ)))
        (ValueList.ofList (l.map (fun f => g f.Typ))) = true := by
  intro l
  induction l with
  | nil => rfl
  | cons f l ih => simp [ValueList.ofList, deepEqualList, hg, ih]

/-- A zero value is deeply equal to itself. -/
theorem deepEqual_zero_refl (env : TypeEnv) :
    ∀ (d : Nat) (t : GoType), deepEqual (zeroValue env d t) (zeroValue env d t) = true := by
  intro d
  induction d with
  | zero => intro t; cases t <;> simp [zeroValue, deepEqual, deepEqualList, F64.eq]
  | succ d ih =>
    intro t
    cases t with
    | named n =>
      simp only [zeroValue, deepEqual, decide_True, Bool.true_and]
      exact deepEqualList_map_zero (zeroValue env d) (ih) (env n)
    | _ => simp [zeroValue, deepEqual, F64.eq]

theorem defaultStep_fields_mono (env : TypeEnv) (depth : Nat) (typ : GoType)
    (gds : GoType → Outcome defaultStruct) (heap : Heap) (c : Nat) (ds ds1 : defaultStruct)
    (h : defaultStep env depth typ gds heap (.ok ds) c = .ok ds1) :
    ∀ df ∈ ds.fields, df ∈ ds1.fields := by
  intro df hdf
  simp only [defaultStep] at h
  split at h
  · simp only [Outcome.ok.injEq] at h
    exact h ▸ hdf
  · cases hfd : fieldDefault env depth gds (deref heap c) with
    | ok o =>
      cases o with
      | none =>
        simp only [hfd, Outcome.ok.injEq] at h
        exact h ▸ hdf
      | some dval =>
        simp only [hfd] at h
        split at h
        · cases hu : updateAt env depth
              (fun ro old => if ro then .panic
                else if old.Typ = dval.Typ then .ok (dval, none) else .panic)
              ds.defaultVal (deref heap c).Index with
          | ok p =>
            simp only [hu, Outcome.ok.injEq] at h
            subst h
            exact List.mem_append_left _ hdf
          | panic => simp [hu] at h
          | outOfFuel => simp [hu] at h
        · cases h
    | panic => simp [hfd] at h
    | outOfFuel => simp [hfd] at h

/-- For a child whose type is not a struct, the loop of `getDefaultStruct`
builds a default or panics: it does not reach `continue`. -/
theorem fieldDefault_leaf_some (env : TypeEnv) (depth : Nat)
    (gds : GoType → Outcome defaultStruct) (fi : FieldInfo)
    (hleaf : (Deref fi.Typ).Kind ≠ Kind.Struct) (o : Option Value)
    (h : fieldDefault env depth gds fi = .ok o) : ∃ dval, o = some dval := by
  simp only [fieldDefault] at h
  split at h
  · rename_i dv heq
    simp only [Outcome.ok.injEq] at h
    exact ⟨_, h.symm⟩
  · rename_i other hne
    cases hd : Deref fi.Typ with
    | named n => rw [hd] at hleaf; exact absurd rfl hleaf
    | map k e =>
      rw [hd] at h hne
      simp only at h hne
      cases hm : defaultEntries env depth k e fi.Options [] with
      | ok mp => exact absurd (by rw [hm]) (hne _)
      | panic => rw [hm] at h; cases h
      | outOfFuel => rw [hm] at h; cases h
    | slice e =>
      rw [hd] at h hne
      simp only at h hne
      cases hm : defaultElems env depth e fi.Parts with
      | ok vs => exact absurd (by rw [hm]) (hne _)
      | panic => rw [hm] at h; cases h
      | outOfFuel => rw [hm] at h; cases h
    | _ =>
      rw [hd] at h hne
      simp only at h hne
      cases hp : fi.Parts with
      | nil => rw [hp] at h; cases h
      | cons p rest =>
        rw [hp] at h hne
        simp only at h hne
        cases hs : StrToValue env depth p (zeroValue env depth _) with
        | mk v e =>
          cases e with
          | none => exact absurd (by rw [hs]) (hne v)
          | some e => rw [hs] at h; cases h

/-- What `getDefaultStruct` stores for a child of the root with a one-position
index path whose type is not a struct. -/
theorem getDefaultStruct_leaf_child (env : TypeEnv) (dm : DefaultMapper)
    (buildFuel depth fuel : Nat) (n : String) (sm : StructMap) (ds : defaultStruct) (c i : Nat)
    (hgm : getMapping env (.named n) dm.tagName dm.tagFunc buildFuel = some (.ok sm))
    (h : getDefaultStruct env dm buildFuel depth (fuel + 1) (.named n) = .ok ds)
    (hc : c ∈ (deref sm.heap sm.Tree).Children)
    (hidx : (deref sm.heap c).Index = [i])
    (hleaf : (Deref (deref sm.heap c).Typ).Kind ≠ Kind.Struct)
    (hparts : (deref sm.heap c).Parts.length ≠ 0) :
    ∃ dval fs,
      fieldDefault env depth (getDefaultStruct env dm buildFuel depth fuel) (deref sm.heap c) =
        .ok (some dval) ∧
      ds.defaultVal = .struct n fs ∧ fs.toList[i]? = some dval ∧
      (⟨[i], zeroValue env depth (Deref (deref sm.heap c).Typ), dval⟩ : defaultField) ∈
        ds.fields := by
  have hgm0 := hgm
  simp only [getMapping, Option.map_eq_some'] at hgm
  obtain ⟨st, htr, hfin⟩ := hgm
  obtain ⟨inv, _⟩ := traverse_inv htr
  have hheap : sm.heap = st.heap ∧ sm.Tree = 0 := by
    rcases finish_cases (.named n) st with ⟨sm2, h1, hh, ht, _⟩ | ⟨l1, a, l2, b, l3, h1, _⟩
    · rw [h1] at hfin
      have : sm2 = sm := by simpa using hfin
      exact this ▸ ⟨hh, ht⟩
    · rw [h1] at hfin
      simp at hfin
  rw [hheap.2] at hc
  rw [hheap.1] at hc hidx hleaf hparts ⊢
  obtain ⟨hc1, hc2, _, _⟩ := inv.children_sound 0 c inv.heap_pos hc
  simp only [getDefaultStruct, GoType.Kind, ne_eq, not_true_eq_false, if_false, hgm0,
    hheap.1, hheap.2] at h
  obtain ⟨pre, post, hsplit⟩ := List.append_of_mem hc
  rw [hsplit] at h
  obtain ⟨x, y, hx, hy, hpost⟩ := foldl_ok_split _
    (defaultStep_failed env depth (.named n) _ st.heap) pre c post _ ds h
  have hxinv : DSInv env depth (.named n) x := by
    refine foldl_ok_inv _ (defaultStep_failed env depth (.named n) _ st.heap)
      (DSInv env depth (.named n)) pre _ x ?_ ?_ hx
    · intro b _ a1 a2 ha1 ha12
      exact defaultStep_inv env depth (.named n) _ st.heap b a1 a2 ha1 ha12
    · refine ⟨rfl, ?_, ?_⟩
      · obtain ⟨fs, hfs⟩ := zeroValue_named env depth n
        exact ⟨n, fs, rfl, hfs⟩
      · intro df hdf
        simp at hdf
  obtain ⟨_, ⟨n1, fs0, hn1, hxs⟩, _⟩ := hxinv
  simp only [GoType.named.injEq] at hn1
  subst hn1
  have hns : ¬ ((Deref (deref st.heap c).Typ).Kind ≠ Kind.Struct ∧
      (deref st.heap c).Parts.length = 0) := fun hh => hparts hh.2
  have hfd : ∃ dval, fieldDefault env depth (getDefaultStruct env dm buildFuel depth fuel)
      (deref st.heap c) = .ok (some dval) := by
    have hy2 := hy
    simp only [defaultStep, hns, if_false] at hy2
    cases hfd : fieldDefault env depth (getDefaultStruct env dm buildFuel depth fuel)
        (deref st.heap c) with
    | ok o =>
      obtain ⟨dval, ho⟩ := fieldDefault_leaf_some env depth _ _ hleaf o hfd
      exact ⟨dval, by rw [ho]⟩
    | panic => simp [hfd] at hy2
    | outOfFuel => simp [hfd] at hy2
  obtain ⟨dval, hfd⟩ := hfd
  obtain ⟨hyv, hlt, hyf⟩ := defaultStep_direct env depth (.named n) _ st.heap c x y n fs0 i dval
    hy hxs hidx hns hfd
  have hfinal : (∃ fs, ds.defaultVal = .struct n fs ∧ fs.toList[i]? = some dval) ∧
      (⟨[i], zeroValue env depth (Deref (deref st.heap c).Typ), dval⟩ : defaultField) ∈
        ds.fields := by
    refine foldl_ok_inv _ (defaultStep_failed env depth (.named n) _ st.heap)
      (fun z => (∃ fs, z.defaultVal = .struct n fs ∧ fs.toList[i]? = some dval) ∧
        (⟨[i], zeroValue env depth (Deref (deref st.heap c).Typ), dval⟩ : defaultField) ∈
          z.fields) post y ds ?_ ?_ hpost
    · intro b hb a1 a2 ha1 ha12
      obtain ⟨⟨fs1, hfs1, hfi1⟩, hmem1⟩ := ha1
      refine ⟨?_, defaultStep_fields_mono env depth (.named n) _ st.heap b a1 a2 ha12 _ hmem1⟩
      have hbc : b ∈ (deref st.heap 0).Children := by
        rw [hsplit]
        exact List.mem_append_right _ (List.mem_cons_of_mem _ hb)
      obtain ⟨hb1, hb2, _, _⟩ := inv.children_sound 0 b inv.heap_pos hbc
      cases hbi : (deref st.heap b).Index with
      | nil => exact absurd hbi (inv.index_ne_nil hb1 hb2)
      | cons j rest =>
        by_cases hji : j = i
        · subst hji
          have hbeq : b = c := inv.leaf_no_descendant hc1 hc2 hidx hleaf hb1 hb2 hbi
          subst hbeq
          obtain ⟨hv2, hlt2, _⟩ := defaultStep_direct env depth (.named n) _ st.heap b a1 a2 n
            fs1 j dval ha12 hfs1 hidx hns hfd
          refine ⟨_, hv2, ?_⟩
          rw [ValueList.toList_ofList_values, List.getElem?_set_self hlt2]
        · exact defaultStep_off_path env depth (.named n) _ st.heap b a1 a2 n fs1 i j rest dval
            ha12 hfs1 hbi hji hfi1
    · refine ⟨⟨_, hyv, ?_⟩, ?_⟩
      · rw [ValueList.toList_ofList_values, List.getElem?_set_self hlt]
      · rw [hyf]
        exact List.mem_append_right _ (List.mem_singleton.2 rfl)
  obtain ⟨⟨fs, hfs, hfi⟩, hmem⟩ := hfinal
  exact ⟨dval, fs, hfd, hfs, hfi, hmem⟩

theorem getMapping_inv (env : TypeEnv) (t : GoType) (tagName : String) (tagFunc : TagFunc)
    (fuel : Nat) (sm : StructMap)
    (h : getMapping env t tagName tagFunc fuel = some (.ok sm)) :
    TInv env t tagName tagFunc sm.heap sm.Fields [] ∧ sm.Tree = 0 := by
  simp only [getMapping, Option.map_eq_some'] at h
  obtain ⟨st, htr, hfin⟩ := h
  obtain ⟨inv, _⟩ := traverse_inv htr
  rcases finish_cases t st with ⟨sm2, h1, hh, ht, hf, _⟩ | ⟨l1, a, l2, b, l3, h1, _⟩
  · rw [h1] at hfin
    have : sm2 = sm := by simpa using hfin
    subst this
    rw [hh, hf]
    exact ⟨inv, ht⟩
  · rw [h1] at hfin
    simp at hfin

theorem DefaultTagFunc_tokens (fieldName t0 : String) (ts : List String)
    (hcomma : ∀ t ∈ t0 :: ts, ',' ∉ t.data)
    (hne : String.mk (joinTokens (t0 :: ts)) ≠ "")
    (hign : String.mk (joinTokens (t0 :: ts)) ≠ "-") :
    DefaultTagFunc fieldName (String.mk (joinTokens (t0 :: ts))) = (fieldName, t0 :: ts) := by
  have hsplit : strSplit (String.mk (joinTokens (t0 :: ts))) ',' = t0 :: ts := by
    simp only [strSplit]
    rw [splitAux_joinTokens ts t0 hcomma, List.map_map]
    exact map_mk_data (t0 :: ts)
  simp only [DefaultTagFunc, IgnoreThisField, hne, hign, if_false, hsplit]

/-- C24: a declared field of a record whose type is a slice, or a pointer to
one, and whose default tag is the tokens `t0, ..., tn` joined by commas (not
the empty tag and not "-").  When `AllocDefault` returns an instance of the
record, every token has been parsed without error into the element type, the
field holds a slice with exactly the parsed tokens, in order, and `SetDefault`
on the zero record returns the same instance. -/
theorem AllocDefault_slice_tokens (env : TypeEnv) (dm : DefaultMapper)
    (buildFuel depth fuel sdFuel : Nat) (n : String) (i : Nat) (f : StructField)
    (elemT : GoType) (t0 : String) (ts : List String) (inst : Value)
    (hdm : dm.tagFunc = DefaultTagFunc)
    (hf : (env n)[i]? = some f) (hexp : f.PkgPath = "")
    (hn1 : f.Name ≠ "") (hn2 : f.Name ≠ "-")
    (hT : Deref f.Typ = .slice elemT)
    (htag : fieldTag f dm.tagName = String.mk (joinTokens (t0 :: ts)))
    (hne : fieldTag f dm.tagName ≠ "") (hign : fieldTag f dm.tagName ≠ "-")
    (hcomma : ∀ t ∈ t0 :: ts, ',' ∉ t.data)
    (h : AllocDefault env dm buildFuel depth (fuel + 1) (.named n) = .ok inst) :
    (∀ s ∈ t0 :: ts, (StrToValue env depth s (zeroValue env depth elemT)).2 = none) ∧
    (∃ fs fv, inst = .struct n fs ∧ fs.toList[i]? = some fv ∧
      indirect (some fv) = some (.slice elemT (ValueList.ofList
        ((t0 :: ts).map (fun s => (StrToValue env depth s (zeroValue env depth elemT)).1))))) ∧
    SetDefault env dm buildFuel depth (fuel + 1) (sdFuel + 1) (zeroValue env depth (.named n)) =
      .ok inst := by
  simp only [AllocDefault, Deref] at h
  cases hds : getDefaultStruct env dm buildFuel depth (fuel + 1) (.named n) with
  | panic => simp [hds] at h
  | outOfFuel => simp [hds] at h
  | ok ds =>
    simp only [hds, Outcome.ok.injEq] at h
    subst h
    have hgm : ∃ sm, getMapping env (.named n) dm.tagName dm.tagFunc buildFuel =
        some (.ok sm) := by
      have h2 := hds
      simp only [getDefaultStruct] at h2
      split at h2
      · cases h2
      · cases hm : getMapping env (.named n) dm.tagName dm.tagFunc buildFuel with
        | none => simp [hm] at h2
        | some res =>
          cases res with
          | error e => simp [hm] at h2
          | ok sm => exact ⟨sm, rfl⟩
    obtain ⟨sm, hgm⟩ := hgm
    obtain ⟨inv, htree⟩ := getMapping_inv env (.named n) dm.tagName dm.tagFunc buildFuel sm hgm
    have hnp : (dm.tagFunc f.Name (fieldTag f dm.tagName)) = (f.Name, t0 :: ts) := by
      rw [hdm, htag]
      exact DefaultTagFunc_tokens f.Name t0 ts hcomma (htag ▸ hne) (htag ▸ hign)
    have hskip : skipField dm.tagName dm.tagFunc f = false := by
      simp [skipField, hnp, hexp, IgnoreThisField, hn1, hn2]
    have hleaf : (Deref f.Typ).Kind ≠ Kind.Struct := by
      rw [hT]
      simp [GoType.Kind]
    obtain ⟨c, hc, _, _, hidx, hcT, hcP, _⟩ :=
      inv.root_leaf_child
        (show (fieldsOf env (Deref (.named n)))[i]? = some f by simpa [fieldsOf, Deref] using hf)
        hskip hleaf
    rw [hnp] at hcP
    simp only at hcP
    obtain ⟨dval, fs, hfd, hfs, hfi, _⟩ := getDefaultStruct_leaf_child env dm buildFuel depth fuel
      n sm ds c i hgm hds (by rw [htree]; exact hc) hidx (by rw [hcT]; exact hleaf)
      (by rw [hcP]; simp)
    obtain ⟨vs, dval2, hel, hsome, hind⟩ := fieldDefault_slice env depth _ (deref sm.heap c)
      elemT (by rw [hcT]; exact hT) _ hfd
    simp only [Option.some.injEq] at hsome
    subst hsome
    rw [hcP] at hel
    obtain ⟨hvs, herr⟩ := defaultElems_ok env depth elemT (t0 :: ts) vs hel
    refine ⟨herr, ⟨fs, dval, hfs, hfi, by rw [hind, hvs]⟩, ?_⟩
    obtain ⟨_, hzero, _, _⟩ := getDefaultStruct_inv env dm buildFuel depth (fuel + 1) _ ds hds
    simp only [SetDefault, zeroValue_Typ, hds, hzero, deepEqual_zero_refl, if_true]

theorem AllocDefault_slice_tokens_witness :
    (∀ s ∈ ["1", "2", "3", "4", "5"],
      (StrToValue defaultEnv 5 s (zeroValue defaultEnv 5 (.int .Int16))).2 = none) ∧
    (∃ fs fv, fbsValue = .struct "reflectx.FooBarStruct" fs ∧ fs.toList[7]? = some fv ∧
      indirect (some fv) = some (.slice (.int .Int16) (ValueList.ofList
        (["1", "2", "3", "4", "5"].map
          (fun s => (StrToValue defaultEnv 5 s (zeroValue defaultEnv 5 (.int .Int16))).1))))) ∧
    SetDefault defaultEnv defaultMapper 10 5 5 1
        (zeroValue defaultEnv 5 (.named "reflectx.FooBarStruct")) = .ok fbsValue :=
  AllocDefault_slice_tokens defaultEnv defaultMapper 10 5 4 0 "reflectx.FooBarStruct" 7
    (mkField "Bar" (.slice (.int .Int16)) [("default", "1,2,3,4,5")] false) (.int .Int16)
    "1" ["2", "3", "4", "5"] fbsValue rfl rfl rfl (by decide) (by decide) rfl rfl (by decide)
    (by decide) (by decide) rfl

/-! ## Integers that do not fit the field -/

/-- C36: `StrToValue` stores a text that denotes an integer outside the width
of the field, wrapped, and returns no error: "300" into an `int8` or a `uint8`
field stores 44, "-129" into an `int8` field stores 127, "70000" into an
`int16` field stores 4464.  `ParseInt` reports the range error, the fallback
parses the text as a float and `floatToInt` accepts it, and `SetInt` truncates
the 64-bit value to the width of the field. -/
theorem StrToValue_out_of_range_wraps (env : TypeEnv) (depth : Nat) :
    StrToValue env depth "300" (.int .Int8 0) = (.int .Int8 44, none) ∧
    StrToValue env depth "300" (.uint .Uint8 0) = (.uint .Uint8 44, none) ∧
    StrToValue env depth "-129" (.int .Int8 0) = (.int .Int8 127, none) ∧
    StrToValue env depth "70000" (.int .Int16 0) = (.int .Int16 4464, none) ∧
    (ParseInt "300" 8).2 = some NumError.ErrRange := by
  refine ⟨?_, ?_, ?_, ?_, ?_⟩ <;> rfl

/-- C17: `SetValue` of the float 2251799813685248, which is 2^51, into an
`int64` field returns the error of `floatToInt` and stores nothing, although
the float is integral and inside the safe-integer range: its text is
"2.251799813685248e+15", which `ParseInt` rejects, and the fallback accepts
integers up to 2^51 - 1 only.  The sources of the package test, 1, uint(2), 3.0
and "4", store 1, 2, 3 and 4. -/
theorem SetValue_int64_from_float :
    SetValue testEnv 3 3 (.int .Int64 0) (some (.float .Float64 (.fin 2251799813685248 0))) =
      .ok (.int .Int64 0, some (.floatToInt (.fin 2251799813685248 0))) ∧
    ValueToStr (.float .Float64 (.fin 2251799813685248 0)) = ("2.251799813685248e+15", none) ∧
    SetValue testEnv 3 3 (.int .Int64 0) (some (.int .Int 1)) = .ok (.int .Int64 1, none) ∧
    SetValue testEnv 3 3 (.int .Int64 0) (some (.uint .Uint 2)) = .ok (.int .Int64 2, none) ∧
    SetValue testEnv 3 3 (.int .Int64 0) (some (.float .Float64 (.fin 3 0))) =
      .ok (.int .Int64 3, none) ∧
    SetValue testEnv 3 3 (.int .Int64 0) (some (.str "4")) = .ok (.int .Int64 4, none) := by
  refine ⟨?_, ?_, ?_, ?_, ?_, ?_⟩ <;> rfl

/-! ## Looking fields up in a `StructMap` -/

theorem indexEqual_iff : ∀ (a b : List Nat), indexEqual a b = true ↔ a = b
  | [], [] => by simp [indexEqual]
  | [], _ :: _ => by simp [indexEqual]
  | _ :: _, [] => by simp [indexEqual]
  | a :: as, b :: bs => by
    simp only [indexEqual, Bool.and_eq_true, beq_iff_eq, indexEqual_iff as bs, List.cons.injEq]

theorem find_unique {α : Type} (q : α → Bool) :
    ∀ (l : List α) (x : α), x ∈ l → q x = true → (∀ y ∈ l, q y = true → y = x) →
      l.find? q = some x := by
  intro l
  induction l with
  | nil => intro x hx; simp at hx
  | cons a l ih =>
    intro x hx hq hu
    by_cases ha : q a = true
    · have := hu a (List.mem_cons_self _ _) ha
      subst this
      simp [List.find?, ha]
    · have hax : x ∈ l := by
        rcases List.mem_cons.1 hx with h | h
        · rw [h] at hq; exact absurd hq ha
        · exact h
      simp only [List.find?, ha]
      exact ih x hax hq (fun y hy => hu y (List.mem_cons_of_mem _ hy))

/-- C38: in a `StructMap` that `getMapping` returns, two fields of `Fields`
with the same index path are the same field; for every field of `Fields`,
`GetByPath` of its path and `GetByTraversal` of its index path return the
field; `GetByPath("")` and `GetByTraversal` of the empty index return `Tree`. -/
theorem structMap_lookups (env : TypeEnv) (t : GoType) (tagName : String)
    (tagFunc : TagFunc) (fuel : Nat) (sm : StructMap)
    (h : getMapping env t tagName tagFunc fuel = some (.ok sm)) :
    (∀ a ∈ sm.Fields, ∀ b ∈ sm.Fields,
      (deref sm.heap a).Index = (deref sm.heap b).Index → a = b) ∧
    (∀ p ∈ sm.Fields, sm.GetByPath (deref sm.heap p).Path = some p ∧
      sm.GetByTraversal (deref sm.heap p).Index = some p) ∧
    sm.GetByPath "" = some sm.Tree ∧ sm.GetByTraversal [] = some sm.Tree := by
  obtain ⟨inv, _⟩ := getMapping_inv env t tagName tagFunc fuel sm h
  have hinj : ∀ a ∈ sm.Fields, ∀ b ∈ sm.Fields,
      (deref sm.heap a).Index = (deref sm.heap b).Index → a = b := by
    intro a ha b hb hab
    obtain ⟨ha1, ha2⟩ := (inv.mem_m a).1 ha
    obtain ⟨hb1, hb2⟩ := (inv.mem_m b).1 hb
    exact inv.idx_inj a b ha1 ha2 hb1 hb2 hab
  refine ⟨hinj, ?_, by simp [StructMap.GetByPath], by simp [StructMap.GetByTraversal]⟩
  intro p hp
  obtain ⟨hp1, hp2⟩ := (inv.mem_m p).1 hp
  constructor
  · simp only [StructMap.GetByPath, inv.path_ne_empty hp1 hp2, if_false]
    simp only [getMapping, Option.map_eq_some'] at h
    obtain ⟨st, _, hfin⟩ := h
    rcases finish_cases t st with ⟨sm2, h1, hh, _, hf, hpaths, _, hnd⟩ |
        ⟨l1, a, l2, b, l3, h1, _⟩
    · rw [h1] at hfin
      have : sm2 = sm := by simpa using hfin
      subst this
      rw [hpaths, hh]
      rw [hf] at hp
      exact mapGet_map_of_nodup (fun q => (deref st.heap q).Path) st.m p hnd hp
    · rw [h1] at hfin
      simp at hfin
  · have hne : (deref sm.heap p).Index.length ≠ 0 := by
      intro h0
      exact inv.index_ne_nil hp1 hp2 (List.length_eq_zero.1 h0)
    simp only [StructMap.GetByTraversal, hne, if_false]
    refine find_unique _ sm.Fields p hp ((indexEqual_iff _ _).2 rfl) ?_
    intro y hy hq
    exact hinj y hy p hp ((indexEqual_iff _ _).1 hq).symm

theorem structMap_lookups_witness :
    (∀ a ∈ flatInnerMap.Fields, ∀ b ∈ flatInnerMap.Fields,
      (deref flatInnerMap.heap a).Index = (deref flatInnerMap.heap b).Index → a = b) ∧
    (∀ p ∈ flatInnerMap.Fields,
      flatInnerMap.GetByPath (deref flatInnerMap.heap p).Path = some p ∧
      flatInnerMap.GetByTraversal (deref flatInnerMap.heap p).Index = some p) ∧
    flatInnerMap.GetByPath "" = some flatInnerMap.Tree ∧
    flatInnerMap.GetByTraversal [] = some flatInnerMap.Tree :=
  structMap_lookups flatEnv (.named "FlatInner") "reflector" StdTagFunc 3 flatInnerMap rfl

/-! ## Index paths as traversals of the type -/

/-- C39: the index path of every field of a `StructMap` that `getMapping`
returns is a traversal of the record type: followed from the type, with a
`Deref` before every step, every position is one of the fields of the struct
reached, and the declared field at the end has the type of the `FieldInfo`.
On a value of the record type that agrees with its declarations, no step of
`FieldByIndexes` along that path is out of range: the call returns a field of
that type, unless the walk reaches a nil pointer held in a read-only field,
where `v.Set` panics. -/
theorem index_is_traversal (env : TypeEnv) (t : GoType) (tagName : String)
    (tagFunc : TagFunc) (fuel : Nat) (sm : StructMap)
    (h : getMapping env t tagName tagFunc fuel = some (.ok sm))
    (p : Nat) (hp : p ∈ sm.Fields) :
    (∃ f, fieldAt env t (deref sm.heap p).Index = some f ∧ f.Typ = (deref sm.heap p).Typ) ∧
    ∀ (v : Value) (k depth : Nat), v.Typ = t → conforms env k v = true →
      2 * (deref sm.heap p).Index.length ≤ k → k ≤ depth → v.isNilPtr = false →
      (setsReadOnly env depth ROFlag.clear v (deref sm.heap p).Index = true ∧
        FieldByIndexes env depth v (deref sm.heap p).Index = .panic) ∨
      (setsReadOnly env depth ROFlag.clear v (deref sm.heap p).Index = false ∧
        ∃ r1 x, FieldByIndexes env depth v (deref sm.heap p).Index = .ok (r1, x) ∧
          x.Typ = (deref sm.heap p).Typ) := by
  obtain ⟨inv, _⟩ := getMapping_inv env t tagName tagFunc fuel sm h
  obtain ⟨hp1, hp2⟩ := (inv.mem_m p).1 hp
  obtain ⟨e, pos, f, _, _, _, hfa, hst, _, _⟩ := inv.built p hp1 hp2
  obtain ⟨hidx, _, hT⟩ := inv.built_attrs hst
  have hfield : fieldAt env t (deref sm.heap p).Index = some f := by rw [hidx]; exact hfa
  refine ⟨⟨f, hfield, hT.symm⟩, ?_⟩
  intro v k depth hv hc hk hd hnil
  have hne := inv.index_ne_nil hp1 hp2
  have hty : typeAt env v.Typ (deref sm.heap p).Index = some (deref sm.heap p).Typ := by
    rw [hv]
    cases hi : (deref sm.heap p).Index with
    | nil => exact absurd hi hne
    | cons i rest =>
      rw [hi] at hfield
      simp only [typeAt, hfield, Option.map_some', hT]
  exact FieldByIndexes_ok env depth _ ROFlag.clear v _ k hty hc hk hd (fun _ => hnil)

theorem index_is_traversal_witness :
    (∃ f, fieldAt flatEnv (.named "FlatInner") (deref flatInnerMap.heap 1).Index = some f ∧
      f.Typ = (deref flatInnerMap.heap 1).Typ) ∧
    setsReadOnly flatEnv 2 ROFlag.clear (zeroValue flatEnv 2 (.named "FlatInner"))
        (deref flatInnerMap.heap 1).Index = false ∧
    ∃ r1 x, FieldByIndexes flatEnv 2 (zeroValue flatEnv 2 (.named "FlatInner"))
        (deref flatInnerMap.heap 1).Index = .ok (r1, x) ∧
      x.Typ = (deref flatInnerMap.heap 1).Typ :=
  ⟨(index_is_traversal flatEnv (.named "FlatInner") "reflector" StdTagFunc 3 flatInnerMap rfl 1
      (by decide)).1,
   ((index_is_traversal flatEnv (.named "FlatInner") "reflector" StdTagFunc 3 flatInnerMap rfl 1
      (by decide)).2 (zeroValue flatEnv 2 (.named "FlatInner")) 2 2 rfl rfl (by decide)
      (by decide) rfl).resolve_left (fun h => absurd h.1 (by decide))⟩

/-- For `type Outer struct { *inner }` the index path `[0, 0]` that `getMapping`
builds for `inner.A` is a traversal of the type, and `FieldByIndexes` along it
panics on the zero `Outer`, whose nil `*inner` cannot be set, and returns the
field on an `Outer` whose pointer is set. -/
theorem index_is_traversal_unexported :
    setsReadOnly hiddenPtrEnv 4 ROFlag.clear (zeroValue hiddenPtrEnv 4 (.named "Outer")) [0, 0] =
      true ∧
    setsReadOnly hiddenPtrEnv 4 ROFlag.clear
        (.struct "Outer" (ValueList.ofList [.ptr (.struct "inner"
          (ValueList.ofList [.int .Int 7]))])) [0, 0] = false := by
  constructor <;> rfl

/-! ## The default value of a string -/

/-- C35 (amended): a declared field of type `string` whose default tag is a
text `d` without a comma, not empty and not "-".  When `AllocDefault` returns
an instance of the record, the field holds exactly `d`, and `SetDefault` on
the zero record returns the same instance. -/
theorem AllocDefault_string (env : TypeEnv) (dm : DefaultMapper)
    (buildFuel depth fuel sdFuel : Nat) (n : String) (i : Nat) (f : StructField)
    (d : String) (inst : Value)
    (hdm : dm.tagFunc = DefaultTagFunc)
    (hf : (env n)[i]? = some f) (hexp : f.PkgPath = "")
    (hn1 : f.Name ≠ "") (hn2 : f.Name ≠ "-")
    (hT : f.Typ = .string)
    (htag : fieldTag f dm.tagName = d)
    (hne : d ≠ "") (hign : d ≠ "-") (hcomma : ',' ∉ d.data)
    (h : AllocDefault env dm buildFuel depth (fuel + 1) (.named n) = .ok inst) :
    (∃ fs, inst = .struct n fs ∧ fs.toList[i]? = some (.str d)) ∧
    SetDefault env dm buildFuel depth (fuel + 1) (sdFuel + 1) (zeroValue env depth (.named n)) =
      .ok inst := by
  simp only [AllocDefault, Deref] at h
  cases hds : getDefaultStruct env dm buildFuel depth (fuel + 1) (.named n) with
  | panic => simp [hds] at h
  | outOfFuel => simp [hds] at h
  | ok ds =>
    simp only [hds, Outcome.ok.injEq] at h
    subst h
    have hgm : ∃ sm, getMapping env (.named n) dm.tagName dm.tagFunc buildFuel =
        some (.ok sm) := by
      have h2 := hds
      simp only [getDefaultStruct] at h2
      split at h2
      · cases h2
      · cases hm : getMapping env (.named n) dm.tagName dm.tagFunc buildFuel with
        | none => simp [hm] at h2
        | some res =>
          cases res with
          | error e => simp [hm] at h2
          | ok sm => exact ⟨sm, rfl⟩
    obtain ⟨sm, hgm⟩ := hgm
    obtain ⟨inv, htree⟩ := getMapping_inv env (.named n) dm.tagName dm.tagFunc buildFuel sm hgm
    have hnp : (dm.tagFunc f.Name (fieldTag f dm.tagName)) = (f.Name, [d]) := by
      rw [hdm, htag]
      exact DefaultTagFunc_tokens f.Name d []
        (by intro t ht; rw [List.mem_singleton.1 ht]; exact hcomma) hne hign
    have hskip : skipField dm.tagName dm.tagFunc f = false := by
      simp [skipField, hnp, hexp, IgnoreThisField, hn1, hn2]
    have hleaf : (Deref f.Typ).Kind ≠ Kind.Struct := by
      rw [hT]
      simp [GoType.Kind, Deref]
    obtain ⟨c, hc, _, _, hidx, hcT, hcP, _⟩ :=
      inv.root_leaf_child
        (show (fieldsOf env (Deref (.named n)))[i]? = some f by simpa [fieldsOf, Deref] using hf)
        hskip hleaf
    rw [hnp] at hcP
    simp only at hcP
    obtain ⟨dval, fs, hfd, hfs, hfi, _⟩ := getDefaultStruct_leaf_child env dm buildFuel depth fuel
      n sm ds c i hgm hds (by rw [htree]; exact hc) hidx (by rw [hcT]; exact hleaf)
      (by rw [hcP]; simp)
    have hdval : dval = .str d := by
      simp only [fieldDefault, hcT, hT, Deref, hcP, zeroValue, StrToValue, setByKind,
        Outcome.ok.injEq, Option.some.injEq] at hfd
      exact hfd.symm
    subst hdval
    refine ⟨⟨fs, hfs, hfi⟩, ?_⟩
    obtain ⟨_, hzero, _, _⟩ := getDefaultStruct_inv env dm buildFuel depth (fuel + 1) _ ds hds
    simp only [SetDefault, zeroValue_Typ, hds, hzero, deepEqual_zero_refl, if_true]

/-- C35 (counterexample): the text of the default is split at commas and a
string field takes the first part only: with `default:"a,b"` the default
instance holds "a". -/
theorem AllocDefault_string_comma :
    AllocDefault commaEnv defaultMapper 5 3 3 (.named "Greeting") =
      .ok (.struct "Greeting" (ValueList.ofList [.str "a"])) ∧
    SetDefault commaEnv defaultMapper 5 3 3 3 (zeroValue commaEnv 3 (.named "Greeting")) =
      .ok (.struct "Greeting" (ValueList.ofList [.str "a"])) := by
  constructor <;> rfl

theorem AllocDefault_string_witness :
    (∃ fs, thirValue = .struct "reflectx.third" fs ∧ fs.toList[0]? = some (.str "Third")) ∧
    SetDefault defaultEnv defaultMapper 10 5 3 1
        (zeroValue defaultEnv 5 (.named "reflectx.third")) = .ok thirValue :=
  AllocDefault_string defaultEnv defaultMapper 10 5 2 0 "reflectx.third" 0
    (mkField "Third" .string [("default", "Third")] false) "Third" thirValue rfl rfl rfl
    (by decide) (by decide) rfl rfl (by decide) (by decide) (by decide) rfl

/-! ## Adding a step to a `Value` -/

/-- C31 (amended): for a step that `ToInt64` converts to the number `i`, `Plus`
on a nil receiver returns the step; on a signed integer of any kind it returns
an integer of the same kind, inside the range of the kind and congruent to
receiver plus `i` modulo two to the width; on an unsigned integer of any kind
it returns an unsigned integer of the same kind, below two to the width and
congruent to receiver plus `i` modulo two to the width.  For a step that
`ToInt64` does not convert, `Plus` panics, whatever the receiver, nil
included. -/
theorem Plus_wraps (step : Option Value) :
    (∀ i : Int, ToInt64 step = (i, none) →
      Plus none step = .ok step ∧
      (∀ (k : IntKind) (val : Int), ∃ r, Plus (some (.int k val)) step = .ok (some (.int k r)) ∧
        -(2 : Int) ^ (k.bits - 1) ≤ r ∧ r < 2 ^ (k.bits - 1) ∧
        (2 : Int) ^ k.bits ∣ r - (val + i)) ∧
      (∀ (k : UintKind) (val : Nat), ∃ r,
        Plus (some (.uint k val)) step = .ok (some (.uint k r)) ∧
        r < 2 ^ k.bits ∧ (2 : Int) ^ k.bits ∣ (r : Int) - ((val : Int) + i))) ∧
    ((ToInt64 step).2 ≠ none → ∀ v : Option Value, Plus v step = .panic) := by
  constructor
  · intro i hstep
    have hm : MustInt64 step = .ok i := by simp only [MustInt64, hstep]
    refine ⟨by simp only [Plus, hm], ?_, ?_⟩
    · intro k val
      refine ⟨wrapInt k.bits (wrapInt 64 (val + i)), by simp only [Plus, hm], ?_⟩
      cases k <;> simp only [wrapInt, IntKind.bits] <;> norm_num <;> omega
    · intro k val
      refine ⟨wrapUint k.bits ((wrapInt 64 (wrapInt 64 val + i)) % 2 ^ 64).toNat,
        by simp only [Plus, hm], ?_⟩
      cases k <;> simp only [wrapInt, wrapUint, UintKind.bits] <;> norm_num <;> omega
  · intro herr v
    have hm : MustInt64 step = .panic := by
      cases hs : ToInt64 step with
      | mk i e =>
        cases e with
        | none => rw [hs] at herr; exact absurd rfl herr
        | some err => simp only [MustInt64, hs]
    simp only [Plus, hm]

/-- C31 (counterexample): `Plus` panics on the numeric step 0.5, on an integer
receiver and on a nil receiver alike: `MustInt64` is called on the step before
the receiver is looked at. -/
theorem Plus_half_panics :
    Plus (some (.int .Int 1)) (some (.float .Float64 (.fin 1 1))) = .panic ∧
    Plus none (some (.float .Float64 (.fin 1 1))) = .panic := by
  constructor <;> rfl

theorem Plus_wraps_witness :
    (Plus none (some (.int .Int 9)) = .ok (some (.int .Int 9)) ∧
      (∀ (k : IntKind) (val : Int), ∃ r,
        Plus (some (.int k val)) (some (.int .Int 9)) = .ok (some (.int k r)) ∧
        -(2 : Int) ^ (k.bits - 1) ≤ r ∧ r < 2 ^ (k.bits - 1) ∧
        (2 : Int) ^ k.bits ∣ r - (val + 9)) ∧
      (∀ (k : UintKind) (val : Nat), ∃ r,
        Plus (some (.uint k val)) (some (.int .Int 9)) = .ok (some (.uint k r)) ∧
        r < 2 ^ k.bits ∧ (2 : Int) ^ k.bits ∣ (r : Int) - ((val : Int) + 9))) ∧
    (∀ v : Option Value, Plus v (some (.str "nine")) = .panic) :=
  ⟨(Plus_wraps (some (.int .Int 9))).1 9 rfl,
   (Plus_wraps (some (.str "nine"))).2 (by decide)⟩

/-! ## `Int64` after an error -/

theorem floatToInt_cases (f : F64) :
    (floatToInt f).2 = none ∨ floatToInt f = (0, some (.floatToInt f)) := by
  simp only [floatToInt]
  split
  · exact Or.inl rfl
  · exact Or.inr rfl

theorem ParseInt_syntax_zero (s : String) (bitSize : Nat) (n : Int)
    (h : ParseInt s bitSize = (n, some .ErrSyntax)) : n = 0 := by
  simp only [ParseInt] at h
  split at h
  · simp only [Prod.mk.injEq] at h
    exact h.1.symm
  · split at h
    · simp only [Prod.mk.injEq] at h
      exact h.1.symm
    · exfalso
      split_ifs at h <;> simp at h

/-- C32: `Int64` of the string "0x8000000000000000" is 9223372036854775807
although `ToInt64` returns an error: `ParseInt` reports the range error with
the largest `int64`, `ParseFloat` rejects the text, and `parseInt` hands the
number of `ParseInt` on.  In every other case of an error the number is 0: for
a value that is not a string, and for a string unless `ParseInt` fails with a
range error and `ParseFloat` fails too. -/
theorem Int64_after_range_error :
    (ToInt64 (some (.str "0x8000000000000000"))).2 = some (.conv (.parse .ErrRange)) ∧
    Int64 (some (.str "0x8000000000000000")) = 9223372036854775807 ∧
    (∀ v, (ToInt64 v).2 = none → Int64 v = (ToInt64 v).1) ∧
    (∀ v, (ToInt64 v).2 ≠ none → Int64 v = 0 ∨
      ∃ s, v = some (.str s) ∧ (ParseInt s 64).2 = some .ErrRange ∧
        (ParseFloat s 64).2 ≠ none) := by
  refine ⟨rfl, rfl, fun v _ => rfl, ?_⟩
  intro v hv
  cases v with
  | none => exact Or.inl rfl
  | some x =>
    cases x with
    | int k n => simp [ToInt64] at hv
    | uint k n => simp [ToInt64] at hv
    | float k f =>
      left
      simp only [Int64, ToInt64] at hv ⊢
      rcases floatToInt_cases f with h | h
      · cases hfi : floatToInt f with
        | mk n e =>
          rw [hfi] at h hv
          simp only at h
          subst h
          simp at hv
      · rw [h]
    | str s =>
      simp only [Int64, ToInt64, parseInt] at hv ⊢
      cases hp : ParseInt s 64 with
      | mk n e =>
        cases e with
        | none => simp [hp] at hv
        | some err =>
          simp only [hp] at hv ⊢
          cases hf : ParseFloat s 64 with
          | mk f e2 =>
            cases e2 with
            | none =>
              left
              simp only [hf] at hv ⊢
              rcases floatToInt_cases f with h | h
              · cases hfi : floatToInt f with
                | mk n2 e3 =>
                  rw [hfi] at h hv
                  simp only at h
                  subst h
                  simp at hv
              · rw [h]
            | some e2 =>
              cases err with
              | ErrRange => exact Or.inr ⟨s, rfl, by rw [hp], by rw [hf]; simp⟩
              | ErrSyntax =>
                left
                exact ParseInt_syntax_zero s 64 n hp
    | _ => exact Or.inl rfl

/-! ## `Update` in the package values -/

/-- C33: on a `Form`, `Update` with a function that returns the integer 5
stores the text "5" and returns the integer: `Get` of the key right after the
call returns the string "5", not what `Update` returned.  On a `JsonMap` that
is not nil and on a `SafeMap`, `Update` stores a result that is not nil,
leaves the map as it is for a nil result, and returns what `Get` returns after
the call; on a nil `JsonMap` a result that is not nil panics. -/
theorem Update_returns (key : String) (fn : Option Value → Option Value) :
    (Form.Update (some []) "k" (fun _ => some (.int .Int 5)) =
        .ok (some (.int .Int 5), some [("k", ["5"])]) ∧
      Form.Get (some [("k", ["5"])]) "k" = some (.str "5")) ∧
    (∀ mp : GoMap String (Option Value),
      ∃ res m1, JsonMap.Update (some mp) key fn = .ok (res, m1) ∧ JsonMap.Get m1 key = res ∧
        (fn (JsonMap.Get (some mp) key) = none → m1 = some mp) ∧
        (∀ rv, fn (JsonMap.Get (some mp) key) = some rv →
          res = some rv ∧ m1 = some (mapPut mp key (some rv)))) ∧
    (∀ rv, fn none = some rv → JsonMap.Update none key fn = .panic) ∧
    (∀ m : SafeMap, SafeMap.Get (SafeMap.Update m key fn).2 key = (SafeMap.Update m key fn).1 ∧
      (fn (SafeMap.Get m key) = none → (SafeMap.Update m key fn).2 = m) ∧
      (∀ rv, fn (SafeMap.Get m key) = some rv →
        (SafeMap.Update m key fn).1 = some rv ∧
        (SafeMap.Update m key fn).2 = some (mapPut (m.getD []) key (some rv)))) := by
  refine ⟨⟨rfl, rfl⟩, ?_, ?_, ?_⟩
  · intro mp
    cases hfn : fn (JsonMap.Get (some mp) key) with
    | none =>
      refine ⟨JsonMap.Get (some mp) key, some mp, ?_, rfl, fun _ => rfl, ?_⟩
      · simp only [JsonMap.Update, hfn]
      · intro rv h
        cases h
    | some rv =>
      refine ⟨some rv, some (mapPut mp key (some rv)), ?_, ?_, ?_, ?_⟩
      · simp only [JsonMap.Update, hfn, JsonMap.Set]
      · simp [JsonMap.Get, mapGet_mapPut]
      · intro h
        cases h
      · intro rv2 h
        cases h
        exact ⟨rfl, rfl⟩
  · intro rv h
    simp only [JsonMap.Update, JsonMap.Get, h, JsonMap.Set]
  · intro m
    cases hfn : fn (SafeMap.Get m key) with
    | none =>
      refine ⟨?_, ?_, ?_⟩
      · simp only [SafeMap.Update, hfn]
      · intro _
        simp only [SafeMap.Update, hfn]
      · intro rv h
        cases h
    | some rv =>
      refine ⟨?_, ?_, ?_⟩
      · simp only [SafeMap.Update, hfn]
        simp [SafeMap.Get, mapGet_mapPut]
      · intro h
        cases h
      · intro rv2 h
        cases h
        simp only [SafeMap.Update, hfn, and_self]

/-! ## Records that contain themselves in a slice or a map -/

/-- The entries that the loop over the fields of a struct appends to the queue
are structs of fields of that struct. -/
theorem visitFields_queue_new (tagName : String) (tagFunc : TagFunc) (tq : typeQueue) :
    ∀ (fs : List StructField) (st : BuildState) (pos : Nat),
      ∃ L, (visitFields tagName tagFunc tq st pos fs).queue = st.queue ++ L ∧
        ∀ e ∈ L, ∃ f ∈ fs, skipField tagName tagFunc f = false ∧
          ∃ m, Deref f.Typ = .named m ∧ e.t = .named m := by
  intro fs
  induction fs with
  | nil => intro st pos; exact ⟨[], by simp [visitFields], by simp⟩
  | cons f fs ih =>
    intro st pos
    obtain ⟨L, hL, hmem⟩ := ih (visitField tagName tagFunc tq st pos f) (pos + 1)
    have h1 : ∃ L1, (visitField tagName tagFunc tq st pos f).queue = st.queue ++ L1 ∧
        ∀ e ∈ L1, skipField tagName tagFunc f = false ∧
          ∃ m, Deref f.Typ = .named m ∧ e.t = .named m := by
      by_cases hs : skipField tagName tagFunc f = true
      · exact ⟨[], by simp [visitField, hs], by simp⟩
      · rw [visitField_queue tagName tagFunc tq st pos f (by simpa using hs)]
        split
        · rename_i hc
          obtain ⟨m, hm⟩ := Kind_struct _ hc.1
          refine ⟨_, rfl, ?_⟩
          intro e he
          simp only [List.mem_singleton] at he
          exact ⟨by simpa using hs, m, hm, by rw [he, hm]⟩
        · exact ⟨[], by simp, by simp⟩
    obtain ⟨L1, hL1, hmem1⟩ := h1
    refine ⟨L1 ++ L, by rw [visitFields, hL, hL1, List.append_assoc], ?_⟩
    intro e he
    rcases List.mem_append.1 he with he | he
    · obtain ⟨hs, m, h2, h3⟩ := hmem1 e he
      exact ⟨f, List.mem_cons_self _ _, hs, m, h2, h3⟩
    · obtain ⟨g, hg, hs, m, h2, h3⟩ := hmem e he
      exact ⟨g, List.mem_cons_of_mem _ hg, hs, m, h2, h3⟩

/-- The loop over the queue ends when the entries it holds lead only to entries
on which it ends. -/
theorem queueLoop_drain (env : TypeEnv) (tagName : String) (tagFunc : TagFunc)
    (Qold Qnew : typeQueue → Prop)
    (hchild : ∀ e, Qold e → ∀ f ∈ fieldsOf env e.t, skipField tagName tagFunc f = false →
      ∀ m, Deref f.Typ = .named m → ∀ e2 : typeQueue, e2.t = .named m → Qnew e2)
    (hP : ∀ st : BuildState, (∀ e ∈ st.queue, Qnew e) →
      ∃ fuel st2, queueLoop env tagName tagFunc fuel st = some st2) :
    ∀ (old new : List typeQueue) (st : BuildState), st.queue = old ++ new →
      (∀ e ∈ old, Qold e) → (∀ e ∈ new, Qnew e) →
      ∃ fuel st2, queueLoop env tagName tagFunc fuel st = some st2 := by
  intro old
  induction old with
  | nil =>
    intro new st hq _ hnew
    exact hP st (by rw [hq]; exact hnew)
  | cons e old ih =>
    intro new st hq hold hnew
    by_cases hg : recursiveHit st.heap (deref st.heap e.fi).Typ st.heap.length
        (deref st.heap e.fi).Parent = true
    · obtain ⟨fuel, st2, h⟩ := ih new { st with queue := old ++ new } rfl
        (fun x hx => hold x (List.mem_cons_of_mem _ hx)) hnew
      refine ⟨fuel + 1, st2, ?_⟩
      rw [queueLoop, hq]
      simp only [List.cons_append, hg, if_true]
      exact h
    · obtain ⟨L, hL, hmem⟩ := visitFields_queue_new tagName tagFunc e (fieldsOf env e.t)
        { st with queue := old ++ new } 0
      obtain ⟨fuel, st2, h⟩ := ih (new ++ L) _ (by rw [hL, List.append_assoc])
        (fun x hx => hold x (List.mem_cons_of_mem _ hx))
        (by
          intro x hx
          rcases List.mem_append.1 hx with hx | hx
          · exact hnew x hx
          · obtain ⟨f, hf, hs, m, h1, h2⟩ := hmem x hx
            exact hchild e (hold e (List.mem_cons_self _ _)) f hf hs m h1 x h2)
      refine ⟨fuel + 1, st2, ?_⟩
      rw [queueLoop, hq]
      simp only [List.cons_append, hg, Bool.false_eq_true, if_false]
      exact h

/-- The loop over the queue ends when no struct in the queue reaches itself
through fields that are structs or pointers to structs: `rank` is a measure
that goes down from a struct to the structs of its fields, on a set `S` of
struct types that holds the struct types of the queue and is closed under
taking the struct of a field. -/
theorem queueLoop_terminates (env : TypeEnv) (tagName : String) (tagFunc : TagFunc)
    (S : String → Prop) (rank : String → Nat)
    (hS : ∀ n, S n → ∀ f ∈ env n, skipField tagName tagFunc f = false →
      ∀ m, Deref f.Typ = .named m → S m ∧ rank m < rank n) :
    ∀ (R : Nat) (st : BuildState),
      (∀ e ∈ st.queue, ∀ n, e.t = .named n → S n ∧ rank n < R) →
      ∃ fuel st2, queueLoop env tagName tagFunc fuel st = some st2 := by
  have hbase : ∀ st : BuildState, (∀ e ∈ st.queue, False) →
      ∃ fuel st2, queueLoop env tagName tagFunc fuel st = some st2 := by
    intro st h
    have hq : st.queue = [] := by
      cases hq : st.queue with
      | nil => rfl
      | cons e q => exact absurd (h e (by rw [hq]; exact List.mem_cons_self _ _)) id
    exact ⟨0, st, by simp [queueLoop, hq]⟩
  intro R
  induction R with
  | zero =>
    intro st h
    refine queueLoop_drain env tagName tagFunc
      (fun e => ∀ n, e.t = .named n → S n ∧ rank n < 0) (fun _ => False) ?_ hbase
      st.queue [] st (by simp) h (by simp)
    intro e he f hf _ m _ e2 _
    cases ht : e.t with
    | named n => exact absurd (he n ht).2 (Nat.not_lt_zero _)
    | _ => rw [ht] at hf; simp [fieldsOf] at hf
  | succ R ih =>
    intro st h
    refine queueLoop_drain env tagName tagFunc
      (fun e => ∀ n, e.t = .named n → S n ∧ rank n < R + 1)
      (fun e => ∀ n, e.t = .named n → S n ∧ rank n < R) ?_ ih
      st.queue [] st (by simp) h (by simp)
    intro e he f hf hs m hm e2 he2 n2 hn2
    cases ht : e.t with
    | named n =>
      rw [ht] at hf
      obtain ⟨hSn, hr⟩ := he n ht
      obtain ⟨hSm, hrm⟩ := hS n hSn f hf hs m hm
      rw [he2] at hn2
      simp only [GoType.named.injEq] at hn2
      subst hn2
      exact ⟨hSm, by omega⟩
    | _ => rw [ht] at hf; simp [fieldsOf] at hf

/-- C34 (amended): for a record type from which no struct type reaches itself
through mapped fields that are structs or pointers to structs, so that a
struct reaches its own type, if at all, only through a slice or a map, the
traversal of `getMapping` ends: with enough fuel `getMapping` returns, a
`StructMap` or the error of a duplicated path.  The struct types reached are
the set `S`, and `rank` goes down from a struct to the struct of each of its
fields that is not skipped. -/
theorem getMapping_acyclic_terminates (env : TypeEnv) (t : GoType) (tagName : String)
    (tagFunc : TagFunc) (S : String → Prop) (rank : String → Nat)
    (hS : ∀ n, S n → ∀ f ∈ env n, skipField tagName tagFunc f = false →
      ∀ m, Deref f.Typ = .named m → S m ∧ rank m < rank n)
    (ht : ∀ n, Deref t = .named n → S n) :
    ∃ fuel, (getMapping env t tagName tagFunc fuel).isSome = true := by
  obtain ⟨R, hR⟩ : ∃ R, ∀ n, Deref t = .named n → rank n < R := by
    cases hd : Deref t with
    | named n0 =>
      refine ⟨rank n0 + 1, ?_⟩
      intro n hn
      simp only [GoType.named.injEq] at hn
      subst hn
      omega
    | _ => exact ⟨0, by intro n hn; cases hn⟩
  obtain ⟨fuel, st2, h⟩ := queueLoop_terminates env tagName tagFunc S rank hS R (initState t)
    (by
      intro e he n hn
      simp only [initState, List.mem_singleton] at he
      subst he
      exact ⟨ht n hn, hR n hn⟩)
  exact ⟨fuel, by simp [getMapping, traverse, h]⟩

theorem getMapping_acyclic_terminates_witness :
    ∃ fuel, (getMapping albumEnv (.named "Album") "reflector" StdTagFunc fuel).isSome = true :=
  getMapping_acyclic_terminates albumEnv (.named "Album") "reflector" StdTagFunc
    (fun n => n = "Album" ∨ n = "Track") (fun n => if n = "Album" then 1 else 0)
    (by
      intro n hn f hf _ m hm
      rcases hn with rfl | rfl
      · simp only [albumEnv, if_true, List.mem_cons, List.mem_singleton,
          List.not_mem_nil, or_false] at hf
        rcases hf with rfl | rfl | rfl
        · simp [mkField, Deref] at hm
        · simp only [mkField, Deref, GoType.named.injEq] at hm
          subst hm
          exact ⟨Or.inr rfl, by decide⟩
        · simp only [mkField, Deref, GoType.named.injEq] at hm
          subst hm
          exact ⟨Or.inr rfl, by decide⟩
      · have he : albumEnv "Track" =
            [mkField "Name" .string [] false,
             mkField "Albums" (.slice (.named "Album")) [] false,
             mkField "ByName" (.map .string (.ptr (.named "Album"))) [] false] := by rfl
        rw [he] at hf
        simp only [List.mem_cons, List.mem_singleton, List.not_mem_nil, or_false] at hf
        rcases hf with rfl | rfl | rfl <;> simp [mkField, Deref] at hm)
    (by
      intro n hn
      simp only [Deref, GoType.named.injEq] at hn
      exact Or.inl hn.symm)

/-- C34 (counterexample): for `type Tree struct { Name string; Kids []Tree;
Index map[string]*Tree }` the traversal ends with the first queue entry: the
`StructMap` has the three fields, and `Kids` and `Index` are leaves. -/
theorem getMapping_slice_of_self_returns :
    ∃ sm, getMapping sliceEnv (.named "Tree") "reflector" StdTagFunc 1 = some (.ok sm) ∧
      sm.Fields.length = 3 ∧ (mapGet sm.Leaves "Kids").isSome = true ∧
      (mapGet sm.Leaves "Index").isSome = true :=
  ⟨_, rfl, rfl, rfl, rfl⟩

/-- For `Album` and `Track` the traversal ends after three queue entries. -/
theorem getMapping_Album_returns :
    ∃ sm, getMapping albumEnv (.named "Album") "reflector" StdTagFunc 3 = some (.ok sm) ∧
      sm.Fields.length = 9 :=
  ⟨_, rfl, rfl⟩

/-! ## The entries of a converted map -/

section MapEntries

variable (set : Value → Option Value → Outcome (Value × Option ConvError))
  (zk ze : Value) (src : GoMap Value Value)

theorem convertEntry_some (vk : Value) (c : Value × Value)
    (h : convertEntry set zk ze src vk = some c) :
    set zk (some vk) = .ok (c.1, none) ∧ set ze (keyGet src vk) = .ok (c.2, none) := by
  simp only [convertEntry] at h
  split at h
  · rename_i k v hk hv
    simp only [Option.some.injEq] at h
    subst h
    exact ⟨hk, hv⟩
  · cases h

/-- The loop of the map case ends without an error exactly when every key is
converted, and then the new map holds the converted entries, put in one after
the other. -/
theorem setEntries_ok :
    ∀ (ks : List Value) (acc res : GoMap Value Value),
      setEntries set zk ze src ks acc = .ok (res, none) ↔
        (∀ vk ∈ ks, (convertEntry set zk ze src vk).isSome = true) ∧
        res = (ks.map (fun vk => (convertEntry set zk ze src vk).getD (zk, ze))).foldl
          (fun m c => keyPut m c.1 c.2) acc := by
  intro ks
  induction ks with
  | nil =>
    intro acc res
    simp only [setEntries, Outcome.ok.injEq, Prod.mk.injEq, and_true, List.not_mem_nil,
      false_implies, implies_true, List.map_nil, List.foldl_nil, true_and]
    exact eq_comm
  | cons vk ks ih =>
    intro acc res
    simp only [setEntries, List.mem_cons, forall_eq_or_imp, List.map_cons, List.foldl_cons]
    cases hk : set zk (some vk) with
    | ok p =>
      obtain ⟨key, ek⟩ := p
      cases ek with
      | some err => simp [convertEntry, hk]
      | none =>
        cases hv : set ze (keyGet src vk) with
        | ok q =>
          obtain ⟨elem, ev⟩ := q
          cases ev with
          | some err => simp [convertEntry, hk, hv]
          | none =>
            simp only [ih, convertEntry, hk, hv, Option.isSome_some, Option.getD_some,
              true_and]
        | panic => simp [convertEntry, hk, hv]
        | outOfFuel => simp [convertEntry, hk, hv]
    | panic => simp [convertEntry, hk]
    | outOfFuel => simp [convertEntry, hk]

end MapEntries

/-- A key that equals no key of the map adds an entry at the end. -/
theorem keyPut_fresh (k v : Value) :
    ∀ (acc : GoMap Value Value), (∀ p ∈ acc, p.1.keyEq k = false) →
      keyPut acc k v = acc ++ [(k, v)] := by
  intro acc
  induction acc with
  | nil => intro _; rfl
  | cons p acc ih =>
    intro h
    obtain ⟨k1, v1⟩ := p
    have h1 : k1.keyEq k = false := h (k1, v1) (List.mem_cons_self _ _)
    simp only [keyPut, h1, Bool.false_eq_true, if_false, List.cons_append,
      ih (fun q hq => h q (List.mem_cons_of_mem _ hq))]

/-- Entries no two of whose keys are equal are all kept, in their order. -/
theorem foldl_keyPut_fresh :
    ∀ (conv acc : GoMap Value Value), distinctKeys (acc ++ conv) →
      conv.foldl (fun m c => keyPut m c.1 c.2) acc = acc ++ conv := by
  intro conv
  induction conv with
  | nil => intro acc _; simp
  | cons c cs ih =>
    intro acc hd
    have hfresh : ∀ p ∈ acc, p.1.keyEq c.1 = false := by
      intro p hp
      simp only [distinctKeys, List.pairwise_append, List.mem_cons] at hd
      exact (hd.2.2 p hp c (Or.inl rfl)).1
    rw [List.foldl_cons, keyPut_fresh c.1 c.2 acc hfresh,
      ih (acc ++ [c]) (by simpa [List.append_assoc] using hd)]
    simp

/-- In a map no two of whose keys are equal, the lookup of one of its keys
finds the entry of that key, unless the key does not equal itself. -/
theorem keyGet_of_distinct :
    ∀ (l : GoMap Value Value), distinctKeys l → ∀ k v, (k, v) ∈ l →
      keyGet l k = if k.keyEq k then some v else none := by
  intro l
  induction l with
  | nil => intro _ k v h; cases h
  | cons p l ih =>
    intro hd k v hmem
    obtain ⟨k1, v1⟩ := p
    simp only [distinctKeys, List.pairwise_cons] at hd
    obtain ⟨hhead, htail⟩ := hd
    simp only [List.mem_cons, Prod.mk.injEq] at hmem
    rcases hmem with ⟨rfl, rfl⟩ | hmem
    · cases hkk : k.keyEq k with
      | true => simp [keyGet, hkk]
      | false =>
        simp only [keyGet, hkk, Bool.false_eq_true, if_false]
        have hnone : ∀ (l2 : GoMap Value Value), (∀ q ∈ l2, q.1.keyEq k = false) →
            keyGet l2 k = none := by
          intro l2
          induction l2 with
          | nil => intro _; rfl
          | cons q l2 ih2 =>
            intro hq
            obtain ⟨k2, v2⟩ := q
            have := hq (k2, v2) (List.mem_cons_self _ _)
            simp only at this
            simp only [keyGet, this, Bool.false_eq_true, if_false]
            exact ih2 (fun q hq2 => hq q (List.mem_cons_of_mem _ hq2))
        exact hnone l (fun q hq => (hhead q hq).2)
    · have h1 : k1.keyEq k = false := (hhead (k, v) hmem).1
      simp only [keyGet, h1, Bool.false_eq_true, if_false]
      exact ih htail k v hmem

theorem distinctKeys_perm (l1 l2 : GoMap Value Value) (hp : l1.Perm l2)
    (h : distinctKeys l2) : distinctKeys l1 := by
  have hs : Symmetric (fun a b : Value × Value =>
      a.1.keyEq b.1 = false ∧ b.1.keyEq a.1 = false) := fun a b hab => ⟨hab.2, hab.1⟩
  exact (hp.pairwise_iff (fun {a b} hab => hs hab)).2 h

/-- The lookups of the keys of a map do not depend on the order of its
entries. -/
theorem keyGet_perm (l1 l2 : GoMap Value Value) (hp : l1.Perm l2) (h : distinctKeys l2)
    (k : Value) (hk : k ∈ l2.map Prod.fst) : keyGet l1 k = keyGet l2 k := by
  simp only [List.mem_map] at hk
  obtain ⟨⟨k0, v⟩, hmem, rfl⟩ := hk
  rw [keyGet_of_distinct l2 h k0 v hmem,
    keyGet_of_distinct l1 (distinctKeys_perm l1 l2 hp h) k0 v (hp.mem_iff.2 hmem)]

theorem convertAll_perm (set : Value → Option Value → Outcome (Value × Option ConvError))
    (zk ze : Value) (l1 l2 : GoMap Value Value) (hp : l1.Perm l2) (h : distinctKeys l2) :
    (convertAll set zk ze l1).Perm (convertAll set zk ze l2) := by
  have h1 : convertAll set zk ze l1 =
      l1.map (fun e => (convertEntry set zk ze l2 e.1).getD (zk, ze)) := by
    simp only [convertAll, List.map_map]
    apply List.map_congr_left
    intro e he
    simp only [Function.comp, convertEntry]
    rw [keyGet_perm l1 l2 hp h e.1 (List.mem_map_of_mem _ (hp.mem_iff.1 he))]
  have h2 : convertAll set zk ze l2 =
      l2.map (fun e => (convertEntry set zk ze l2 e.1).getD (zk, ze)) := by
    simp only [convertAll, List.map_map]
    rfl
  rw [h1, h2]
  exact hp.map _

theorem SetValue_map_unfold (env : TypeEnv) (depth fuel : Nat) (keyT elemT sk se : GoType)
    (field : Value) (entries : EntryList)
    (hfield : field = .nilMap keyT elemT ∨ ∃ old, field = .map keyT elemT old)
    (hty : GoType.map keyT elemT ≠ .map sk se) :
    SetValue env depth (fuel + 1) field (some (.map sk se entries)) =
      (match setEntries (SetValue env depth fuel) (zeroValue env depth (Deref keyT))
          (zeroValue env depth (Deref elemT)) entries.toList
          (entries.toList.map Prod.fst) [] with
       | .ok (_, some err) => .ok (field, some err)
       | .ok (es, none) =>
         if GoType.map (Deref keyT) (Deref elemT) = GoType.map keyT elemT then
           .ok (.map keyT elemT (EntryList.ofList es), none)
         else .panic
       | .panic => .panic
       | .outOfFuel => .outOfFuel) := by
  rcases hfield with rfl | ⟨old, rfl⟩ <;>
    simp [SetValue, indirect, ifaceElem, Value.Typ, hty, GoType.Kind] <;> rfl

/-- The map case of `SetValue` when source and field have the same map type:
the field is set to the source map itself. -/
theorem SetValue_map_same_type (env : TypeEnv) (depth fuel : Nat) (keyT elemT : GoType)
    (field : Value) (entries : EntryList)
    (hfield : field = .nilMap keyT elemT ∨ ∃ old, field = .map keyT elemT old) :
    SetValue env depth (fuel + 1) field (some (.map keyT elemT entries)) =
      .ok (.map keyT elemT entries, none) := by
  rcases hfield with rfl | ⟨old, rfl⟩ <;>
    simp [SetValue, indirect, ifaceElem, Value.Typ, assign, GoType.Kind]

/-- C40 (amended): `SetValue` of a map into a map field, when it returns
without an error.  When source and field have the same map type, the field
holds the source map itself.  Otherwise every key of the source has been
converted, with the element that the source holds for it, and the target holds
the converted entries, put in one after the other in the order of the visit,
so that of two entries whose converted keys are equal the later one stays.
When no two keys of the source are equal, as in every Go map, and no two
converted keys are equal, the target holds every converted entry, one per
source entry, and visiting the source in any other order gives the same
entries. -/
theorem SetValue_map_entries (env : TypeEnv) (depth fuel : Nat) (keyT elemT sk se : GoType)
    (field : Value) (entries : EntryList) (r : Value)
    (hfield : field = .nilMap keyT elemT ∨ ∃ old, field = .map keyT elemT old)
    (h : SetValue env depth (fuel + 1) field (some (.map sk se entries)) = .ok (r, none)) :
    (GoType.map keyT elemT = .map sk se → r = .map sk se entries) ∧
    (GoType.map keyT elemT ≠ .map sk se →
      (∀ vk ∈ entries.toList.map Prod.fst, (convertEntry (SetValue env depth fuel)
        (zeroValue env depth (Deref keyT)) (zeroValue env depth (Deref elemT))
        entries.toList vk).isSome = true) ∧
      r = .map keyT elemT (EntryList.ofList (putAll (convertAll (SetValue env depth fuel)
        (zeroValue env depth (Deref keyT)) (zeroValue env depth (Deref elemT))
        entries.toList))) ∧
      (distinctKeys entries.toList →
        distinctKeys (convertAll (SetValue env depth fuel) (zeroValue env depth (Deref keyT))
          (zeroValue env depth (Deref elemT)) entries.toList) →
        putAll (convertAll (SetValue env depth fuel) (zeroValue env depth (Deref keyT))
            (zeroValue env depth (Deref elemT)) entries.toList) =
          convertAll (SetValue env depth fuel) (zeroValue env depth (Deref keyT))
            (zeroValue env depth (Deref elemT)) entries.toList ∧
        (putAll (convertAll (SetValue env depth fuel) (zeroValue env depth (Deref keyT))
          (zeroValue env depth (Deref elemT)) entries.toList)).length =
            entries.toList.length ∧
        ∀ entries2 : EntryList, entries2.toList.Perm entries.toList →
          ∃ res2, SetValue env depth (fuel + 1) field (some (.map sk se entries2)) =
              .ok (.map keyT elemT (EntryList.ofList res2), none) ∧
            res2.Perm (putAll (convertAll (SetValue env depth fuel)
              (zeroValue env depth (Deref keyT)) (zeroValue env depth (Deref elemT))
              entries.toList)))) := by
  constructor
  · intro hsame
    simp only [GoType.map.injEq] at hsame
    obtain ⟨hk, he⟩ := hsame
    subst hk
    subst he
    rw [SetValue_map_same_type env depth fuel keyT elemT field entries hfield] at h
    simp only [Outcome.ok.injEq, Prod.mk.injEq, and_true] at h
    exact h.symm
  intro hty
  rw [SetValue_map_unfold env depth fuel keyT elemT sk se field entries hfield hty] at h
  cases hse : setEntries (SetValue env depth fuel) (zeroValue env depth (Deref keyT))
      (zeroValue env depth (Deref elemT)) entries.toList (entries.toList.map Prod.fst) [] with
  | panic => simp [hse] at h
  | outOfFuel => simp [hse] at h
  | ok p =>
    obtain ⟨es, e⟩ := p
    cases e with
    | some err => simp [hse] at h
    | none =>
      simp only [hse] at h
      split at h
      · rename_i hguard
        simp only [Outcome.ok.injEq, Prod.mk.injEq, and_true] at h
        obtain ⟨hall, hes⟩ := (setEntries_ok _ _ _ _ (entries.toList.map Prod.fst) [] es).1 hse
        refine ⟨hall, by rw [← h, hes]; rfl, ?_⟩
        intro hsrc hnd
        have hput : putAll (convertAll (SetValue env depth fuel)
            (zeroValue env depth (Deref keyT)) (zeroValue env depth (Deref elemT))
            entries.toList) =
            convertAll (SetValue env depth fuel) (zeroValue env depth (Deref keyT))
              (zeroValue env depth (Deref elemT)) entries.toList := by
          simp only [putAll]
          rw [foldl_keyPut_fresh _ [] (by simpa using hnd)]
          simp
        refine ⟨hput, by rw [hput]; simp [convertAll], ?_⟩
        intro entries2 hperm
        have hperm2 := convertAll_perm (SetValue env depth fuel)
          (zeroValue env depth (Deref keyT)) (zeroValue env depth (Deref elemT))
          entries2.toList entries.toList hperm hsrc
        have hnd2 : distinctKeys (convertAll (SetValue env depth fuel)
            (zeroValue env depth (Deref keyT)) (zeroValue env depth (Deref elemT))
            entries2.toList) := distinctKeys_perm _ _ hperm2 hnd
        have hall2 : ∀ vk ∈ entries2.toList.map Prod.fst,
            (convertEntry (SetValue env depth fuel) (zeroValue env depth (Deref keyT))
              (zeroValue env depth (Deref elemT)) entries2.toList vk).isSome = true := by
          intro vk hvk
          have hvk1 : vk ∈ entries.toList.map Prod.fst := (hperm.map Prod.fst).mem_iff.1 hvk
          have := hall vk hvk1
          simp only [convertEntry] at this ⊢
          rw [keyGet_perm entries2.toList entries.toList hperm hsrc vk hvk1]
          exact this
        refine ⟨putAll (convertAll (SetValue env depth fuel)
          (zeroValue env depth (Deref keyT)) (zeroValue env depth (Deref elemT))
          entries2.toList), ?_, ?_⟩
        · rw [SetValue_map_unfold env depth fuel keyT elemT sk se field entries2 hfield hty]
          have h2 := (setEntries_ok (SetValue env depth fuel)
            (zeroValue env depth (Deref keyT)) (zeroValue env depth (Deref elemT))
            entries2.toList (entries2.toList.map Prod.fst) [] _).2 ⟨hall2, rfl⟩
          rw [h2]
          simp only [hguard, if_true]
          rfl
        · have hput2 : putAll (convertAll (SetValue env depth fuel)
              (zeroValue env depth (Deref keyT)) (zeroValue env depth (Deref elemT))
              entries2.toList) =
              convertAll (SetValue env depth fuel) (zeroValue env depth (Deref keyT))
                (zeroValue env depth (Deref elemT)) entries2.toList := by
            simp only [putAll]
            rw [foldl_keyPut_fresh _ [] (by simpa using hnd2)]
            simp
          rw [hput2, hput]
          exact hperm2
      · cases h

/-- C40 (counterexample): the keys "1" and "01" of a `map[string]interface{}`
both convert to the key 1 of a `map[int]string`.  `SetValue` returns without an
error, the target has one entry for the two source entries, and its value is
that of the entry visited last. -/
theorem SetValue_map_keys_collide :
    SetValue testEnv 3 3 (.nilMap (.int .Int) .string) (some (octalKeys false)) =
      .ok (.map (.int .Int) .string (EntryList.ofList [(.int .Int 1, .str "b")]), none) ∧
    SetValue testEnv 3 3 (.nilMap (.int .Int) .string) (some (octalKeys true)) =
      .ok (.map (.int .Int) .string (EntryList.ofList [(.int .Int 1, .str "a")]), none) := by
  constructor <;> rfl

/-- The keys "0" and "-0" of a `map[string]string` convert to the floats `0`
and `-0`, which are equal: a `map[float64]string` gets one entry, with the key
and the value of the entry visited last. -/
theorem SetValue_map_zero_keys_merge :
    SetValue testEnv 3 3 (.nilMap (.float .Float64) .string)
        (some (.map .string .iface (EntryList.ofList
          [(.str "0", .iface (.str "a")), (.str "-0", .iface (.str "b"))]))) =
      .ok (.map (.float .Float64) .string
        (EntryList.ofList [(.float .Float64 .negZero, .str "b")]), none) ∧
    SetValue testEnv 3 3 (.nilMap (.float .Float64) .string)
        (some (.map .string .iface (EntryList.ofList
          [(.str "-0", .iface (.str "b")), (.str "0", .iface (.str "a"))]))) =
      .ok (.map (.float .Float64) .string
        (EntryList.ofList [(.float .Float64 (.fin 0 0), .str "a")]), none) := by
  constructor <;> rfl

theorem SetValue_map_entries_witness :
    ((∀ vk ∈ (EntryList.ofList [(Value.str "1", Value.iface (.str "a")),
        (Value.str "2", Value.iface (.str "b"))]).toList.map Prod.fst,
      (convertEntry (SetValue testEnv 3 2) (zeroValue testEnv 3 (Deref (.int .Int)))
        (zeroValue testEnv 3 (Deref .string))
        (EntryList.ofList [(Value.str "1", Value.iface (.str "a")),
          (Value.str "2", Value.iface (.str "b"))]).toList vk).isSome = true) ∧
    Value.map (.int .Int) .string
        (EntryList.ofList [(.int .Int 1, .str "a"), (.int .Int 2, .str "b")]) =
      .map (.int .Int) .string (EntryList.ofList (putAll (convertAll (SetValue testEnv 3 2)
        (zeroValue testEnv 3 (Deref (.int .Int))) (zeroValue testEnv 3 (Deref .string))
        (EntryList.ofList [(Value.str "1", Value.iface (.str "a")),
          (Value.str "2", Value.iface (.str "b"))]).toList)))) ∧
    (putAll (convertAll (SetValue testEnv 3 2)
        (zeroValue testEnv 3 (Deref (.int .Int))) (zeroValue testEnv 3 (Deref .string))
        (EntryList.ofList [(Value.str "1", Value.iface (.str "a")),
          (Value.str "2", Value.iface (.str "b"))]).toList)).length =
      (EntryList.ofList [(Value.str "1", Value.iface (.str "a")),
        (Value.str "2", Value.iface (.str "b"))]).toList.length ∧
    ∃ res2, SetValue testEnv 3 3 (.nilMap (.int .Int) .string)
        (some (.map .string .iface (EntryList.ofList
          [(.str "2", .iface (.str "b")), (.str "1", .iface (.str "a"))]))) =
        .ok (.map (.int .Int) .string (EntryList.ofList res2), none) ∧
      res2.Perm (putAll (convertAll (SetValue testEnv 3 2)
        (zeroValue testEnv 3 (Deref (.int .Int))) (zeroValue testEnv 3 (Deref .string))
        (EntryList.ofList [(Value.str "1", Value.iface (.str "a")),
          (Value.str "2", Value.iface (.str "b"))]).toList)) :=
  ⟨⟨((SetValue_map_entries testEnv 3 2 (.int .Int) .string .string .iface
      (.nilMap (.int .Int) .string)
      (EntryList.ofList [(.str "1", .iface (.str "a")), (.str "2", .iface (.str "b"))])
      (.map (.int .Int) .string
        (EntryList.ofList [(.int .Int 1, .str "a"), (.int .Int 2, .str "b")]))
      (Or.inl rfl) rfl).2 (by decide)).1,
    ((SetValue_map_entries testEnv 3 2 (.int .Int) .string .string .iface
      (.nilMap (.int .Int) .string)
      (EntryList.ofList [(.str "1", .iface (.str "a")), (.str "2", .iface (.str "b"))])
      (.map (.int .Int) .string
        (EntryList.ofList [(.int .Int 1, .str "a"), (.int .Int 2, .str "b")]))
      (Or.inl rfl) rfl).2 (by decide)).2.1⟩,
   (((SetValue_map_entries testEnv 3 2 (.int .Int) .string .string .iface
      (.nilMap (.int .Int) .string)
      (EntryList.ofList [(.str "1", .iface (.str "a")), (.str "2", .iface (.str "b"))])
      (.map (.int .Int) .string
        (EntryList.ofList [(.int .Int 1, .str "a"), (.int .Int 2, .str "b")]))
      (Or.inl rfl) rfl).2 (by decide)).2.2
      (by simp [distinctKeys, EntryList.ofList, EntryList.toList, Value.keyEq])
      (by
        have hc : convertAll (SetValue testEnv 3 2) (zeroValue testEnv 3 (Deref (.int .Int)))
            (zeroValue testEnv 3 (Deref .string))
            (EntryList.ofList [(Value.str "1", Value.iface (.str "a")),
              (Value.str "2", Value.iface (.str "b"))]).toList =
            [(.int .Int 1, .str "a"), (.int .Int 2, .str "b")] := rfl
        rw [hc]
        simp [distinctKeys, Value.keyEq])).2.1,
   (((SetValue_map_entries testEnv 3 2 (.int .Int) .string .string .iface
      (.nilMap (.int .Int) .string)
      (EntryList.ofList [(.str "1", .iface (.str "a")), (.str "2", .iface (.str "b"))])
      (.map (.int .Int) .string
        (EntryList.ofList [(.int .Int 1, .str "a"), (.int .Int 2, .str "b")]))
      (Or.inl rfl) rfl).2 (by decide)).2.2
      (by simp [distinctKeys, EntryList.ofList, EntryList.toList, Value.keyEq])
      (by
        have hc : convertAll (SetValue testEnv 3 2) (zeroValue testEnv 3 (Deref (.int .Int)))
            (zeroValue testEnv 3 (Deref .string))
            (EntryList.ofList [(Value.str "1", Value.iface (.str "a")),
              (Value.str "2", Value.iface (.str "b"))]).toList =
            [(.int .Int 1, .str "a"), (.int .Int 2, .str "b")] := rfl
        rw [hc]
        simp [distinctKeys, Value.keyEq])).2.2
      (EntryList.ofList [(.str "2", .iface (.str "b")), (.str "1", .iface (.str "a"))])
      (by
        simp only [EntryList.ofList, EntryList.toList]
        exact List.Perm.swap _ _ _)⟩

/-! ## Two default instances of one type -/

theorem AllocDefaultCached_again (env : TypeEnv) (dm : DefaultMapper)
    (buildFuel depth fuel : Nat) (st st1 : DefaultState) (typ : GoType) (inst : List Cell)
    (h : AllocDefaultCached env dm buildFuel depth fuel st typ = .ok (inst, st1)) :
    AllocDefaultCached env dm buildFuel depth fuel st1 typ = .ok (inst, st1) := by
  simp only [AllocDefaultCached] at h
  cases hc : mapGet st.cache (Deref typ) with
  | some cells =>
    simp only [hc, Outcome.ok.injEq, Prod.mk.injEq] at h
    obtain ⟨h1, h2⟩ := h
    subst h1 h2
    simp only [AllocDefaultCached, hc]
  | none =>
    simp only [hc] at h
    cases hds : getDefaultStruct env dm buildFuel depth fuel (Deref typ) with
    | ok ds =>
      simp only [hds] at h
      cases hv : ds.defaultVal with
      | struct n fs =>
        simp only [hv, Outcome.ok.injEq, Prod.mk.injEq] at h
        obtain ⟨h1, h2⟩ := h
        subst h1 h2
        simp only [AllocDefaultCached, mapGet_mapPut, if_true]
      | _ => simp [hv] at h
    | panic => simp [hds] at h
    | outOfFuel => simp [hds] at h

/-- C25: two calls of `AllocDefault` for one type return structs with the same
cells: a slice field of the second instance has the header of the first, with
the address of the same backing array, the one of the cached default value.
An element written through the first instance is the element read through the
second.  For `FooBarStruct`, after `first.Bar[0] = 99` the second instance
reads 99 in `Bar[0]`, where it read 1 before. -/
theorem AllocDefault_instances_share_slices (env : TypeEnv) (dm : DefaultMapper)
    (buildFuel depth fuel : Nat) (st : DefaultState) (typ : GoType) :
    (∀ first st1, AllocDefaultCached env dm buildFuel depth fuel st typ = .ok (first, st1) →
      AllocDefaultCached env dm buildFuel depth fuel st1 typ = .ok (first, st1) ∧
      ∀ (i : Nat) (elem : GoType) (addr len j : Nat) (x : Value),
        first[i]? = some (Cell.sliceAt elem addr len) →
        j < len → addr < st1.store.length → j < (st1.store.getD addr []).length →
        readElem (writeElem st1.store (.sliceAt elem addr len) j x)
          (.sliceAt elem addr len) j = some x) ∧
    (∃ first second st1 st2,
      AllocDefaultCached defaultEnv defaultMapper 10 5 5 ⟨[], []⟩
        (.named "reflectx.FooBarStruct") = .ok (first, st1) ∧
      AllocDefaultCached defaultEnv defaultMapper 10 5 5 st1
        (.named "reflectx.FooBarStruct") = .ok (second, st2) ∧
      readElem st2.store (second.getD 7 (.val .nilIface)) 0 = some (.int .Int16 1) ∧
      readElem (writeElem st2.store (first.getD 7 (.val .nilIface)) 0 (.int .Int16 99))
        (second.getD 7 (.val .nilIface)) 0 = some (.int .Int16 99)) := by
  constructor
  · intro first st1 h
    refine ⟨AllocDefaultCached_again env dm buildFuel depth fuel st st1 typ first h, ?_⟩
    intro i elem addr len j x _ hj ha hjl
    simp only [readElem, writeElem, hj, if_true, List.getD_eq_getElem?_getD,
      List.getElem?_set_self ha, Option.getD_some]
    rw [List.getElem?_set_self]
    simpa [List.getD_eq_getElem?_getD] using hjl
  · exact ⟨_, _, _, _, rfl, rfl, rfl, rfl⟩

/-! ## Defaults inside a struct behind a pointer -/

theorem setByKind_scalar (s : String) (ft : GoType) (v w : Value)
    (h : setByKind s ft v = (w, none)) : w.isScalar := by
  cases v <;> simp only [setByKind] at h
  case bool b =>
    split at h <;> simp only [Prod.mk.injEq] at h
    · rw [← h.1]; trivial
    · cases h.2
  case int k n =>
    split at h <;> simp only [Prod.mk.injEq] at h
    · rw [← h.1]; trivial
    · cases h.2
  case uint k n =>
    split at h <;> simp only [Prod.mk.injEq] at h
    · rw [← h.1]; trivial
    · cases h.2
  case float k f =>
    split at h <;> simp only [Prod.mk.injEq] at h
    · rw [← h.1]; trivial
    · cases h.2
  case str x =>
    simp only [Prod.mk.injEq] at h
    rw [← h.1]; trivial
  all_goals (simp only [Prod.mk.injEq] at h; cases h.2)

/-- What `StrToValue` stores in a zero value when it returns no error: a scalar
for a type that is not a pointer, and for a pointer type a nil pointer or a
pointer to a scalar. -/
theorem StrToValue_zero_shape (env : TypeEnv) (depth : Nat) (p : String) (fT : GoType) (v : Value)
    (h : StrToValue env depth p (zeroValue env depth fT) = (v, none)) :
    fT ≠ .iface ∧
    ((∃ e, fT = .ptr e ∧ (v = .nilPtr e ∨ ∃ x, v = .ptr x ∧ x.isScalar)) ∨
      ((∀ e, fT ≠ .ptr e) ∧ v.isScalar)) := by
  cases fT with
  | ptr e =>
    refine ⟨by simp, Or.inl ⟨e, rfl, ?_⟩⟩
    simp only [zeroValue, StrToValue] at h
    split at h
    · simp only [Prod.mk.injEq] at h
      exact Or.inl h.1.symm
    · simp only [Prod.mk.injEq] at h
      refine Or.inr ⟨_, h.1.symm, ?_⟩
      exact setByKind_scalar p (.ptr e) (zeroValue env depth e) _ (Prod.ext rfl h.2)
  | named n =>
    cases depth <;> simp [zeroValue, StrToValue, setByKind] at h
  | iface => simp [zeroValue, StrToValue, setByKind] at h
  | _ =>
    simp only [zeroValue, StrToValue] at h
    exact ⟨by simp, Or.inr ⟨by simp, setByKind_scalar p _ _ v h⟩⟩

/-- The default that `getDefaultStruct` builds for a child whose type is not a
struct is not a struct, not a pointer to a struct, not an interface and not a
nil pointer; the type of the child is not an interface. -/
theorem fieldDefault_leaf_shape (env : TypeEnv) (depth : Nat)
    (gds : GoType → Outcome defaultStruct) (fi : FieldInfo)
    (hleaf : (Deref fi.Typ).Kind ≠ Kind.Struct) (dval : Value)
    (h : fieldDefault env depth gds fi = .ok (some dval)) :
    (∀ n fs, dval ≠ .struct n fs) ∧ (∀ n fs, dval ≠ .ptr (.struct n fs)) ∧
      dval.Typ.Kind ≠ Kind.Interface ∧ Deref fi.Typ ≠ .iface ∧ (∀ e, dval ≠ .nilPtr e) := by
  simp only [fieldDefault] at h
  split at h
  · rename_i dv heq
    simp only [Outcome.ok.injEq, Option.some.injEq] at h
    have hdv : Deref fi.Typ ≠ .iface ∧ ((∃ k e xs, dv = .map k e xs) ∨ (∃ e xs, dv = .slice e xs) ∨
        (∃ e, Deref fi.Typ = .ptr e ∧ (dv = .nilPtr e ∨ ∃ x, dv = .ptr x ∧ x.isScalar)) ∨
        ((∀ e, Deref fi.Typ ≠ .ptr e) ∧ dv.isScalar)) := by
      cases hd : Deref fi.Typ with
      | named n => rw [hd] at hleaf; exact absurd rfl hleaf
      | map k e =>
        rw [hd] at heq
        simp only at heq
        cases hm : defaultEntries env depth k e fi.Options [] with
        | ok mp =>
          rw [hm] at heq
          simp only [Outcome.ok.injEq, Option.some.injEq] at heq
          exact ⟨by simp, Or.inl ⟨_, _, _, heq.symm⟩⟩
        | panic => rw [hm] at heq; cases heq
        | outOfFuel => rw [hm] at heq; cases heq
      | slice e =>
        rw [hd] at heq
        simp only at heq
        cases hm : defaultElems env depth e fi.Parts with
        | ok vs =>
          rw [hm] at heq
          simp only [Outcome.ok.injEq, Option.some.injEq] at heq
          exact ⟨by simp, Or.inr (Or.inl ⟨_, _, heq.symm⟩)⟩
        | panic => rw [hm] at heq; cases heq
        | outOfFuel => rw [hm] at heq; cases heq
      | _ =>
        rw [hd] at heq
        simp only at heq
        cases hp : fi.Parts with
        | nil => rw [hp] at heq; cases heq
        | cons p rest =>
          rw [hp] at heq
          simp only at heq
          cases hs : StrToValue env depth p (zeroValue env depth _) with
          | mk v e =>
            cases e with
            | none =>
              rw [hs] at heq
              simp only [Outcome.ok.injEq, Option.some.injEq] at heq
              subst heq
              have := StrToValue_zero_shape env depth p _ v hs
              exact ⟨this.1, Or.inr (Or.inr this.2)⟩
            | some e => rw [hs] at heq; cases heq
    obtain ⟨hif, hdv⟩ := hdv
    have hni : fi.Typ ≠ .iface := by
      intro hc
      rw [hc] at hif
      exact hif rfl
    cases hft : fi.Typ with
    | iface => exact absurd hft hni
    | ptr e0 =>
      rw [hft] at h
      simp only at h
      subst h
      refine ⟨by simp, ?_, by simp [Value.Typ, GoType.Kind], hft ▸ hif, by simp⟩
      intro n fs hc
      simp only [Value.ptr.injEq] at hc
      subst hc
      rcases hdv with ⟨_, _, _, h1⟩ | ⟨_, _, h1⟩ | ⟨_, _, h1 | ⟨_, h1, _⟩⟩ | ⟨_, h1⟩
      · cases h1
      · cases h1
      · cases h1
      · cases h1
      · exact h1
    | _ =>
      rw [hft] at h hdv hif
      simp only [Deref] at h hdv hif
      subst h
      rcases hdv with ⟨_, _, _, h1⟩ | ⟨_, _, h1⟩ | ⟨e, h0, _⟩ | ⟨_, h1⟩
      · subst h1
        simp [Value.Typ, GoType.Kind, Deref, hft]
      · subst h1
        simp [Value.Typ, GoType.Kind, Deref, hft]
      · cases h0
      · refine ⟨?_, ?_, ?_, by simp [Deref, hft], ?_⟩
        · intro n fs hc; subst hc; exact h1
        · intro n fs hc; subst hc; exact h1
        · intro hc
          cases dv with
          | int k n => cases k <;> simp [Value.Typ, GoType.Kind, IntKind.Kind] at hc
          | uint k n => cases k <;> simp [Value.Typ, GoType.Kind, UintKind.Kind] at hc
          | float k n => cases k <;> simp [Value.Typ, GoType.Kind, FloatKind.Kind] at hc
          | bool b => simp [Value.Typ, GoType.Kind] at hc
          | str b => simp [Value.Typ, GoType.Kind] at hc
          | _ => exact h1
        · intro e hc; subst hc; exact h1
  · rename_i hne
    exact absurd h (hne dval)

/-- For a child whose type is not a struct, the default depends on the type,
the parts and the options of the child only. -/
theorem fieldDefault_leaf_congr (env : TypeEnv) (depth : Nat)
    (gds1 gds2 : GoType → Outcome defaultStruct) (fi1 fi2 : FieldInfo)
    (hT : fi1.Typ = fi2.Typ) (hP : fi1.Parts = fi2.Parts) (hO : fi1.Options = fi2.Options)
    (hleaf : (Deref fi1.Typ).Kind ≠ Kind.Struct) :
    fieldDefault env depth gds1 fi1 = fieldDefault env depth gds2 fi2 := by
  simp only [fieldDefault, hT, hP, hO]
  rw [hT] at hleaf
  cases hd : Deref fi2.Typ with
  | named n => rw [hd] at hleaf; exact absurd rfl hleaf
  | _ => rfl

/-- When `getDefaultStruct` returns, `getMapping` has returned a tree. -/
theorem getDefaultStruct_mapping (env : TypeEnv) (dm : DefaultMapper)
    (buildFuel depth fuel : Nat) (typ : GoType) (ds : defaultStruct)
    (h : getDefaultStruct env dm buildFuel depth fuel typ = .ok ds) :
    ∃ sm, getMapping env typ dm.tagName dm.tagFunc buildFuel = some (.ok sm) := by
  cases fuel with
  | zero => simp [getDefaultStruct] at h
  | succ fuel =>
    simp only [getDefaultStruct] at h
    split at h
    · cases h
    · cases hm : getMapping env typ dm.tagName dm.tagFunc buildFuel with
      | none => simp [hm] at h
      | some res =>
        cases res with
        | error e => simp [hm] at h
        | ok sm => exact ⟨sm, rfl⟩

/-- A step of `getDefaultStruct` leaves the list of fields as it is or adds the
field of the child with its default. -/
theorem defaultStep_fields_of (env : TypeEnv) (depth : Nat) (typ : GoType)
    (gds : GoType → Outcome defaultStruct) (heap : Heap) (c : Nat) (ds ds1 : defaultStruct)
    (h : defaultStep env depth typ gds heap (.ok ds) c = .ok ds1) :
    (ds1.fields = ds.fields ∧
      (((Deref (deref heap c).Typ).Kind ≠ Kind.Struct ∧ (deref heap c).Parts.length = 0) ∨
        fieldDefault env depth gds (deref heap c) = .ok none)) ∨
      ∃ dval, fieldDefault env depth gds (deref heap c) = .ok (some dval) ∧
        ds1.fields = ds.fields ++
          [⟨(deref heap c).Index, zeroValue env depth (Deref (deref heap c).Typ), dval⟩] := by
  simp only [defaultStep] at h
  split at h
  · rename_i hskip
    simp only [Outcome.ok.injEq] at h
    exact Or.inl ⟨by rw [← h], Or.inl hskip⟩
  · cases hfd : fieldDefault env depth gds (deref heap c) with
    | ok o =>
      cases o with
      | none =>
        simp only [hfd, Outcome.ok.injEq] at h
        exact Or.inl ⟨by rw [← h], Or.inr rfl⟩
      | some dval =>
        simp only [hfd] at h
        split at h
        · cases hu : updateAt env depth
              (fun ro old => if ro then .panic
                else if old.Typ = dval.Typ then .ok (dval, none) else .panic)
              ds.defaultVal (deref heap c).Index with
          | ok p =>
            simp only [hu, Outcome.ok.injEq] at h
            subst h
            exact Or.inr ⟨dval, rfl, rfl⟩
          | panic => simp [hu] at h
          | outOfFuel => simp [hu] at h
        · cases h
    | panic => simp [hfd] at h
    | outOfFuel => simp [hfd] at h

/-- Every field that `getDefaultStruct` lists is the field of a child of the
root, with the default built for that child. -/
theorem getDefaultStruct_fields_of (env : TypeEnv) (dm : DefaultMapper)
    (buildFuel depth fuel : Nat) (typ : GoType) (sm : StructMap) (ds : defaultStruct)
    (hgm : getMapping env typ dm.tagName dm.tagFunc buildFuel = some (.ok sm))
    (h : getDefaultStruct env dm buildFuel depth (fuel + 1) typ = .ok ds) :
    ∀ df ∈ ds.fields, ∃ c dval, c ∈ (deref sm.heap sm.Tree).Children ∧
      df = ⟨(deref sm.heap c).Index, zeroValue env depth (Deref (deref sm.heap c).Typ), dval⟩ ∧
      fieldDefault env depth (getDefaultStruct env dm buildFuel depth fuel) (deref sm.heap c) =
        .ok (some dval) := by
  simp only [getDefaultStruct, hgm] at h
  split at h
  · cases h
  · refine foldl_ok_inv _ (defaultStep_failed env depth typ _ sm.heap)
      (fun z => ∀ df ∈ z.fields, ∃ c dval, c ∈ (deref sm.heap sm.Tree).Children ∧
        df = ⟨(deref sm.heap c).Index, zeroValue env depth (Deref (deref sm.heap c).Typ), dval⟩ ∧
        fieldDefault env depth (getDefaultStruct env dm buildFuel depth fuel) (deref sm.heap c) =
          .ok (some dval)) _ _ ds ?_ ?_ h
    · intro b hb x y hx hxy df hdf
      rcases defaultStep_fields_of env depth typ _ sm.heap b x y hxy with ⟨h1, _⟩ | ⟨dval, h1, h2⟩
      · rw [h1] at hdf
        exact hx df hdf
      · rw [h2, List.mem_append, List.mem_singleton] at hdf
        rcases hdf with hdf | hdf
        · exact hx df hdf
        · exact ⟨b, dval, hb, hdf, h1⟩
    · intro df hdf
      simp at hdf

/-- A child of the root for which the loop of `getDefaultStruct` does not reach
`continue` is listed among the fields with a default. -/
theorem getDefaultStruct_field_mem (env : TypeEnv) (dm : DefaultMapper)
    (buildFuel depth fuel : Nat) (typ : GoType) (sm : StructMap) (ds : defaultStruct) (c : Nat)
    (hgm : getMapping env typ dm.tagName dm.tagFunc buildFuel = some (.ok sm))
    (h : getDefaultStruct env dm buildFuel depth (fuel + 1) typ = .ok ds)
    (hc : c ∈ (deref sm.heap sm.Tree).Children)
    (hns : ¬ ((Deref (deref sm.heap c).Typ).Kind ≠ Kind.Struct ∧
      (deref sm.heap c).Parts.length = 0))
    (hsome : fieldDefault env depth (getDefaultStruct env dm buildFuel depth fuel)
      (deref sm.heap c) ≠ .ok none) :
    ∃ df ∈ ds.fields, df.index = (deref sm.heap c).Index := by
  simp only [getDefaultStruct, hgm] at h
  split at h
  · cases h
  · obtain ⟨pre, post, hsplit⟩ := List.append_of_mem hc
    rw [hsplit] at h
    obtain ⟨x, y, hx, hy, hpost⟩ := foldl_ok_split _
      (defaultStep_failed env depth typ _ sm.heap) pre c post _ ds h
    have hy1 : ∃ df ∈ y.fields, df.index = (deref sm.heap c).Index := by
      rcases defaultStep_fields_of env depth typ _ sm.heap c x y hy with
        ⟨_, h1 | h1⟩ | ⟨dval, _, h2⟩
      · exact absurd h1 hns
      · exact absurd h1 hsome
      · exact ⟨_, by rw [h2]; exact List.mem_append_right _ (List.mem_singleton.2 rfl), rfl⟩
    refine foldl_ok_inv _ (defaultStep_failed env depth typ _ sm.heap)
      (fun z => ∃ df ∈ z.fields, df.index = (deref sm.heap c).Index) post y ds ?_ hy1 hpost
    intro b _ a1 a2 ⟨df, hdf, hidx⟩ ha12
    exact ⟨df, defaultStep_fields_mono env depth typ _ sm.heap b a1 a2 ha12 df hdf, hidx⟩

theorem set_getElem?_same {α : Type} (l : List α) (i : Nat) (v : α) (h : l[i]? = some v) :
    l.set i v = l := by
  apply List.ext_getElem?
  intro k
  by_cases hk : i = k
  · subst hk
    rw [List.getElem?_set_self (List.getElem?_eq_some_iff.1 h).1, h]
  · rw [List.getElem?_set_ne hk]

/-- A pass of the loop of `SetDefault` returns a struct of the same type. -/
theorem setDefaultField_struct (env : TypeEnv) (sd : Value → Outcome Value)
    (n : String) (gs : ValueList) (df : defaultField) (acc1 : Value)
    (h : setDefaultField env sd (.ok (.struct n gs)) df = .ok acc1) :
    ∃ i rest v, df.index = i :: rest ∧ gs.toList[i]? = some v ∧
      ∃ nv, acc1 = .struct n (ValueList.ofList (gs.toList.set i nv)) := by
  simp only [setDefaultField] at h
  cases hidx : df.index with
  | nil => simp [hidx] at h
  | cons i irest =>
    simp only [hidx] at h
    cases hfi : gs.toList[i]? with
    | none => simp [hfi] at h
    | some v =>
      simp only [hfi] at h
      have hsame : Value.struct n gs = .struct n (ValueList.ofList (gs.toList.set i v)) := by
        rw [set_getElem?_same _ i v hfi, ValueList.ofList_toList_values]
      refine ⟨i, irest, v, rfl, hfi, ?_⟩
      split at h
      · split at h
        · exact ⟨_, by simpa using h.symm⟩
        · cases h
      · split at h
        · split at h
          · exact ⟨_, by simpa using h.symm⟩
          · cases h
          · cases h
        · cases h
      · exact ⟨_, by rw [← hsame]; simpa using h.symm⟩
      · split at h
        · split at h
          · exact ⟨_, by simpa using h.symm⟩
          · cases h
          · cases h
        · cases h
      · split at h
        · split at h
          · split at h
            · exact ⟨_, by simpa using h.symm⟩
            · cases h
          · exact ⟨_, by rw [← hsame]; simpa using h.symm⟩
        · cases h

/-- A pass of the loop of `SetDefault` for a field with another first position
leaves field `j` as it is. -/
theorem setDefaultField_off (env : TypeEnv) (sd : Value → Outcome Value)
    (n : String) (gs : ValueList) (df : defaultField) (acc1 : Value) (i j : Nat)
    (rest : List Nat) (hidx : df.index = i :: rest) (hij : i ≠ j)
    (h : setDefaultField env sd (.ok (.struct n gs)) df = .ok acc1) :
    ∃ gs1, acc1 = .struct n gs1 ∧ gs1.toList[j]? = gs.toList[j]? := by
  obtain ⟨i2, rest2, v, hidx2, _, nv, hacc⟩ := setDefaultField_struct env sd n gs df acc1 h
  rw [hidx] at hidx2
  simp only [List.cons.injEq] at hidx2
  obtain ⟨rfl, _⟩ := hidx2
  exact ⟨_, hacc, by rw [ValueList.toList_ofList_values, List.getElem?_set_ne hij]⟩

/-- A value deeply equal to the zero value of a type has that type. -/
theorem deepEqual_zero_Typ (env : TypeEnv) (d : Nat) (t : GoType) (v : Value)
    (h : deepEqual (zeroValue env d t) v = true) : v.Typ = t := by
  cases t <;> cases d <;> cases v <;>
    simp_all [zeroValue, deepEqual, Value.Typ]

/-- The pass of the loop of `SetDefault` for a field whose type is not a struct,
when the field is zero or holds the default already: the field holds the
default afterwards. -/
theorem setDefaultField_own (env : TypeEnv) (depth : Nat) (sd : Value → Outcome Value)
    (n : String) (gs : ValueList) (df : defaultField) (acc1 : Value) (j : Nat)
    (rest : List Nat) (T : GoType) (dval v : Value)
    (hidx : df.index = j :: rest)
    (hz : df.zero = zeroValue env depth (Deref T)) (hd : df.defaultVal = dval)
    (hleaf : (Deref T).Kind ≠ Kind.Struct)
    (hs1 : ∀ n fs, dval ≠ .struct n fs) (hs2 : ∀ n fs, dval ≠ .ptr (.struct n fs))
    (hs3 : dval.Typ.Kind ≠ Kind.Interface) (hif : Deref T ≠ .iface)
    (hv : gs.toList[j]? = some v)
    (hZ : deepEqual (zeroValue env depth T) v = true ∨ v = dval)
    (h : setDefaultField env sd (.ok (.struct n gs)) df = .ok acc1) :
    ∃ gs1, acc1 = .struct n gs1 ∧ gs1.toList[j]? = some dval := by
  have hlt : j < gs.toList.length := (List.getElem?_eq_some_iff.1 hv).1
  have hTs : ∀ m, T ≠ .named m := by
    intro m hc
    rw [hc] at hleaf
    exact hleaf rfl
  have hTi : T ≠ .iface := by
    intro hc
    rw [hc] at hif
    exact hif rfl
  have F1 : ∀ m fs, v ≠ .struct m fs := by
    intro m fs hc
    rcases hZ with hZ | hZ
    · have := deepEqual_zero_Typ env depth T v hZ
      rw [hc] at this
      exact hTs m this.symm
    · exact hs1 m fs (hZ ▸ hc)
  have F2 : ∀ x, v = .ptr x → v = dval ∧ ∀ m fs, x ≠ .struct m fs := by
    intro x hc
    rcases hZ with hZ | hZ
    · rw [hc, deepEqual_zero_ptr] at hZ
      cases hZ
    · refine ⟨hZ, ?_⟩
      intro m fs hx
      rw [hx] at hc
      exact hs2 m fs (hZ ▸ hc)
  have F3 : v.Typ.Kind ≠ Kind.Interface := by
    rcases hZ with hZ | hZ
    · rw [deepEqual_zero_Typ env depth T v hZ]
      intro hc
      cases T <;> first | exact hTi rfl | skip
      all_goals first
        | (simp [GoType.Kind] at hc; done)
        | (rename_i k; cases k <;> simp [GoType.Kind, IntKind.Kind, UintKind.Kind, FloatKind.Kind,
            OtherKind.Kind] at hc)
    · rw [hZ]
      exact hs3
  have F4 : (∀ e, v ≠ .nilPtr e) → deepEqual df.zero v = false → v = dval := by
    intro hnp hne
    rcases hZ with hZ | hZ
    · exfalso
      have hT : Deref T = T := by
        cases T with
        | ptr e =>
          exfalso
          cases v <;> simp [zeroValue, deepEqual] at hZ
          exact hnp _ rfl
        | _ => rfl
      rw [hz, hT, hZ] at hne
      cases hne
    · exact hZ
  simp only [setDefaultField, hidx, hv] at h
  split at h
  · split at h
    · simp only [Outcome.ok.injEq] at h
      exact ⟨_, h.symm, by rw [ValueList.toList_ofList_values, List.getElem?_set_self hlt, hd]⟩
    · cases h
  · exact absurd rfl ((F2 _ rfl).2 _ _)
  · simp only [Outcome.ok.injEq] at h
    exact ⟨gs, h.symm, by rw [hv, (F2 _ rfl).1]⟩
  · exact absurd rfl (F1 _ _)
  · rename_i hn1 hn2 hn3 hn4
    split at h
    · split at h
      · split at h
        · simp only [Outcome.ok.injEq] at h
          refine ⟨_, h.symm, ?_⟩
          rw [ValueList.toList_ofList_values, List.getElem?_set_self hlt, assign, if_neg F3, hd]
        · cases h
      · rename_i hde
        simp only [Outcome.ok.injEq] at h
        refine ⟨gs, h.symm, ?_⟩
        rw [hv, F4 (fun e hc => hn1 e hc) (by simpa using hde)]
    · cases h

/-- `SetDefault` on a struct: a declared field whose type is not a struct and
that has a default, when it is zero (or holds the default already), holds the
default afterwards. -/
theorem SetDefault_sets_leaf (env : TypeEnv) (dm : DefaultMapper)
    (buildFuel depth dsFuel fuel : Nat) (n2 : String) (j : Nat) (fj : StructField)
    (gs : ValueList) (y : Value)
    (hfj : (env n2)[j]? = some fj) (hskj : skipField dm.tagName dm.tagFunc fj = false)
    (hleaf : (Deref fj.Typ).Kind ≠ Kind.Struct)
    (hparts : (dm.tagFunc fj.Name (fieldTag fj dm.tagName)).2 ≠ [])
    (h : SetDefault env dm buildFuel depth dsFuel fuel (.struct n2 gs) = .ok y) :
    ∃ dval, fieldDefault env depth (fun _ => .panic)
        (newFieldInfo dm.tagName dm.tagFunc [] ⟨.named n2, 0, []⟩ j fj) = .ok (some dval) ∧
      ∀ v, gs.toList[j]? = some v →
        (deepEqual (zeroValue env depth fj.Typ) v = true ∨ v = dval) →
        ∃ gs1, y = .struct n2 gs1 ∧ gs1.toList[j]? = some dval := by
  cases fuel with
  | zero => simp [SetDefault] at h
  | succ fuel =>
    simp only [SetDefault, Value.Typ] at h
    cases hds : getDefaultStruct env dm buildFuel depth dsFuel (.named n2) with
    | panic => simp [hds] at h
    | outOfFuel => simp [hds] at h
    | ok ds =>
      simp only [hds] at h
      cases dsFuel with
      | zero => simp [getDefaultStruct] at hds
      | succ dsFuel =>
        obtain ⟨sm, hgm⟩ := getDefaultStruct_mapping env dm buildFuel depth _ _ ds hds
        obtain ⟨inv, htree⟩ := getMapping_inv env (.named n2) dm.tagName dm.tagFunc buildFuel sm hgm
        obtain ⟨c, hc, hc1, hc2, hidx, hcT, hcP, hcO⟩ :=
          inv.root_leaf_child
            (show (fieldsOf env (Deref (.named n2)))[j]? = some fj by
              simpa [fieldsOf, Deref] using hfj)
            hskj hleaf
        have hcleaf : (Deref (deref sm.heap c).Typ).Kind ≠ Kind.Struct := by rw [hcT]; exact hleaf
        obtain ⟨dval, fs, hfd, hfs, hfi, hmem⟩ := getDefaultStruct_leaf_child env dm buildFuel
          depth dsFuel n2 sm ds c j hgm hds (by rw [htree]; exact hc) hidx hcleaf
          (by rw [hcP]; intro hl; exact hparts (List.length_eq_zero.1 hl))
        have hfd2 : fieldDefault env depth (fun _ => .panic)
            (newFieldInfo dm.tagName dm.tagFunc [] ⟨.named n2, 0, []⟩ j fj) = .ok (some dval) := by
          rw [← hfd]
          exact (fieldDefault_leaf_congr env depth _ _ _ _ hcT hcP hcO hcleaf).symm
        refine ⟨dval, hfd2, ?_⟩
        intro v hv hZ
        obtain ⟨hs1, hs2, hs3, hif, _⟩ :=
          fieldDefault_leaf_shape env depth _ (deref sm.heap c) hcleaf dval hfd
        rw [hcT] at hif
        split at h
        · simp only [Outcome.ok.injEq] at h
          exact ⟨fs, by rw [← h, hfs], hfi⟩
        · have hstep : ∀ b ∈ ds.fields, ∀ (gs1 : ValueList) (w a2 : Value),
              gs1.toList[j]? = some w →
              (deepEqual (zeroValue env depth fj.Typ) w = true ∨ w = dval) →
              setDefaultField env (SetDefault env dm buildFuel depth (dsFuel + 1) fuel)
                (.ok (.struct n2 gs1)) b = .ok a2 →
              ∃ gs2, a2 = .struct n2 gs2 ∧
                ((gs2.toList[j]? = some w ∧ b.index.head? ≠ some j) ∨
                  gs2.toList[j]? = some dval) := by
            intro b hb gs1 w a2 hw hZw hs
            obtain ⟨i2, rest2, _, hbi, _, _⟩ := setDefaultField_struct env _ n2 gs1 b a2 hs
            by_cases hij : i2 = j
            · subst hij
              obtain ⟨c2, dval2, hc2m, hb2, hfd3⟩ :=
                getDefaultStruct_fields_of env dm buildFuel depth dsFuel _ sm ds hgm hds b hb
              rw [htree] at hc2m
              obtain ⟨hc21, hc22, _, _⟩ := inv.children_sound 0 c2 inv.heap_pos hc2m
              have hi2 : (deref sm.heap c2).Index = i2 :: rest2 := by
                rw [hb2] at hbi
                exact hbi
              have hcc : c2 = c := inv.leaf_no_descendant hc1 hc2 hidx hcleaf hc21 hc22 hi2
              subst hcc
              rw [hfd] at hfd3
              simp only [Outcome.ok.injEq, Option.some.injEq] at hfd3
              subst hfd3
              obtain ⟨gs2, h1, h2⟩ := setDefaultField_own env depth _ n2 gs1 b a2 i2 rest2 fj.Typ
                dval w hbi (by rw [hb2, hcT]) (by rw [hb2]) hleaf hs1 hs2 hs3 hif hw hZw hs
              exact ⟨gs2, h1, Or.inr h2⟩
            · obtain ⟨gs2, h1, h2⟩ := setDefaultField_off env _ n2 gs1 b a2 i2 j rest2 hbi hij hs
              refine ⟨gs2, h1, Or.inl ⟨by rw [h2, hw], ?_⟩⟩
              rw [hbi]
              simp only [List.head?_cons, ne_eq, Option.some.injEq]
              exact hij
          obtain ⟨pre, post, hsplit⟩ := List.append_of_mem hmem
          rw [hsplit] at h
          obtain ⟨x, y1, hx, hy, hpost⟩ := foldl_ok_split _
            (setDefaultField_failed env _) pre _ post _ y h
          have hxZ : ∃ gs1 w, x = .struct n2 gs1 ∧ gs1.toList[j]? = some w ∧
              (deepEqual (zeroValue env depth fj.Typ) w = true ∨ w = dval) := by
            refine foldl_ok_inv _ (setDefaultField_failed env _)
              (fun z => ∃ gs1 w, z = .struct n2 gs1 ∧ gs1.toList[j]? = some w ∧
                (deepEqual (zeroValue env depth fj.Typ) w = true ∨ w = dval)) pre _ x ?_
              ⟨gs, v, rfl, hv, hZ⟩ hx
            intro b hb a1 a2 ⟨gs1, w, ha1, hw, hZw⟩ ha12
            subst ha1
            obtain ⟨gs2, h1, h2 | h2⟩ := hstep b
              (by rw [hsplit]; exact List.mem_append_left _ hb) gs1 w a2 hw hZw ha12
            · exact ⟨gs2, w, h1, h2.1, hZw⟩
            · exact ⟨gs2, dval, h1, h2, Or.inr rfl⟩
          obtain ⟨gs1, w, hx1, hw, hZw⟩ := hxZ
          subst hx1
          have hyQ : ∃ gs2, y1 = .struct n2 gs2 ∧ gs2.toList[j]? = some dval := by
            obtain ⟨gs2, h1, h2 | h2⟩ := hstep _ hmem gs1 w y1 hw hZw hy
            · exact absurd rfl h2.2
            · exact ⟨gs2, h1, h2⟩
          refine foldl_ok_inv _ (setDefaultField_failed env _)
            (fun z => ∃ gs2, z = .struct n2 gs2 ∧ gs2.toList[j]? = some dval) post _ y ?_
            hyQ hpost
          intro b hb a1 a2 ⟨gs2, ha1, hw2⟩ ha12
          subst ha1
          obtain ⟨gs3, h1, h2 | h2⟩ := hstep b
            (by rw [hsplit]; exact List.mem_append_right _ (List.mem_cons_of_mem _ hb))
            gs2 dval a2 hw2 (Or.inr rfl) ha12
          · exact ⟨gs3, h1, h2.1⟩
          · exact ⟨gs3, h1, h2⟩

/-- A declared field of the record that is a struct or a pointer to one and is
not marked omitnested, whose struct declares a field that is not a struct and
has a default: the record lists a field with a default whose index path starts
at the position of the declared field. -/
theorem getDefaultStruct_lists_struct_field (env : TypeEnv) (dm : DefaultMapper)
    (buildFuel depth fuel : Nat) (n n2 : String) (i j : Nat) (fi fj : StructField)
    (ds : defaultStruct)
    (hfi : (env n)[i]? = some fi) (hski : skipField dm.tagName dm.tagFunc fi = false)
    (hTi : Deref fi.Typ = .named n2)
    (homit : (mapGet (parseOptions (dm.tagFunc fi.Name (fieldTag fi dm.tagName)).2)
      OmitNested).isNone)
    (hfj : (env n2)[j]? = some fj) (hskj : skipField dm.tagName dm.tagFunc fj = false)
    (hleaf : (Deref fj.Typ).Kind ≠ Kind.Struct)
    (hparts : (dm.tagFunc fj.Name (fieldTag fj dm.tagName)).2 ≠ [])
    (h : getDefaultStruct env dm buildFuel depth (fuel + 1) (.named n) = .ok ds) :
    ∃ df ∈ ds.fields, df.index.head? = some i := by
  obtain ⟨sm, hgm⟩ := getDefaultStruct_mapping env dm buildFuel depth _ _ ds h
  obtain ⟨inv, htree⟩ := getMapping_inv env (.named n) dm.tagName dm.tagFunc buildFuel sm hgm
  have hfi2 : (fieldsOf env (Deref (.named n)))[i]? = some fi := by
    simpa [fieldsOf, Deref] using hfi
  obtain ⟨c, hc1, hc2, hidx⟩ := inv.root_child_exists hfi2 hski
  obtain ⟨f2, hf2, _, hst⟩ := inv.root_child_of hc1 hc2 hidx
  rw [hfi2] at hf2
  simp only [Option.some.injEq] at hf2
  subst hf2
  have hT : (deref sm.heap c).Typ = fi.Typ := (inv.built_attrs hst).2.2
  have hP : (deref sm.heap c).Parent = some 0 := (inv.built_attrs hst).2.1
  have hO : (deref sm.heap c).Options =
      parseOptions (dm.tagFunc fi.Name (fieldTag fi dm.tagName)).2 := congrArg FieldInfo.Options hst
  have hown : ownerPtr env (.named n) dm.tagFunc sm.heap c = c ∨
      ownerPtr env (.named n) dm.tagFunc sm.heap c = 0 := by
    simp only [ownerPtr, hP]
    split
    · rename_i f p _ hp
      simp only [Option.some.injEq] at hp
      subst hp
      exact ownerOf_cases dm.tagFunc ⟨.iface, _, []⟩ f (deref sm.heap c) c
    · exact Or.inl rfl
  rcases hown with hown | hown
  · -- the field is a child of the root
    have hcm : c ∈ (deref sm.heap sm.Tree).Children := by
      rw [htree]
      exact inv.children_complete c 0 hc1 hc2 hown hP
    obtain ⟨df, hdf, hdi⟩ := getDefaultStruct_field_mem env dm buildFuel depth fuel _ sm ds c
      hgm h hcm (by rw [hT, hTi]; simp [GoType.Kind]) (by
        intro hnone
        simp only [fieldDefault, hT, hTi] at hnone
        cases hch : getDefaultStruct env dm buildFuel depth fuel (.named n2) with
        | panic => simp [hch] at hnone
        | outOfFuel => simp [hch] at hnone
        | ok child =>
          cases fuel with
          | zero => simp [getDefaultStruct] at hch
          | succ fuel =>
            obtain ⟨sm2, hgm2⟩ := getDefaultStruct_mapping env dm buildFuel depth _ _ child hch
            obtain ⟨inv2, htree2⟩ :=
              getMapping_inv env (.named n2) dm.tagName dm.tagFunc buildFuel sm2 hgm2
            obtain ⟨c2, hc2m, _, _, hidx2, hcT2, hcP2, _⟩ :=
              inv2.root_leaf_child
                (show (fieldsOf env (Deref (.named n2)))[j]? = some fj by
                  simpa [fieldsOf, Deref] using hfj)
                hskj hleaf
            obtain ⟨_, _, _, _, _, hmem⟩ := getDefaultStruct_leaf_child env dm buildFuel
              depth fuel n2 sm2 child c2 j hgm2 hch (by rw [htree2]; exact hc2m) hidx2
              (by rw [hcT2]; exact hleaf)
              (by rw [hcP2]; intro hl; exact hparts (List.length_eq_zero.1 hl))
            have hlen : child.fields.length ≠ 0 := by
              intro hl
              rw [List.length_eq_zero.1 hl] at hmem
              simp at hmem
            simp [hch, hlen] at hnone)
    exact ⟨df, hdf, by rw [hdi, hidx]; rfl⟩
  · -- the fields of the struct are children of the root
    have hw : wantsEntry sm.heap c := ⟨by rw [hT, hTi]; rfl, by rw [hO]; exact homit⟩
    have hg : guardHit sm.heap (ownerPtr env (.named n) dm.tagFunc sm.heap c) = false := by
      rw [hown]
      exact guardHit_root inv
    obtain ⟨c2, hc21, hc22, hidx2⟩ := inv.child_exists hc1 hc2 hw hg
      (show (fieldsOf env (Deref (deref sm.heap c).Typ))[j]? = some fj by
        rw [hT, hTi]; simpa [fieldsOf, Deref] using hfj) hskj
    obtain ⟨_, f3, hf3, _, hst2, _⟩ := inv.child_of hc1 hc2 hc21 hc22 hidx2
    have hf3j : f3 = fj := by
      rw [hT, hTi] at hf3
      have : (fieldsOf env (.named n2))[j]? = some fj := by
        simpa [fieldsOf] using hfj
      rw [this] at hf3
      exact (Option.some.inj hf3).symm
    subst hf3j
    have hT2 : (deref sm.heap c2).Typ = f3.Typ := (inv.built_attrs hst2).2.2
    have hP2 : (deref sm.heap c2).Parent = some 0 := by
      rw [(inv.built_attrs hst2).2.1]
      simp only [entryOf, hown]
    have hparts2 : (deref sm.heap c2).Parts = (dm.tagFunc f3.Name (fieldTag f3 dm.tagName)).2 :=
      congrArg FieldInfo.Parts hst2
    have hown2 : ownerPtr env (.named n) dm.tagFunc sm.heap c2 = c2 := by
      simp only [ownerPtr]
      split
      · exact ownerOf_self dm.tagFunc _ _ _ c2 (Or.inl (by rw [hT2]; exact hleaf))
      · rfl
    have hcm : c2 ∈ (deref sm.heap sm.Tree).Children := by
      rw [htree]
      exact inv.children_complete c2 0 hc21 hc22 hown2 hP2
    obtain ⟨df, hdf, hdi⟩ := getDefaultStruct_field_mem env dm buildFuel depth fuel _ sm ds c2
      hgm h hcm (by
        intro hh
        rw [hparts2] at hh
        exact hparts (List.length_eq_zero.1 hh.2)) (by
        intro hnone
        obtain ⟨dv, hdv⟩ := fieldDefault_leaf_some env depth _ (deref sm.heap c2)
          (by rw [hT2]; exact hleaf) none hnone
        cases hdv)
    exact ⟨df, hdf, by rw [hdi, hidx2, hidx]; rfl⟩

/-- C23: a record whose declared field `i` is a pointer to a struct, not passed
over and not marked omitnested, and holds a non-nil pointer to a struct value;
the struct declares a field `j` whose type is not a struct, that has a default
and is zero in that value.  When `SetDefault` returns, field `i` of the record
is still a non-nil pointer to a struct of that type, every value that the
nested struct held along an index path and that is not zero is found unchanged
along the same path, and field `j` of the nested struct holds its default. -/
theorem SetDefault_inside_reference (env : TypeEnv) (dm : DefaultMapper)
    (buildFuel depth dsFuel fuel : Nat) (n n2 : String) (i j : Nat) (fi fj : StructField)
    (fs fs2 : ValueList) (v0 r : Value)
    (hfi : (env n)[i]? = some fi) (hski : skipField dm.tagName dm.tagFunc fi = false)
    (hTi : fi.Typ = .ptr (.named n2))
    (homit : (mapGet (parseOptions (dm.tagFunc fi.Name (fieldTag fi dm.tagName)).2)
      OmitNested).isNone)
    (hfj : (env n2)[j]? = some fj) (hskj : skipField dm.tagName dm.tagFunc fj = false)
    (hleaf : (Deref fj.Typ).Kind ≠ Kind.Struct)
    (hparts : (dm.tagFunc fj.Name (fieldTag fj dm.tagName)).2 ≠ [])
    (hval : fs.toList[i]? = some (.ptr (.struct n2 fs2)))
    (hv0 : fs2.toList[j]? = some v0)
    (hz : deepEqual (zeroValue env depth fj.Typ) v0 = true)
    (h : SetDefault env dm buildFuel depth dsFuel fuel (.struct n fs) = .ok r) :
    ∃ fs1 gs dval, r = .struct n fs1 ∧ fs1.toList[i]? = some (.ptr (.struct n2 gs)) ∧
      (∀ (P : List Nat) (w : Value),
        FieldByIndexesReadOnly (some (.struct n2 fs2)) P = .ok (some w) →
        nonZeroLeaf w = true →
        FieldByIndexesReadOnly (some (.struct n2 gs)) P = .ok (some w)) ∧
      fieldDefault env depth (fun _ => .panic)
        (newFieldInfo dm.tagName dm.tagFunc [] ⟨.named n2, 0, []⟩ j fj) = .ok (some dval) ∧
      gs.toList[j]? = some dval := by
  cases fuel with
  | zero => simp [SetDefault] at h
  | succ fuel =>
    simp only [SetDefault, Value.Typ] at h
    cases hds : getDefaultStruct env dm buildFuel depth dsFuel (.named n) with
    | panic => simp [hds] at h
    | outOfFuel => simp [hds] at h
    | ok ds =>
      simp only [hds] at h
      cases dsFuel with
      | zero => simp [getDefaultStruct] at hds
      | succ dsFuel =>
        obtain ⟨_, hzero, _, _⟩ := getDefaultStruct_inv env dm buildFuel depth _ _ ds hds
        have hnz : deepEqual ds.zero (.struct n fs) = false := by
          cases hde : deepEqual ds.zero (.struct n fs) with
          | false => rfl
          | true =>
            exfalso
            obtain ⟨zs, hzs, hl⟩ := deepEqual_struct_right _ n fs hde
            obtain ⟨a, ha, hda⟩ := deepEqualList_getElem zs fs hl i _ hval
            rw [hzero] at hzs
            obtain ⟨_, hcase | ⟨d1, _, hcase⟩⟩ := zeroValue_named_cases env depth _ n zs hzs
            · rw [hcase.2] at ha
              simp [ValueList.toList] at ha
            · rw [hcase, ValueList.toList_ofList_values, List.getElem?_map] at ha
              cases hf : (env n)[i]? with
              | none => simp [hf] at ha
              | some f =>
                simp only [hf, Option.map_some', Option.some.injEq] at ha
                rw [← ha, deepEqual_zero_ptr] at hda
                cases hda
        simp only [hnz, Bool.false_eq_true, if_false] at h
        obtain ⟨df0, hdf0, hhead0⟩ := getDefaultStruct_lists_struct_field env dm buildFuel depth
          dsFuel n n2 i j fi fj ds hfi hski (by rw [hTi]; rfl) homit hfj hskj hleaf hparts hds
        have hstep : ∀ b ∈ ds.fields, ∀ (fs1 gs1 : ValueList) (w a2 : Value),
            fs1.toList[i]? = some (.ptr (.struct n2 gs1)) →
            Frame (.struct n2 fs2) (.struct n2 gs1) →
            gs1.toList[j]? = some w →
            (deepEqual (zeroValue env depth fj.Typ) w = true ∨
              fieldDefault env depth (fun _ => .panic)
                (newFieldInfo dm.tagName dm.tagFunc [] ⟨.named n2, 0, []⟩ j fj) =
                  .ok (some w)) →
            setDefaultField env (SetDefault env dm buildFuel depth (dsFuel + 1) fuel)
              (.ok (.struct n fs1)) b = .ok a2 →
            ∃ fs3 gs3 w3, a2 = .struct n fs3 ∧
              fs3.toList[i]? = some (.ptr (.struct n2 gs3)) ∧
              Frame (.struct n2 fs2) (.struct n2 gs3) ∧ gs3.toList[j]? = some w3 ∧
              ((w3 = w ∧ b.index.head? ≠ some i) ∨
                fieldDefault env depth (fun _ => .panic)
                  (newFieldInfo dm.tagName dm.tagFunc [] ⟨.named n2, 0, []⟩ j fj) =
                    .ok (some w3)) := by
          intro b hb fs1 gs1 w a2 hf1 hfr hw hZw hs
          obtain ⟨i2, rest2, _, hbi, _, _⟩ := setDefaultField_struct env _ n fs1 b a2 hs
          by_cases hii : i2 = i
          · subst hii
            have hlt : i2 < fs1.toList.length := (List.getElem?_eq_some_iff.1 hf1).1
            simp only [setDefaultField, hbi, hf1] at hs
            split at hs
            · cases hsd : SetDefault env dm buildFuel depth (dsFuel + 1) fuel
                  (.struct n2 gs1) with
              | panic => simp [hsd] at hs
              | outOfFuel => simp [hsd] at hs
              | ok r1 =>
                simp only [hsd, Outcome.ok.injEq] at hs
                obtain ⟨dval, hfd2, hall⟩ := SetDefault_sets_leaf env dm buildFuel depth
                  (dsFuel + 1) fuel n2 j fj gs1 r1 hfj hskj hleaf hparts hsd
                obtain ⟨gs3, hr1, hg3⟩ := hall w hw (by
                  rcases hZw with hZw | hZw
                  · exact Or.inl hZw
                  · rw [hfd2] at hZw
                    simp only [Outcome.ok.injEq, Option.some.injEq] at hZw
                    exact Or.inr hZw.symm)
                subst hr1
                refine ⟨_, gs3, dval, hs.symm, ?_, ?_, hg3, Or.inr hfd2⟩
                · rw [ValueList.toList_ofList_values, List.getElem?_set_self hlt]
                · exact Frame.trans hfr (SetDefault_frame env dm buildFuel depth (dsFuel + 1)
                    fuel _ _ hsd)
            · cases hs
          · obtain ⟨fs3, h1, h2⟩ := setDefaultField_off env _ n fs1 b a2 i2 i rest2 hbi hii hs
            refine ⟨fs3, gs1, w, h1, by rw [h2, hf1], hfr, hw, Or.inl ⟨rfl, ?_⟩⟩
            rw [hbi]
            simp only [List.head?_cons, ne_eq, Option.some.injEq]
            exact hii
        obtain ⟨pre, post, hsplit⟩ := List.append_of_mem hdf0
        rw [hsplit] at h
        obtain ⟨x, y1, hx, hy, hpost⟩ := foldl_ok_split _
          (setDefaultField_failed env _) pre _ post _ r h
        have hxZ : ∃ fs1 gs1 w, x = .struct n fs1 ∧
            fs1.toList[i]? = some (.ptr (.struct n2 gs1)) ∧
            Frame (.struct n2 fs2) (.struct n2 gs1) ∧ gs1.toList[j]? = some w ∧
            (deepEqual (zeroValue env depth fj.Typ) w = true ∨
              fieldDefault env depth (fun _ => .panic)
                (newFieldInfo dm.tagName dm.tagFunc [] ⟨.named n2, 0, []⟩ j fj) =
                  .ok (some w)) := by
          refine foldl_ok_inv _ (setDefaultField_failed env _)
            (fun z => ∃ fs1 gs1 w, z = .struct n fs1 ∧
              fs1.toList[i]? = some (.ptr (.struct n2 gs1)) ∧
              Frame (.struct n2 fs2) (.struct n2 gs1) ∧ gs1.toList[j]? = some w ∧
              (deepEqual (zeroValue env depth fj.Typ) w = true ∨
                fieldDefault env depth (fun _ => .panic)
                  (newFieldInfo dm.tagName dm.tagFunc [] ⟨.named n2, 0, []⟩ j fj) =
                    .ok (some w))) pre _ x ?_
            ⟨fs, fs2, v0, rfl, hval, Frame.refl n2 fs2, hv0, Or.inl hz⟩ hx
          intro b hb a1 a2 ⟨fs1, gs1, w, ha1, hf1, hfr, hw, hZw⟩ ha12
          subst ha1
          obtain ⟨fs3, gs3, w3, h1, h2, h3, h4, h5 | h5⟩ := hstep b
            (by rw [hsplit]; exact List.mem_append_left _ hb) fs1 gs1 w a2 hf1 hfr hw hZw ha12
          · exact ⟨fs3, gs3, w3, h1, h2, h3, h4, h5.1 ▸ hZw⟩
          · exact ⟨fs3, gs3, w3, h1, h2, h3, h4, Or.inr h5⟩
        obtain ⟨fs1, gs1, w, hx1, hf1, hfr, hw, hZw⟩ := hxZ
        subst hx1
        have hyQ : ∃ fs3 gs3 w3, y1 = .struct n fs3 ∧
            fs3.toList[i]? = some (.ptr (.struct n2 gs3)) ∧
            Frame (.struct n2 fs2) (.struct n2 gs3) ∧ gs3.toList[j]? = some w3 ∧
            fieldDefault env depth (fun _ => .panic)
              (newFieldInfo dm.tagName dm.tagFunc [] ⟨.named n2, 0, []⟩ j fj) =
                .ok (some w3) := by
          obtain ⟨fs3, gs3, w3, h1, h2, h3, h4, h5 | h5⟩ :=
            hstep _ hdf0 fs1 gs1 w y1 hf1 hfr hw hZw hy
          · exact absurd hhead0 h5.2
          · exact ⟨fs3, gs3, w3, h1, h2, h3, h4, h5⟩
        have hfin : ∃ fs3 gs3 w3, r = .struct n fs3 ∧
            fs3.toList[i]? = some (.ptr (.struct n2 gs3)) ∧
            Frame (.struct n2 fs2) (.struct n2 gs3) ∧ gs3.toList[j]? = some w3 ∧
            fieldDefault env depth (fun _ => .panic)
              (newFieldInfo dm.tagName dm.tagFunc [] ⟨.named n2, 0, []⟩ j fj) =
                .ok (some w3) := by
          refine foldl_ok_inv _ (setDefaultField_failed env _)
            (fun z => ∃ fs3 gs3 w3, z = .struct n fs3 ∧
              fs3.toList[i]? = some (.ptr (.struct n2 gs3)) ∧
              Frame (.struct n2 fs2) (.struct n2 gs3) ∧ gs3.toList[j]? = some w3 ∧
              fieldDefault env depth (fun _ => .panic)
                (newFieldInfo dm.tagName dm.tagFunc [] ⟨.named n2, 0, []⟩ j fj) =
                  .ok (some w3)) post _ r ?_ hyQ hpost
          intro b hb a1 a2 ⟨fs3, gs3, w3, ha1, hf3, hfr3, hw3, hD3⟩ ha12
          subst ha1
          obtain ⟨fs4, gs4, w4, h1, h2, h3, h4, h5 | h5⟩ := hstep b
            (by rw [hsplit]; exact List.mem_append_right _ (List.mem_cons_of_mem _ hb))
            fs3 gs3 w3 a2 hf3 hfr3 hw3 (Or.inr hD3) ha12
          · exact ⟨fs4, gs4, w4, h1, h2, h3, h4, h5.1 ▸ hD3⟩
          · exact ⟨fs4, gs4, w4, h1, h2, h3, h4, h5⟩
        obtain ⟨fs3, gs3, w3, h1, h2, h3, h4, h5⟩ := hfin
        exact ⟨fs3, gs3, w3, h1, h2, h3.2, h5, h4⟩

theorem SetDefault_inside_reference_witness :
    ∃ fs1 gs dval, fsValue = .struct "reflectx.FooStruct" fs1 ∧
      fs1.toList[3]? = some (.ptr (.struct "reflectx.third" gs)) ∧
      (∀ (P : List Nat) (w : Value),
        FieldByIndexesReadOnly (some (.struct "reflectx.third" (ValueList.ofList [.str ""]))) P =
          .ok (some w) →
        nonZeroLeaf w = true →
        FieldByIndexesReadOnly (some (.struct "reflectx.third" gs)) P = .ok (some w)) ∧
      fieldDefault defaultEnv 5 (fun _ => .panic)
        (newFieldInfo defaultMapper.tagName defaultMapper.tagFunc []
          ⟨.named "reflectx.third", 0, []⟩ 0
          (mkField "Third" .string [("default", "Third")] false)) = .ok (some dval) ∧
      gs.toList[0]? = some dval :=
  SetDefault_inside_reference defaultEnv defaultMapper 10 5 5 5 "reflectx.FooStruct"
    "reflectx.third" 3 0 (mkField "Pthird" (.ptr (.named "reflectx.third")) [] false)
    (mkField "Third" .string [("default", "Third")] false)
    (ValueList.ofList [.str "", .nilPtr .string,
      zeroValue defaultEnv 3 (.named "reflectx.third"),
      .ptr (.struct "reflectx.third" (ValueList.ofList [.str ""]))])
    (ValueList.ofList [.str ""]) (.str "") fsValue
    rfl rfl rfl rfl rfl rfl (by decide) (by decide) rfl rfl rfl rfl

/-! ## Decimal texts in integer fields -/

theorem bitLen_zero (fuel : Nat) : bitLen fuel 0 = 0 := by
  cases fuel <;> simp [bitLen]

/-- The number of binary digits that `bitLen` returns. -/
theorem bitLen_spec : ∀ (fuel n : Nat), n < 2 ^ fuel →
    n < 2 ^ bitLen fuel n ∧ (0 < n → 2 ^ (bitLen fuel n - 1) ≤ n) := by
  intro fuel
  induction fuel with
  | zero =>
    intro n h
    have : n = 0 := by simpa using h
    subst this
    simp [bitLen]
  | succ fuel ih =>
    intro n h
    by_cases hn : n = 0
    · subst hn
      simp [bitLen]
    · have h2 : n / 2 < 2 ^ fuel := by
        rw [Nat.div_lt_iff_lt_mul (by norm_num)]
        rw [pow_succ] at h
        exact h
      obtain ⟨ih1, ih2⟩ := ih (n / 2) h2
      simp only [bitLen, hn, if_false]
      constructor
      · rw [pow_add, pow_one]
        omega
      · intro _
        rw [Nat.add_sub_cancel_left]
        by_cases hz : n / 2 = 0
        · rw [hz, bitLen_zero]
          simp only [pow_zero]
          omega
        · have hpos : 0 < n / 2 := Nat.pos_of_ne_zero hz
          have h3 := ih2 hpos
          have hL : 0 < bitLen fuel (n / 2) := by
            by_contra hc
            have : bitLen fuel (n / 2) = 0 := by omega
            rw [this] at ih1
            simp only [pow_zero] at ih1
            omega
          have h4 : 2 ^ bitLen fuel (n / 2) = 2 * 2 ^ (bitLen fuel (n / 2) - 1) := by
            rw [← pow_succ']
            congr 1
            omega
          rw [h4]
          omega

theorem bitLen_self (n : Nat) (h : 0 < n) :
    n < 2 ^ bitLen n n ∧ 2 ^ (bitLen n n - 1) ≤ n ∧ 0 < bitLen n n := by
  obtain ⟨h1, h2⟩ := bitLen_spec n n (Nat.lt_two_pow n)
  refine ⟨h1, h2 h, ?_⟩
  by_contra hc
  have : bitLen n n = 0 := by omega
  rw [this] at h1
  simp only [pow_zero] at h1
  omega

theorem divRoundEven_mul (q b : Nat) (hb : 0 < b) : divRoundEven (q * b) b = q := by
  simp only [divRoundEven, Nat.mul_mod_left, Nat.mul_zero, hb, if_true,
    Nat.mul_div_cancel _ hb]

theorem scaleFrac_neg (N b k : Nat) (hb : 0 < b) :
    (scaleFrac (N * b) b (-(k : Int))).1 = N * 2 ^ k * (scaleFrac (N * b) b (-(k : Int))).2 ∧
      0 < (scaleFrac (N * b) b (-(k : Int))).2 := by
  cases k with
  | zero => simp [scaleFrac, hb]
  | succ k =>
    have hneg : ¬ ((0 : Int) ≤ -((k + 1 : Nat) : Int)) := by omega
    have ht : (- -((k + 1 : Nat) : Int)).toNat = k + 1 := by omega
    simp only [scaleFrac, if_neg hneg, ht]
    exact ⟨by ring, hb⟩

theorem stripTwos_pow : ∀ (k fuel N : Nat), k ≤ fuel → stripTwos fuel (N * 2 ^ k) k = (N, 0) := by
  intro k
  induction k with
  | zero =>
    intro fuel N _
    cases fuel <;> simp [stripTwos]
  | succ k ih =>
    intro fuel N h
    cases fuel with
    | zero => omega
    | succ fuel =>
      have h1 : (N * 2 ^ (k + 1)) % 2 = 0 := by
        rw [pow_succ, ← Nat.mul_assoc]
        exact Nat.mul_mod_left _ _
      have h2 : N * 2 ^ (k + 1) / 2 = N * 2 ^ k := by
        rw [pow_succ, ← Nat.mul_assoc]
        exact Nat.mul_div_cancel _ (by norm_num)
      simp only [stripTwos, h1, h2]
      simp only [Nat.add_one_ne_zero, Nat.zero_ne_one, or_self, if_false, Nat.add_sub_cancel]
      exact ih fuel N (by omega)

/-- A mantissa `N * 2 ^ k` with exponent `-k` is the float `N`. -/
theorem mkFloat_pow (neg : Bool) (N k : Nat) (hN : 0 < N) :
    mkFloat neg (N * 2 ^ k) (-(k : Int)) = .fin ((if neg then -1 else 1) * (N : Int)) 0 := by
  have hm : ¬ (N * 2 ^ k = 0) := by
    have : 0 < N * 2 ^ k := Nat.mul_pos hN (by positivity)
    omega
  cases k with
  | zero =>
    have hN0 : ¬ (N = 0) := by omega
    simp [mkFloat, hN0]
  | succ k =>
    have hneg : ¬ ((0 : Int) ≤ -((k + 1 : Nat) : Int)) := by omega
    have ht : (- -((k + 1 : Nat) : Int)).toNat = k + 1 := by omega
    simp only [mkFloat, if_neg hm, if_neg hneg, ht, stripTwos_pow (k + 1) (k + 1) N le_rfl]

/-- The quotient of `N * b` by `b` is rounded to itself: for `N` below `2 ^ 53`
the mantissa is `N` times a power of two, and the exponent undoes the power. -/
theorem roundRatio_exact (N b : Nat) (hN : 0 < N) (hN53 : N < 2 ^ 53) (hb : 0 < b) :
    ∃ k : Nat, roundRatio fmt64 (N * b) b = some (N * 2 ^ k, -(k : Int)) := by
  have ha : 0 < N * b := Nat.mul_pos hN hb
  obtain ⟨ha1, ha2, ha3⟩ := bitLen_self (N * b) ha
  obtain ⟨hb1, hb2, hb3⟩ := bitLen_self b hb
  generalize hLa : bitLen (N * b) (N * b) = La at ha1 ha2 ha3
  generalize hLb : bitLen b b = Lb at hb1 hb2 hb3
  -- La ≤ 53 + Lb
  have hF1 : La ≤ 53 + Lb := by
    have h1 : N * b < 2 ^ (53 + Lb) := by
      rw [pow_add]
      exact Nat.mul_lt_mul'' hN53 hb1
    have h2 : 2 ^ (La - 1) < 2 ^ (53 + Lb) := lt_of_le_of_lt ha2 h1
    have h3 := (Nat.pow_lt_pow_iff_right (by norm_num : 1 < 2)).1 h2
    omega
  -- Lb ≤ La
  have hF2 : Lb ≤ La := by
    have h1 : b ≤ N * b := Nat.le_mul_of_pos_left b hN
    have h2 : 2 ^ (Lb - 1) < 2 ^ La := lt_of_le_of_lt (le_trans hb2 h1) ha1
    have h3 := (Nat.pow_lt_pow_iff_right (by norm_num : 1 < 2)).1 h2
    omega
  obtain ⟨k0, hk0⟩ : ∃ k0 : Nat, k0 = 53 + Lb - La := ⟨_, rfl⟩
  have hs0 : (La : Int) - (Lb : Int) - ((53 : Nat) : Int) = -(k0 : Int) := by omega
  obtain ⟨hsf1, hsf2⟩ := scaleFrac_neg N b k0 hb
  -- the exponent after the comparison with 2 ^ 53
  have hk : ∃ k : Nat, k ≤ 53 ∧ N * 2 ^ k < 2 ^ 53 ∧
      (if 2 ^ 53 * (scaleFrac (N * b) b (-(k0 : Int))).2 ≤
          (scaleFrac (N * b) b (-(k0 : Int))).1 then -(k0 : Int) + 1 else -(k0 : Int)) =
        -(k : Int) := by
    by_cases hc : 2 ^ 53 * (scaleFrac (N * b) b (-(k0 : Int))).2 ≤
        (scaleFrac (N * b) b (-(k0 : Int))).1
    · rw [hsf1] at hc
      have hc2 : 2 ^ 53 ≤ N * 2 ^ k0 := Nat.le_of_mul_le_mul_right hc hsf2
      have hk1 : 1 ≤ k0 := by
        by_contra hcon
        have : k0 = 0 := by omega
        rw [this] at hc2
        simp only [pow_zero, Nat.mul_one] at hc2
        omega
      refine ⟨k0 - 1, by omega, ?_, ?_⟩
      · have h1 : N * 2 ^ (Lb - 1) < 2 ^ La :=
          lt_of_le_of_lt (Nat.mul_le_mul_left N hb2) ha1
        have h2 : N * 2 ^ (Lb - 1) * 2 ^ (k0 - 1) < 2 ^ La * 2 ^ (k0 - 1) :=
          Nat.mul_lt_mul_of_pos_right h1 (by positivity)
        have h3 : 2 ^ La * 2 ^ (k0 - 1) = 2 ^ 53 * 2 ^ (Lb - 1) := by
          rw [← pow_add, ← pow_add]
          congr 1
          omega
        rw [h3] at h2
        have h4 : N * 2 ^ (k0 - 1) * 2 ^ (Lb - 1) < 2 ^ 53 * 2 ^ (Lb - 1) := by
          calc N * 2 ^ (k0 - 1) * 2 ^ (Lb - 1) = N * 2 ^ (Lb - 1) * 2 ^ (k0 - 1) := by ring
            _ < _ := h2
        exact Nat.lt_of_mul_lt_mul_right h4
      · rw [if_pos (by rw [hsf1]; exact Nat.mul_le_mul_right _ hc2)]
        omega
    · have hc2 : N * 2 ^ k0 < 2 ^ 53 := by
        by_contra hcon
        apply hc
        rw [hsf1]
        exact Nat.mul_le_mul_right _ (by omega)
      exact ⟨k0, by omega, hc2, by rw [if_neg hc]⟩
  obtain ⟨k, hk53, hklt, hks1⟩ := hk
  obtain ⟨hsk1, hsk2⟩ := scaleFrac_neg N b k hb
  refine ⟨k, ?_⟩
  have hmax : max (-(k : Int)) (-1074) = -(k : Int) := by
    apply max_eq_left
    omega
  have hm : divRoundEven (scaleFrac (N * b) b (-(k : Int))).1
      (scaleFrac (N * b) b (-(k : Int))).2 = N * 2 ^ k := by
    rw [hsk1]
    exact divRoundEven_mul _ _ hsk2
  have hne : ¬ (N * 2 ^ k = 2 ^ 53) := by omega
  have hemax : ¬ ((971 : Int) < -(k : Int)) := by omega
  simp only [roundRatio, fmt64, hLa, hLb, hs0, hks1, hmax, hm, if_neg hne, if_neg hemax]

theorem readDigits_digits : ∀ (ds : List Nat) (acc cnt : Nat) (rest : List Char),
    (∀ d ∈ ds, d < 10) →
    readDigits (ds.map digitChar ++ rest) acc cnt =
      readDigits rest (ds.foldl (fun a d => a * 10 + d) acc) (cnt + ds.length) := by
  intro ds
  induction ds with
  | nil => intro acc cnt rest _; rfl
  | cons d ds ih =>
    intro acc cnt rest h
    simp only [List.map_cons, List.cons_append, List.foldl_cons, List.length_cons]
    rw [readDigits_digit d acc cnt _ (h d (List.mem_cons_self _ _)),
      ih _ _ _ (fun x hx => h x (List.mem_cons_of_mem _ hx))]
    congr 1
    omega

theorem readDigits_zeros : ∀ (z acc cnt : Nat),
    readDigits (List.replicate z '0') acc cnt = (acc * 10 ^ z, cnt + z, []) := by
  intro z
  induction z with
  | zero => intro acc cnt; simp [readDigits]
  | succ z ih =>
    intro acc cnt
    have h0 : ('0' : Char) = digitChar 0 := by decide
    rw [List.replicate_succ, h0, readDigits_digit 0 acc cnt _ (by norm_num), ← h0, ih]
    simp only [Nat.add_zero, Prod.mk.injEq, and_true]
    constructor
    · ring
    · omega

theorem readDecimal_zero_fraction (ds : List Nat) (z : Nat) (hds : ∀ d ∈ ds, d < 10)
    (hne : ds ≠ []) :
    readDecimal (ds.map digitChar ++ '.' :: List.replicate z '0') =
      some (digitsValue ds * 10 ^ z, -(z : Int)) := by
  have hdot : ∀ (rest : List Char) (acc cnt : Nat),
      readDigits ('.' :: rest) acc cnt = (acc, cnt, '.' :: rest) := by
    intro rest acc cnt
    have : ¬ (48 ≤ ('.' : Char).toNat ∧ ('.' : Char).toNat ≤ 57) := by decide
    simp only [readDigits, if_neg this]
  have hlen : ¬ (0 + ds.length + (0 + z) = 0) := by
    have : 0 < ds.length := List.length_pos.2 hne
    omega
  simp only [readDecimal, readDigits_digits ds 0 0 _ hds, hdot, readDigits_zeros, if_neg hlen]
  simp [digitsValue]

/-- `ParseFloat` on a decimal text whose fractional digits are all zero and
whose digits write a number below `2 ^ 53`: that number, exactly. -/
theorem ParseFloat_zero_fraction (neg : Bool) (ds : List Nat) (z : Nat)
    (hds : ∀ d ∈ ds, d < 10) (hne : ds ≠ []) (h53 : digitsValue ds < 2 ^ 53) :
    ParseFloat (decimalText neg ds z) 64 =
      (if digitsValue ds = 0 then (if neg then .negZero else .fin 0 0)
       else .fin ((if neg then -1 else 1) * (digitsValue ds : Int)) 0, none) := by
  obtain ⟨d0, ds1, hcons⟩ : ∃ d0 ds1, ds = d0 :: ds1 := by
    cases ds with
    | nil => exact absurd rfl hne
    | cons d0 ds1 => exact ⟨d0, ds1, rfl⟩
  have hd0 : d0 < 10 := hds d0 (by rw [hcons]; exact List.mem_cons_self _ _)
  have hbody : ds.map digitChar ++ '.' :: List.replicate z '0' =
      digitChar d0 :: (ds1.map digitChar ++ '.' :: List.replicate z '0') := by
    rw [hcons]; rfl
  have hspec : readSpecial (ds.map digitChar ++ '.' :: List.replicate z '0') = none := by
    rw [hbody]
    have hl := lower_digitChar_ne d0 hd0
    simp [readSpecial, hl.1, hl.2]
  have hdec := readDecimal_zero_fraction ds z hds hne
  have hplain : ∀ c ∈ ds.map digitChar ++ '.' :: List.replicate z '0',
      c ≠ '_' ∧ lower c ≠ 120 := by
    intro c hc
    rcases List.mem_append.1 hc with hc | hc
    · obtain ⟨d, hd, rfl⟩ := List.mem_map.1 hc
      exact digitChar_plain d (hds d hd)
    · rcases List.mem_cons.1 hc with rfl | hc
      · decide
      · rw [List.eq_of_mem_replicate hc]
        decide
  have hrf : ∀ s, readFloat s (ds.map digitChar ++ '.' :: List.replicate z '0') =
      some (digitsValue ds * 10 ^ z, 10, -(z : Int)) := by
    intro s
    rw [readFloat_plain _ _ hplain, hdec]
    rfl
  have hround : (if (0 : Int) ≤ -(z : Int)
      then roundToFloat (fmtOf 64) neg (digitsValue ds * 10 ^ z * 10 ^ (-(z : Int)).toNat) 1
      else roundToFloat (fmtOf 64) neg (digitsValue ds * 10 ^ z) (10 ^ (- -(z : Int)).toNat)) =
      (if digitsValue ds = 0 then (if neg then .negZero else .fin 0 0)
       else .fin ((if neg then -1 else 1) * (digitsValue ds : Int)) 0, none) := by
    have hfmt : fmtOf 64 = fmt64 := by decide
    rw [hfmt]
    by_cases hN : digitsValue ds = 0
    · simp [hN, roundToFloat, mkFloat]
    · have hNpos : 0 < digitsValue ds := Nat.pos_of_ne_zero hN
      cases z with
      | zero =>
        have hlt : digitsValue ds < 2 ^ fmt64.prec := h53
        simp [roundToFloat, hN, hlt, mkFloat]
      | succ z =>
        have hneg : ¬ ((0 : Int) ≤ -((z + 1 : Nat) : Int)) := by omega
        have ht : (- -((z + 1 : Nat) : Int)).toNat = z + 1 := by omega
        have ha : ¬ (digitsValue ds * 10 ^ (z + 1) = 0) := by
          have : 0 < digitsValue ds * 10 ^ (z + 1) := Nat.mul_pos hNpos (by positivity)
          omega
        have hb : ¬ (10 ^ (z + 1) = 1 ∧ digitsValue ds * 10 ^ (z + 1) < 2 ^ fmt64.prec) := by
          intro hc
          have : 10 ≤ 10 ^ (z + 1) := by
            calc 10 = 10 ^ 1 := by norm_num
              _ ≤ 10 ^ (z + 1) := Nat.pow_le_pow_right (by norm_num) (by omega)
          omega
        obtain ⟨k, hk⟩ := roundRatio_exact (digitsValue ds) (10 ^ (z + 1)) hNpos h53
          (by positivity)
        simp only [if_neg hneg, ht, roundToFloat, if_neg ha, if_neg hb, hk, if_neg hN,
          mkFloat_pow neg _ k hNpos]
  cases neg with
  | true =>
    simp only [ParseFloat, decimalText, if_true, List.singleton_append, decide_True,
      List.tail_cons, true_or, hspec, hrf]
    exact hround
  | false =>
    have hm := digitChar_ne_minus d0 hd0
    have hp := digitChar_ne_plus d0 hd0
    simp only [ParseFloat, decimalText, Bool.false_eq_true, if_false, List.nil_append]
    rw [hbody]
    simp only [hm, hp, decide_False, or_self, Bool.false_eq_true, if_false]
    rw [← hbody, hspec, hrf]
    exact hround

theorem parseUintLoop_dot (base maxVal : Nat) : ∀ (cs : List Char) (n : Nat) (us : Bool),
    '.' ∈ cs → ∃ e, parseUintLoop base maxVal cs n us = .error e := by
  intro cs
  induction cs with
  | nil => intro n us h; simp at h
  | cons c cs ih =>
    intro n us h
    by_cases hc : c = '.'
    · subst hc
      have h1 : ¬ (('.' : Char) = '_') := by decide
      have h2 : digitVal '.' = none := by decide
      exact ⟨.ErrSyntax, by simp only [parseUintLoop, if_neg h1, h2]⟩
    · have hmem : '.' ∈ cs := by
        rcases List.mem_cons.1 h with h | h
        · exact absurd h.symm hc
        · exact h
      simp only [parseUintLoop]
      split
      · exact ih n true hmem
      · split
        · exact ⟨_, rfl⟩
        · split
          · exact ⟨_, rfl⟩
          · split
            · exact ⟨_, rfl⟩
            · split
              · exact ⟨_, rfl⟩
              · exact ih _ us hmem

theorem ParseUint_dot (s : List Char) (bitSize : Nat) (h : '.' ∈ s) :
    ∃ e, ParseUint s bitSize = .error e := by
  cases s with
  | nil => simp at h
  | cons c0 rest =>
    have key : ∀ (bs : Nat × List Char), '.' ∈ bs.2 →
        ∃ e, (match parseUintLoop bs.1 (2 ^ (if bitSize = 0 then IntSize else bitSize) - 1)
            bs.2 0 false with
          | .error e => Except.error e
          | .ok (n, us) =>
            if us && !underscoreOK (c0 :: rest) then Except.error NumError.ErrSyntax
            else Except.ok n) = .error e := by
      intro bs hbs
      obtain ⟨e, he⟩ := parseUintLoop_dot bs.1 _ bs.2 0 false hbs
      exact ⟨e, by rw [he]⟩
    simp only [ParseUint]
    apply key
    by_cases h0 : c0 = '0'
    · have hrest : '.' ∈ rest := by
        rcases List.mem_cons.1 h with h | h
        · rw [h0] at h
          exact absurd h (by decide)
        · exact h
      simp only [h0, if_true]
      cases rest with
      | nil => exact hrest
      | cons c1 r1 =>
        cases r1 with
        | nil => exact hrest
        | cons c2 cs =>
          have hl : lower '.' = 46 := by decide
          have htail : lower c1 = 98 ∨ lower c1 = 111 ∨ lower c1 = 120 → '.' ∈ c2 :: cs := by
            intro hc
            rcases List.mem_cons.1 hrest with h | h
            · rw [← h, hl] at hc
              omega
            · exact h
          simp only
          split_ifs with h1 h2 h3
          · exact htail (Or.inl h1)
          · exact htail (Or.inr (Or.inl h2))
          · exact htail (Or.inr (Or.inr h3))
          · exact hrest
    · simp only [h0, if_false]
      exact h

/-- `ParseInt` returns an error for a text with a point. -/
theorem ParseInt_dot (s : String) (bitSize : Nat) (hbs : bitSize ≠ 1) (h : '.' ∈ s.data) :
    (ParseInt s bitSize).2 ≠ none := by
  cases hd : s.data with
  | nil => rw [hd] at h; simp at h
  | cons c rest =>
    rw [hd] at h
    have hbody : '.' ∈ (if c = '+' ∨ c = '-' then rest else c :: rest) := by
      split
      · rename_i hc
        rcases List.mem_cons.1 h with h | h
        · rw [← h] at hc
          exact absurd hc (by decide)
        · exact h
      · exact h
    obtain ⟨e, he⟩ := ParseUint_dot _ bitSize hbody
    simp only [ParseInt, hd, he]
    cases e with
    | ErrSyntax => simp
    | ErrRange =>
      set bs := (if bitSize = 0 then IntSize else bitSize) with hbsdef
      have hbs1 : bs ≠ 1 := by
        rw [hbsdef]
        split
        · simp [IntSize]
        · exact hbs
      have hcut : 2 ^ (bs - 1) < 2 ^ bs - 1 ∨ bs = 0 := by
        by_cases h0 : bs = 0
        · exact Or.inr h0
        · left
          have h2 : bs - 1 + 1 = bs := by omega
          have h3 : (2 : Nat) ^ bs = 2 ^ (bs - 1) * 2 := by
            conv_lhs => rw [← h2]
            rw [pow_succ]
          have h4 : 2 ≤ (2 : Nat) ^ (bs - 1) := by
            calc 2 = 2 ^ 1 := by norm_num
              _ ≤ 2 ^ (bs - 1) := Nat.pow_le_pow_right (by norm_num) (by omega)
          omega
      have hbs0 : bs ≠ 0 := by
        rw [hbsdef]
        split
        · simp [IntSize]
        · assumption
      have hcut2 : 2 ^ (bs - 1) < 2 ^ bs - 1 := hcut.resolve_right hbs0
      by_cases hneg : c = '-'
      · subst hneg
        simp [hcut2]
      · simp [hneg, le_of_lt hcut2]

/-- What `parseInt` returns for a text with a point: the result of
`floatToInt` on the float that `ParseFloat` reads, an error when it reads
none. -/
theorem parseInt_dot (s : String) (bitSize : Nat) (hbs : bitSize ≠ 1) (h : '.' ∈ s.data) :
    (∃ f, ParseFloat s 64 = (f, none) ∧ parseInt s bitSize = floatToInt f) ∨
      ((ParseFloat s 64).2 ≠ none ∧ (parseInt s bitSize).2 ≠ none) := by
  have hpi := ParseInt_dot s bitSize hbs h
  simp only [parseInt]
  cases hp : ParseInt s bitSize with
  | mk i e =>
    cases e with
    | none => rw [hp] at hpi; exact absurd rfl hpi
    | some err =>
      simp only
      cases hf : ParseFloat s 64 with
      | mk f e2 =>
        cases e2 with
        | none => exact Or.inl ⟨f, rfl, rfl⟩
        | some e3 => exact Or.inr ⟨by simp, by simp⟩

theorem parseUint_dot (s : String) (bitSize : Nat) (hbs : bitSize ≠ 1) (h : '.' ∈ s.data) :
    (∃ f, ParseFloat s 64 = (f, none) ∧ parseUint s bitSize = floatToUint f) ∨
      ((ParseFloat s 64).2 ≠ none ∧ (parseUint s bitSize).2 ≠ none) := by
  have hpi := ParseInt_dot s bitSize hbs h
  simp only [parseUint]
  cases hp : ParseInt s bitSize with
  | mk i e =>
    cases e with
    | none => rw [hp] at hpi; exact absurd rfl hpi
    | some err =>
      simp only
      cases hf : ParseFloat s 64 with
      | mk f e2 =>
        cases e2 with
        | none => exact Or.inl ⟨f, rfl, rfl⟩
        | some e3 => exact Or.inr ⟨by simp, by simp⟩

theorem decimalText_dot (neg : Bool) (ds : List Nat) (z : Nat) :
    '.' ∈ (decimalText neg ds z).data := by
  simp [decimalText]

theorem IntKind_bitSize_ne_one (k : IntKind) : k.bitSize ≠ 1 := by
  cases k <;> simp [IntKind.bitSize]

theorem UintKind_bitSize_ne_one (k : UintKind) : k.bitSize ≠ 1 := by
  cases k <;> simp [UintKind.bitSize]

/-- What the float fallback of `parseInt` and `parseUint` does with a text that
has a point.  (1) A decimal text whose fractional digits are all zero, with
value `n`: into a signed integer field it is accepted when `n` lies between
`minInt53` (`-2 ^ 51`) and `maxInt53` (`2 ^ 51 - 1`), and the field then holds
`n` converted to its width, which is `n` when `n` fits the field; into an
unsigned integer field it is accepted when it has no sign and `n` is at most
`maxUint53` (`2 ^ 52 - 1`), in the same way.  (2) Any text with a point is
accepted into a signed integer field exactly when the float that `ParseFloat`
reads from it, the nearest `float64`, is an integer between `minInt53` and
`maxInt53`. -/
theorem StrToValue_decimal_text (env : TypeEnv) (depth : Nat) (neg : Bool) (ds : List Nat)
    (z : Nat) (hds : ∀ d ∈ ds, d < 10) (hne : ds ≠ []) :
    (∀ (k : IntKind) (old : Int),
      minInt53 ≤ (if neg then -1 else 1) * (digitsValue ds : Int) →
      (if neg then -1 else 1) * (digitsValue ds : Int) ≤ maxInt53 →
      StrToValue env depth (decimalText neg ds z) (.int k old) =
          (.int k (wrapInt k.bits ((if neg then -1 else 1) * (digitsValue ds : Int))), none) ∧
        (-(2 : Int) ^ (k.bits - 1) ≤ (if neg then -1 else 1) * (digitsValue ds : Int) →
          (if neg then -1 else 1) * (digitsValue ds : Int) < 2 ^ (k.bits - 1) →
          wrapInt k.bits ((if neg then -1 else 1) * (digitsValue ds : Int)) =
            (if neg then -1 else 1) * (digitsValue ds : Int))) ∧
    (∀ (k : UintKind) (old : Nat), neg = false → digitsValue ds ≤ maxUint53 →
      StrToValue env depth (decimalText neg ds z) (.uint k old) =
          (.uint k (wrapUint k.bits (digitsValue ds)), none) ∧
        (digitsValue ds < 2 ^ k.bits → wrapUint k.bits (digitsValue ds) = digitsValue ds)) ∧
    (∀ (s : String) (k : IntKind) (old : Int), '.' ∈ s.data →
      ((StrToValue env depth s (.int k old)).2 = none ↔
        ∃ n : Int, minInt53 ≤ n ∧ n ≤ maxInt53 ∧
          (ParseFloat s 64 = (.fin n 0, none) ∨ (n = 0 ∧ ParseFloat s 64 = (.negZero, none))))) := by
  refine ⟨?_, ?_, ?_⟩
  · intro k old hlo hhi
    have h53 : digitsValue ds < 2 ^ 53 := by
      simp only [minInt53, maxInt53] at hlo hhi
      cases neg <;> simp at hlo hhi <;> omega
    have hpf := ParseFloat_zero_fraction neg ds z hds hne h53
    have hfi : floatToInt (if digitsValue ds = 0 then (if neg then .negZero else .fin 0 0)
        else .fin ((if neg then -1 else 1) * (digitsValue ds : Int)) 0) =
        ((if neg then -1 else 1) * (digitsValue ds : Int), none) := by
      by_cases hN : digitsValue ds = 0
      · rw [if_pos hN, hN]
        cases neg <;> simp <;> decide
      · rw [if_neg hN]
        exact floatToInt_fin _ hlo hhi
    have hpi : parseInt (decimalText neg ds z) k.bitSize =
        ((if neg then -1 else 1) * (digitsValue ds : Int), none) := by
      rcases parseInt_dot _ k.bitSize (IntKind_bitSize_ne_one k) (decimalText_dot neg ds z) with
        ⟨f, hf, hp⟩ | ⟨hf, _⟩
      · rw [hpf] at hf
        simp only [Prod.mk.injEq, and_true] at hf
        rw [hp, ← hf, hfi]
      · rw [hpf] at hf
        exact absurd rfl hf
    refine ⟨by simp only [StrToValue, setByKind, hpi], ?_⟩
    intro h1 h2
    cases k <;> simp only [IntKind.bits] at h1 h2 ⊢ <;> simp only [wrapInt] <;> omega
  · intro k old hneg hhi
    subst hneg
    have h53 : digitsValue ds < 2 ^ 53 := by
      simp only [maxUint53] at hhi
      omega
    have hpf := ParseFloat_zero_fraction false ds z hds hne h53
    have hfi : floatToUint (if digitsValue ds = 0 then .fin 0 0
        else .fin ((digitsValue ds : Nat) : Int) 0) = (digitsValue ds, none) := by
      by_cases hN : digitsValue ds = 0
      · rw [if_pos hN, hN]
        decide
      · rw [if_neg hN]
        exact floatToUint_ofNat _ (Nat.pos_of_ne_zero hN) hhi
    have hpi : parseUint (decimalText false ds z) k.bitSize = (digitsValue ds, none) := by
      rcases parseUint_dot _ k.bitSize (UintKind_bitSize_ne_one k) (decimalText_dot false ds z) with
        ⟨f, hf, hp⟩ | ⟨hf, _⟩
      · rw [hpf] at hf
        simp only [Prod.mk.injEq, and_true] at hf
        rw [hp, ← hf]
        simpa using hfi
      · rw [hpf] at hf
        exact absurd rfl hf
    refine ⟨by simp only [StrToValue, setByKind, hpi], ?_⟩
    intro h1
    simp only [wrapUint]
    exact Nat.mod_eq_of_lt h1
  · intro s k old hdot
    have hst : (StrToValue env depth s (.int k old)).2 = (parseInt s k.bitSize).2 := by
      simp only [StrToValue, setByKind]
      split <;> rename_i hp <;> simp [hp]
    rw [hst]
    rcases parseInt_dot s k.bitSize (IntKind_bitSize_ne_one k) hdot with ⟨f, hf, hp⟩ | ⟨hf, hp⟩
    · rw [hp]
      constructor
      · intro hok
        obtain ⟨h1, h2, h3⟩ := floatToInt_ok f hok
        refine ⟨(floatToInt f).1, h1, h2, ?_⟩
        rcases h3 with h3 | ⟨h3, h4⟩
        · exact Or.inl (by rw [hf, ← h3])
        · exact Or.inr ⟨h3, by rw [hf, h4]⟩
      · rintro ⟨n, h1, h2, h3 | ⟨h3, h4⟩⟩
        · rw [hf] at h3
          simp only [Prod.mk.injEq, and_true] at h3
          rw [h3, floatToInt_fin n h1 h2]
        · rw [hf] at h4
          simp only [Prod.mk.injEq, and_true] at h4
          rw [h4, floatToInt_negZero]
    · constructor
      · intro hok
        exact absurd hok hp
      · rintro ⟨n, _, _, h3 | ⟨_, h4⟩⟩
        · rw [h3] at hf
          exact absurd rfl hf
        · rw [h4] at hf
          exact absurd rfl hf

/-- Texts that `strconv` reads with underscores between digits or with a
hexadecimal mantissa: `ParseFloat` accepts "1_0.0", "0x1.8p1" and "0x1p4", and
an `int` field takes 10 from "1_0.0" and 3 from "0x1.8p1".  `ParseInt` stops at
the first digit that leaves the range of the bit size: "300x" at 8 bits gives
the range error. -/
theorem strconv_underscore_and_hex :
    ParseFloat "1_0.0" 64 = (.fin 10 0, none) ∧
    ParseFloat "0x1.8p1" 64 = (.fin 3 0, none) ∧
    ParseFloat "0x1p4" 64 = (.fin 16 0, none) ∧
    (ParseFloat "0x1p" 64).2 = some .ErrSyntax ∧
    (ParseFloat "1__0" 64).2 = some .ErrSyntax ∧
    StrToValue testEnv 0 "1_0.0" (.int .Int 7) = (.int .Int 10, none) ∧
    StrToValue testEnv 0 "0x1.8p1" (.int .Int 7) = (.int .Int 3, none) ∧
    ParseInt "300x" 8 = (127, some .ErrRange) ∧
    ParseInt "12x" 8 = (0, some .ErrSyntax) := by
  refine ⟨?_, ?_, ?_, ?_, ?_, ?_, ?_, ?_, ?_⟩ <;> rfl

/-- C11, as stated, fails at "2251799813685248.0": the text has zero
fractional digits and its value, `2 ^ 51`, fits an `int64` field, and yet
`StrToValue` returns the error of `floatToInt` and stores nothing, because
`maxInt53` is `2 ^ 51 - 1`; so does "9007199254740993.0" (`2 ^ 53 + 1`), which
no `float64` holds.  The other half of the claim fails as well: the text
"10.0000000000000001" has a fractional part that is not zero, and `StrToValue`
accepts it and stores 10, the nearest `float64`.  "10.5" is rejected. -/
theorem StrToValue_decimal_text_fails :
    StrToValue testEnv 0 "2251799813685248.0" (.int .Int64 7) =
      (.int .Int64 7, some (.floatToInt (.fin 2251799813685248 0))) ∧
    StrToValue testEnv 0 "9007199254740993.0" (.int .Int64 7) =
      (.int .Int64 7, some (.floatToInt (.fin 9007199254740992 0))) ∧
    StrToValue testEnv 0 "10.0000000000000001" (.int .Int 7) = (.int .Int 10, none) ∧
    StrToValue testEnv 0 "10.0000000000000001" (.uint .Uint 7) = (.uint .Uint 10, none) ∧
    StrToValue testEnv 0 "10.5" (.int .Int 7) = (.int .Int 7, some (.floatToInt (.fin 21 1))) ∧
    StrToValue testEnv 0 "10.5" (.uint .Uint 7) =
      (.uint .Uint 7, some (.floatToUint (.fin 21 1))) := by
  refine ⟨?_, ?_, ?_, ?_, ?_, ?_⟩ <;> rfl

theorem StrToValue_decimal_text_witness :
    (∀ (k : IntKind) (old : Int),
      minInt53 ≤ (if false then -1 else 1) * (digitsValue [1, 0] : Int) →
      (if false then -1 else 1) * (digitsValue [1, 0] : Int) ≤ maxInt53 →
      StrToValue (fun _ => []) 0 (decimalText false [1, 0] 3) (.int k old) =
          (.int k (wrapInt k.bits ((if false then -1 else 1) * (digitsValue [1, 0] : Int))),
            none) ∧
        (-(2 : Int) ^ (k.bits - 1) ≤ (if false then -1 else 1) * (digitsValue [1, 0] : Int) →
          (if false then -1 else 1) * (digitsValue [1, 0] : Int) < 2 ^ (k.bits - 1) →
          wrapInt k.bits ((if false then -1 else 1) * (digitsValue [1, 0] : Int)) =
            (if false then -1 else 1) * (digitsValue [1, 0] : Int))) ∧
    (∀ (k : UintKind) (old : Nat), false = false → digitsValue [1, 0] ≤ maxUint53 →
      StrToValue (fun _ => []) 0 (decimalText false [1, 0] 3) (.uint k old) =
          (.uint k (wrapUint k.bits (digitsValue [1, 0])), none) ∧
        (digitsValue [1, 0] < 2 ^ k.bits →
          wrapUint k.bits (digitsValue [1, 0]) = digitsValue [1, 0])) ∧
    (∀ (s : String) (k : IntKind) (old : Int), '.' ∈ s.data →
      ((StrToValue (fun _ => []) 0 s (.int k old)).2 = none ↔
        ∃ n : Int, minInt53 ≤ n ∧ n ≤ maxInt53 ∧
          (ParseFloat s 64 = (.fin n 0, none) ∨
            (n = 0 ∧ ParseFloat s 64 = (.negZero, none))))) :=
  StrToValue_decimal_text (fun _ => []) 0 false [1, 0] 3 (by decide) (by decide)

theorem decimalText_example : decimalText false [1, 0] 3 = "10.000" ∧ digitsValue [1, 0] = 10 := by
  decide

/-! ## `SetDefault` a second time -/

/-- C37: `SetDefault` on a zero `Settings`, a record with an embedded struct of
an unexported type that declares a default, returns `Settings{limits{Max: 5}}`,
which is also what `AllocDefault` returns; `SetDefault` on that result does not
return, whatever the bound on the recursion: the record is no longer zero, the
loop reads the embedded struct through its unexported field and panics on
`v.Addr().Interface()`. -/
theorem SetDefault_twice_panics :
    SetDefault hiddenEnv defaultMapper 10 3 3 1 (zeroValue hiddenEnv 3 (.named "Settings")) =
      .ok settingsDefault ∧
    AllocDefault hiddenEnv defaultMapper 10 3 3 (.named "Settings") = .ok settingsDefault ∧
    (∀ fuel : Nat, SetDefault hiddenEnv defaultMapper 10 3 3 (fuel + 1) settingsDefault =
      .panic) ∧
    ∀ (fuel : Nat) (r : Value),
      SetDefault hiddenEnv defaultMapper 10 3 3 fuel settingsDefault ≠ .ok r := by
  refine ⟨rfl, rfl, fun fuel => rfl, ?_⟩
  intro fuel r
  cases fuel with
  | zero => simp [SetDefault]
  | succ fuel =>
    have h : SetDefault hiddenEnv defaultMapper 10 3 3 (fuel + 1) settingsDefault = .panic := rfl
    rw [h]
    simp

end Reflectx
